import Mathlib

/-!
Verification of the abstract AVL tree template (avl_tree.h, version 1.6).

The template `base_avl_tree<abstractor, max_depth, bset>` is parametric in the
node storage.  We embed it shallowly by instantiating the abstractor with a
total in-memory store: a handle is a natural number, the null handle is 0, and
the store maps every handle to its three engine-owned fields (less link,
greater link, balance factor).  Keys are immutable and given by a fixed
function from handles to integers; `compare_key_node` and `compare_node_node`
are the sign of integer comparison.  With a total in-memory store the latched
`read_error` flag is constantly false, which is exactly the hypothesis under
which all the verified properties are stated.  Unbounded source loops become
fuel-indexed recursions returning `Option`; `none` means the fuel ran out,
which never happens at the fuel bounds used in the theorems.  Bitsets
(`bset branch`, `bset rem`) are local variables of the algorithms and are
modelled as functions from indices to booleans.
-/

namespace AvlVerify

/-- A handle names a node; the null handle of the abstractor is `0`. -/
abbrev Handle := Nat

/-- The three engine-owned fields of a node (avl_tree.h data model):
less link, greater link, balance factor. -/
structure NodeF where
  lt : Handle
  gt : Handle
  bf : Int
  deriving DecidableEq, Repr

/-- The abstractor storage: every handle has its trio of engine-owned fields. -/
abbrev Store := Handle → NodeF

/-- `abstractor::null()` for the in-memory instantiation. -/
def null : Handle := 0

/-- The latched read-error flag of the abstractor.  The in-memory store is
total, so reads never fail. -/
def read_error (_ : Store) : Bool := false

/-- `set_less` (source line 523). -/
def set_lt (s : Store) (h c : Handle) : Store :=
  fun q => if q = h then { s h with lt := c } else s q

/-- `set_greater` (source line 527). -/
def set_gt (s : Store) (h c : Handle) : Store :=
  fun q => if q = h then { s h with gt := c } else s q

/-- `set_balance_factor` (source line 530). -/
def set_bf (s : Store) (h : Handle) (b : Int) : Store :=
  fun q => if q = h then { s h with bf := b } else s q

/-- `get_less` (source line 521); the paging hint argument is irrelevant
to the in-memory store. -/
def get_lt (s : Store) (h : Handle) : Handle := (s h).lt

/-- `get_greater` (source line 525). -/
def get_gt (s : Store) (h : Handle) : Handle := (s h).gt

/-- `get_balance_factor` (source line 529). -/
def get_bf (s : Store) (h : Handle) : Int := (s h).bf

/-- Sign-valued integer comparison, the shape the abstractor contract
requires of `compare_key_node` / `compare_node_node`. -/
def cmpInt (a b : Int) : Int :=
  if a < b then -1 else if b < a then 1 else 0

/-- `compare_key_node` (source line 532) for the in-memory abstractor. -/
def cmp_k_n (key : Handle → Int) (k : Int) (h : Handle) : Int :=
  cmpInt k (key h)

/-- `compare_node_node` (source line 533) for the in-memory abstractor. -/
def cmp_n_n (key : Handle → Int) (h1 h2 : Handle) : Int :=
  cmpInt (key h1) (key h2)

/-- The state a `base_avl_tree` owns: the root handle, plus the abstractor
storage it acts through. -/
structure AvlSt where
  root : Handle
  s : Store

/-! ## Search types (source lines 42-54) -/

def EQUAL : Nat := 1
def LESS : Nat := 2
def GREATER : Nat := 4
def LESS_EQUAL : Nat := 3
def GREATER_EQUAL : Nat := 5

/-! ## search (source lines 792-835) -/

/-- The assignment to `target_cmp` in `search` (source lines 803-808). -/
def targetCmp (st : Nat) : Int :=
  if st &&& LESS ≠ 0 then 1
  else if st &&& GREATER ≠ 0 then -1
  else 0

/-- The `while (h != null())` loop of `search` (source lines 810-832).
The test `!((cmp ^ target_cmp) & MASK_HIGH_BIT)` of line 823 means that
`cmp` and `target_cmp` have equal sign bits, i.e. are both negative or
both nonnegative. -/
def searchLoop (key : Handle → Int) (k : Int) (st : Nat) (tc : Int)
    (s : Store) : Handle → Handle → Nat → Option Handle
  | _, _, 0 => none
  | h, match_h, fuel + 1 =>
    if h = null then some match_h
    else
      let cmp := cmp_k_n key k h
      if cmp = 0 then
        if st &&& EQUAL ≠ 0 then
          some h
        else
          let cmp := -tc
          searchLoop key k st tc s
            (if cmp < 0 then get_lt s h else get_gt s h) match_h fuel
      else
        let match_h :=
          if tc ≠ 0 ∧ ((cmp < 0) = (tc < 0)) then h else match_h
        searchLoop key k st tc s
          (if cmp < 0 then get_lt s h else get_gt s h) match_h fuel

/-- `base_avl_tree::search` (source lines 792-835). -/
def search (key : Handle → Int) (t : AvlSt) (k : Int) (st : Nat)
    (fuel : Nat) : Option Handle :=
  searchLoop key k st (targetCmp st) t.s t.root null fuel

/-- The descent loop of `search_least` (source lines 841-852). -/
def searchLeastLoop (s : Store) : Handle → Handle → Nat → Option Handle
  | _, _, 0 => none
  | h, parent, fuel + 1 =>
    if h = null then some parent
    else searchLeastLoop s (get_lt s h) h fuel

/-- `base_avl_tree::search_least` (source lines 837-855). -/
def search_least (t : AvlSt) (fuel : Nat) : Option Handle :=
  searchLeastLoop t.s t.root null fuel

/-- The descent loop of `search_greatest` (source lines 861-872). -/
def searchGreatestLoop (s : Store) : Handle → Handle → Nat → Option Handle
  | _, _, 0 => none
  | h, parent, fuel + 1 =>
    if h = null then some parent
    else searchGreatestLoop s (get_gt s h) h fuel

/-- `base_avl_tree::search_greatest` (source lines 857-875). -/
def search_greatest (t : AvlSt) (fuel : Nat) : Option Handle :=
  searchGreatestLoop t.s t.root null fuel

/-! ## Abstract trees and the representation relation

The universal claims quantify over trees satisfying the BST and AVL
invariants.  We phrase them through an inductive binary tree recording, for
each node, its handle and its stored balance factor, related to a concrete
store by the representation relation `ReprT`. -/

/-- Abstract binary tree with the handle and stored balance factor at
each node. -/
inductive Tree where
  | nil : Tree
  | node (l : Tree) (p : Handle) (b : Int) (r : Tree) : Tree
  deriving DecidableEq, Repr

namespace Tree

/-- In-order handle sequence of an abstract tree. -/
def handles : Tree → List Handle
  | nil => []
  | node l p _ r => l.handles ++ p :: r.handles

/-- Number of nodes. -/
def size : Tree → Nat
  | nil => 0
  | node l _ _ r => l.size + r.size + 1

/-- Height (leaves have height 0, a single node height 1). -/
def height : Tree → Nat
  | nil => 0
  | node l _ _ r => max l.height r.height + 1

/-- The AVL invariant: the stored balance factor of every node equals the
height of its greater subtree minus the height of its less subtree, and
has absolute value at most one. -/
def avl : Tree → Prop
  | nil => True
  | node l _ b r =>
      avl l ∧ avl r ∧ b = (r.height : Int) - (l.height : Int) ∧ b.natAbs ≤ 1

/-- The BST invariant with respect to a key assignment: every handle in a
less subtree has key below the node, every handle in a greater subtree has
key above it. -/
def bst (key : Handle → Int) : Tree → Prop
  | nil => True
  | node l p _ r =>
      (∀ q ∈ l.handles, key q < key p) ∧ (∀ q ∈ r.handles, key p < key q) ∧
        bst key l ∧ bst key r

end Tree

/-- The representation relation: handle `p` in store `s` is the root of a
subtree laid out exactly as the abstract tree `t` (null handles are 0, node
handles are nonzero, links and stored balance factors agree). -/
def ReprT (s : Store) : Handle → Tree → Prop
  | p, .nil => p = null
  | p, .node l q b r =>
      p = q ∧ q ≠ null ∧ (s q).bf = b ∧
        ReprT s (s q).lt l ∧ ReprT s (s q).gt r

instance ReprT.dec (s : Store) : ∀ (p : Handle) (t : Tree),
    Decidable (ReprT s p t)
  | p, .nil => by unfold ReprT; infer_instance
  | p, .node l q b r =>
    have : Decidable (ReprT s (s q).lt l) := ReprT.dec s _ l
    have : Decidable (ReprT s (s q).gt r) := ReprT.dec s _ r
    by unfold ReprT; infer_instance

instance Tree.avlDec : ∀ t : Tree, Decidable t.avl
  | .nil => by unfold Tree.avl; infer_instance
  | .node l _ b r =>
    have : Decidable l.avl := Tree.avlDec l
    have : Decidable r.avl := Tree.avlDec r
    by unfold Tree.avl; infer_instance

instance Tree.bstDec (key : Handle → Int) : ∀ t : Tree, Decidable (t.bst key)
  | .nil => by unfold Tree.bst; infer_instance
  | .node l _ _ r =>
    have : Decidable (l.bst key) := Tree.bstDec key l
    have : Decidable (r.bst key) := Tree.bstDec key r
    by unfold Tree.bst; infer_instance

/-- A store-level tree state represents an abstract tree. -/
def Represents (key : Handle → Int) (t : AvlSt) (a : Tree) : Prop :=
  ReprT t.s t.root a ∧ a.handles.Nodup ∧ a.bst key ∧ a.avl

/-- Pointwise update of a bitset local variable. -/
def upd (f : Nat → Bool) (i : Nat) (b : Bool) : Nat → Bool :=
  fun j => if j = i then b else f j

/-- Pointwise update of a handle-array local variable. -/
def updH (f : Nat → Handle) (i : Nat) (h : Handle) : Nat → Handle :=
  fun j => if j = i then h else f j

/-! ## balance (source lines 542-666)

Straight-line code, so no fuel is needed.  Every read is performed on the
store as updated by the preceding writes, exactly as the source sequences
them.  The paths returning null on `read_error` are kept but are dead for
the in-memory abstractor. -/

/-- `base_avl_tree::balance` (source lines 542-666): repair a subtree whose
root balance factor has reached plus or minus 2, returning the handle of
the new subtree root together with the updated store. -/
def balance (s : Store) (bal_h : Handle) : Handle × Store :=
  if get_bf s bal_h > 0 then
    -- "Greater than" subtree is deeper (lines 550-606).
    let deep_h := get_gt s bal_h
    if read_error s then (null, s)
    else if get_bf s deep_h < 0 then
      -- Double rotation (lines 558-589).
      let old_h := bal_h
      let bal_h := get_lt s deep_h
      if read_error s then (null, s)
      else
        let s := set_gt s old_h (get_lt s bal_h)
        let s := set_lt s deep_h (get_gt s bal_h)
        let s := set_lt s bal_h old_h
        let s := set_gt s bal_h deep_h
        let bf := get_bf s bal_h
        if bf ≠ 0 then
          let s :=
            if bf > 0 then set_bf (set_bf s old_h (-1)) deep_h 0
            else set_bf (set_bf s deep_h 1) old_h 0
          (bal_h, set_bf s bal_h 0)
        else
          (bal_h, set_bf (set_bf s old_h 0) deep_h 0)
    else
      -- Single rotation (lines 590-605).
      let s := set_gt s bal_h (get_lt s deep_h)
      let s := set_lt s deep_h bal_h
      let s :=
        if get_bf s deep_h = 0 then set_bf (set_bf s deep_h (-1)) bal_h 1
        else set_bf (set_bf s deep_h 0) bal_h 0
      (deep_h, s)
  else
    -- "Less than" subtree is deeper (lines 607-663).
    let deep_h := get_lt s bal_h
    if read_error s then (null, s)
    else if get_bf s deep_h > 0 then
      -- Double rotation (lines 615-646).
      let old_h := bal_h
      let bal_h := get_gt s deep_h
      if read_error s then (null, s)
      else
        let s := set_lt s old_h (get_gt s bal_h)
        let s := set_gt s deep_h (get_lt s bal_h)
        let s := set_gt s bal_h old_h
        let s := set_lt s bal_h deep_h
        let bf := get_bf s bal_h
        if bf ≠ 0 then
          let s :=
            if bf < 0 then set_bf (set_bf s old_h 1) deep_h 0
            else set_bf (set_bf s deep_h (-1)) old_h 0
          (bal_h, set_bf s bal_h 0)
        else
          (bal_h, set_bf (set_bf s old_h 0) deep_h 0)
    else
      -- Single rotation (lines 647-662).
      let s := set_lt s bal_h (get_gt s deep_h)
      let s := set_gt s deep_h bal_h
      let s :=
        if get_bf s deep_h = 0 then set_bf (set_bf s deep_h 1) bal_h (-1)
        else set_bf (set_bf s deep_h 0) bal_h 0
      (deep_h, s)

/-! ## insert (source lines 671-790) -/

/-- The data flowing out of the descent do-while of `insert`
(source lines 702-720) into the attachment and retrace phases. -/
structure InsDesc where
  parent : Handle
  cmp : Int
  branch : Nat → Bool
  depth : Nat
  unbal : Handle
  parent_unbal : Handle
  unbal_depth : Nat

/-- The descent do-while of `insert` (source lines 702-720).  `Sum.inl hh`
is the early `return hh` on a duplicate key (line 713); `Sum.inr` carries
the loop state at normal exit. -/
def insertDescLoop (key : Handle → Int) (s : Store) (h : Handle) :
    Handle → Handle → Handle → Handle → Nat → Nat → (Nat → Bool) → Nat →
    Option (Handle ⊕ InsDesc)
  | _, _, _, _, _, _, _, 0 => none
  | hh, parent, unbal, parent_unbal, unbal_depth, depth, branch, fuel + 1 =>
    let (unbal, parent_unbal, unbal_depth) :=
      if get_bf s hh ≠ 0 then (hh, parent, depth)
      else (unbal, parent_unbal, unbal_depth)
    let cmp := cmp_n_n key h hh
    if cmp = 0 then
      -- Duplicate key (lines 711-713).
      some (.inl hh)
    else
      let parent := hh
      let hh := if cmp < 0 then get_lt s hh else get_gt s hh
      if read_error s then some (.inl null)
      else
        let branch := upd branch depth (cmp > 0)
        let depth := depth + 1
        if hh = null then
          some (.inr ⟨parent, cmp, branch, depth, unbal, parent_unbal, unbal_depth⟩)
        else
          insertDescLoop key s h hh parent unbal parent_unbal unbal_depth
            depth branch fuel

/-- The balance-factor update while-loop of `insert` (source lines
751-767): walk from `hh` toward the freshly attached leaf `h`, setting the
balance factor of every node on the way to plus or minus one according to
the recorded branch. -/
def insertBfLoop (h : Handle) (branch : Nat → Bool) :
    Store → Handle → Nat → Nat → Option Store
  | _, _, _, 0 => none
  | s, hh, depth, fuel + 1 =>
    if h = hh then some s
    else
      let cmp : Int := if branch depth then 1 else -1
      let depth := depth + 1
      if cmp < 0 then
        let s := set_bf s hh (-1)
        insertBfLoop h branch s (get_lt s hh) depth fuel
      else
        let s := set_bf s hh 1
        insertBfLoop h branch s (get_gt s hh) depth fuel

/-- `base_avl_tree::insert` (source lines 671-790). -/
def insert (key : Handle → Int) (t : AvlSt) (h : Handle) (fuel : Nat) :
    Option (Handle × AvlSt) :=
  -- Lines 674-676: the new node starts as a leaf with balance factor 0.
  let s := set_bf (set_gt (set_lt t.s h null) h null) h 0
  if t.root = null then
    -- Lines 678-679.
    some (h, ⟨h, s⟩)
  else
    match insertDescLoop key s h t.root null null null 0 0
        (fun _ => false) fuel with
    | none => none
    | some (.inl hh) => some (hh, ⟨t.root, s⟩)
    | some (.inr d) =>
      -- Attach the new node as a leaf (lines 722-726).
      let s := if d.cmp < 0 then set_lt s d.parent h else set_gt s d.parent h
      -- Lines 728-749.
      let depth := d.unbal_depth
      if d.unbal = null then
        let hh := t.root
        match (if hh = null then some s
               else insertBfLoop h d.branch s hh depth fuel) with
        | none => none
        | some s => some (h, ⟨t.root, s⟩)
      else
        let cmp : Int := if d.branch depth then 1 else -1
        let depth := depth + 1
        let unbal_bf := get_bf s d.unbal + (if cmp < 0 then -1 else 1)
        let hh := if cmp < 0 then get_lt s d.unbal else get_gt s d.unbal
        if read_error s then some (null, ⟨t.root, s⟩)
        else if unbal_bf ≠ -2 ∧ unbal_bf ≠ 2 then
          -- No rebalancing necessary (lines 743-748).
          let s := set_bf s d.unbal unbal_bf
          match (if hh = null then some s
                 else insertBfLoop h d.branch s hh depth fuel) with
          | none => none
          | some s => some (h, ⟨t.root, s⟩)
        else
          match (if hh = null then some s
                 else insertBfLoop h d.branch s hh depth fuel) with
          | none => none
          | some s =>
            -- Rebalance and splice back (lines 769-785).
            let (u, s) := balance s d.unbal
            if read_error s then some (null, ⟨t.root, s⟩)
            else if d.parent_unbal = null then
              some (h, ⟨u, s⟩)
            else
              let cmp : Int := if d.branch (d.unbal_depth - 1) then 1 else -1
              let s :=
                if cmp < 0 then set_lt s d.parent_unbal u
                else set_gt s d.parent_unbal u
              some (h, ⟨t.root, s⟩)

/-! ## remove (source lines 877-1075) -/

/-- The data flowing out of the key-search loop of `remove`
(source lines 894-909). -/
structure RmFind where
  h : Handle
  parent : Handle
  depth : Nat
  branch : Nat → Bool
  cmpss : Int

/-- The key-search loop of `remove` (source lines 894-909).  `Sum.inl ()`
is the early `return null()` when no node has the given key (line 898). -/
def removeFindLoop (key : Handle → Int) (s : Store) (k : Int) :
    Handle → Handle → Nat → (Nat → Bool) → Int → Nat →
    Option (Unit ⊕ RmFind)
  | _, _, _, _, _, 0 => none
  | h, parent, depth, branch, cmpss, fuel + 1 =>
    if h = null then some (.inl ())
    else
      let cmp := cmp_k_n key k h
      if cmp = 0 then some (.inr ⟨h, parent, depth, branch, cmpss⟩)
      else
        let parent := h
        let h := if cmp < 0 then get_lt s h else get_gt s h
        if read_error s then some (.inl ())
        else
          removeFindLoop key s k h parent (depth + 1)
            (upd branch depth (cmp > 0)) cmp fuel

/-- The replacement-search do-while of `remove` (source lines 940-958):
descend from the child of the victim to the extreme node of that subtree,
recording the path.  Returns the final parent, node, branch bitset and
depth. -/
def removeRepLoop (s : Store) (cmp : Int) :
    Handle → Handle → Nat → (Nat → Bool) → Nat →
    Option (Handle × Handle × (Nat → Bool) × Nat)
  | _, _, _, _, 0 => none
  | h, child, depth, branch, fuel + 1 =>
    let parent := h
    let h := child
    let child2 := if cmp < 0 then get_lt s h else get_gt s h
    let branch2 := if cmp < 0 then upd branch depth false
      else upd branch depth true
    let depth := depth + 1
    if child2 = null then some (parent, h, branch2, depth)
    else removeRepLoop s cmp h child2 depth branch2 fuel

/-- The downward pointer-reversal loop of `remove` (source lines
1007-1026): walk from the root to the `path` node turning each
parent-to-child link into a child-to-parent link.  Returns the rewritten
store, the handle of the parent of `path` in the reversed list, and the
depth of `path`. -/
def removeRethreadLoop (path : Handle) :
    Store → Handle → Handle → Nat → (Nat → Bool) → Nat →
    Option (Store × Handle × Nat)
  | _, _, _, _, _, 0 => none
  | s, h, parent, depth, branch, fuel + 1 =>
    if h = path then some (s, parent, depth)
    else if branch depth then
      let child := get_gt s h
      let s := set_gt s h parent
      removeRethreadLoop path s child h (depth + 1) branch fuel
    else
      let child := get_lt s h
      let s := set_lt s h parent
      removeRethreadLoop path s child h (depth + 1) branch fuel

/-- The climbing loop of `remove` (source lines 1030-1070): walk back to
the root along the reversed links, restoring each link and rebalancing
while the subtree height keeps shrinking.  Returns the final store and the
handle that becomes the new root. -/
def removeClimbStep (s : Store) (h : Handle) (cmp : Int) (reduced : Bool) :
    Store × Handle × Bool :=
  if reduced then
    let bf := get_bf s h + (if cmp < 0 then 1 else -1)
    if bf = -2 ∨ bf = 2 then
      ((balance s h).2, (balance s h).1,
        get_bf (balance s h).2 (balance s h).1 == 0)
    else (set_bf s h bf, h, bf == 0)
  else (s, h, reduced)

def removeClimbLoop (branch : Nat → Bool) :
    Store → Handle → Handle → Int → Bool → Nat → Nat →
    Option (Store × Handle)
  | _, _, _, _, _, _, 0 => none
  | s, h, parent, cmp, reduced, depth, fuel + 1 =>
    let s1 := (removeClimbStep s h cmp reduced).1
    let h1 := (removeClimbStep s h cmp reduced).2.1
    let reduced1 := (removeClimbStep s h cmp reduced).2.2
    if parent = null then some (s1, h1)
    else
      let child := h1
      let h := parent
      let depth := depth - 1
      let cmp : Int := if branch depth then 1 else -1
      if cmp < 0 then
        removeClimbLoop branch (set_lt s1 h child) h (get_lt s1 h) cmp
          reduced1 depth fuel
      else
        removeClimbLoop branch (set_gt s1 h child) h (get_gt s1 h) cmp
          reduced1 depth fuel

/-- The tail of `remove` after the replacement node has been determined
(source lines 971-1074): unlink the reduced subtree, poke the replacement
into the place of the victim, re-thread the path, climb and rebalance.
`h` is the replacement (or the victim itself when it has no children),
`parent` its former parent, `child` the orphaned opposite child. -/
def removeTail (rm parent_rm : Handle) (rm_depth : Nat)
    (branch : Nat → Bool) (s : Store) (root h parent child : Handle)
    (cmp_ss : Int) (fuel : Nat) : Option (Handle × AvlSt) :=
  -- Lines 971-977.
  let root1 := if parent = null then child else root
  let s1 :=
    if parent = null then s
    else if cmp_ss < 0 then set_lt s parent child
    else set_gt s parent child
  -- Lines 979-983.
  let path := if parent = rm then h else parent
  -- Lines 985-1001: poke in the replacement.
  let s2 :=
    if h ≠ rm then
      let sa := set_lt s1 h (get_lt s1 rm)
      let sb := set_gt sa h (get_gt sa rm)
      let sc := set_bf sb h (get_bf sb rm)
      if parent_rm = null then sc
      else if branch (rm_depth - 1) then set_gt sc parent_rm h
      else set_lt sc parent_rm h
    else s1
  let root2 :=
    if h ≠ rm then (if parent_rm = null then h else root1) else root1
  if path = null then some (rm, ⟨root2, s2⟩)
  else
    match removeRethreadLoop path s2 root2 null 0 branch fuel with
    | none => none
    | some (s3, parent3, depth3) =>
      match removeClimbLoop branch s3 path parent3 cmp_ss true depth3
          fuel with
      | none => none
      | some (s4, h4) => some (rm, ⟨h4, s4⟩)

/-- `base_avl_tree::remove` (source lines 877-1075). -/
def remove (key : Handle → Int) (t : AvlSt) (k : Int) (fuel : Nat) :
    Option (Handle × AvlSt) :=
  match removeFindLoop key t.s k t.root null 0 (fun _ => false) 0 fuel with
  | none => none
  | some (.inl ()) => some (null, t)
  | some (.inr f) =>
    let s := t.s
    let rm := f.h
    let parent_rm := f.parent
    let rm_depth := f.depth
    -- Lines 921-935: pick the deeper side for the replacement.
    let child := if get_bf s f.h < 0 then get_lt s f.h else get_gt s f.h
    let branch := if get_bf s f.h < 0 then upd f.branch f.depth false
      else upd f.branch f.depth true
    let cmp : Int := if get_bf s f.h < 0 then -1 else 1
    if read_error s then some (null, t)
    else
      let depth := f.depth + 1
      if child ≠ null then
        -- Lines 937-968.
        match removeRepLoop s (-cmp) f.h child depth branch fuel with
        | none => none
        | some (parent, h, branch2, _) =>
          let cmp_ss := if parent = rm then cmp else -cmp
          let child2 := if -cmp > 0 then get_lt s h else get_gt s h
          removeTail rm parent_rm rm_depth branch2 s t.root h parent
            child2 cmp_ss fuel
      else
        removeTail rm parent_rm rm_depth branch s t.root rm f.parent null
          f.cmpss fuel

/-! ## subst (source lines 1077-1120) -/

/-- The search loop of `subst` (source lines 1086-1100).  `some none` is
the early `return null()` when no node shares the key of the new node. -/
def substLoop (key : Handle → Int) (s : Store) (new_node : Handle) :
    Handle → Handle → Int → Nat → Option (Option (Handle × Handle × Int))
  | _, _, _, 0 => none
  | h, parent, last_cmp, fuel + 1 =>
    if h = null then some none
    else
      let cmp := cmp_n_n key new_node h
      if cmp = 0 then some (some (h, parent, last_cmp))
      else
        let last_cmp := cmp
        let parent := h
        let h := if cmp < 0 then get_lt s h else get_gt s h
        if read_error s then some none
        else substLoop key s new_node h parent last_cmp fuel

/-- `base_avl_tree::subst` (source lines 1077-1120). -/
def subst (key : Handle → Int) (t : AvlSt) (new_node : Handle)
    (fuel : Nat) : Option (Handle × AvlSt) :=
  match substLoop key t.s new_node t.root null 0 fuel with
  | none => none
  | some none => some (null, t)
  | some (some (h, parent, last_cmp)) =>
    -- Lines 1102-1117.
    let s := t.s
    let s := set_lt s new_node (get_lt s h)
    let s := set_gt s new_node (get_gt s h)
    let s := set_bf s new_node (get_bf s h)
    if parent = null then some (h, ⟨new_node, s⟩)
    else
      let s :=
        if last_cmp < 0 then set_lt s parent new_node
        else set_gt s parent new_node
      some (h, ⟨t.root, s⟩)

/-! ## build (source lines 357-504)

The forward iterator over the presorted input sequence is modelled as a
list of handles; dereferencing an exhausted iterator is outside the
consumer contract and yields `none`, like fuel exhaustion. -/

/-- The splitting loop of `build` (source lines 406-413): descend toward
the less subtree while more than two nodes remain, recording the parity of
each split.  The loop terminates because the count is halved each
iteration, so no fuel is needed. -/
def buildSplitLoop (num_sub depth : Nat) (branch rem : Nat → Bool) :
    Nat × Nat × (Nat → Bool) × (Nat → Bool) :=
  if num_sub > 2 then
    let num_sub := num_sub - 1
    let rem := upd rem depth (num_sub % 2 = 1)
    let branch := upd branch depth false
    buildSplitLoop (num_sub / 2) (depth + 1) branch rem
  else (num_sub, depth, branch, rem)
  termination_by num_sub
  decreasing_by omega

/-- The unwinding loop of `build` (source lines 450-475): pop completed
subtrees, attaching each completed greater subtree to the parent popped
from the less-parent stack and computing its balance factor from the
power-of-two test on the reconstituted node count.  The loop
terminates because the depth decreases each iteration, so no fuel is
needed; `none` is the abort on a read error, which never fires for the
in-memory store. -/
def buildUnwindLoop (rem branch : Nat → Bool) (s : Store) (depth : Nat)
    (h less_parent : Handle) (num_sub : Nat) :
    Option (Store × Nat × Handle × Handle × Nat) :=
  if depth = 0 then some (s, depth, h, less_parent, num_sub)
  else
    let depth := depth - 1
    if ¬ branch depth then
      -- Completed a less subtree (lines 453-455).
      some (s, depth, h, less_parent, num_sub)
    else
      let child := h
      let h := less_parent
      let less_parent := get_gt s h
      if read_error s then none
      else
        let s := set_gt s h child
        let num_sub := 2 * num_sub
        let num_sub := num_sub + (if rem depth then 0 else 1)
        let s :=
          if num_sub &&& (num_sub - 1) ≠ 0 then set_bf s h 0
          else set_bf s h 1
        buildUnwindLoop rem branch s depth h less_parent num_sub
  termination_by depth
  decreasing_by omega

/-- Construction of a minimal subtree of one or two nodes from the next
input nodes (source lines 415-448); `none` models dereferencing an
exhausted input iterator, which the consumer contract excludes. -/
def buildBase (s : Store) (p : List Handle) (num_sub : Nat) :
    Option (Store × List Handle × Handle) :=
  if num_sub = 2 then
    -- Build a subtree with two nodes, slanting to greater (lines 415-436).
    match p with
    | [] => none
    | h :: p =>
      match p with
      | [] => none
      | child :: p =>
        let s := set_lt s child null
        let s := set_gt s child null
        let s := set_bf s child 0
        let s := set_gt s h child
        let s := set_lt s h null
        let s := set_bf s h 1
        some (s, p, h)
  else
    -- Build a subtree with one node (lines 437-448).
    match p with
    | [] => none
    | h :: p =>
      let s := set_lt s h null
      let s := set_gt s h null
      let s := set_bf s h 0
      some (s, p, h)

mutual

/-- The tail of the outer-loop body of `build`: the unwinding loop
(source lines 450-475), the completion test (lines 477-479), and the step
that roots the completed subtree as the less subtree of the next input
node and pushes that node on the less-parent stack (lines 481-497),
re-entering the outer loop. -/
def unwindCont (num_nodes : Nat) (rem branch : Nat → Bool) (s : Store)
    (p : List Handle) (depth : Nat) (h less_parent : Handle)
    (num_sub : Nat) (g : Nat) : Option (Store × Handle) :=
  match buildUnwindLoop rem branch s depth h less_parent num_sub with
  | none => none
  | some (s, depth, h, less_parent, num_sub) =>
    if num_sub = num_nodes then
      -- The full tree is complete (lines 477-479).
      some (s, h)
    else
      match p with
      | [] => none
      | h2 :: p =>
        let child := h
        let h := h2
        let s := set_lt s h child
        let s := set_gt s h less_parent
        let less_parent := h
        let branch := upd branch depth true
        let num_sub := num_sub + (if rem depth then 1 else 0)
        let depth := depth + 1
        buildOuterLoop num_nodes s p num_sub depth branch rem less_parent g
  termination_by 2 * g + 1
  decreasing_by omega

/-- The outer for-loop of `build` (source lines 404-499). -/
def buildOuterLoop (num_nodes : Nat) :
    Store → List Handle → Nat → Nat → (Nat → Bool) → (Nat → Bool) →
    Handle → Nat → Option (Store × Handle)
  | _, _, _, _, _, _, _, 0 => none
  | s, p, num_sub, depth, branch, rem, less_parent, fuel + 1 =>
    match buildSplitLoop num_sub depth branch rem with
    | (num_sub, depth, branch, rem) =>
      match buildBase s p num_sub with
      | none => none
      | some (s, p, h) =>
        unwindCont num_nodes rem branch s p depth h less_parent num_sub fuel
  termination_by _ _ _ _ _ _ _ fuel => 2 * fuel
  decreasing_by omega

end

/-- `base_avl_tree::build` (source lines 357-504). -/
def build (t : AvlSt) (p : List Handle) (num_nodes : Nat) (fuel : Nat) :
    Option (Bool × AvlSt) :=
  if num_nodes = 0 then some (true, ⟨null, t.s⟩)
  else
    match buildOuterLoop num_nodes t.s p num_nodes 0 (fun _ => false)
        (fun _ => false) null fuel with
    | none => none
    | some (s, h) => some (true, ⟨h, s⟩)

/-! ## Iterator (source lines 117-355)

The invalid depth sentinel `unsigned(~0)` is modelled as `none`; the
increment `depth++` performed on the sentinel wraps around to `0` in the
source, which is `none` stepping to `some 0` here (faithful whenever
`max_depth` is below the width of `unsigned`, as every instantiation
requires). -/

/-- Iterator state: the depth (with `none` the invalid sentinel), the
branch-direction bitset, and the path handle array. -/
structure Iter where
  depth : Option Nat
  branch : Nat → Bool
  path_h : Nat → Handle

/-- The descent loop of `start_iter_least` (source lines 198-209). -/
def startIterLeastLoop (s : Store) :
    Handle → Option Nat → (Nat → Handle) → Nat →
    Option (Option Nat × (Nat → Handle))
  | _, _, _, 0 => none
  | h, depth, path, fuel + 1 =>
    if h = null then some (depth, path)
    else
      let (depth, path) :=
        match depth with
        | none => (some 0, path)
        | some d => (some (d + 1), updH path d h)
      startIterLeastLoop s (get_lt s h) depth path fuel

/-- `iter::start_iter_least` (source lines 188-210). -/
def start_iter_least (t : AvlSt) (fuel : Nat) : Option Iter :=
  match startIterLeastLoop t.s t.root none (fun _ => null) fuel with
  | none => none
  | some (depth, path) => some ⟨depth, fun _ => false, path⟩

/-- `iter::operator *` (source lines 236-242). -/
def iterDeref (t : AvlSt) (it : Iter) : Handle :=
  match it.depth with
  | none => null
  | some 0 => t.root
  | some (d + 1) => it.path_h d

/-- The popping do-while of `iter::operator ++` (source lines 252-261). -/
def iterPopLoop (branch : Nat → Bool) : Nat → Nat → Option (Option Nat)
  | _, 0 => none
  | d, fuel + 1 =>
    if d = 0 then some none
    else
      let d := d - 1
      if branch d then iterPopLoop branch d fuel else some (some d)

/-- The all-left descent of `iter::operator ++` (source lines 266-278). -/
def iterDescLoop (s : Store) :
    Handle → Nat → (Nat → Bool) → (Nat → Handle) → Nat →
    Option (Nat × (Nat → Bool) × (Nat → Handle))
  | _, _, _, _, 0 => none
  | h, depth, branch, path, fuel + 1 =>
    let h2 := get_lt s h
    if h2 = null then some (depth, branch, path)
    else
      iterDescLoop s h2 (depth + 1) (upd branch depth false)
        (updH path depth h2) fuel

/-- `iter::operator ++` (source lines 244-281). -/
def iterInc (t : AvlSt) (it : Iter) (fuel : Nat) : Option Iter :=
  match it.depth with
  | none => some it
  | some d0 =>
    let h := get_gt t.s (iterDeref t it)
    if read_error t.s then some ⟨none, it.branch, it.path_h⟩
    else if h = null then
      match iterPopLoop it.branch d0 fuel with
      | none => none
      | some depth => some ⟨depth, it.branch, it.path_h⟩
    else
      let branch := upd it.branch d0 true
      let path := updH it.path_h d0 h
      let depth := d0 + 1
      match iterDescLoop t.s h depth branch path fuel with
      | none => none
      | some (depth, branch, path) => some ⟨some depth, branch, path⟩

/-! ## Generic lemmas about the representation relation and list extrema -/

theorem ReprT_nil_iff {s : Store} {p : Handle} :
    ReprT s p Tree.nil ↔ p = null := Iff.rfl

theorem ReprT_node_iff {s : Store} {p : Handle} {l : Tree} {q : Handle}
    {b : Int} {r : Tree} :
    ReprT s p (Tree.node l q b r) ↔
      p = q ∧ q ≠ null ∧ (s q).bf = b ∧
        ReprT s (s q).lt l ∧ ReprT s (s q).gt r := Iff.rfl

theorem getLast?_cons_getD {α} (q m : α) (ys : List α) :
    ((q :: ys).getLast?).getD m = (ys.getLast?).getD q := by
  induction ys generalizing q m with
  | nil => rfl
  | cons y ys ih => rw [List.getLast?_cons_cons, ih y m, ih y q]

theorem head?_append_cons_getD {α} (xs ys : List α) (q m : α) :
    ((xs ++ q :: ys).head?).getD m = (xs.head?).getD q := by
  cases xs <;> rfl

/-! ## Characterization of the search loop -/

/-- With `LESS` set (target_cmp = 1), the search loop returns the last
node in in-order whose key is strictly below the target, falling back to
the accumulated match.  The `EQUAL` bit may be set only if the target key
is absent. -/
theorem searchLoop_less {key : Handle → Int} {k : Int} {st : Nat}
    {s : Store} {t : Tree} {p m : Handle} {fuel : Nat}
    (hrep : ReprT s p t) (hbst : t.bst key)
    (he : st &&& EQUAL = 0 ∨ ∀ q ∈ t.handles, key q ≠ k)
    (hfuel : t.height < fuel) :
    searchLoop key k st 1 s p m fuel
      = some (((t.handles.filter fun q => decide (key q < k)).getLast?).getD m) := by
  induction t generalizing p m fuel with
  | nil =>
    obtain ⟨f, rfl⟩ : ∃ f, fuel = f + 1 :=
      ⟨fuel - 1, (Nat.succ_pred_eq_of_pos hfuel).symm⟩
    rw [ReprT_nil_iff] at hrep
    subst hrep
    simp [searchLoop, Tree.handles]
  | node l q b r ihl ihr =>
    obtain ⟨f, rfl⟩ : ∃ f, fuel = f + 1 :=
      ⟨fuel - 1, (Nat.succ_pred_eq_of_pos
        (Nat.lt_of_le_of_lt (Nat.zero_le _) hfuel)).symm⟩
    rw [ReprT_node_iff] at hrep
    obtain ⟨rfl, hq0, hbf, hl, hr⟩ := hrep
    obtain ⟨hlt, hgt, hbl, hbr⟩ := hbst
    have hfl : l.height < f := by
      have := Nat.lt_of_succ_lt_succ hfuel
      exact Nat.lt_of_le_of_lt (Nat.le_max_left _ _) this
    have hfr : r.height < f := by
      have := Nat.lt_of_succ_lt_succ hfuel
      exact Nat.lt_of_le_of_lt (Nat.le_max_right _ _) this
    have hel : st &&& EQUAL = 0 ∨ ∀ x ∈ l.handles, key x ≠ k := by
      rcases he with h | h
      · exact Or.inl h
      · exact Or.inr fun x hx => h x (by simp [Tree.handles, hx])
    have her : st &&& EQUAL = 0 ∨ ∀ x ∈ r.handles, key x ≠ k := by
      rcases he with h | h
      · exact Or.inl h
      · exact Or.inr fun x hx => h x (by simp [Tree.handles, hx])
    rcases lt_trichotomy k (key p) with hk | hk | hk
    · -- descend less; neither the node nor the greater subtree can match
      have hcmp : cmp_k_n key k p = -1 := by
        simp [cmp_k_n, cmpInt, hk]
      have hqk : ¬ key p < k := not_lt.mpr (le_of_lt hk)
      have hrk : ∀ x ∈ r.handles, ¬ key x < k := fun x hx =>
        not_lt.mpr (le_of_lt (lt_trans hk (hgt x hx)))
      have h2 : r.handles.filter (fun x => decide (key x < k)) = [] :=
        List.filter_eq_nil_iff.mpr fun x hx => by simpa using hrk x hx
      have hstep : (Tree.node l p b r).handles.filter
            (fun x => decide (key x < k))
          = l.handles.filter fun x => decide (key x < k) := by
        simp [Tree.handles, List.filter_append, List.filter_cons, hqk, h2]
      have hrec : searchLoop key k st 1 s p m (f + 1)
          = searchLoop key k st 1 s (s p).lt m f := by
        rw [searchLoop]; norm_num [hq0, hcmp, get_lt]
      rw [hrec, ihl hl hbl hel hfl, hstep]
    · -- equal key: the EQUAL bit must be absent, so descend less
      have hcmp : cmp_k_n key k p = 0 := by
        simp [cmp_k_n, cmpInt, hk]
      have heq0 : st &&& EQUAL = 0 := by
        rcases he with h | h
        · exact h
        · exact absurd hk.symm (h p (by simp [Tree.handles]))
      have hqk : ¬ key p < k := by rw [hk]; exact lt_irrefl _
      have hrk : ∀ x ∈ r.handles, ¬ key x < k := fun x hx =>
        not_lt.mpr (le_of_lt (hk ▸ hgt x hx))
      have h2 : r.handles.filter (fun x => decide (key x < k)) = [] :=
        List.filter_eq_nil_iff.mpr fun x hx => by simpa using hrk x hx
      have hstep : (Tree.node l p b r).handles.filter
            (fun x => decide (key x < k))
          = l.handles.filter fun x => decide (key x < k) := by
        simp [Tree.handles, List.filter_append, List.filter_cons, hqk, h2]
      have hrec : searchLoop key k st 1 s p m (f + 1)
          = searchLoop key k st 1 s (s p).lt m f := by
        rw [searchLoop]; norm_num [hq0, hcmp, heq0, get_lt]
      rw [hrec, ihl hl hbl hel hfl, hstep]
    · -- the node is a candidate: record it and descend greater
      have hcmp : cmp_k_n key k p = 1 := by
        simp [cmp_k_n, cmpInt, hk, not_lt.mpr (le_of_lt hk)]
      have hqk : key p < k := hk
      have hstep : ((Tree.node l p b r).handles.filter
            fun x => decide (key x < k))
          = (l.handles.filter fun x => decide (key x < k)) ++
              p :: (r.handles.filter fun x => decide (key x < k)) := by
        simp [Tree.handles, List.filter_append, List.filter_cons, hqk]
      have hrec : searchLoop key k st 1 s p m (f + 1)
          = searchLoop key k st 1 s (s p).gt p f := by
        rw [searchLoop]; norm_num [hq0, hcmp, get_gt]
      rw [hrec, ihr hr hbr her hfr, hstep, List.getLast?_append_cons,
        getLast?_cons_getD]

/-- With `GREATER` set (target_cmp = -1), the search loop returns the
first node in in-order whose key is strictly above the target, falling
back to the accumulated match. -/
theorem searchLoop_greater {key : Handle → Int} {k : Int} {st : Nat}
    {s : Store} {t : Tree} {p m : Handle} {fuel : Nat}
    (hrep : ReprT s p t) (hbst : t.bst key)
    (he : st &&& EQUAL = 0 ∨ ∀ q ∈ t.handles, key q ≠ k)
    (hfuel : t.height < fuel) :
    searchLoop key k st (-1) s p m fuel
      = some (((t.handles.filter fun q => decide (k < key q)).head?).getD m) := by
  induction t generalizing p m fuel with
  | nil =>
    obtain ⟨f, rfl⟩ : ∃ f, fuel = f + 1 :=
      ⟨fuel - 1, (Nat.succ_pred_eq_of_pos hfuel).symm⟩
    rw [ReprT_nil_iff] at hrep
    subst hrep
    simp [searchLoop, Tree.handles]
  | node l q b r ihl ihr =>
    obtain ⟨f, rfl⟩ : ∃ f, fuel = f + 1 :=
      ⟨fuel - 1, (Nat.succ_pred_eq_of_pos
        (Nat.lt_of_le_of_lt (Nat.zero_le _) hfuel)).symm⟩
    rw [ReprT_node_iff] at hrep
    obtain ⟨rfl, hq0, hbf, hl, hr⟩ := hrep
    obtain ⟨hlt, hgt, hbl, hbr⟩ := hbst
    have hfl : l.height < f := by
      have := Nat.lt_of_succ_lt_succ hfuel
      exact Nat.lt_of_le_of_lt (Nat.le_max_left _ _) this
    have hfr : r.height < f := by
      have := Nat.lt_of_succ_lt_succ hfuel
      exact Nat.lt_of_le_of_lt (Nat.le_max_right _ _) this
    have hel : st &&& EQUAL = 0 ∨ ∀ x ∈ l.handles, key x ≠ k := by
      rcases he with h | h
      · exact Or.inl h
      · exact Or.inr fun x hx => h x (by simp [Tree.handles, hx])
    have her : st &&& EQUAL = 0 ∨ ∀ x ∈ r.handles, key x ≠ k := by
      rcases he with h | h
      · exact Or.inl h
      · exact Or.inr fun x hx => h x (by simp [Tree.handles, hx])
    rcases lt_trichotomy k (key p) with hk | hk | hk
    · -- the node is a candidate: record it and descend less
      have hcmp : cmp_k_n key k p = -1 := by
        simp [cmp_k_n, cmpInt, hk]
      have hqk : k < key p := hk
      have hstep : ((Tree.node l p b r).handles.filter
            fun x => decide (k < key x))
          = (l.handles.filter fun x => decide (k < key x)) ++
              p :: (r.handles.filter fun x => decide (k < key x)) := by
        simp [Tree.handles, List.filter_append, List.filter_cons, hqk]
      have hrec : searchLoop key k st (-1) s p m (f + 1)
          = searchLoop key k st (-1) s (s p).lt p f := by
        rw [searchLoop]; norm_num [hq0, hcmp, get_lt]
      rw [hrec, ihl hl hbl hel hfl, hstep, head?_append_cons_getD]
    · -- equal key: the EQUAL bit must be absent, so descend greater
      have hcmp : cmp_k_n key k p = 0 := by
        simp [cmp_k_n, cmpInt, hk]
      have heq0 : st &&& EQUAL = 0 := by
        rcases he with h | h
        · exact h
        · exact absurd hk.symm (h p (by simp [Tree.handles]))
      have hqk : ¬ k < key p := by rw [← hk]; exact lt_irrefl _
      have hlk : ∀ x ∈ l.handles, ¬ k < key x := fun x hx =>
        not_lt.mpr (le_of_lt (hk ▸ hlt x hx))
      have h2 : l.handles.filter (fun x => decide (k < key x)) = [] :=
        List.filter_eq_nil_iff.mpr fun x hx => by simpa using hlk x hx
      have hstep : (Tree.node l p b r).handles.filter
            (fun x => decide (k < key x))
          = r.handles.filter fun x => decide (k < key x) := by
        simp [Tree.handles, List.filter_append, List.filter_cons, hqk, h2]
      have hrec : searchLoop key k st (-1) s p m (f + 1)
          = searchLoop key k st (-1) s (s p).gt m f := by
        rw [searchLoop]; norm_num [hq0, hcmp, heq0, get_gt]
      rw [hrec, ihr hr hbr her hfr, hstep]
    · -- descend greater; neither the node nor the less subtree can match
      have hcmp : cmp_k_n key k p = 1 := by
        simp [cmp_k_n, cmpInt, hk, not_lt.mpr (le_of_lt hk)]
      have hqk : ¬ k < key p := not_lt.mpr (le_of_lt hk)
      have hlk : ∀ x ∈ l.handles, ¬ k < key x := fun x hx =>
        not_lt.mpr (le_of_lt (lt_trans (hlt x hx) hk))
      have h2 : l.handles.filter (fun x => decide (k < key x)) = [] :=
        List.filter_eq_nil_iff.mpr fun x hx => by simpa using hlk x hx
      have hstep : (Tree.node l p b r).handles.filter
            (fun x => decide (k < key x))
          = r.handles.filter fun x => decide (k < key x) := by
        simp [Tree.handles, List.filter_append, List.filter_cons, hqk, h2]
      have hrec : searchLoop key k st (-1) s p m (f + 1)
          = searchLoop key k st (-1) s (s p).gt m f := by
        rw [searchLoop]; norm_num [hq0, hcmp, get_gt]
      rw [hrec, ihr hr hbr her hfr, hstep]

/-- With target_cmp = 0 (pure `EQUAL` search) and the sought key absent,
the search loop never updates its match and returns the accumulated
value. -/
theorem searchLoop_equal_absent {key : Handle → Int} {k : Int} {st : Nat}
    {s : Store} {t : Tree} {p m : Handle} {fuel : Nat}
    (hrep : ReprT s p t)
    (habs : ∀ q ∈ t.handles, key q ≠ k)
    (hfuel : t.height < fuel) :
    searchLoop key k st 0 s p m fuel = some m := by
  induction t generalizing p m fuel with
  | nil =>
    obtain ⟨f, rfl⟩ : ∃ f, fuel = f + 1 :=
      ⟨fuel - 1, (Nat.succ_pred_eq_of_pos hfuel).symm⟩
    rw [ReprT_nil_iff] at hrep
    subst hrep
    simp [searchLoop]
  | node l q b r ihl ihr =>
    obtain ⟨f, rfl⟩ : ∃ f, fuel = f + 1 :=
      ⟨fuel - 1, (Nat.succ_pred_eq_of_pos
        (Nat.lt_of_le_of_lt (Nat.zero_le _) hfuel)).symm⟩
    rw [ReprT_node_iff] at hrep
    obtain ⟨rfl, hq0, hbf, hl, hr⟩ := hrep
    have hfl : l.height < f := by
      have := Nat.lt_of_succ_lt_succ hfuel
      exact Nat.lt_of_le_of_lt (Nat.le_max_left _ _) this
    have hfr : r.height < f := by
      have := Nat.lt_of_succ_lt_succ hfuel
      exact Nat.lt_of_le_of_lt (Nat.le_max_right _ _) this
    have hal : ∀ x ∈ l.handles, key x ≠ k := fun x hx =>
      habs x (by simp [Tree.handles, hx])
    have har : ∀ x ∈ r.handles, key x ≠ k := fun x hx =>
      habs x (by simp [Tree.handles, hx])
    have hne : key p ≠ k := habs p (by simp [Tree.handles])
    rcases lt_trichotomy k (key p) with hk | hk | hk
    · have hcmp : cmp_k_n key k p = -1 := by
        simp [cmp_k_n, cmpInt, hk]
      have hrec : searchLoop key k st 0 s p m (f + 1)
          = searchLoop key k st 0 s (s p).lt m f := by
        rw [searchLoop]; norm_num [hq0, hcmp, get_lt]
      rw [hrec, ihl hl hal hfl]
    · exact absurd hk.symm hne
    · have hcmp : cmp_k_n key k p = 1 := by
        simp [cmp_k_n, cmpInt, hk, not_lt.mpr (le_of_lt hk)]
      have hrec : searchLoop key k st 0 s p m (f + 1)
          = searchLoop key k st 0 s (s p).gt m f := by
        rw [searchLoop]; norm_num [hq0, hcmp, get_gt]
      rw [hrec, ihr hr har hfr]

/-! ## Claim C5 -/

/-- Claim C5 as stated is false: in the tree holding the single node 5
with key 5, a node with key at most 5 exists (node 5 itself, the rightmost
such node), yet `search(5, LESS)` returns the null handle, because the
`LESS` mode admits only keys strictly below the target. -/
theorem C5_counterexample :
    Represents (fun h => (h : Int)) ⟨5, fun _ => ⟨0, 0, 0⟩⟩
      (Tree.node Tree.nil 5 0 Tree.nil) ∧
    (∃ q ∈ (Tree.node Tree.nil 5 0 Tree.nil).handles,
      (fun h => (h : Int)) q ≤ 5) ∧
    search (fun h => (h : Int)) ⟨5, fun _ => ⟨0, 0, 0⟩⟩ 5 LESS 10
      = some null := by
  exact ⟨⟨by decide, by decide, by decide, by decide⟩, by decide, by decide⟩

/-- Claim C5 (amended): for every tree satisfying the invariants and every
key k, `search(k, LESS)` returns the rightmost node in the tree whose key
is strictly less than k (null if none exists), and `search(k, GREATER)`
returns the leftmost node whose key is strictly greater than k (null if
none exists). -/
theorem C5_search_strict (key : Handle → Int) (t : AvlSt) (a : Tree)
    (k : Int) (fuel : Nat) (hrep : Represents key t a)
    (hfuel : a.height < fuel) :
    search key t k LESS fuel
      = some (((a.handles.filter fun q => decide (key q < k)).getLast?).getD null) ∧
    search key t k GREATER fuel
      = some (((a.handles.filter fun q => decide (k < key q)).head?).getD null) := by
  obtain ⟨hr, hnd, hb, hv⟩ := hrep
  constructor
  · have h1 : targetCmp LESS = 1 := by decide
    simp only [search, h1]
    exact searchLoop_less hr hb (Or.inl (by decide)) hfuel
  · have h1 : targetCmp GREATER = -1 := by decide
    simp only [search, h1]
    exact searchLoop_greater hr hb (Or.inl (by decide)) hfuel

/-- Witness for the amended claim C5 at a concrete instance: the
single-node tree with key 5 and target key 7. -/
theorem C5_search_strict_witness :
    (Represents (fun h => (h : Int)) ⟨5, fun _ => ⟨0, 0, 0⟩⟩
        (Tree.node Tree.nil 5 0 Tree.nil) ∧
      (Tree.node Tree.nil 5 0 Tree.nil).height < 10) ∧
    (search (fun h => (h : Int)) ⟨5, fun _ => ⟨0, 0, 0⟩⟩ 7 LESS 10
        = some 5 ∧
     search (fun h => (h : Int)) ⟨5, fun _ => ⟨0, 0, 0⟩⟩ 7 GREATER 10
        = some null) :=
  ⟨⟨⟨by decide, by decide, by decide, by decide⟩, by decide⟩,
    ⟨(C5_search_strict (fun h => (h : Int)) ⟨5, fun _ => ⟨0, 0, 0⟩⟩
      (Tree.node Tree.nil 5 0 Tree.nil) 7 10
      ⟨by decide, by decide, by decide, by decide⟩ (by decide)).1.trans
        (by decide),
     (C5_search_strict (fun h => (h : Int)) ⟨5, fun _ => ⟨0, 0, 0⟩⟩
      (Tree.node Tree.nil 5 0 Tree.nil) 7 10
      ⟨by decide, by decide, by decide, by decide⟩ (by decide)).2.trans
        (by decide)⟩⟩

/-! ## Claim C7 -/

/-- Claim C7: in every tree satisfying the invariants whose in-order keys
are exactly 10, 20, 30, 40, 50, `search(25, LESS_EQUAL)` returns the node
with key 20, `search(25, GREATER_EQUAL)` returns the node with key 30,
and `search(25, EQUAL)` returns null. -/
theorem C7_range_search (key : Handle → Int) (t : AvlSt) (a : Tree)
    (fuel : Nat) (hrep : Represents key t a)
    (hkeys : a.handles.map key = [10, 20, 30, 40, 50])
    (hfuel : a.height < fuel) :
    (∃ q, search key t 25 LESS_EQUAL fuel = some q ∧
      q ∈ a.handles ∧ key q = 20) ∧
    (∃ q, search key t 25 GREATER_EQUAL fuel = some q ∧
      q ∈ a.handles ∧ key q = 30) ∧
    search key t 25 EQUAL fuel = some null := by
  obtain ⟨hr, hnd, hb, hv⟩ := hrep
  rcases h5 : a.handles with _ | ⟨q1, l1⟩
  · rw [h5] at hkeys; simp at hkeys
  rcases l1 with _ | ⟨q2, l2⟩
  · rw [h5] at hkeys; simp at hkeys
  rcases l2 with _ | ⟨q3, l3⟩
  · rw [h5] at hkeys; simp at hkeys
  rcases l3 with _ | ⟨q4, l4⟩
  · rw [h5] at hkeys; simp at hkeys
  rcases l4 with _ | ⟨q5, l5⟩
  · rw [h5] at hkeys; simp at hkeys
  rcases l5 with _ | ⟨q6, l6⟩
  case cons.cons.cons.cons.cons =>
    rw [h5] at hkeys; simp at hkeys
  rw [h5] at hkeys
  simp only [List.map_cons, List.map_nil, List.cons.injEq, and_true] at hkeys
  obtain ⟨k1, k2, k3, k4, k5⟩ := hkeys
  have habs : ∀ q ∈ a.handles, key q ≠ 25 := by
    intro q hq
    rw [h5] at hq
    simp only [List.mem_cons, List.not_mem_nil, or_false] at hq
    rcases hq with rfl | rfl | rfl | rfl | rfl <;>
      simp [k1, k2, k3, k4, k5]
  refine ⟨⟨q2, ?_, ?_, k2⟩, ⟨q3, ?_, ?_, k3⟩, ?_⟩
  · have h1 : targetCmp LESS_EQUAL = 1 := by decide
    simp only [search, h1]
    rw [searchLoop_less hr hb (Or.inr habs) hfuel]
    have hfilt : (a.handles.filter fun q => decide (key q < 25))
        = [q1, q2] := by
      rw [h5]
      norm_num [List.filter_cons, List.filter_nil, k1, k2, k3, k4, k5]
    rw [hfilt]
    rfl
  · simp
  · have h1 : targetCmp GREATER_EQUAL = -1 := by decide
    simp only [search, h1]
    rw [searchLoop_greater hr hb (Or.inr habs) hfuel]
    have hfilt : (a.handles.filter fun q => decide ((25 : Int) < key q))
        = [q3, q4, q5] := by
      rw [h5]
      norm_num [List.filter_cons, List.filter_nil, k1, k2, k3, k4, k5]
    rw [hfilt]
    rfl
  · simp
  · have h1 : targetCmp EQUAL = 0 := by decide
    simp only [search, h1]
    exact searchLoop_equal_absent hr habs hfuel

/-- A concrete five-node instance of claim C7: keys are the handles
themselves, root 30, less child 20 (with less child 10), greater child 40
(with greater child 50). -/
def c7store : Store := fun q =>
  if q = 30 then ⟨20, 40, 0⟩
  else if q = 20 then ⟨10, 0, -1⟩
  else if q = 40 then ⟨0, 50, 1⟩
  else ⟨0, 0, 0⟩

/-- The abstract tree represented by `c7store`. -/
def c7tree : Tree :=
  Tree.node (Tree.node (Tree.node Tree.nil 10 0 Tree.nil) 20 (-1) Tree.nil)
    30 0 (Tree.node Tree.nil 40 1 (Tree.node Tree.nil 50 0 Tree.nil))

/-- Witness for claim C7 at the concrete five-node instance. -/
theorem C7_range_search_witness :
    (Represents (fun h => (h : Int)) ⟨30, c7store⟩ c7tree ∧
      c7tree.handles.map (fun h => (h : Int)) = [10, 20, 30, 40, 50] ∧
      c7tree.height < 10) ∧
    ((∃ q, search (fun h => (h : Int)) ⟨30, c7store⟩ 25 LESS_EQUAL 10
        = some q ∧ q ∈ c7tree.handles ∧ (fun h => (h : Int)) q = 20) ∧
     (∃ q, search (fun h => (h : Int)) ⟨30, c7store⟩ 25 GREATER_EQUAL 10
        = some q ∧ q ∈ c7tree.handles ∧ (fun h => (h : Int)) q = 30) ∧
     search (fun h => (h : Int)) ⟨30, c7store⟩ 25 EQUAL 10 = some null) :=
  ⟨⟨⟨by decide, by decide, by decide, by decide⟩, by decide, by decide⟩,
    C7_range_search (fun h => (h : Int)) ⟨30, c7store⟩ c7tree 10
      ⟨by decide, by decide, by decide, by decide⟩ (by decide) (by decide)⟩

/-! ## Frame lemma for the representation relation -/

/-- The layout of a subtree depends only on the fields of its own
handles: a store agreeing on them represents the same subtree. -/
theorem ReprT_congr {s s' : Store} {p : Handle} {t : Tree}
    (hrep : ReprT s p t) (hagree : ∀ x ∈ t.handles, s' x = s x) :
    ReprT s' p t := by
  induction t generalizing p with
  | nil => exact hrep
  | node l q b r ihl ihr =>
    rw [ReprT_node_iff] at hrep ⊢
    obtain ⟨rfl, hq0, hbf, hl, hr⟩ := hrep
    have hq : s' p = s p := hagree p (by simp [Tree.handles])
    refine ⟨rfl, hq0, by rw [hq, hbf], ?_, ?_⟩
    · rw [hq]
      exact ihl hl fun x hx => hagree x (by simp [Tree.handles, hx])
    · rw [hq]
      exact ihr hr fun x hx => hagree x (by simp [Tree.handles, hx])

/-! ## Claim C10 -/

/-- When no node of the represented tree carries the sought key, the
key-search loop of `remove` runs off a null link and reports a miss,
without any store access beyond reads. -/
theorem removeFindLoop_absent {key : Handle → Int} {k : Int} {s : Store}
    {t : Tree} {p parent : Handle} {depth : Nat} {branch : Nat → Bool}
    {cmpss : Int} {fuel : Nat}
    (hrep : ReprT s p t) (hbst : t.bst key)
    (habs : ∀ q ∈ t.handles, key q ≠ k)
    (hfuel : t.height < fuel) :
    removeFindLoop key s k p parent depth branch cmpss fuel
      = some (.inl ()) := by
  induction t generalizing p parent depth branch cmpss fuel with
  | nil =>
    obtain ⟨f, rfl⟩ : ∃ f, fuel = f + 1 :=
      ⟨fuel - 1, (Nat.succ_pred_eq_of_pos hfuel).symm⟩
    rw [ReprT_nil_iff] at hrep
    subst hrep
    simp [removeFindLoop]
  | node l q b r ihl ihr =>
    obtain ⟨f, rfl⟩ : ∃ f, fuel = f + 1 :=
      ⟨fuel - 1, (Nat.succ_pred_eq_of_pos
        (Nat.lt_of_le_of_lt (Nat.zero_le _) hfuel)).symm⟩
    rw [ReprT_node_iff] at hrep
    obtain ⟨rfl, hq0, hbf, hl, hr⟩ := hrep
    obtain ⟨hlt, hgt, hbl, hbr⟩ := hbst
    have hfl : l.height < f :=
      Nat.lt_of_le_of_lt (Nat.le_max_left _ _) (Nat.lt_of_succ_lt_succ hfuel)
    have hfr : r.height < f :=
      Nat.lt_of_le_of_lt (Nat.le_max_right _ _) (Nat.lt_of_succ_lt_succ hfuel)
    have hal : ∀ x ∈ l.handles, key x ≠ k := fun x hx =>
      habs x (by simp [Tree.handles, hx])
    have har : ∀ x ∈ r.handles, key x ≠ k := fun x hx =>
      habs x (by simp [Tree.handles, hx])
    have hne : key p ≠ k := habs p (by simp [Tree.handles])
    rcases lt_trichotomy k (key p) with hk | hk | hk
    · have hcmp : cmp_k_n key k p = -1 := by
        simp [cmp_k_n, cmpInt, hk]
      have hrec : removeFindLoop key s k p parent depth branch cmpss (f + 1)
          = removeFindLoop key s k (s p).lt p (depth + 1)
              (upd branch depth false) (-1) f := by
        rw [removeFindLoop]; norm_num [hq0, hcmp, get_lt, read_error]
      rw [hrec, ihl hl hbl hal hfl]
    · exact absurd hk.symm hne
    · have hcmp : cmp_k_n key k p = 1 := by
        simp [cmp_k_n, cmpInt, hk, not_lt.mpr (le_of_lt hk)]
      have hrec : removeFindLoop key s k p parent depth branch cmpss (f + 1)
          = removeFindLoop key s k (s p).gt p (depth + 1)
              (upd branch depth true) 1 f := by
        rw [removeFindLoop]; norm_num [hq0, hcmp, get_gt, read_error]
      rw [hrec, ihr hr hbr har hfr]

/-- Claim C10: for every represented tree and key k absent from it (no
read error can occur for the in-memory store), `remove(k)` returns null
and leaves the state — root handle and every node field — exactly
unchanged. -/
theorem C10_remove_absent (key : Handle → Int) (t : AvlSt) (a : Tree)
    (k : Int) (fuel : Nat) (hrep : Represents key t a)
    (habs : ∀ q ∈ a.handles, key q ≠ k)
    (hfuel : a.height < fuel) :
    remove key t k fuel = some (null, t) := by
  obtain ⟨hr, hnd, hb, hv⟩ := hrep
  rw [remove, removeFindLoop_absent hr hb habs hfuel]

/-- Witness for claim C10: removing the absent key 3 from the concrete
five-node tree changes nothing. -/
theorem C10_remove_absent_witness :
    (Represents (fun h => (h : Int)) ⟨30, c7store⟩ c7tree ∧
      (∀ q ∈ c7tree.handles, (fun h => (h : Int)) q ≠ 3) ∧
      c7tree.height < 10) ∧
    remove (fun h => (h : Int)) ⟨30, c7store⟩ 3 10 = some (null, ⟨30, c7store⟩) :=
  ⟨⟨⟨by decide, by decide, by decide, by decide⟩, by decide, by decide⟩,
    C10_remove_absent (fun h => (h : Int)) ⟨30, c7store⟩ c7tree 3 10
      ⟨by decide, by decide, by decide, by decide⟩ (by decide) (by decide)⟩

/-! ## Claims C6 and C9: inserting a node with a colliding key -/

/-- A handle whose subtree has a member is itself a non-null handle. -/
theorem ReprT_ne_null_of_mem {s : Store} {p : Handle} {t : Tree}
    {q : Handle} (hrep : ReprT s p t) (hq : q ∈ t.handles) : p ≠ null := by
  cases t with
  | nil => simp [Tree.handles] at hq
  | node l x b r => exact hrep.1 ▸ hrep.2.1

/-- When some node of the represented tree carries the key of the node
being inserted, the descent loop of `insert` stops at that node and
reports it as a duplicate. -/
theorem insertDescLoop_dup {key : Handle → Int} {s : Store} {h : Handle}
    {t : Tree} {p parent unbal parent_unbal : Handle}
    {unbal_depth depth : Nat} {branch : Nat → Bool} {fuel : Nat}
    (hrep : ReprT s p t) (hbst : t.bst key)
    (hdup : ∃ q ∈ t.handles, key q = key h)
    (hfuel : t.height < fuel) :
    ∃ q ∈ t.handles, key q = key h ∧
      insertDescLoop key s h p parent unbal parent_unbal unbal_depth
        depth branch fuel = some (.inl q) := by
  induction t generalizing p parent unbal parent_unbal unbal_depth
      depth branch fuel with
  | nil => simp [Tree.handles] at hdup
  | node l q b r ihl ihr =>
    obtain ⟨f, rfl⟩ : ∃ f, fuel = f + 1 :=
      ⟨fuel - 1, (Nat.succ_pred_eq_of_pos
        (Nat.lt_of_le_of_lt (Nat.zero_le _) hfuel)).symm⟩
    rw [ReprT_node_iff] at hrep
    obtain ⟨rfl, hq0, hbf, hl, hr⟩ := hrep
    obtain ⟨hlt, hgt, hbl, hbr⟩ := hbst
    have hfl : l.height < f :=
      Nat.lt_of_le_of_lt (Nat.le_max_left _ _) (Nat.lt_of_succ_lt_succ hfuel)
    have hfr : r.height < f :=
      Nat.lt_of_le_of_lt (Nat.le_max_right _ _) (Nat.lt_of_succ_lt_succ hfuel)
    rcases lt_trichotomy (key h) (key p) with hk | hk | hk
    · -- the duplicate lies in the less subtree
      obtain ⟨q0, hq0m, hq0k⟩ := hdup
      have hq0l : q0 ∈ l.handles := by
        rcases (by simpa [Tree.handles] using hq0m :
            q0 ∈ l.handles ∨ q0 = p ∨ q0 ∈ r.handles) with hc | hc | hc
        · exact hc
        · subst hc; exact absurd (hq0k.symm ▸ hk) (lt_irrefl _)
        · exact absurd (hq0k ▸ hgt q0 hc) (lt_asymm hk)
      have hlt0 : (s p).lt ≠ null := ReprT_ne_null_of_mem hl hq0l
      have hcmp : cmp_n_n key h p = -1 := by
        simp [cmp_n_n, cmpInt, hk]
      by_cases hbfz : get_bf s p ≠ 0
      · have hrec : insertDescLoop key s h p parent unbal parent_unbal
              unbal_depth depth branch (f + 1)
            = insertDescLoop key s h (s p).lt p p parent depth (depth + 1)
                (upd branch depth false) f := by
          rw [insertDescLoop]
          norm_num [hbfz, hcmp, read_error, get_lt, hlt0]
        obtain ⟨q1, hm, hkk, he⟩ := @ihl ((s p).lt) p p parent depth
          (depth + 1) (upd branch depth false) f hl hbl ⟨q0, hq0l, hq0k⟩ hfl
        exact ⟨q1, by simp [Tree.handles, hm], hkk, by rw [hrec]; exact he⟩
      · have hrec : insertDescLoop key s h p parent unbal parent_unbal
              unbal_depth depth branch (f + 1)
            = insertDescLoop key s h (s p).lt p unbal parent_unbal
                unbal_depth (depth + 1) (upd branch depth false) f := by
          rw [insertDescLoop]
          norm_num [hbfz, hcmp, read_error, get_lt, hlt0]
        obtain ⟨q1, hm, hkk, he⟩ := @ihl ((s p).lt) p unbal parent_unbal
          unbal_depth (depth + 1) (upd branch depth false) f hl hbl
          ⟨q0, hq0l, hq0k⟩ hfl
        exact ⟨q1, by simp [Tree.handles, hm], hkk, by rw [hrec]; exact he⟩
    · -- the node itself is the duplicate
      refine ⟨p, by simp [Tree.handles], hk.symm, ?_⟩
      have hcmp : cmp_n_n key h p = 0 := by
        simp [cmp_n_n, cmpInt, hk]
      by_cases hbfz : get_bf s p ≠ 0 <;>
        (rw [insertDescLoop]; norm_num [hbfz, hcmp])
    · -- the duplicate lies in the greater subtree
      obtain ⟨q0, hq0m, hq0k⟩ := hdup
      have hq0r : q0 ∈ r.handles := by
        rcases (by simpa [Tree.handles] using hq0m :
            q0 ∈ l.handles ∨ q0 = p ∨ q0 ∈ r.handles) with hc | hc | hc
        · exact absurd (hq0k ▸ hlt q0 hc) (lt_asymm hk)
        · subst hc; exact absurd (hq0k.symm ▸ hk) (lt_irrefl _)
        · exact hc
      have hgt0 : (s p).gt ≠ null := ReprT_ne_null_of_mem hr hq0r
      have hcmp : cmp_n_n key h p = 1 := by
        simp [cmp_n_n, cmpInt, hk, not_lt.mpr (le_of_lt hk)]
      by_cases hbfz : get_bf s p ≠ 0
      · have hrec : insertDescLoop key s h p parent unbal parent_unbal
              unbal_depth depth branch (f + 1)
            = insertDescLoop key s h (s p).gt p p parent depth (depth + 1)
                (upd branch depth true) f := by
          rw [insertDescLoop]
          norm_num [hbfz, hcmp, read_error, get_gt, hgt0]
        obtain ⟨q1, hm, hkk, he⟩ := @ihr ((s p).gt) p p parent depth
          (depth + 1) (upd branch depth true) f hr hbr ⟨q0, hq0r, hq0k⟩ hfr
        exact ⟨q1, by simp [Tree.handles, hm], hkk, by rw [hrec]; exact he⟩
      · have hrec : insertDescLoop key s h p parent unbal parent_unbal
              unbal_depth depth branch (f + 1)
            = insertDescLoop key s h (s p).gt p unbal parent_unbal
                unbal_depth (depth + 1) (upd branch depth true) f := by
          rw [insertDescLoop]
          norm_num [hbfz, hcmp, read_error, get_gt, hgt0]
        obtain ⟨q1, hm, hkk, he⟩ := @ihr ((s p).gt) p unbal parent_unbal
          unbal_depth (depth + 1) (upd branch depth true) f hr hbr
          ⟨q0, hq0r, hq0k⟩ hfr
        exact ⟨q1, by simp [Tree.handles, hm], hkk, by rw [hrec]; exact he⟩

/-- Shared description of `insert` in the colliding-key case: the only
store mutation is the initialization of the three engine-owned fields of
the argument node (source lines 674-676), and the pre-existing node is
returned. -/
theorem insert_dup_spec {key : Handle → Int} {t : AvlSt} {a : Tree}
    {h : Handle} {fuel : Nat}
    (hrep : ReprT t.s t.root a) (hbst : a.bst key)
    (hfresh : h ∉ a.handles)
    (hdup : ∃ q ∈ a.handles, key q = key h)
    (hfuel : a.height < fuel) :
    ∃ q ∈ a.handles, key q = key h ∧
      insert key t h fuel
        = some (q, ⟨t.root, set_bf (set_gt (set_lt t.s h null) h null) h 0⟩) := by
  have hagree : ∀ x ∈ a.handles,
      (set_bf (set_gt (set_lt t.s h null) h null) h 0) x = t.s x := by
    intro x hx
    have hxh : x ≠ h := fun e => hfresh (e ▸ hx)
    simp [set_bf, set_gt, set_lt, hxh]
  have hr1 : ReprT (set_bf (set_gt (set_lt t.s h null) h null) h 0) t.root a :=
    ReprT_congr hrep hagree
  have hroot0 : t.root ≠ null := by
    obtain ⟨q0, hq0, _⟩ := hdup
    exact ReprT_ne_null_of_mem hrep hq0
  obtain ⟨q, hqm, hqk, he⟩ := @insertDescLoop_dup _ _ _ _ _ null null null
    0 0 (fun _ => false) _ hr1 hbst hdup hfuel
  refine ⟨q, hqm, hqk, ?_⟩
  simp only [insert, if_neg hroot0]
  rw [he]

/-- Claim C6: inserting a fresh non-null node whose key collides with a
node already in the tree returns the pre-existing node (not the argument)
and leaves the root handle and the represented tree — hence the in-order
node sequence — unchanged. -/
theorem C6_insert_duplicate (key : Handle → Int) (t : AvlSt) (a : Tree)
    (h : Handle) (fuel : Nat) (hrep : Represents key t a)
    (hh0 : h ≠ null) (hfresh : h ∉ a.handles)
    (hdup : ∃ q ∈ a.handles, key q = key h)
    (hfuel : a.height < fuel) :
    ∃ q t', insert key t h fuel = some (q, t') ∧
      q ∈ a.handles ∧ q ≠ h ∧ key q = key h ∧
      t'.root = t.root ∧ Represents key t' a := by
  obtain ⟨hr, hnd, hb, hv⟩ := hrep
  obtain ⟨q, hqm, hqk, he⟩ := insert_dup_spec hr hb hfresh hdup hfuel
  have hagree : ∀ x ∈ a.handles,
      (set_bf (set_gt (set_lt t.s h null) h null) h 0) x = t.s x := by
    intro x hx
    have hxh : x ≠ h := fun e => hfresh (e ▸ hx)
    simp [set_bf, set_gt, set_lt, hxh]
  exact ⟨q, _, he, hqm, fun e => hfresh (e ▸ hqm), hqk, rfl,
    ReprT_congr hr hagree, hnd, hb, hv⟩

/-- Witness for claim C6: a single-node tree with node 5, keys taken
modulo 5, and the colliding fresh node 10. -/
theorem C6_insert_duplicate_witness :
    (Represents (fun x => ((x % 5 : Nat) : Int)) ⟨5, fun _ => ⟨0, 0, 0⟩⟩
        (Tree.node Tree.nil 5 0 Tree.nil) ∧
      (10 : Handle) ≠ null ∧
      (10 : Handle) ∉ (Tree.node Tree.nil 5 0 Tree.nil).handles ∧
      (∃ q ∈ (Tree.node Tree.nil 5 0 Tree.nil).handles,
        ((q % 5 : Nat) : Int) = ((10 % 5 : Nat) : Int)) ∧
      (Tree.node Tree.nil 5 0 Tree.nil).height < 10) ∧
    (∃ q t', insert (fun x => ((x % 5 : Nat) : Int))
        ⟨5, fun _ => ⟨0, 0, 0⟩⟩ 10 10 = some (q, t') ∧
      q ∈ (Tree.node Tree.nil 5 0 Tree.nil).handles ∧ q ≠ 10 ∧
      ((q % 5 : Nat) : Int) = ((10 % 5 : Nat) : Int) ∧
      t'.root = AvlSt.root ⟨5, fun _ => ⟨0, 0, 0⟩⟩ ∧
      Represents (fun x => ((x % 5 : Nat) : Int)) t'
        (Tree.node Tree.nil 5 0 Tree.nil)) :=
  ⟨⟨⟨by decide, by decide, by decide, by decide⟩, by decide, by decide,
      ⟨5, by decide, by decide⟩, by decide⟩,
    C6_insert_duplicate (fun x => ((x % 5 : Nat) : Int))
      ⟨5, fun _ => ⟨0, 0, 0⟩⟩ (Tree.node Tree.nil 5 0 Tree.nil) 10 10
      ⟨by decide, by decide, by decide, by decide⟩ (by decide) (by decide)
      ⟨5, by decide, by decide⟩ (by decide)⟩

/-- Claim C9: `insert` overwrites the three engine-owned fields of its
argument node (less link, greater link, balance factor become null, null,
0) before descending; in particular in the colliding-key case, where the
pre-existing node is returned, the argument node has nonetheless had
exactly these three fields overwritten and nothing else in the store has
changed. -/
theorem C9_insert_clobbers_arg (key : Handle → Int) (t : AvlSt) (a : Tree)
    (h : Handle) (fuel : Nat) (hrep : Represents key t a)
    (hh0 : h ≠ null) (hfresh : h ∉ a.handles)
    (hdup : ∃ q ∈ a.handles, key q = key h)
    (hfuel : a.height < fuel) :
    ∃ q t', insert key t h fuel = some (q, t') ∧ q ≠ h ∧
      t'.s h = ⟨null, null, 0⟩ ∧ (∀ x, x ≠ h → t'.s x = t.s x) ∧
      t'.root = t.root := by
  obtain ⟨hr, hnd, hb, hv⟩ := hrep
  obtain ⟨q, hqm, hqk, he⟩ := insert_dup_spec hr hb hfresh hdup hfuel
  refine ⟨q, _, he, fun e => hfresh (e ▸ hqm), ?_, ?_, rfl⟩
  · simp [set_bf, set_gt, set_lt]
  · intro x hx
    simp [set_bf, set_gt, set_lt, hx]

/-- Witness for claim C9 at the same concrete instance as claim C6. -/
theorem C9_insert_clobbers_arg_witness :
    (Represents (fun x => ((x % 5 : Nat) : Int)) ⟨5, fun _ => ⟨0, 0, 0⟩⟩
        (Tree.node Tree.nil 5 0 Tree.nil) ∧
      (10 : Handle) ≠ null ∧
      (10 : Handle) ∉ (Tree.node Tree.nil 5 0 Tree.nil).handles ∧
      (∃ q ∈ (Tree.node Tree.nil 5 0 Tree.nil).handles,
        ((q % 5 : Nat) : Int) = ((10 % 5 : Nat) : Int)) ∧
      (Tree.node Tree.nil 5 0 Tree.nil).height < 10) ∧
    (∃ q t', insert (fun x => ((x % 5 : Nat) : Int))
        ⟨5, fun _ => ⟨0, 0, 0⟩⟩ 10 10 = some (q, t') ∧ q ≠ 10 ∧
      t'.s 10 = ⟨null, null, 0⟩ ∧
      (∀ x, x ≠ 10 → t'.s x = (fun _ => (⟨0, 0, 0⟩ : NodeF)) x) ∧
      t'.root = AvlSt.root ⟨5, fun _ => ⟨0, 0, 0⟩⟩) :=
  ⟨⟨⟨by decide, by decide, by decide, by decide⟩, by decide, by decide,
      ⟨5, by decide, by decide⟩, by decide⟩,
    C9_insert_clobbers_arg (fun x => ((x % 5 : Nat) : Int))
      ⟨5, fun _ => ⟨0, 0, 0⟩⟩ (Tree.node Tree.nil 5 0 Tree.nil) 10 10
      ⟨by decide, by decide, by decide, by decide⟩ (by decide) (by decide)
      ⟨5, by decide, by decide⟩ (by decide)⟩

/-! ## Arithmetic about powers of two and ceiling base-2 logarithms -/

theorem land_pred_eq_zero_iff {m : Nat} (hm : 0 < m) :
    m &&& (m - 1) = 0 ↔ ∃ t, m = 2 ^ t := by
  constructor
  · intro h
    by_contra hnp
    push_neg at hnp
    set t := Nat.log 2 m with ht
    have h1 : 2 ^ t ≤ m := Nat.pow_log_le_self 2 (by omega)
    have h2 : m < 2 ^ (t + 1) := Nat.lt_pow_succ_log_self (by norm_num) m
    have hlt : 2 ^ t < m := lt_of_le_of_ne h1 (fun e => hnp t e.symm)
    have hbit : ∀ x, 2 ^ t ≤ x → x < 2 ^ (t + 1) → x.testBit t = true := by
      intro x hx1 hx2
      rw [pow_succ] at hx2
      have hdiv : x / 2 ^ t = 1 :=
        Nat.div_eq_of_lt_le (by omega) (by omega)
      rw [Nat.testBit_to_div_mod, hdiv]
      rfl
    have e1 := hbit m h1 h2
    have e2 := hbit (m - 1) (by omega) (by omega)
    have e3 : (m &&& (m - 1)).testBit t = true := by
      rw [Nat.testBit_and, e1, e2]
      rfl
    rw [h] at e3
    simp [Nat.zero_testBit] at e3
  · rintro ⟨t, rfl⟩
    apply Nat.eq_of_testBit_eq
    intro i
    rw [Nat.testBit_and, Nat.testBit_two_pow_sub_one, Nat.zero_testBit,
      Nat.testBit_two_pow]
    by_cases hti : t = i
    · subst hti; simp
    · simp [hti]

theorem clog2_half_succ {m : Nat} (hm : 1 ≤ m) :
    Nat.clog 2 (m + 1) = Nat.clog 2 (m / 2 + 1) + 1 := by
  rw [Nat.clog_of_two_le (by norm_num) (by omega)]
  have h2 : (m + 1 + 2 - 1) / 2 = m / 2 + 1 := by omega
  rw [h2]

theorem clog2_succ_pow (t : Nat) : Nat.clog 2 (2 ^ t + 1) = t + 1 := by
  have hp : 0 < 2 ^ t := pow_pos (by norm_num) t
  have hps : 2 ^ t + 1 ≤ 2 ^ (t + 1) := by rw [pow_succ]; omega
  have h1 : Nat.clog 2 (2 ^ t + 1) ≤ t + 1 :=
    (Nat.le_pow_iff_clog_le (by norm_num)).mp hps
  have h2 : t < Nat.clog 2 (2 ^ t + 1) :=
    (Nat.pow_lt_iff_lt_clog (by norm_num)).mp (by omega)
  omega

theorem clog2_succ_of_ne_pow {j : Nat} (hj : 1 ≤ j)
    (hnp : ∀ t, j ≠ 2 ^ t) :
    Nat.clog 2 (j + 1) = Nat.clog 2 j := by
  have hle : j ≤ 2 ^ Nat.clog 2 j := Nat.le_pow_clog (by norm_num) j
  have hlt : j < 2 ^ Nat.clog 2 j := lt_of_le_of_ne hle (hnp _)
  have h1 : Nat.clog 2 (j + 1) ≤ Nat.clog 2 j :=
    (Nat.le_pow_iff_clog_le (by norm_num)).mp (by omega)
  have h2 : Nat.clog 2 j ≤ Nat.clog 2 (j + 1) :=
    Nat.clog_mono_right _ (by omega)
  omega

/-! ## The functional reference builder

`buildF n l` is the canonical recursive form of the split performed by
`build` (source lines 404-499): a subtree of `n` nodes takes
`(n-1)/2` nodes for its less subtree, one root, and the rest for its
greater subtree, with the stored balance factor of a subtree of `n` nodes
determined by the power-of-two test of line 469. -/

/-- The root handle of an abstract tree (0 for the empty tree). -/
def rootH : Tree → Handle
  | .nil => null
  | .node _ p _ _ => p

/-- The balance factor `build` stores at the root of a subtree of `n`
nodes: a one-node subtree gets 0 (line 447), and a reattached (or
two-node) subtree gets 1 exactly when its node count is a power of two
(lines 435 and 469-474). -/
def bfOf (n : Nat) : Int :=
  if n = 1 then 0 else if n &&& (n - 1) = 0 then 1 else 0

/-- The recursive shape of the tree `build` constructs from a presorted
sequence. -/
def buildF : Nat → List Handle → Tree × List Handle
  | 0, l => (.nil, l)
  | n + 1, l =>
    let a := n / 2
    let p1 := buildF a l
    match p1.2 with
    | [] => (.nil, [])
    | x :: l2 =>
      let p2 := buildF (n - a) l2
      (.node p1.1 x (bfOf (n + 1)) p2.1, p2.2)
  termination_by n _ => n
  decreasing_by all_goals omega

/-- Number of base subtrees (of one or two nodes) the builder constructs
for a subtree of `m` nodes; each costs one iteration of the outer loop. -/
def leaves (m : Nat) : Nat :=
  if m ≤ 2 then 1
  else leaves ((m - 1) / 2) + leaves (m - 1 - (m - 1) / 2)
  termination_by m
  decreasing_by all_goals omega

/-- Every level full except possibly the deepest, excess pushed to the
greater side: at each node the less subtree holds exactly
`(size - 1) / 2` of the nodes. -/
def splitShape : Tree → Prop
  | .nil => True
  | .node l _ _ r =>
      l.size = (l.size + r.size) / 2 ∧ splitShape l ∧ splitShape r

/-- Every stored balance factor is 0 or +1. -/
def bf01 : Tree → Prop
  | .nil => True
  | .node l _ b r => (b = 0 ∨ b = 1) ∧ bf01 l ∧ bf01 r

theorem Tree.size_eq_length_handles : ∀ t : Tree, t.size = t.handles.length
  | .nil => rfl
  | .node l _ _ r => by
    rw [Tree.size, Tree.handles, List.length_append, List.length_cons,
      Tree.size_eq_length_handles l, Tree.size_eq_length_handles r]
    omega

/-- The builder consumes exactly its node count from the input and lays
the consumed prefix out in order. -/
theorem buildF_handles : ∀ (n : Nat) (l : List Handle), n ≤ l.length →
    (buildF n l).2 = l.drop n ∧ (buildF n l).1.handles = l.take n := by
  intro n
  induction n using Nat.strong_induction_on with
  | _ n ih =>
    intro l hlen
    match n with
    | 0 => simp [buildF, Tree.handles]
    | n + 1 =>
      rw [buildF]
      have ha : n / 2 ≤ l.length := by omega
      obtain ⟨hd1, hh1⟩ := ih (n / 2) (by omega) l ha
      have hlen1 : (buildF (n / 2) l).2.length = l.length - n / 2 := by
        rw [hd1, List.length_drop]
      obtain ⟨x, l2, hxl⟩ : ∃ x l2, (buildF (n / 2) l).2 = x :: l2 := by
        rcases hd : (buildF (n / 2) l).2 with _ | ⟨x, l2⟩
        · rw [hd] at hlen1; simp at hlen1; omega
        · exact ⟨x, l2, rfl⟩
      have hl2len : l2.length = l.length - n / 2 - 1 := by
        rw [hxl] at hlen1; simp at hlen1; omega
      obtain ⟨hd2, hh2⟩ := ih (n - n / 2) (by omega) l2 (by omega)
      rw [hxl]
      simp only [Tree.handles]
      constructor
      · rw [hd2]
        have : x :: l2 = l.drop (n / 2) := by rw [← hxl, hd1]
        have hx2 : l2 = l.drop (n / 2 + 1) := by
          have := congrArg (List.drop 1) this
          simpa using this
        rw [hx2, List.drop_drop]
        congr 1
        omega
      · rw [hh1, hh2]
        have hx1 : x :: l2 = l.drop (n / 2) := by rw [← hxl, hd1]
        have hsplit : n + 1 = n / 2 + (n - n / 2 + 1) := by omega
        rw [hsplit, List.take_add, ← hx1, List.take_succ_cons]

theorem bfOf_cases (n : Nat) : bfOf n = 0 ∨ bfOf n = 1 := by
  unfold bfOf
  split
  · exact Or.inl rfl
  · split
    · exact Or.inr rfl
    · exact Or.inl rfl

/-- The canonical build shape has height `clog 2 (n+1)`, satisfies the
AVL invariant, and stores only balance factors 0 and 1. -/
theorem buildF_height_avl : ∀ (n : Nat) (l : List Handle), n ≤ l.length →
    (buildF n l).1.height = Nat.clog 2 (n + 1) ∧ (buildF n l).1.avl ∧
      bf01 (buildF n l).1 := by
  intro n
  induction n using Nat.strong_induction_on with
  | _ n ih =>
    intro l hlen
    match n with
    | 0 => simp [buildF, Tree.height, Tree.avl, bf01, Nat.clog_one_right]
    | n + 1 =>
      rw [buildF]
      have ha : n / 2 ≤ l.length := by omega
      obtain ⟨hd1, hh1⟩ := buildF_handles (n / 2) l ha
      obtain ⟨x, l2, hxl⟩ : ∃ x l2, (buildF (n / 2) l).2 = x :: l2 := by
        rcases hd : (buildF (n / 2) l).2 with _ | ⟨x, l2⟩
        · rw [hd] at hd1
          have := congrArg List.length hd1
          simp at this
          omega
        · exact ⟨x, l2, rfl⟩
      have hl2len : l.length - n / 2 = l2.length + 1 := by
        have h1 := hxl ▸ hd1
        have := congrArg List.length h1
        simp at this
        omega
      obtain ⟨ihh1, ihv1, ihb1⟩ := ih (n / 2) (by omega) l ha
      obtain ⟨ihh2, ihv2, ihb2⟩ := ih (n - n / 2) (by omega) l2 (by omega)
      rw [hxl]
      simp only [Tree.height, Tree.avl, bf01]
      have hmono : Nat.clog 2 (n / 2 + 1) ≤ Nat.clog 2 (n - n / 2 + 1) :=
        Nat.clog_mono_right _ (by omega)
      have hmax : max (buildF (n / 2) l).1.height
          (buildF (n - n / 2) l2).1.height
          = Nat.clog 2 (n - n / 2 + 1) := by
        rw [ihh1, ihh2]
        omega
      have hstep : Nat.clog 2 (n + 1 + 1) = Nat.clog 2 (n - n / 2 + 1) + 1 := by
        have := @clog2_half_succ (n + 1) (by omega)
        have he : (n + 1) / 2 = n - n / 2 := by omega
        rw [he] at this
        exact this
      have hbfeq : bfOf (n + 1)
          = ((buildF (n - n / 2) l2).1.height : Int)
            - ((buildF (n / 2) l).1.height : Int) := by
        rw [ihh1, ihh2]
        rcases Nat.eq_zero_or_pos n with rfl | hn
        · simp [bfOf]
        rcases Nat.even_or_odd n with he | ho
        · -- n even: equal subtree sizes, and n+1 is odd so not a power
          have heq : n / 2 = n - n / 2 := by
            obtain ⟨c, rfl⟩ := he
            omega
          have hnp : ¬ (n + 1) &&& (n + 1 - 1) = 0 := by
            rw [land_pred_eq_zero_iff (by omega)]
            rintro ⟨t, ht⟩
            match t with
            | 0 => omega
            | t + 1 =>
              rw [pow_succ] at ht
              obtain ⟨c, rfl⟩ := he
              omega
          have hbf0 : bfOf (n + 1) = 0 := by
            unfold bfOf
            rw [if_neg (by omega), if_neg hnp]
          rw [← heq, hbf0]
          exact (sub_self _).symm
        · -- n odd: the greater subtree has one more node
          have hb1 : 1 ≤ n - n / 2 := by omega
          have heq : n - n / 2 = n / 2 + 1 := by
            obtain ⟨c, hc⟩ := ho
            omega
          by_cases hp : ∃ u, n - n / 2 = 2 ^ u
          · obtain ⟨u, hu⟩ := hp
            have h1 : Nat.clog 2 (n - n / 2 + 1) = u + 1 := by
              rw [hu, clog2_succ_pow]
            have h2 : Nat.clog 2 (n / 2 + 1) = u := by
              rw [show n / 2 + 1 = 2 ^ u from by omega]
              exact Nat.clog_pow 2 u (by norm_num)
            have hpow : (n + 1) &&& (n + 1 - 1) = 0 := by
              rw [land_pred_eq_zero_iff (by omega)]
              refine ⟨u + 1, ?_⟩
              rw [pow_succ]
              omega
            have hbf1 : bfOf (n + 1) = 1 := by
              unfold bfOf
              rw [if_neg (by omega), if_pos hpow]
            rw [h1, h2, hbf1]
            push_cast
            ring
          · push_neg at hp
            have h1 : Nat.clog 2 (n - n / 2 + 1) = Nat.clog 2 (n - n / 2) :=
              clog2_succ_of_ne_pow hb1 hp
            have h2 : n / 2 + 1 = n - n / 2 := by omega
            have hnp : ¬ (n + 1) &&& (n + 1 - 1) = 0 := by
              rw [land_pred_eq_zero_iff (by omega)]
              rintro ⟨t, ht⟩
              match t with
              | 0 => omega
              | t + 1 =>
                rw [pow_succ] at ht
                exact hp t (by omega)
            have hbf0 : bfOf (n + 1) = 0 := by
              unfold bfOf
              rw [if_neg (by omega), if_neg hnp]
            rw [h1, h2, hbf0]
            exact (sub_self _).symm
      refine ⟨?_, ⟨ihv1, ihv2, hbfeq, ?_⟩, ?_, ihb1, ihb2⟩
      · rw [hmax, hstep]
      · rcases bfOf_cases (n + 1) with h | h <;> rw [h] <;> decide
      · exact bfOf_cases (n + 1)

/-- The canonical build shape splits each subtree with the floor half on
the less side, and has exactly `n` nodes. -/
theorem buildF_splitShape : ∀ (n : Nat) (l : List Handle), n ≤ l.length →
    splitShape (buildF n l).1 ∧ (buildF n l).1.size = n := by
  intro n
  induction n using Nat.strong_induction_on with
  | _ n ih =>
    intro l hlen
    match n with
    | 0 => simp [buildF, splitShape, Tree.size]
    | n + 1 =>
      rw [buildF]
      have ha : n / 2 ≤ l.length := by omega
      obtain ⟨hd1, hh1⟩ := buildF_handles (n / 2) l ha
      obtain ⟨x, l2, hxl⟩ : ∃ x l2, (buildF (n / 2) l).2 = x :: l2 := by
        rcases hd : (buildF (n / 2) l).2 with _ | ⟨x, l2⟩
        · rw [hd] at hd1
          have := congrArg List.length hd1
          simp at this
          omega
        · exact ⟨x, l2, rfl⟩
      have hl2len : l.length - n / 2 = l2.length + 1 := by
        have h1 := hxl ▸ hd1
        have := congrArg List.length h1
        simp at this
        omega
      obtain ⟨ihs1, ihz1⟩ := ih (n / 2) (by omega) l ha
      obtain ⟨ihs2, ihz2⟩ := ih (n - n / 2) (by omega) l2 (by omega)
      rw [hxl]
      simp only [splitShape, Tree.size]
      refine ⟨⟨?_, ihs1, ihs2⟩, ?_⟩
      · rw [ihz1, ihz2]; omega
      · rw [ihz1, ihz2]; omega

/-! ## Unfolding lemmas for the build loops -/

theorem buildSplitLoop_le2 {m d : Nat} {br rem : Nat → Bool} (h : m ≤ 2) :
    buildSplitLoop m d br rem = (m, d, br, rem) := by
  rw [buildSplitLoop]
  simp [Nat.not_lt.mpr h]

theorem buildSplitLoop_gt2 {m d : Nat} {br rem : Nat → Bool} (h : 2 < m) :
    buildSplitLoop m d br rem
      = buildSplitLoop ((m - 1) / 2) (d + 1) (upd br d false)
          (upd rem d ((m - 1) % 2 = 1)) := by
  rw [buildSplitLoop]
  simp [h]

theorem buildUnwindLoop_zero {rem br : Nat → Bool} {s : Store}
    {h lp : Handle} {m : Nat} :
    buildUnwindLoop rem br s 0 h lp m = some (s, 0, h, lp, m) := by
  rw [buildUnwindLoop]
  simp

theorem buildUnwindLoop_break {rem br : Nat → Bool} {s : Store}
    {d : Nat} {h lp : Handle} {m : Nat} (hbr : br d = false) :
    buildUnwindLoop rem br s (d + 1) h lp m = some (s, d, h, lp, m) := by
  rw [buildUnwindLoop]
  simp [hbr]

theorem buildUnwindLoop_pop {rem br : Nat → Bool} {s : Store}
    {d : Nat} {h lp : Handle} {m : Nat} (hbr : br d = true) :
    buildUnwindLoop rem br s (d + 1) h lp m
      = buildUnwindLoop rem br
          (if ((2 * m + (if rem d then 0 else 1)) &&&
                ((2 * m + (if rem d then 0 else 1)) - 1)) ≠ 0
            then set_bf (set_gt s lp h) lp 0
            else set_bf (set_gt s lp h) lp 1)
          d lp ((s lp).gt) (2 * m + (if rem d then 0 else 1)) := by
  rw [buildUnwindLoop]
  simp [hbr, read_error, get_gt]

theorem leaves_le2 {m : Nat} (h : m ≤ 2) : leaves m = 1 := by
  rw [leaves]
  simp [h]

theorem leaves_gt2 {m : Nat} (h : 2 < m) :
    leaves m = leaves ((m - 1) / 2) + leaves (m - 1 - (m - 1) / 2) := by
  rw [leaves]
  simp [Nat.not_le.mpr h]

theorem leaves_pos : ∀ m : Nat, 1 ≤ leaves m := by
  intro m
  induction m using Nat.strong_induction_on with
  | _ m ih =>
    by_cases h : m ≤ 2
    · rw [leaves_le2 h]
    · rw [leaves_gt2 (by omega)]
      have := ih ((m - 1) / 2) (by omega)
      omega

theorem take_decomp {l p2 : List Handle} {m a b : Nat} {x : Handle}
    (hm : m = a + b + 1) (hx : l.drop a = x :: p2) :
    l.take m = l.take a ++ x :: p2.take b := by
  rw [hm, show a + b + 1 = a + (b + 1) from rfl, List.take_add, hx,
    List.take_succ_cons]

theorem buildOuterLoop_split {nn : Nat} {s : Store} {l : List Handle}
    {m d : Nat} {br rem : Nat → Bool} {lp : Handle} {f : Nat} (h : 2 < m) :
    buildOuterLoop nn s l m d br rem lp (f + 1)
      = buildOuterLoop nn s l ((m - 1) / 2) (d + 1) (upd br d false)
          (upd rem d ((m - 1) % 2 = 1)) lp (f + 1) := by
  simp only [buildOuterLoop.eq_def]
  rw [buildSplitLoop_gt2 h]

theorem unwindCont_out_cons {nn : Nat} {rem br : Nat → Bool}
    {s s1 : Store} {p : List Handle} {depth d1 : Nat}
    {h lp h1 lp1 h2 : Handle} {m m1 g : Nat}
    (hu : buildUnwindLoop rem br s depth h lp m = some (s1, d1, h1, lp1, m1))
    (hne : m1 ≠ nn) :
    unwindCont nn rem br s (h2 :: p) depth h lp m g
      = buildOuterLoop nn (set_gt (set_lt s1 h2 h1) h2 lp1) p
          (m1 + if rem d1 then 1 else 0) (d1 + 1) (upd br d1 true) rem
          h2 g := by
  rw [unwindCont, hu]
  simp [hne]

theorem unwindCont_out_done {nn : Nat} {rem br : Nat → Bool}
    {s s1 : Store} {p : List Handle} {depth d1 : Nat}
    {h lp h1 lp1 : Handle} {m m1 g : Nat}
    (hu : buildUnwindLoop rem br s depth h lp m = some (s1, d1, h1, lp1, m1))
    (heq : m1 = nn) :
    unwindCont nn rem br s p depth h lp m g = some (s1, h1) := by
  rw [unwindCont, hu]
  simp [heq]

/-- Simulation of one builder segment: started with `num_sub = m` at depth
`d`, the outer loop lays out exactly the canonical subtree `buildF m l`
over the first `m` input nodes, touching no other handle, and proceeds
into the unwinding continuation at depth `d` with the subtree root in
hand, having spent one outer-loop iteration per base subtree. -/
theorem build_segment : ∀ (m : Nat), 1 ≤ m → ∀ (l : List Handle) (d : Nat)
    (br rem : Nat → Bool) (s : Store) (lp : Handle),
    m ≤ l.length →
    (∀ x ∈ l.take m, x ≠ null) → (l.take m).Nodup →
    ∃ s' br' rem',
      (∀ q, q ∉ l.take m → s' q = s q) ∧
      ReprT s' (rootH (buildF m l).1) (buildF m l).1 ∧
      (∀ i, i < d → br' i = br i) ∧
      (∀ i, i < d → rem' i = rem i) ∧
      ∀ nn g, m ≤ nn →
        buildOuterLoop nn s l m d br rem lp (leaves m + g)
          = unwindCont nn rem' br' s' (l.drop m) d (rootH (buildF m l).1)
              lp m g := by
  intro m
  induction m using Nat.strong_induction_on with
  | _ m ih =>
    intro hm l d br rem s lp hlen h0 hnd
    match m with
    | 1 =>
      rcases l with _ | ⟨x, p'⟩
      · simp at hlen
      have hx0 : x ≠ null := h0 x (by simp)
      have hbF : buildF 1 (x :: p') = (.node .nil x 0 .nil, p') := by
        norm_num [buildF, bfOf]
      refine ⟨set_bf (set_gt (set_lt s x null) x null) x 0, br, rem,
        ?_, ?_, fun i _ => rfl, fun i _ => rfl, ?_⟩
      · intro q hq
        simp at hq
        simp [set_bf, set_gt, set_lt, hq]
      · rw [hbF]
        refine ⟨rfl, hx0, ?_, ?_, ?_⟩ <;>
          simp [set_bf, set_gt, set_lt, ReprT]
      · intro nn g hnn
        rw [leaves_le2 (by norm_num), show 1 + g = g + 1 from by omega, hbF]
        simp only [buildOuterLoop.eq_def]
        rw [buildSplitLoop_le2 (by norm_num)]
        norm_num [rootH, buildBase]
    | 2 =>
      rcases l with _ | ⟨x, l1⟩
      · simp at hlen
      rcases l1 with _ | ⟨y, p'⟩
      · simp at hlen
      have hx0 : x ≠ null := h0 x (by simp)
      have hy0 : y ≠ null := h0 y (by simp)
      have hxy : x ≠ y := by
        simp [List.take, List.nodup_cons] at hnd
        exact hnd
      have hbF : buildF 2 (x :: y :: p')
          = (.node .nil x 1 (.node .nil y 0 .nil), p') := by
        norm_num [buildF, bfOf]
      refine ⟨set_bf (set_lt (set_gt
          (set_bf (set_gt (set_lt s y null) y null) y 0) x y) x null) x 1,
        br, rem, ?_, ?_, fun i _ => rfl, fun i _ => rfl, ?_⟩
      · intro q hq
        simp at hq
        simp [set_bf, set_gt, set_lt, hq.1, hq.2]
      · rw [hbF]
        refine ⟨rfl, hx0, ?_, ?_, ?_, hy0, ?_, ?_, ?_⟩ <;>
          simp [set_bf, set_gt, set_lt, ReprT, hxy, Ne.symm hxy]
      · intro nn g hnn
        rw [leaves_le2 (by norm_num), show 1 + g = g + 1 from by omega, hbF]
        simp only [buildOuterLoop.eq_def]
        rw [buildSplitLoop_le2 (by norm_num)]
        norm_num [rootH, buildBase]
    | k + 3 =>
      have hd1 := (buildF_handles ((k + 2) / 2) l (by omega)).1
      have hh1 := (buildF_handles ((k + 2) / 2) l (by omega)).2
      obtain ⟨x, p2, hx⟩ : ∃ x p2, l.drop ((k + 2) / 2) = x :: p2 := by
        rcases hd : l.drop ((k + 2) / 2) with _ | ⟨x, p2⟩
        · have := congrArg List.length hd
          simp at this
          omega
        · exact ⟨x, p2, rfl⟩
      have hxl : (buildF ((k + 2) / 2) l).2 = x :: p2 := by rw [hd1, hx]
      have hp2len : p2.length = l.length - (k + 2) / 2 - 1 := by
        have := congrArg List.length hx
        simp at this
        omega
      have hp2d : p2 = l.drop ((k + 2) / 2 + 1) := by
        have h1 := congrArg List.tail hx
        simpa [List.tail_drop] using h1.symm
      have htake : l.take (k + 3)
          = l.take ((k + 2) / 2) ++ x :: p2.take (k + 2 - (k + 2) / 2) :=
        take_decomp (by omega) hx
      rw [htake] at hnd h0
      rw [List.nodup_append] at hnd
      obtain ⟨hnd1, hnd2, hdisj⟩ := hnd
      rw [List.nodup_cons] at hnd2
      obtain ⟨hxp2, hnd2⟩ := hnd2
      have hx0 : x ≠ null :=
        h0 x (List.mem_append.mpr (Or.inr (List.mem_cons.mpr (Or.inl rfl))))
      have h0a : ∀ q ∈ l.take ((k + 2) / 2), q ≠ null :=
        fun q hq => h0 q (List.mem_append.mpr (Or.inl hq))
      have h0b : ∀ q ∈ p2.take (k + 2 - (k + 2) / 2), q ≠ null :=
        fun q hq =>
          h0 q (List.mem_append.mpr (Or.inr (List.mem_cons.mpr (Or.inr hq))))
      have hxta : x ∉ l.take ((k + 2) / 2) := fun hc =>
        hdisj hc (List.mem_cons.mpr (Or.inl rfl))
      have hdisj2 : ∀ q ∈ l.take ((k + 2) / 2),
          q ∉ p2.take (k + 2 - (k + 2) / 2) := fun q hq hc =>
        hdisj hq (List.mem_cons.mpr (Or.inr hc))
      obtain ⟨sa, bra, rema, framea, repra, bragree, remagree, eqa⟩ :=
        ih ((k + 2) / 2) (by omega) (by omega) l (d + 1) (upd br d false)
          (upd rem d ((k + 2) % 2 = 1)) s lp (by omega) h0a hnd1
      obtain ⟨sb, brb, remb, frameb, reprb, brbagree, rembagree, eqb⟩ :=
        ih (k + 2 - (k + 2) / 2) (by omega) (by omega) p2 (d + 1)
          (upd bra d true) rema
          (set_gt (set_lt sa x (rootH (buildF ((k + 2) / 2) l).1)) x lp) x
          (by omega) h0b hnd2
      have hhtb := (buildF_handles (k + 2 - (k + 2) / 2) p2 (by omega)).2
      have hdb := (buildF_handles (k + 2 - (k + 2) / 2) p2 (by omega)).1
      have hsbx : sb x
          = (set_gt (set_lt sa x (rootH (buildF ((k + 2) / 2) l).1)) x lp)
              x :=
        frameb x hxp2
      have hs2x : (set_gt (set_lt sa x (rootH (buildF ((k + 2) / 2) l).1))
            x lp) x
          = ⟨rootH (buildF ((k + 2) / 2) l).1, lp, (sa x).bf⟩ := by
        simp [set_gt, set_lt]
      have hbF : buildF (k + 3) l
          = (.node (buildF ((k + 2) / 2) l).1 x (bfOf (k + 3))
              (buildF (k + 2 - (k + 2) / 2) p2).1,
             (buildF (k + 2 - (k + 2) / 2) p2).2) := by
        rw [show k + 3 = (k + 2) + 1 from rfl, buildF, hxl]
      have hbF1 : (buildF (k + 3) l).1
          = .node (buildF ((k + 2) / 2) l).1 x (bfOf (k + 3))
              (buildF (k + 2 - (k + 2) / 2) p2).1 := by
        rw [hbF]
      have hremd : rema d = decide ((k + 2) % 2 = 1) := by
        rw [remagree d (by omega)]
        simp [upd]
      have hbrad : bra d = false := by
        rw [bragree d (by omega)]
        simp [upd]
      have hbrbd : brb d = true := by
        rw [brbagree d (by omega)]
        simp [upd]
      have hrembd : remb d = rema d := rembagree d (by omega)
      have hchain : ∀ q, q ∉ l.take ((k + 2) / 2) → q ≠ x →
          q ∉ p2.take (k + 2 - (k + 2) / 2) →
          set_bf (set_gt sb x
              (rootH (buildF (k + 2 - (k + 2) / 2) p2).1)) x
            (bfOf (k + 3)) q = s q := by
        intro q hq1 hq2 hq3
        have e4 : set_bf (set_gt sb x
              (rootH (buildF (k + 2 - (k + 2) / 2) p2).1)) x
            (bfOf (k + 3)) q = sb q := by
          simp [set_bf, set_gt, hq2]
        have e2 : (set_gt (set_lt sa x
              (rootH (buildF ((k + 2) / 2) l).1)) x lp) q = sa q := by
          simp [set_gt, set_lt, hq2]
        rw [e4, frameb q hq3, e2, framea q hq1]
      have hchain2 : ∀ q, q ≠ x →
          q ∉ p2.take (k + 2 - (k + 2) / 2) →
          set_bf (set_gt sb x
              (rootH (buildF (k + 2 - (k + 2) / 2) p2).1)) x
            (bfOf (k + 3)) q = sa q := by
        intro q hq2 hq3
        have e4 : set_bf (set_gt sb x
              (rootH (buildF (k + 2 - (k + 2) / 2) p2).1)) x
            (bfOf (k + 3)) q = sb q := by
          simp [set_bf, set_gt, hq2]
        have e2 : (set_gt (set_lt sa x
              (rootH (buildF ((k + 2) / 2) l).1)) x lp) q = sa q := by
          simp [set_gt, set_lt, hq2]
        rw [e4, frameb q hq3, e2]
      refine ⟨set_bf (set_gt sb x
          (rootH (buildF (k + 2 - (k + 2) / 2) p2).1)) x (bfOf (k + 3)),
        brb, remb, ?_, ?_, ?_, ?_, ?_⟩
      · -- frame
        intro q hq
        rw [htake] at hq
        simp only [List.mem_append, List.mem_cons, not_or] at hq
        exact hchain q hq.1 hq.2.1 hq.2.2
      · -- representation
        rw [hbF1]
        have hlt4 : (set_bf (set_gt sb x
              (rootH (buildF (k + 2 - (k + 2) / 2) p2).1)) x
            (bfOf (k + 3)) x).lt = rootH (buildF ((k + 2) / 2) l).1 := by
          simp [set_bf, set_gt, set_lt, hsbx, hs2x]
        have hgt4 : (set_bf (set_gt sb x
              (rootH (buildF (k + 2 - (k + 2) / 2) p2).1)) x
            (bfOf (k + 3)) x).gt
            = rootH (buildF (k + 2 - (k + 2) / 2) p2).1 := by
          simp [set_bf, set_gt]
        refine ⟨rfl, hx0, by simp [set_bf], ?_, ?_⟩
        · rw [hlt4]
          refine ReprT_congr repra ?_
          intro q hq
          rw [hh1] at hq
          exact hchain2 q (fun e => hxta (e ▸ hq)) (hdisj2 q hq)
        · rw [hgt4]
          refine ReprT_congr reprb ?_
          intro q hq
          rw [hhtb] at hq
          have hq2 : q ≠ x := fun e => hxp2 (e ▸ hq)
          simp [set_bf, set_gt, hq2]
      · -- branch bits below d
        intro i hi
        rw [brbagree i (by omega)]
        have : i ≠ d := by omega
        simp only [upd, if_neg this]
        rw [bragree i (by omega)]
        simp only [upd, if_neg this]
      · -- remainder bits below d
        intro i hi
        rw [rembagree i (by omega)]
        rw [remagree i (by omega)]
        have : i ≠ d := by omega
        simp only [upd, if_neg this]
      · -- the execution equation
        intro nn g hnn
        have hroot : rootH (buildF (k + 3) l).1 = x := by
          rw [hbF1]
          rfl
        rw [hroot]
        have hle : leaves (k + 3)
            = leaves ((k + 2) / 2) + leaves (k + 2 - (k + 2) / 2) := by
          have h1 := @leaves_gt2 (k + 3) (by omega)
          rw [(by omega : k + 3 - 1 = k + 2)] at h1
          exact h1
        obtain ⟨F, hF⟩ : ∃ F, leaves ((k + 2) / 2) = F + 1 :=
          ⟨leaves ((k + 2) / 2) - 1,
            by have := leaves_pos ((k + 2) / 2); omega⟩
        have hfe : leaves (k + 3) + g
            = (F + (leaves (k + 2 - (k + 2) / 2) + g)) + 1 := by omega
        rw [hfe]
        have hsp := @buildOuterLoop_split nn s l (k + 3) d br rem lp
          (F + (leaves (k + 2 - (k + 2) / 2) + g)) (by omega)
        rw [(by omega : k + 3 - 1 = k + 2)] at hsp
        rw [hsp]
        rw [show (F + (leaves (k + 2 - (k + 2) / 2) + g)) + 1
            = leaves ((k + 2) / 2) + (leaves (k + 2 - (k + 2) / 2) + g)
          from by omega]
        rw [eqa nn (leaves (k + 2 - (k + 2) / 2) + g) (by omega)]
        rw [hx]
        rw [@unwindCont_out_cons nn _ _ _ _ _ _ _ _ _ _ _ _ _ _
          (leaves (k + 2 - (k + 2) / 2) + g)
          (buildUnwindLoop_break hbrad)
          (show (k + 2) / 2 ≠ nn from by omega)]
        have hnum : (k + 2) / 2 + (if rema d then 1 else 0)
            = k + 2 - (k + 2) / 2 := by
          rw [hremd]
          simp only [decide_eq_true_eq]
          by_cases hp : (k + 2) % 2 = 1
          · rw [if_pos hp]; omega
          · rw [if_neg hp]; omega
        rw [hnum]
        rw [eqb nn g (show k + 2 - (k + 2) / 2 ≤ nn from by omega)]
        have hdropm : p2.drop (k + 2 - (k + 2) / 2) = l.drop (k + 3) := by
          rw [hp2d, List.drop_drop]
          congr 1
          omega
        rw [hdropm]
        have hu2 : buildUnwindLoop remb brb sb (d + 1)
              (rootH (buildF (k + 2 - (k + 2) / 2) p2).1) x
              (k + 2 - (k + 2) / 2)
            = buildUnwindLoop remb brb
                (set_bf (set_gt sb x
                  (rootH (buildF (k + 2 - (k + 2) / 2) p2).1)) x
                  (bfOf (k + 3)))
                d x lp (k + 3) := by
          rw [buildUnwindLoop_pop hbrbd]
          have hM : 2 * (k + 2 - (k + 2) / 2) + (if remb d then 0 else 1)
              = k + 3 := by
            rw [hrembd, hremd]
            simp only [decide_eq_true_eq]
            by_cases hp : (k + 2) % 2 = 1
            · rw [if_pos hp]; omega
            · rw [if_neg hp]; omega
          rw [hM]
          have hgt : (sb x).gt = lp := by rw [hsbx, hs2x]
          rw [hgt]
          have hs31 : k + 3 - 1 = k + 2 := by omega
          rw [hs31]
          by_cases hpw : ((k + 3) &&& (k + 2)) = 0
          · rw [if_neg (by simp [hpw]),
              show bfOf (k + 3) = 1 from by
                unfold bfOf
                rw [if_neg (by omega), hs31, if_pos hpw]]
          · rw [if_pos hpw,
              show bfOf (k + 3) = 0 from by
                unfold bfOf
                rw [if_neg (by omega), hs31, if_neg hpw]]
        rw [unwindCont, unwindCont, hu2]

/-- C4: for every n >= 1 and every ascending sequence of n distinct non-null
nodes (no read error can occur), `build(seq, n)` returns true and produces a
tree whose in-order traversal is exactly the input sequence, whose height is
ceil(log2(n+1)), in which every level is full except possibly the deepest
with excess nodes pushed to the greater side, and in which every stored
balance factor is 0 or +1. -/
theorem C4_build (key : Handle → Int) (n : Nat) (p : List Handle)
    (r0 : Handle) (s0 : Store) (g : Nat)
    (hn : 1 ≤ n) (hlen : p.length = n)
    (h0 : ∀ x ∈ p, x ≠ null) (hnd : p.Nodup)
    (hasc : List.Chain' (fun a b => key a < key b) p) :
    ∃ t st',
      build ⟨r0, s0⟩ p n (leaves n + g) = some (true, st') ∧
      ReprT st'.s st'.root t ∧ t.handles = p ∧
      t.height = Nat.clog 2 (n + 1) ∧ splitShape t ∧ bf01 t := by
  have htake : p.take n = p := by rw [← hlen, List.take_length]
  have hdrop : p.drop n = [] := by rw [← hlen, List.drop_length]
  obtain ⟨s', br', rem', hframe, hrepr, hbr, hrem, hloop⟩ :=
    build_segment n hn p 0 (fun _ => false) (fun _ => false) s0 null
      (by omega) (by rw [htake]; exact h0) (by rw [htake]; exact hnd)
  have heq := hloop n g (le_refl n)
  have hdone : unwindCont n rem' br' s' (p.drop n) 0
      (rootH (buildF n p).1) null n g
      = some (s', rootH (buildF n p).1) :=
    unwindCont_out_done buildUnwindLoop_zero rfl
  refine ⟨(buildF n p).1, ⟨rootH (buildF n p).1, s'⟩, ?_, hrepr, ?_, ?_, ?_, ?_⟩
  · rw [build, if_neg (show ¬ n = 0 from by omega), heq, hdone]
  · rw [(buildF_handles n p (by omega)).2, htake]
  · exact (buildF_height_avl n p (by omega)).1
  · exact (buildF_splitShape n p (by omega)).1
  · exact (buildF_height_avl n p (by omega)).2.2

/-- Witness for C4: a concrete build of ten ascending nodes. -/
theorem C4_build_witness :
    ∃ t st',
      build ⟨null, fun _ => ⟨0, 0, 0⟩⟩ [1, 2, 3, 4, 5, 6, 7, 8, 9, 10] 10
          (leaves 10 + 0) = some (true, st') ∧
      ReprT st'.s st'.root t ∧
      t.handles = [1, 2, 3, 4, 5, 6, 7, 8, 9, 10] ∧
      t.height = Nat.clog 2 11 ∧ splitShape t ∧ bf01 t :=
  C4_build (fun h => (h : Int)) 10 [1, 2, 3, 4, 5, 6, 7, 8, 9, 10] null
    (fun _ => ⟨0, 0, 0⟩) 0 (by decide) (by decide) (by decide) (by decide)
    (by norm_num [List.chain'_cons, List.chain'_singleton])

/-! ## Iterator enumeration (claim C8)

The iterator is abstracted through the path it stores: `curAt` reads the
node a valid iterator of a given depth dereferences, `descendLeast` and
`pushLeft` mirror the two all-left descents on the represented tree, `gH`
is the rightmost node, and `iterN` runs `operator ++` a given number of
times collecting the handles dereferenced along the way. -/

/-- The node a valid iterator at depth `d` dereferences: the tree root at
depth 0, otherwise the path entry just below (source lines 236-242). -/
def curAt (t : AvlSt) (ph : Nat → Handle) : Nat → Handle
  | 0 => t.root
  | d + 1 => ph d

/-- Mirror of the all-left descent of `operator ++` (source lines
266-278) on the represented tree: starting at the root of `t` at depth
`d`, push the left spine below it. -/
def descendLeast : Tree → Nat → (Nat → Bool) → (Nat → Handle) →
    Nat × (Nat → Bool) × (Nat → Handle)
  | .nil, d, br, ph => (d, br, ph)
  | .node .nil _ _ _, d, br, ph => (d, br, ph)
  | .node (.node l2 q2 b2 r2) _ _ _, d, br, ph =>
      descendLeast (.node l2 q2 b2 r2) (d + 1) (upd br d false)
        (updH ph d q2)

/-- Mirror of the descent of `start_iter_least` (source lines 198-209):
records every node of the left spine of `t`, the first at path index `k`. -/
def pushLeft : Tree → Nat → (Nat → Handle) → Nat × (Nat → Handle)
  | .nil, k, ph => (k, ph)
  | .node l q _ _, k, ph => pushLeft l (k + 1) (updH ph k q)

/-- The greatest (rightmost) node of an abstract tree, 0 for the empty
tree. -/
def gH : Tree → Handle
  | .nil => null
  | .node _ q _ .nil => q
  | .node _ _ _ (.node rl rq rb rr) => gH (.node rl rq rb rr)

/-- `n` applications of `operator ++`, collecting the handle the iterator
dereferences before each application and returning the final iterator. -/
def iterN (t : AvlSt) (fuel : Nat) : Iter → Nat → Option (List Handle × Iter)
  | it, 0 => some ([], it)
  | it, n + 1 =>
    match iterInc t it fuel with
    | none => none
    | some it2 =>
      match iterN t fuel it2 n with
      | none => none
      | some (L, itf) => some (iterDeref t it :: L, itf)

theorem iterDeref_some {t : AvlSt} {br : Nat → Bool} {ph : Nat → Handle}
    (d : Nat) : iterDeref t ⟨some d, br, ph⟩ = curAt t ph d := by
  cases d <;> rfl

theorem iterN_zero {t : AvlSt} {fuel : Nat} {it : Iter} :
    iterN t fuel it 0 = some ([], it) := rfl

theorem iterN_succ {t : AvlSt} {fuel : Nat} {it it2 : Iter} {n : Nat}
    {L : List Handle} {itf : Iter}
    (h1 : iterInc t it fuel = some it2)
    (h2 : iterN t fuel it2 n = some (L, itf)) :
    iterN t fuel it (n + 1) = some (iterDeref t it :: L, itf) := by
  rw [iterN]
  simp only [h1, h2]

theorem iterN_add {t : AvlSt} {fuel : Nat} : ∀ (m n : Nat) (it : Iter)
    {L1 L2 : List Handle} {it2 it3 : Iter},
    iterN t fuel it m = some (L1, it2) →
    iterN t fuel it2 n = some (L2, it3) →
    iterN t fuel it (m + n) = some (L1 ++ L2, it3) := by
  intro m
  induction m with
  | zero =>
    intro n it L1 L2 it2 it3 h1 h2
    rw [iterN_zero] at h1
    simp only [Option.some.injEq, Prod.mk.injEq] at h1
    obtain ⟨rfl, rfl⟩ := h1
    simpa using h2
  | succ m ih =>
    intro n it L1 L2 it2 it3 h1 h2
    rw [iterN] at h1
    cases hinc : iterInc t it fuel with
    | none => simp only [hinc] at h1; exact Option.noConfusion h1
    | some ita =>
      simp only [hinc] at h1
      cases hm : iterN t fuel ita m with
      | none => simp only [hm] at h1; exact Option.noConfusion h1
      | some pr =>
        obtain ⟨La, ita2⟩ := pr
        simp only [hm] at h1
        simp only [Option.some.injEq, Prod.mk.injEq] at h1
        obtain ⟨rfl, rfl⟩ := h1
        rw [show m + 1 + n = (m + n) + 1 from by omega,
          iterN_succ hinc (ih n ita hm h2)]
        simp

/-- The popping do-while of `operator ++` stops at the deepest ancestor
reached by a less-branch: from depth `D` it pops while the branch bit is
set and returns the first index below with the bit clear. -/
theorem iterPopLoop_stop {br : Nat → Bool} : ∀ (fuel D d : Nat), d < D →
    D ≤ fuel → br d = false → (∀ i, d < i → i < D → br i = true) →
    iterPopLoop br D fuel = some (some d) := by
  intro fuel
  induction fuel with
  | zero => intro D d h1 h2 _ _; omega
  | succ f ih =>
    intro D d h1 h2 hd hmid
    obtain ⟨E, rfl⟩ : ∃ E, D = E + 1 := ⟨D - 1, by omega⟩
    rw [iterPopLoop, if_neg (show ¬ (E + 1 = 0) from by omega)]
    simp only [Nat.add_sub_cancel]
    rcases Nat.eq_or_lt_of_le (Nat.le_of_lt_succ h1) with heq | hlt
    · subst heq
      rw [if_neg (by simp [hd])]
    · rw [if_pos (hmid E (by omega) (by omega))]
      exact ih E d hlt (by omega) hd fun i hi1 hi2 => hmid i hi1 (by omega)

/-- When every branch bit below the current depth is set, the popping
do-while runs off the root and invalidates the iterator. -/
theorem iterPopLoop_invalid {br : Nat → Bool} : ∀ (fuel D : Nat), D < fuel →
    (∀ i, i < D → br i = true) → iterPopLoop br D fuel = some none := by
  intro fuel
  induction fuel with
  | zero => intro D h _; omega
  | succ f ih =>
    intro D hD hall
    match D with
    | 0 => rw [iterPopLoop, if_pos rfl]
    | E + 1 =>
      rw [iterPopLoop, if_neg (show ¬ (E + 1 = 0) from by omega)]
      simp only [Nat.add_sub_cancel]
      rw [if_pos (hall E (by omega))]
      exact ih E (by omega) fun i hi => hall i (by omega)

/-- The all-left descent of `operator ++` follows the represented tree:
started at the root of `t` it computes exactly the abstract descent. -/
theorem iterDescLoop_eq {s : Store} : ∀ (t : Tree) (p : Handle) (d : Nat)
    (br : Nat → Bool) (ph : Nat → Handle) (fuel : Nat),
    ReprT s p t → t ≠ .nil → t.height ≤ fuel →
    iterDescLoop s p d br ph fuel = some (descendLeast t d br ph) := by
  intro t
  induction t with
  | nil => intro p d br ph fuel _ hne _; exact absurd rfl hne
  | node l q b r ihl _ =>
    intro p d br ph fuel hrep _ hfuel
    rw [ReprT_node_iff] at hrep
    obtain ⟨rfl, hq0, _, hl, _⟩ := hrep
    obtain ⟨f, rfl⟩ : ∃ f, fuel = f + 1 :=
      ⟨fuel - 1, by rw [Tree.height] at hfuel; omega⟩
    have hfl : l.height ≤ f := by rw [Tree.height] at hfuel; omega
    rw [iterDescLoop]
    cases l with
    | nil =>
      rw [ReprT_nil_iff] at hl
      simp only [get_lt, hl, if_pos rfl]
      rfl
    | node l2 q2 b2 r2 =>
      have hq2eq : get_lt s p = q2 := hl.1
      have hq20 : ¬ (get_lt s p = null) := by
        rw [hq2eq]; exact hl.2.1
      rw [if_neg hq20, hq2eq]
      rw [show (s p).lt = q2 from hq2eq] at hl
      exact ihl q2 (d + 1) (upd br d false) (updH ph d q2) f hl
        (fun h => Tree.noConfusion h) hfl

/-- The descent of `start_iter_least`, below the root, records exactly
the left spine of the represented subtree. -/
theorem startIterLeastLoop_eq {s : Store} : ∀ (t : Tree) (p : Handle)
    (k : Nat) (ph : Nat → Handle) (fuel : Nat),
    ReprT s p t → t.height < fuel →
    startIterLeastLoop s p (some k) ph fuel
      = some (some (pushLeft t k ph).1, (pushLeft t k ph).2) := by
  intro t
  induction t with
  | nil =>
    intro p k ph fuel hrep hf
    obtain ⟨f, rfl⟩ : ∃ f, fuel = f + 1 := ⟨fuel - 1, by omega⟩
    rw [ReprT_nil_iff] at hrep
    subst hrep
    rw [startIterLeastLoop, if_pos rfl]
    rfl
  | node l q b r ihl _ =>
    intro p k ph fuel hrep hf
    rw [ReprT_node_iff] at hrep
    obtain ⟨rfl, hq0, _, hl, _⟩ := hrep
    obtain ⟨f, rfl⟩ : ∃ f, fuel = f + 1 := ⟨fuel - 1, by omega⟩
    have hfl : l.height < f := by rw [Tree.height] at hf; omega
    rw [startIterLeastLoop, if_neg hq0]
    exact ihl ((s p).lt) (k + 1) (updH ph k p) f hl hfl

/-- The two descents push the same path: entering a node's subtree lays
out the left spine of its less child exactly as `start_iter_least` does. -/
theorem descendLeast_pushLeft : ∀ (l : Tree) (q : Handle) (b : Int)
    (r : Tree) (d : Nat) (br : Nat → Bool) (ph : Nat → Handle),
    (descendLeast (.node l q b r) d br ph).1 = (pushLeft l d ph).1 ∧
    (descendLeast (.node l q b r) d br ph).2.2 = (pushLeft l d ph).2 := by
  intro l
  induction l with
  | nil => intro q b r d br ph; exact ⟨rfl, rfl⟩
  | node l2 q2 b2 r2 ihl2 _ =>
    intro q b r d br ph
    exact ihl2 q2 b2 r2 (d + 1) (upd br d false) (updH ph d q2)

/-- Starting from an all-clear branch bitset, the abstract descent leaves
it all clear. -/
theorem descendLeast_branch_false : ∀ (t : Tree) (d : Nat)
    (ph : Nat → Handle),
    (descendLeast t d (fun _ => false) ph).2.1
      = (fun _ => false : Nat → Bool) := by
  intro t
  induction t with
  | nil => intro d ph; rfl
  | node l q b r ihl _ =>
    intro d ph
    cases l with
    | nil => rfl
    | node l2 q2 b2 r2 =>
      have hupd : upd (fun _ => false) d false = (fun _ => false : Nat → Bool) :=
        funext fun j => by simp [upd]
      rw [show descendLeast (.node (.node l2 q2 b2 r2) q b r) d
            (fun _ => false) ph
          = descendLeast (.node l2 q2 b2 r2) (d + 1)
              (upd (fun _ => false) d false) (updH ph d q2) from rfl, hupd]
      exact ihl (d + 1) (updH ph d q2)

/-- The rightmost node of a represented nonempty tree is non-null and its
greater link is null. -/
theorem gt_gH {s : Store} : ∀ (t : Tree) (p : Handle), ReprT s p t →
    t ≠ .nil → (s (gH t)).gt = null ∧ gH t ≠ null := by
  intro t
  induction t with
  | nil => intro p _ hne; exact absurd rfl hne
  | node l q b r _ ihr =>
    intro p hrep _
    rw [ReprT_node_iff] at hrep
    obtain ⟨rfl, hq0, _, _, hr⟩ := hrep
    cases r with
    | nil =>
      rw [ReprT_nil_iff] at hr
      exact ⟨hr, hq0⟩
    | node rl rq rb rr =>
      exact ihr ((s p).gt) hr fun h => Tree.noConfusion h

/-- The in-order handle sequence of a BST has strictly ascending keys. -/
theorem bst_chain (key : Handle → Int) : ∀ (t : Tree), t.bst key →
    List.Chain' (fun a b => key a < key b) t.handles := by
  intro t
  induction t with
  | nil => intro _; exact List.chain'_nil
  | node l q b r ihl ihr =>
    intro hbst
    obtain ⟨hlt, hgt, hbl, hbr⟩ := hbst
    rw [Tree.handles, List.chain'_append]
    refine ⟨ihl hbl, ?_, ?_⟩
    · rw [List.chain'_cons']
      exact ⟨fun y hy => hgt y (List.mem_of_mem_head? hy), ihr hbr⟩
    · intro x hx y hy
      have hx2 : x ∈ l.handles := List.mem_of_mem_getLast? hx
      have hy2 : q = y := by simpa using hy
      subst hy2
      exact hlt x hx2

/-- `operator ++` at a node whose greater link is null pops: the iterator
keeps its branch bits and path and moves to what the popping loop says. -/
theorem iterInc_pop {tst : AvlSt} {D : Nat} {br : Nat → Bool}
    {ph : Nat → Handle} {fuel : Nat} {od : Option Nat} {p : Handle}
    (hc : curAt tst ph D = p)
    (hgt : (tst.s p).gt = null)
    (hpop : iterPopLoop br D fuel = some od) :
    iterInc tst ⟨some D, br, ph⟩ fuel = some ⟨od, br, ph⟩ := by
  subst hc
  rw [iterInc]
  simp [iterDeref_some, read_error, get_gt, hgt, hpop]

/-- `operator ++` at a node with a greater child descends: it records the
greater step and then follows the abstract all-left descent of the
greater subtree. -/
theorem iterInc_desc {tst : AvlSt} {D : Nat} {br : Nat → Bool}
    {ph : Nat → Handle} {fuel : Nat} {p c : Handle} {t2 : Tree}
    (hc : curAt tst ph D = p)
    (hgt : (tst.s p).gt = c) (hc0 : c ≠ null)
    (hrep : ReprT tst.s c t2) (hne : t2 ≠ .nil)
    (hfuel : t2.height ≤ fuel) :
    iterInc tst ⟨some D, br, ph⟩ fuel
      = some ⟨some (descendLeast t2 (D + 1) (upd br D true)
            (updH ph D c)).1,
          (descendLeast t2 (D + 1) (upd br D true) (updH ph D c)).2.1,
          (descendLeast t2 (D + 1) (upd br D true) (updH ph D c)).2.2⟩ := by
  subst hc
  subst hgt
  rw [iterInc]
  simp [iterDeref_some, read_error, get_gt, hc0,
    iterDescLoop_eq t2 _ (D + 1) (upd br D true)
      (updH ph D ((tst.s (curAt tst ph D)).gt)) fuel hrep hne hfuel]


/-- Traversal of one subtree: entered (by the abstract all-left descent)
at the root depth `d`, the iterator emits the subtree's in-order handle
sequence, one handle per `++`, ending positioned on the subtree's
rightmost node with every branch bit of the right spine set and the
caller's bits and path untouched. -/
theorem iter_subtree {s : Store} {rt : Handle} {fuel : Nat} : ∀ (t : Tree)
    (p : Handle) (d : Nat) (br : Nat → Bool) (ph : Nat → Handle),
    ReprT s p t → t ≠ .nil → curAt ⟨rt, s⟩ ph d = p →
    d + t.height + 2 ≤ fuel →
    ∃ L DG brG phG,
      iterN ⟨rt, s⟩ fuel ⟨some (descendLeast t d br ph).1,
          (descendLeast t d br ph).2.1, (descendLeast t d br ph).2.2⟩
        (t.size - 1) = some (L, ⟨some DG, brG, phG⟩) ∧
      L ++ [gH t] = t.handles ∧
      d ≤ DG ∧ DG ≤ d + t.height ∧
      curAt ⟨rt, s⟩ phG DG = gH t ∧
      (∀ i, d ≤ i → i < DG → brG i = true) ∧
      (∀ i, i < d → brG i = br i) ∧
      (∀ i, i < d → phG i = ph i) := by
  intro t
  induction t with
  | nil => intro p d br ph _ hne _ _; exact absurd rfl hne
  | node l q b r ihl ihr =>
    intro p d br ph hrep _ hcur hfuel
    rw [ReprT_node_iff] at hrep
    obtain ⟨rfl, hq0, _, hl, hr⟩ := hrep
    cases l with
    | nil =>
      rw [ReprT_nil_iff] at hl
      cases r with
      | nil =>
        refine ⟨[], d, br, ph, iterN_zero, rfl, le_refl d,
          (by have hh : (Tree.node Tree.nil p b Tree.nil).height = 1 := rfl
              omega),
          hcur, fun i h1 h2 => by omega, fun i _ => rfl, fun i _ => rfl⟩
      | node rl rq rb rr =>
        have hrne : (Tree.node rl rq rb rr) ≠ Tree.nil :=
          fun hh => Tree.noConfusion hh
        have hrc : (s p).gt = rq := hr.1
        have hrc0 : rq ≠ null := hr.2.1
        have hrep2 : ReprT s rq (Tree.node rl rq rb rr) := hrc ▸ hr
        have hhtT : (Tree.node Tree.nil p b (Tree.node rl rq rb rr)).height
            = (Tree.node rl rq rb rr).height + 1 := by
          simp [Tree.height]
        have hinc1 : iterInc ⟨rt, s⟩ ⟨some d, br, ph⟩ fuel
            = some ⟨some (descendLeast (Tree.node rl rq rb rr) (d + 1)
                  (upd br d true) (updH ph d rq)).1,
                (descendLeast (Tree.node rl rq rb rr) (d + 1)
                  (upd br d true) (updH ph d rq)).2.1,
                (descendLeast (Tree.node rl rq rb rr) (d + 1)
                  (upd br d true) (updH ph d rq)).2.2⟩ :=
          iterInc_desc hcur hrc hrc0 hrep2 hrne (by omega)
        have hcur2 : curAt ⟨rt, s⟩ (updH ph d rq) (d + 1) = rq := by
          show updH ph d rq d = rq
          simp [updH]
        obtain ⟨Lr, DG, brG, phG, hrunr, hhandr, hDGge, hDGle, hcurG,
          htrueG, hbrF, hphF⟩ :=
          ihr rq (d + 1) (upd br d true) (updH ph d rq) hrep2 hrne hcur2
            (by omega)
        have hone : iterN ⟨rt, s⟩ fuel ⟨some d, br, ph⟩ 1
            = some ([p], ⟨some (descendLeast (Tree.node rl rq rb rr) (d + 1)
                  (upd br d true) (updH ph d rq)).1,
                (descendLeast (Tree.node rl rq rb rr) (d + 1)
                  (upd br d true) (updH ph d rq)).2.1,
                (descendLeast (Tree.node rl rq rb rr) (d + 1)
                  (upd br d true) (updH ph d rq)).2.2⟩) := by
          have hh := iterN_succ hinc1 iterN_zero
          rw [iterDeref_some, hcur] at hh
          exact hh
        have hcomb := iterN_add 1 ((Tree.node rl rq rb rr).size - 1)
          ⟨some d, br, ph⟩ hone hrunr
        refine ⟨p :: Lr, DG, brG, phG, ?_, ?_, by omega, by omega, hcurG,
          ?_, ?_, ?_⟩
        · have hszr : (Tree.node rl rq rb rr).size = rl.size + rr.size + 1 :=
            rfl
          have hszT : (Tree.node Tree.nil p b (Tree.node rl rq rb rr)).size
              = (Tree.node rl rq rb rr).size + 1 := by
            simp [Tree.size]
          rw [show (Tree.node Tree.nil p b (Tree.node rl rq rb rr)).size - 1
              = 1 + ((Tree.node rl rq rb rr).size - 1) from by omega]
          exact hcomb
        · show p :: (Lr ++ [gH (Tree.node rl rq rb rr)]) = _
          rw [hhandr]
          rfl
        · intro i h1 h2
          rcases Nat.eq_or_lt_of_le h1 with heq | hlt
          · subst heq
            rw [hbrF d (by omega)]
            simp [upd]
          · exact htrueG i (by omega) h2
        · intro i hi
          have hne2 : i ≠ d := by omega
          rw [hbrF i (by omega)]
          simp [upd, hne2]
        · intro i hi
          have hne2 : i ≠ d := by omega
          rw [hphF i (by omega)]
          simp [updH, hne2]
    | node ll lq lb lr =>
      have hlne : (Tree.node ll lq lb lr) ≠ Tree.nil :=
        fun hh => Tree.noConfusion hh
      have hlc : (s p).lt = lq := hl.1
      have hlc0 : lq ≠ null := hl.2.1
      have hrepl : ReprT s lq (Tree.node ll lq lb lr) := hlc ▸ hl
      have hhtl : (Tree.node (Tree.node ll lq lb lr) p b r).height
          = max (Tree.node ll lq lb lr).height r.height + 1 := rfl
      have hcur2 : curAt ⟨rt, s⟩ (updH ph d lq) (d + 1) = lq := by
        show updH ph d lq d = lq
        simp [updH]
      obtain ⟨Ll, DGl, brGl, phGl, hrunl, hhandl, hDGlge, hDGlle, hcurGl,
        htrueGl, hbrFl, hphFl⟩ :=
        ihl lq (d + 1) (upd br d false) (updH ph d lq) hrepl hlne hcur2
          (by omega)
      have hgtl := gt_gH (Tree.node ll lq lb lr) lq hrepl hlne
      have hpopl : iterPopLoop brGl DGl fuel = some (some d) := by
        refine iterPopLoop_stop fuel DGl d (by omega) (by omega) ?_ ?_
        · rw [hbrFl d (by omega)]
          simp [upd]
        · intro i hi1 hi2
          exact htrueGl i (by omega) hi2
      have hincpop : iterInc ⟨rt, s⟩ ⟨some DGl, brGl, phGl⟩ fuel
          = some ⟨some d, brGl, phGl⟩ :=
        iterInc_pop hcurGl hgtl.1 hpopl
      have honeb : iterN ⟨rt, s⟩ fuel ⟨some DGl, brGl, phGl⟩ 1
          = some ([gH (Tree.node ll lq lb lr)], ⟨some d, brGl, phGl⟩) := by
        have hh := iterN_succ hincpop iterN_zero
        rw [iterDeref_some, hcurGl] at hh
        exact hh
      have hcur3 : curAt ⟨rt, s⟩ phGl d = p := by
        cases d with
        | zero => exact hcur
        | succ e =>
          show phGl e = p
          rw [hphFl e (by omega),
            show updH ph (e + 1) lq e = ph e from by simp [updH]]
          exact hcur
      have hA := iterN_add ((Tree.node ll lq lb lr).size - 1) 1 _ hrunl honeb
      rw [hhandl] at hA
      have hszl : (Tree.node ll lq lb lr).size = ll.size + lr.size + 1 := rfl
      cases r with
      | nil =>
        refine ⟨(Tree.node ll lq lb lr).handles, d, brGl, phGl, ?_, ?_,
          le_refl d, by omega, hcur3, fun i h1 h2 => by omega, ?_, ?_⟩
        · rw [show (Tree.node (Tree.node ll lq lb lr) p b Tree.nil).size - 1
              = ((Tree.node ll lq lb lr).size - 1) + 1 from by
            have h1 : (Tree.node (Tree.node ll lq lb lr) p b Tree.nil).size
                = (Tree.node ll lq lb lr).size + Tree.nil.size + 1 := rfl
            have h2 : Tree.nil.size = 0 := rfl
            omega]
          exact hA
        · rfl
        · intro i hi
          have hne2 : i ≠ d := by omega
          rw [hbrFl i (by omega)]
          simp [upd, hne2]
        · intro i hi
          have hne2 : i ≠ d := by omega
          rw [hphFl i (by omega)]
          simp [updH, hne2]
      | node rl rq rb rr =>
        have hrne : (Tree.node rl rq rb rr) ≠ Tree.nil :=
          fun hh => Tree.noConfusion hh
        have hrc : (s p).gt = rq := hr.1
        have hrc0 : rq ≠ null := hr.2.1
        have hrep2 : ReprT s rq (Tree.node rl rq rb rr) := hrc ▸ hr
        have hinc3 : iterInc ⟨rt, s⟩ ⟨some d, brGl, phGl⟩ fuel
            = some ⟨some (descendLeast (Tree.node rl rq rb rr) (d + 1)
                  (upd brGl d true) (updH phGl d rq)).1,
                (descendLeast (Tree.node rl rq rb rr) (d + 1)
                  (upd brGl d true) (updH phGl d rq)).2.1,
                (descendLeast (Tree.node rl rq rb rr) (d + 1)
                  (upd brGl d true) (updH phGl d rq)).2.2⟩ :=
          iterInc_desc hcur3 hrc hrc0 hrep2 hrne (by omega)
        have honec : iterN ⟨rt, s⟩ fuel ⟨some d, brGl, phGl⟩ 1
            = some ([p], ⟨some (descendLeast (Tree.node rl rq rb rr) (d + 1)
                  (upd brGl d true) (updH phGl d rq)).1,
                (descendLeast (Tree.node rl rq rb rr) (d + 1)
                  (upd brGl d true) (updH phGl d rq)).2.1,
                (descendLeast (Tree.node rl rq rb rr) (d + 1)
                  (upd brGl d true) (updH phGl d rq)).2.2⟩) := by
          have hh := iterN_succ hinc3 iterN_zero
          rw [iterDeref_some, hcur3] at hh
          exact hh
        have hcur4 : curAt ⟨rt, s⟩ (updH phGl d rq) (d + 1) = rq := by
          show updH phGl d rq d = rq
          simp [updH]
        obtain ⟨Lr, DG, brG, phG, hrunr, hhandr, hDGge, hDGle, hcurG,
          htrueG, hbrFr, hphFr⟩ :=
          ihr rq (d + 1) (upd brGl d true) (updH phGl d rq) hrep2 hrne hcur4
            (by omega)
        have hB := iterN_add 1 ((Tree.node rl rq rb rr).size - 1)
          ⟨some d, brGl, phGl⟩ honec hrunr
        have hAB := iterN_add (((Tree.node ll lq lb lr).size - 1) + 1)
          (1 + ((Tree.node rl rq rb rr).size - 1)) _ hA hB
        refine ⟨(Tree.node ll lq lb lr).handles ++ ([p] ++ Lr), DG, brG, phG,
          ?_, ?_, by omega, by omega, hcurG, ?_, ?_, ?_⟩
        · rw [show (Tree.node (Tree.node ll lq lb lr) p b
                (Tree.node rl rq rb rr)).size - 1
              = (((Tree.node ll lq lb lr).size - 1) + 1)
                  + (1 + ((Tree.node rl rq rb rr).size - 1)) from by
            have h1 : (Tree.node (Tree.node ll lq lb lr) p b
                (Tree.node rl rq rb rr)).size
                = (Tree.node ll lq lb lr).size
                    + (Tree.node rl rq rb rr).size + 1 := rfl
            have h3 : (Tree.node rl rq rb rr).size = rl.size + rr.size + 1 :=
              rfl
            omega]
          exact hAB
        · rw [show gH (Tree.node (Tree.node ll lq lb lr) p b
                (Tree.node rl rq rb rr)) = gH (Tree.node rl rq rb rr) from rfl,
            List.append_assoc, List.append_assoc, hhandr]
          rfl
        · intro i h1 h2
          rcases Nat.eq_or_lt_of_le h1 with heq | hlt2
          · subst heq
            rw [hbrFr d (by omega)]
            simp [upd]
          · exact htrueG i (by omega) h2
        · intro i hi
          have hne2 : i ≠ d := by omega
          rw [hbrFr i (by omega)]
          simp only [upd, if_neg hne2]
          rw [hbrFl i (by omega)]
          simp [upd, hne2]
        · intro i hi
          have hne2 : i ≠ d := by omega
          rw [hphFr i (by omega)]
          simp only [updH, if_neg hne2]
          rw [hphFl i (by omega)]
          simp [updH, hne2]

theorem iterN_head {tst : AvlSt} {fuel : Nat} {it : Iter} {n : Nat}
    {L : List Handle} {itf : Iter}
    (h : iterN tst fuel it (n + 1) = some (L, itf)) :
    L.head? = some (iterDeref tst it) := by
  rw [iterN] at h
  cases hinc : iterInc tst it fuel with
  | none => simp only [hinc] at h; exact Option.noConfusion h
  | some it2 =>
    simp only [hinc] at h
    cases hm : iterN tst fuel it2 n with
    | none => simp only [hm] at h; exact Option.noConfusion h
    | some pr =>
      obtain ⟨L2, itf2⟩ := pr
      simp only [hm, Option.some.injEq, Prod.mk.injEq] at h
      obtain ⟨rfl, rfl⟩ := h
      rfl

/-- Claim C8: on a nonempty tree satisfying the invariants (no read error
can occur), `start_iter_least` positions the iterator on the least node,
and `tree.size` applications of `operator ++` dereference every node of
the tree exactly once, in ascending key order; the `++` applied at the
greatest node makes the iterator invalid, after which dereferencing
yields null. -/
theorem C8_iterator (key : Handle → Int) (t : Tree) (rt : Handle)
    (s : Store) (fuel : Nat) (hne : t ≠ .nil) (hrep : ReprT s rt t)
    (hnd : t.handles.Nodup) (hbst : t.bst key)
    (hfuel : t.height + 2 ≤ fuel) :
    ∃ it0 L itF,
      start_iter_least ⟨rt, s⟩ fuel = some it0 ∧
      iterDeref ⟨rt, s⟩ it0 = t.handles.head?.getD null ∧
      iterN ⟨rt, s⟩ fuel it0 t.size = some (L, itF) ∧
      L = t.handles ∧ L.Nodup ∧
      List.Chain' (fun a b => key a < key b) L ∧
      itF.depth = none ∧ iterDeref ⟨rt, s⟩ itF = null := by
  obtain ⟨f, rfl⟩ : ∃ f, fuel = f + 1 := ⟨fuel - 1, by omega⟩
  cases t with
  | nil => exact absurd rfl hne
  | node l q b r =>
    have hrep2 := hrep
    rw [ReprT_node_iff] at hrep2
    obtain ⟨hq, hq0, _, hl, hr⟩ := hrep2
    subst hq
    have hht : (Tree.node l rt b r).height = max l.height r.height + 1 := rfl
    have hsl : startIterLeastLoop s rt none (fun _ => null) (f + 1)
        = some (some (pushLeft l 0 (fun _ => null)).1,
            (pushLeft l 0 (fun _ => null)).2) := by
      rw [startIterLeastLoop, if_neg hq0]
      exact startIterLeastLoop_eq l ((s rt).lt) 0 (fun _ => null) f hl
        (show l.height < f from by omega)
    have hstart : start_iter_least ⟨rt, s⟩ (f + 1)
        = some ⟨some (pushLeft l 0 (fun _ => null)).1, fun _ => false,
            (pushLeft l 0 (fun _ => null)).2⟩ := by
      rw [start_iter_least]
      simp only [hsl]
    have hdp := descendLeast_pushLeft l rt b r 0 (fun _ => false)
      (fun _ => null)
    have hdb := descendLeast_branch_false (Tree.node l rt b r) 0
      (fun _ => null)
    obtain ⟨L1, DG, brG, phG, hrun, hhand, _, hDGle, hcurG, htrue, _, _⟩ :=
      @iter_subtree s rt (f + 1) (Tree.node l rt b r) rt 0 (fun _ => false)
        (fun _ => null) hrep hne rfl (by omega)
    have hgt := gt_gH (Tree.node l rt b r) rt hrep hne
    have hpop : iterPopLoop brG DG (f + 1) = some none :=
      iterPopLoop_invalid (f + 1) DG (by omega)
        (fun i hi => htrue i (Nat.zero_le i) hi)
    have hincF : iterInc ⟨rt, s⟩ ⟨some DG, brG, phG⟩ (f + 1)
        = some ⟨none, brG, phG⟩ :=
      iterInc_pop hcurG hgt.1 hpop
    have hlast : iterN ⟨rt, s⟩ (f + 1) ⟨some DG, brG, phG⟩ 1
        = some ([gH (Tree.node l rt b r)], ⟨none, brG, phG⟩) := by
      have hh := iterN_succ hincF iterN_zero
      rw [iterDeref_some, hcurG] at hh
      exact hh
    have htot := iterN_add ((Tree.node l rt b r).size - 1) 1 _ hrun hlast
    rw [hhand] at htot
    have hsz : (Tree.node l rt b r).size = l.size + r.size + 1 := rfl
    rw [show ((Tree.node l rt b r).size - 1) + 1
        = (Tree.node l rt b r).size from by omega] at htot
    have hit : (⟨some (descendLeast (Tree.node l rt b r) 0 (fun _ => false)
            (fun _ => null)).1,
          (descendLeast (Tree.node l rt b r) 0 (fun _ => false)
            (fun _ => null)).2.1,
          (descendLeast (Tree.node l rt b r) 0 (fun _ => false)
            (fun _ => null)).2.2⟩ : Iter)
        = ⟨some (pushLeft l 0 (fun _ => null)).1, fun _ => false,
            (pushLeft l 0 (fun _ => null)).2⟩ := by
      rw [hdp.1, hdb, hdp.2]
    rw [hit] at htot
    refine ⟨⟨some (pushLeft l 0 (fun _ => null)).1, fun _ => false,
        (pushLeft l 0 (fun _ => null)).2⟩,
      (Tree.node l rt b r).handles, ⟨none, brG, phG⟩,
      hstart, ?_, htot, rfl, hnd, bst_chain key _ hbst, rfl, rfl⟩
    obtain ⟨n0, hn0⟩ : ∃ n0, (Tree.node l rt b r).size = n0 + 1 :=
      ⟨(Tree.node l rt b r).size - 1, by omega⟩
    rw [hn0] at htot
    have hhd := iterN_head htot
    rw [hhd]
    rfl

/-- Witness for C8 at the concrete five-node instance. -/
theorem C8_iterator_witness :
    ∃ it0 L itF,
      start_iter_least ⟨30, c7store⟩ 10 = some it0 ∧
      iterDeref ⟨30, c7store⟩ it0 = c7tree.handles.head?.getD null ∧
      iterN ⟨30, c7store⟩ 10 it0 c7tree.size = some (L, itF) ∧
      L = c7tree.handles ∧ L.Nodup ∧
      List.Chain' (fun (a b : Handle) => (a : Int) < (b : Int)) L ∧
      itF.depth = none ∧ iterDeref ⟨30, c7store⟩ itF = null := by
  exact C8_iterator (fun h => (h : Int)) c7tree 30 c7store 10 (by decide)
    (by decide) (by decide) (by decide) (by decide)

/-! ## Simulation of `balance` (source lines 542-666)

Four lemmas, one per branch of the code: the deeper side (sign of the
stored balance factor of the root) times single or double rotation (sign
of the stored balance factor of the deeper child).  Each lemma computes
the exact store the straight-line code produces and re-reads it as the
rotated tree. -/

theorem nodup_node {L : Tree} {q : Handle} {b : Int} {R : Tree}
    (h : (Tree.node L q b R).handles.Nodup) :
    L.handles.Nodup ∧ R.handles.Nodup ∧ q ∉ L.handles ∧ q ∉ R.handles ∧
      ∀ x ∈ L.handles, x ∉ R.handles := by
  rw [Tree.handles, List.nodup_append] at h
  obtain ⟨h1, h2, h3⟩ := h
  rw [List.nodup_cons] at h2
  refine ⟨h1, h2.2, ?_, h2.1, ?_⟩
  · intro hq
    exact h3 hq (by simp)
  · intro x hx hxr
    exact h3 hx (by simp [hxr])

/-- `balance`, less-subtree-deeper, single rotation (source lines
647-662). -/
theorem balance_left_single {s : Store} {LL : Tree} {lp : Handle} {lb : Int}
    {LR : Tree} {q : Handle} {b : Int} {R : Tree}
    (hrep : ReprT s q (Tree.node (Tree.node LL lp lb LR) q b R))
    (hnd : (Tree.node (Tree.node LL lp lb LR) q b R).handles.Nodup)
    (hb : b ≤ 0) (hlb : lb ≤ 0) :
    ∃ s', balance s q = (lp, s') ∧
      ReprT s' lp (Tree.node LL lp (if lb = 0 then 1 else 0)
        (Tree.node LR q (if lb = 0 then -1 else 0) R)) ∧
      ∀ x, x ≠ q → x ≠ lp → s' x = s x := by
  obtain ⟨-, hq0, hbf, hL, hR⟩ := hrep
  obtain ⟨hlte, hlp0, hlbf, hLL, hLR⟩ := hL
  obtain ⟨hndL, hndR, hqL, hqR, hdisj⟩ := nodup_node hnd
  obtain ⟨hndLL, hndLR, hlpLL, hlpLR, hdisjL⟩ := nodup_node hndL
  have hlpL : lp ∈ (Tree.node LL lp lb LR).handles := by
    rw [Tree.handles]; simp
  have hqlp : q ≠ lp := fun e => hqL (e ▸ hlpL)
  have hlpq : lp ≠ q := fun e => hqlp e.symm
  have hLLq : ∀ x ∈ LL.handles, x ≠ q := by
    intro x hx e
    subst e
    apply hqL
    rw [Tree.handles]
    exact List.mem_append.mpr (Or.inl hx)
  have hLRq : ∀ x ∈ LR.handles, x ≠ q := by
    intro x hx e
    subst e
    apply hqL
    rw [Tree.handles]
    simp [hx]
  have hLLlp : ∀ x ∈ LL.handles, x ≠ lp := fun x hx e => hlpLL (e ▸ hx)
  have hLRlp : ∀ x ∈ LR.handles, x ≠ lp := fun x hx e => hlpLR (e ▸ hx)
  have hRq : ∀ x ∈ R.handles, x ≠ q := fun x hx e => hqR (e ▸ hx)
  have hRlp : ∀ x ∈ R.handles, x ≠ lp := fun x hx e =>
    hdisj lp hlpL (e ▸ hx)
  have hc1 : ¬ (get_bf s q > 0) := by
    rw [get_bf, hbf]; omega
  have hc2 : ¬ (get_bf s lp > 0) := by
    rw [get_bf, hlbf]; omega
  have hbal : balance s q
      = (lp,
        if get_bf (set_gt (set_lt s q ((s lp).gt)) lp q) lp = 0 then
          set_bf (set_bf (set_gt (set_lt s q ((s lp).gt)) lp q) lp 1) q (-1)
        else
          set_bf (set_bf (set_gt (set_lt s q ((s lp).gt)) lp q) lp 0)
            q 0) := by
    rw [balance, if_neg hc1]
    rw [show get_lt s q = lp from hlte]
    rw [if_neg (show ¬ (read_error s = true) from by simp [read_error]),
      if_neg hc2]
    rfl
  have hlbf2 : get_bf (set_gt (set_lt s q ((s lp).gt)) lp q) lp = lb := by
    simp [get_bf, set_gt, set_lt, hlpq, hlbf]
  rw [hlbf2] at hbal
  have key : ∀ X Y : Int,
      ReprT (set_bf (set_bf (set_gt (set_lt s q ((s lp).gt)) lp q) lp X)
          q Y) lp
        (Tree.node LL lp X (Tree.node LR q Y R)) ∧
      ∀ x, x ≠ q → x ≠ lp →
        (set_bf (set_bf (set_gt (set_lt s q ((s lp).gt)) lp q) lp X) q Y) x
          = s x := by
    intro X Y
    have hframe : ∀ x, x ≠ q → x ≠ lp →
        (set_bf (set_bf (set_gt (set_lt s q ((s lp).gt)) lp q) lp X) q Y) x
          = s x := by
      intro x hxq hxlp
      simp [set_bf, set_gt, set_lt, hxq, hxlp]
    have hflp : (set_bf (set_bf (set_gt (set_lt s q ((s lp).gt)) lp q)
        lp X) q Y) lp = ⟨(s lp).lt, q, X⟩ := by
      simp [set_bf, set_gt, set_lt, hlpq]
    have hfq : (set_bf (set_bf (set_gt (set_lt s q ((s lp).gt)) lp q)
        lp X) q Y) q = ⟨(s lp).gt, (s q).gt, Y⟩ := by
      simp [set_bf, set_gt, set_lt, hqlp]
    refine ⟨⟨rfl, hlp0, ?_, ?_, ?_⟩, hframe⟩
    · rw [hflp]
    · rw [show ((set_bf (set_bf (set_gt (set_lt s q ((s lp).gt)) lp q)
          lp X) q Y) lp).lt = (s lp).lt from by rw [hflp]]
      exact ReprT_congr hLL
        (fun x hx => hframe x (hLLq x hx) (hLLlp x hx))
    · rw [show ((set_bf (set_bf (set_gt (set_lt s q ((s lp).gt)) lp q)
          lp X) q Y) lp).gt = q from by rw [hflp]]
      refine ⟨rfl, hq0, ?_, ?_, ?_⟩
      · rw [hfq]
      · rw [show ((set_bf (set_bf (set_gt (set_lt s q ((s lp).gt)) lp q)
            lp X) q Y) q).lt = (s lp).gt from by rw [hfq]]
        exact ReprT_congr hLR
          (fun x hx => hframe x (hLRq x hx) (hLRlp x hx))
      · rw [show ((set_bf (set_bf (set_gt (set_lt s q ((s lp).gt)) lp q)
            lp X) q Y) q).gt = (s q).gt from by rw [hfq]]
        exact ReprT_congr hR
          (fun x hx => hframe x (hRq x hx) (hRlp x hx))
  by_cases h0 : lb = 0
  · rw [if_pos h0] at hbal
    exact ⟨_, hbal, by rw [if_pos h0, if_pos h0]; exact (key 1 (-1)).1,
      (key 1 (-1)).2⟩
  · rw [if_neg h0] at hbal
    exact ⟨_, hbal, by rw [if_neg h0, if_neg h0]; exact (key 0 0).1,
      (key 0 0).2⟩

/-- `balance`, greater-subtree-deeper, single rotation (source lines
590-605). -/
theorem balance_right_single {s : Store} {L : Tree} {q : Handle} {b : Int}
    {RL : Tree} {rp : Handle} {rb : Int} {RR : Tree}
    (hrep : ReprT s q (Tree.node L q b (Tree.node RL rp rb RR)))
    (hnd : (Tree.node L q b (Tree.node RL rp rb RR)).handles.Nodup)
    (hb : 0 < b) (hrb : 0 ≤ rb) :
    ∃ s', balance s q = (rp, s') ∧
      ReprT s' rp (Tree.node (Tree.node L q (if rb = 0 then 1 else 0) RL)
        rp (if rb = 0 then -1 else 0) RR) ∧
      ∀ x, x ≠ q → x ≠ rp → s' x = s x := by
  obtain ⟨-, hq0, hbf, hL, hR⟩ := hrep
  obtain ⟨hgte, hrp0, hrbf, hRL, hRR⟩ := hR
  obtain ⟨hndL, hndR, hqL, hqR, hdisj⟩ := nodup_node hnd
  obtain ⟨hndRL, hndRR, hrpRL, hrpRR, hdisjR⟩ := nodup_node hndR
  have hrpR : rp ∈ (Tree.node RL rp rb RR).handles := by
    rw [Tree.handles]; simp
  have hqrp : q ≠ rp := fun e => hqR (e ▸ hrpR)
  have hrpq : rp ≠ q := fun e => hqrp e.symm
  have hRLq : ∀ x ∈ RL.handles, x ≠ q := by
    intro x hx e
    subst e
    apply hqR
    rw [Tree.handles]
    exact List.mem_append.mpr (Or.inl hx)
  have hRRq : ∀ x ∈ RR.handles, x ≠ q := by
    intro x hx e
    subst e
    apply hqR
    rw [Tree.handles]
    simp [hx]
  have hRLrp : ∀ x ∈ RL.handles, x ≠ rp := fun x hx e => hrpRL (e ▸ hx)
  have hRRrp : ∀ x ∈ RR.handles, x ≠ rp := fun x hx e => hrpRR (e ▸ hx)
  have hLq : ∀ x ∈ L.handles, x ≠ q := fun x hx e => hqL (e ▸ hx)
  have hLrp : ∀ x ∈ L.handles, x ≠ rp := fun x hx e =>
    hdisj x hx (e ▸ hrpR)
  have hc1 : get_bf s q > 0 := by
    rw [get_bf, hbf]; omega
  have hc2 : ¬ (get_bf s rp < 0) := by
    rw [get_bf, hrbf]; omega
  have hbal : balance s q
      = (rp,
        if get_bf (set_lt (set_gt s q ((s rp).lt)) rp q) rp = 0 then
          set_bf (set_bf (set_lt (set_gt s q ((s rp).lt)) rp q) rp (-1)) q 1
        else
          set_bf (set_bf (set_lt (set_gt s q ((s rp).lt)) rp q) rp 0)
            q 0) := by
    rw [balance, if_pos hc1]
    rw [show get_gt s q = rp from hgte]
    rw [if_neg (show ¬ (read_error s = true) from by simp [read_error]),
      if_neg hc2]
    rfl
  have hrbf2 : get_bf (set_lt (set_gt s q ((s rp).lt)) rp q) rp = rb := by
    simp [get_bf, set_lt, set_gt, hrpq, hrbf]
  rw [hrbf2] at hbal
  have key : ∀ X Y : Int,
      ReprT (set_bf (set_bf (set_lt (set_gt s q ((s rp).lt)) rp q) rp X)
          q Y) rp
        (Tree.node (Tree.node L q Y RL) rp X RR) ∧
      ∀ x, x ≠ q → x ≠ rp →
        (set_bf (set_bf (set_lt (set_gt s q ((s rp).lt)) rp q) rp X) q Y) x
          = s x := by
    intro X Y
    have hframe : ∀ x, x ≠ q → x ≠ rp →
        (set_bf (set_bf (set_lt (set_gt s q ((s rp).lt)) rp q) rp X) q Y) x
          = s x := by
      intro x hxq hxrp
      simp [set_bf, set_lt, set_gt, hxq, hxrp]
    have hfrp : (set_bf (set_bf (set_lt (set_gt s q ((s rp).lt)) rp q)
        rp X) q Y) rp = ⟨q, (s rp).gt, X⟩ := by
      simp [set_bf, set_lt, set_gt, hrpq]
    have hfq : (set_bf (set_bf (set_lt (set_gt s q ((s rp).lt)) rp q)
        rp X) q Y) q = ⟨(s q).lt, (s rp).lt, Y⟩ := by
      simp [set_bf, set_lt, set_gt, hqrp]
    refine ⟨⟨rfl, hrp0, ?_, ?_, ?_⟩, hframe⟩
    · rw [hfrp]
    · rw [show ((set_bf (set_bf (set_lt (set_gt s q ((s rp).lt)) rp q)
          rp X) q Y) rp).lt = q from by rw [hfrp]]
      refine ⟨rfl, hq0, ?_, ?_, ?_⟩
      · rw [hfq]
      · rw [show ((set_bf (set_bf (set_lt (set_gt s q ((s rp).lt)) rp q)
            rp X) q Y) q).lt = (s q).lt from by rw [hfq]]
        exact ReprT_congr hL
          (fun x hx => hframe x (hLq x hx) (hLrp x hx))
      · rw [show ((set_bf (set_bf (set_lt (set_gt s q ((s rp).lt)) rp q)
            rp X) q Y) q).gt = (s rp).lt from by rw [hfq]]
        exact ReprT_congr hRL
          (fun x hx => hframe x (hRLq x hx) (hRLrp x hx))
    · rw [show ((set_bf (set_bf (set_lt (set_gt s q ((s rp).lt)) rp q)
          rp X) q Y) rp).gt = (s rp).gt from by rw [hfrp]]
      exact ReprT_congr hRR
        (fun x hx => hframe x (hRRq x hx) (hRRrp x hx))
  by_cases h0 : rb = 0
  · rw [if_pos h0] at hbal
    exact ⟨_, hbal, by rw [if_pos h0, if_pos h0]; exact (key (-1) 1).1,
      (key (-1) 1).2⟩
  · rw [if_neg h0] at hbal
    exact ⟨_, hbal, by rw [if_neg h0, if_neg h0]; exact (key 0 0).1,
      (key 0 0).2⟩

/-- `balance`, less-subtree-deeper, double rotation (source lines
615-646). -/
theorem balance_left_double {s : Store} {LL : Tree} {lp : Handle} {lb : Int}
    {CL : Tree} {cq : Handle} {cb : Int} {CR : Tree} {q : Handle} {b : Int}
    {R : Tree}
    (hrep : ReprT s q (Tree.node
      (Tree.node LL lp lb (Tree.node CL cq cb CR)) q b R))
    (hnd : (Tree.node
      (Tree.node LL lp lb (Tree.node CL cq cb CR)) q b R).handles.Nodup)
    (hb : b ≤ 0) (hlb : 0 < lb) :
    ∃ s', balance s q = (cq, s') ∧
      ReprT s' cq (Tree.node
        (Tree.node LL lp (if 0 < cb then -1 else 0) CL) cq 0
        (Tree.node CR q (if cb < 0 then 1 else 0) R)) ∧
      ∀ x, x ≠ q → x ≠ lp → x ≠ cq → s' x = s x := by
  obtain ⟨-, hq0, hbf, hL, hR⟩ := hrep
  obtain ⟨hlte, hlp0, hlbf, hLL, hC⟩ := hL
  obtain ⟨hgte2, hcq0, hcbf, hCL, hCR⟩ := hC
  obtain ⟨hndL, hndR, hqL, hqR, hdisj⟩ := nodup_node hnd
  obtain ⟨hndLL, hndC, hlpLL, hlpC, hdisjL⟩ := nodup_node hndL
  obtain ⟨hndCL, hndCR, hcqCL, hcqCR, hdisjC⟩ := nodup_node hndC
  have hlpL : lp ∈ (Tree.node LL lp lb (Tree.node CL cq cb CR)).handles := by
    rw [Tree.handles]; simp
  have hcqC : cq ∈ (Tree.node CL cq cb CR).handles := by
    rw [Tree.handles]; simp
  have hcqL : cq ∈ (Tree.node LL lp lb (Tree.node CL cq cb CR)).handles := by
    rw [Tree.handles]
    refine List.mem_append.mpr (Or.inr ?_)
    simp [hcqC]
  have hqlp : q ≠ lp := fun e => hqL (e ▸ hlpL)
  have hlpq : lp ≠ q := fun e => hqlp e.symm
  have hqcq : q ≠ cq := fun e => hqL (e ▸ hcqL)
  have hcqq : cq ≠ q := fun e => hqcq e.symm
  have hlpcq : lp ≠ cq := fun e => hlpC (e ▸ hcqC)
  have hcqlp : cq ≠ lp := fun e => hlpcq e.symm
  have hLLq : ∀ x ∈ LL.handles, x ≠ q := by
    intro x hx e
    subst e
    apply hqL
    rw [Tree.handles]
    exact List.mem_append.mpr (Or.inl hx)
  have hLLlp : ∀ x ∈ LL.handles, x ≠ lp := fun x hx e => hlpLL (e ▸ hx)
  have hLLcq : ∀ x ∈ LL.handles, x ≠ cq := fun x hx e =>
    hdisjL x hx (e ▸ hcqC)
  have hCmem : ∀ x ∈ (Tree.node CL cq cb CR).handles,
      x ∈ (Tree.node LL lp lb (Tree.node CL cq cb CR)).handles := by
    intro x hx
    rw [Tree.handles]
    refine List.mem_append.mpr (Or.inr ?_)
    simp [hx]
  have hCLmem : ∀ x ∈ CL.handles, x ∈ (Tree.node CL cq cb CR).handles := by
    intro x hx
    rw [Tree.handles]
    exact List.mem_append.mpr (Or.inl hx)
  have hCRmem : ∀ x ∈ CR.handles, x ∈ (Tree.node CL cq cb CR).handles := by
    intro x hx
    rw [Tree.handles]
    refine List.mem_append.mpr (Or.inr ?_)
    simp [hx]
  have hCLq : ∀ x ∈ CL.handles, x ≠ q := by
    intro x hx e
    exact hqL (e ▸ hCmem x (hCLmem x hx))
  have hCLlp : ∀ x ∈ CL.handles, x ≠ lp := by
    intro x hx e
    exact hlpC (e ▸ hCLmem x hx)
  have hCLcq : ∀ x ∈ CL.handles, x ≠ cq := fun x hx e => hcqCL (e ▸ hx)
  have hCRq : ∀ x ∈ CR.handles, x ≠ q := by
    intro x hx e
    exact hqL (e ▸ hCmem x (hCRmem x hx))
  have hCRlp : ∀ x ∈ CR.handles, x ≠ lp := by
    intro x hx e
    exact hlpC (e ▸ hCRmem x hx)
  have hCRcq : ∀ x ∈ CR.handles, x ≠ cq := fun x hx e => hcqCR (e ▸ hx)
  have hRq : ∀ x ∈ R.handles, x ≠ q := fun x hx e => hqR (e ▸ hx)
  have hRlp : ∀ x ∈ R.handles, x ≠ lp := fun x hx e =>
    hdisj lp hlpL (e ▸ hx)
  have hRcq : ∀ x ∈ R.handles, x ≠ cq := fun x hx e =>
    hdisj cq hcqL (e ▸ hx)
  have hc1 : ¬ (get_bf s q > 0) := by
    rw [get_bf, hbf]; omega
  have hc2 : get_bf s lp > 0 := by
    rw [get_bf, hlbf]; omega
  have hbal : balance s q
      = (if get_bf (set_lt (set_gt (set_gt (set_lt s q (get_gt s cq)) lp
            (get_lt (set_lt s q (get_gt s cq)) cq)) cq q) cq lp) cq ≠ 0 then
          (cq, set_bf
            (if get_bf (set_lt (set_gt (set_gt (set_lt s q (get_gt s cq)) lp
                (get_lt (set_lt s q (get_gt s cq)) cq)) cq q) cq lp) cq < 0
              then
                set_bf (set_bf (set_lt (set_gt (set_gt (set_lt s q
                  (get_gt s cq)) lp (get_lt (set_lt s q (get_gt s cq)) cq))
                  cq q) cq lp) q 1) lp 0
              else
                set_bf (set_bf (set_lt (set_gt (set_gt (set_lt s q
                  (get_gt s cq)) lp (get_lt (set_lt s q (get_gt s cq)) cq))
                  cq q) cq lp) lp (-1)) q 0) cq 0)
        else
          (cq, set_bf (set_bf (set_lt (set_gt (set_gt (set_lt s q
            (get_gt s cq)) lp (get_lt (set_lt s q (get_gt s cq)) cq))
            cq q) cq lp) q 0) lp 0)) := by
    rw [balance, if_neg hc1]
    rw [show get_lt s q = lp from hlte]
    rw [if_neg (show ¬ (read_error s = true) from by simp [read_error]),
      if_pos hc2]
    rw [show get_gt s lp = cq from hgte2]
    rw [if_neg (show ¬ (read_error s = true) from by simp [read_error])]
  have hs1cq : get_lt (set_lt s q (get_gt s cq)) cq = (s cq).lt := by
    simp [get_lt, set_lt, hcqq]
  rw [hs1cq] at hbal
  have hbf4 : get_bf (set_lt (set_gt (set_gt (set_lt s q (get_gt s cq)) lp
      ((s cq).lt)) cq q) cq lp) cq = cb := by
    simp [get_bf, set_lt, set_gt, hcbf, hcqq, hcqlp]
  rw [hbf4] at hbal
  simp only [get_gt] at hbal
  have key : ∀ (s' : Store) (X Y Z : Int),
      s' q = ⟨(s cq).gt, (s q).gt, Y⟩ →
      s' lp = ⟨(s lp).lt, (s cq).lt, X⟩ →
      s' cq = ⟨lp, q, Z⟩ → Z = 0 →
      (∀ x, x ≠ q → x ≠ lp → x ≠ cq → s' x = s x) →
      ReprT s' cq (Tree.node (Tree.node LL lp X CL) cq 0
        (Tree.node CR q Y R)) := by
    intro s' X Y Z hfq hflp hfcq hZ hframe
    refine ⟨rfl, hcq0, ?_, ?_, ?_⟩
    · rw [hfcq, hZ]
    · rw [show (s' cq).lt = lp from by rw [hfcq]]
      refine ⟨rfl, hlp0, ?_, ?_, ?_⟩
      · rw [hflp]
      · rw [show (s' lp).lt = (s lp).lt from by rw [hflp]]
        exact ReprT_congr hLL (fun x hx =>
          hframe x (hLLq x hx) (hLLlp x hx) (hLLcq x hx))
      · rw [show (s' lp).gt = (s cq).lt from by rw [hflp]]
        exact ReprT_congr hCL (fun x hx =>
          hframe x (hCLq x hx) (hCLlp x hx) (hCLcq x hx))
    · rw [show (s' cq).gt = q from by rw [hfcq]]
      refine ⟨rfl, hq0, ?_, ?_, ?_⟩
      · rw [hfq]
      · rw [show (s' q).lt = (s cq).gt from by rw [hfq]]
        exact ReprT_congr hCR (fun x hx =>
          hframe x (hCRq x hx) (hCRlp x hx) (hCRcq x hx))
      · rw [show (s' q).gt = (s q).gt from by rw [hfq]]
        exact ReprT_congr hR (fun x hx =>
          hframe x (hRq x hx) (hRlp x hx) (hRcq x hx))
  rcases lt_trichotomy cb 0 with hcb | hcb | hcb
  · rw [if_pos (show cb ≠ 0 from by omega), if_pos hcb] at hbal
    refine ⟨_, hbal, ?_, ?_⟩
    · rw [if_neg (show ¬ 0 < cb from by omega), if_pos hcb]
      refine key _ 0 1 0 ?_ ?_ ?_ rfl ?_
      · simp [set_bf, set_lt, set_gt, hqlp, hqcq]
      · simp [set_bf, set_lt, set_gt, hlpq, hlpcq]
      · simp [set_bf, set_lt, set_gt, hcqq, hcqlp]
      · intro x hxq hxlp hxcq
        simp [set_bf, set_lt, set_gt, hxq, hxlp, hxcq]
    · intro x hxq hxlp hxcq
      simp [set_bf, set_lt, set_gt, hxq, hxlp, hxcq]
  · rw [if_neg (show ¬ cb ≠ 0 from by omega)] at hbal
    refine ⟨_, hbal, ?_, ?_⟩
    · rw [if_neg (show ¬ 0 < cb from by omega),
        if_neg (show ¬ cb < 0 from by omega)]
      refine key _ 0 0 cb ?_ ?_ ?_ hcb ?_
      · simp [set_bf, set_lt, set_gt, hqlp, hqcq]
      · simp [set_bf, set_lt, set_gt, hlpq, hlpcq]
      · simp [set_bf, set_lt, set_gt, hcqq, hcqlp, hcbf]
      · intro x hxq hxlp hxcq
        simp [set_bf, set_lt, set_gt, hxq, hxlp, hxcq]
    · intro x hxq hxlp hxcq
      simp [set_bf, set_lt, set_gt, hxq, hxlp, hxcq]
  · rw [if_pos (show cb ≠ 0 from by omega),
      if_neg (show ¬ cb < 0 from by omega)] at hbal
    refine ⟨_, hbal, ?_, ?_⟩
    · rw [if_pos hcb, if_neg (show ¬ cb < 0 from by omega)]
      refine key _ (-1) 0 0 ?_ ?_ ?_ rfl ?_
      · simp [set_bf, set_lt, set_gt, hqlp, hqcq]
      · simp [set_bf, set_lt, set_gt, hlpq, hlpcq]
      · simp [set_bf, set_lt, set_gt, hcqq, hcqlp]
      · intro x hxq hxlp hxcq
        simp [set_bf, set_lt, set_gt, hxq, hxlp, hxcq]
    · intro x hxq hxlp hxcq
      simp [set_bf, set_lt, set_gt, hxq, hxlp, hxcq]

/-- `balance`, greater-subtree-deeper, double rotation (source lines
558-589). -/
theorem balance_right_double {s : Store} {L : Tree} {q : Handle} {b : Int}
    {CL : Tree} {cq : Handle} {cb : Int} {CR : Tree} {rp : Handle}
    {rb : Int} {RR : Tree}
    (hrep : ReprT s q (Tree.node L q b
      (Tree.node (Tree.node CL cq cb CR) rp rb RR)))
    (hnd : (Tree.node L q b
      (Tree.node (Tree.node CL cq cb CR) rp rb RR)).handles.Nodup)
    (hb : 0 < b) (hrb : rb < 0) :
    ∃ s', balance s q = (cq, s') ∧
      ReprT s' cq (Tree.node
        (Tree.node L q (if 0 < cb then -1 else 0) CL) cq 0
        (Tree.node CR rp (if cb < 0 then 1 else 0) RR)) ∧
      ∀ x, x ≠ q → x ≠ rp → x ≠ cq → s' x = s x := by
  obtain ⟨-, hq0, hbf, hL, hR⟩ := hrep
  obtain ⟨hgte, hrp0, hrbf, hC, hRR⟩ := hR
  obtain ⟨hlte2, hcq0, hcbf, hCL, hCR⟩ := hC
  obtain ⟨hndL, hndR, hqL, hqR, hdisj⟩ := nodup_node hnd
  obtain ⟨hndC, hndRR, hrpC, hrpRR, hdisjR⟩ := nodup_node hndR
  obtain ⟨hndCL, hndCR, hcqCL, hcqCR, hdisjC⟩ := nodup_node hndC
  have hrpR : rp ∈ (Tree.node (Tree.node CL cq cb CR) rp rb RR).handles := by
    rw [Tree.handles]; simp
  have hcqC : cq ∈ (Tree.node CL cq cb CR).handles := by
    rw [Tree.handles]; simp
  have hcqR : cq ∈ (Tree.node (Tree.node CL cq cb CR) rp rb RR).handles := by
    rw [Tree.handles]
    exact List.mem_append.mpr (Or.inl hcqC)
  have hqrp : q ≠ rp := fun e => hqR (e ▸ hrpR)
  have hrpq : rp ≠ q := fun e => hqrp e.symm
  have hqcq : q ≠ cq := fun e => hqR (e ▸ hcqR)
  have hcqq : cq ≠ q := fun e => hqcq e.symm
  have hrpcq : rp ≠ cq := fun e => hrpC (e ▸ hcqC)
  have hcqrp : cq ≠ rp := fun e => hrpcq e.symm
  have hCmem : ∀ x ∈ (Tree.node CL cq cb CR).handles,
      x ∈ (Tree.node (Tree.node CL cq cb CR) rp rb RR).handles := by
    intro x hx
    rw [Tree.handles]
    exact List.mem_append.mpr (Or.inl hx)
  have hCLmem : ∀ x ∈ CL.handles, x ∈ (Tree.node CL cq cb CR).handles := by
    intro x hx
    rw [Tree.handles]
    exact List.mem_append.mpr (Or.inl hx)
  have hCRmem : ∀ x ∈ CR.handles, x ∈ (Tree.node CL cq cb CR).handles := by
    intro x hx
    rw [Tree.handles]
    refine List.mem_append.mpr (Or.inr ?_)
    simp [hx]
  have hRRmem : ∀ x ∈ RR.handles,
      x ∈ (Tree.node (Tree.node CL cq cb CR) rp rb RR).handles := by
    intro x hx
    rw [Tree.handles]
    refine List.mem_append.mpr (Or.inr ?_)
    simp [hx]
  have hLq : ∀ x ∈ L.handles, x ≠ q := fun x hx e => hqL (e ▸ hx)
  have hLrp : ∀ x ∈ L.handles, x ≠ rp := fun x hx e =>
    hdisj x hx (e ▸ hrpR)
  have hLcq : ∀ x ∈ L.handles, x ≠ cq := fun x hx e =>
    hdisj x hx (e ▸ hcqR)
  have hCLq : ∀ x ∈ CL.handles, x ≠ q := by
    intro x hx e
    exact hqR (e ▸ hCmem x (hCLmem x hx))
  have hCLrp : ∀ x ∈ CL.handles, x ≠ rp := by
    intro x hx e
    exact hrpC (e ▸ hCLmem x hx)
  have hCLcq : ∀ x ∈ CL.handles, x ≠ cq := fun x hx e => hcqCL (e ▸ hx)
  have hCRq : ∀ x ∈ CR.handles, x ≠ q := by
    intro x hx e
    exact hqR (e ▸ hCmem x (hCRmem x hx))
  have hCRrp : ∀ x ∈ CR.handles, x ≠ rp := by
    intro x hx e
    exact hrpC (e ▸ hCRmem x hx)
  have hCRcq : ∀ x ∈ CR.handles, x ≠ cq := fun x hx e => hcqCR (e ▸ hx)
  have hRRq : ∀ x ∈ RR.handles, x ≠ q := by
    intro x hx e
    exact hqR (e ▸ hRRmem x hx)
  have hRRrp : ∀ x ∈ RR.handles, x ≠ rp := fun x hx e => hrpRR (e ▸ hx)
  have hRRcq : ∀ x ∈ RR.handles, x ≠ cq := fun x hx e =>
    hdisjR cq hcqC (e ▸ hx)
  have hc1 : get_bf s q > 0 := by
    rw [get_bf, hbf]; omega
  have hc2 : get_bf s rp < 0 := by
    rw [get_bf, hrbf]; omega
  have hbal : balance s q
      = (if get_bf (set_gt (set_lt (set_lt (set_gt s q (get_lt s cq)) rp
            (get_gt (set_gt s q (get_lt s cq)) cq)) cq q) cq rp) cq ≠ 0 then
          (cq, set_bf
            (if get_bf (set_gt (set_lt (set_lt (set_gt s q (get_lt s cq)) rp
                (get_gt (set_gt s q (get_lt s cq)) cq)) cq q) cq rp) cq > 0
              then
                set_bf (set_bf (set_gt (set_lt (set_lt (set_gt s q
                  (get_lt s cq)) rp (get_gt (set_gt s q (get_lt s cq)) cq))
                  cq q) cq rp) q (-1)) rp 0
              else
                set_bf (set_bf (set_gt (set_lt (set_lt (set_gt s q
                  (get_lt s cq)) rp (get_gt (set_gt s q (get_lt s cq)) cq))
                  cq q) cq rp) rp 1) q 0) cq 0)
        else
          (cq, set_bf (set_bf (set_gt (set_lt (set_lt (set_gt s q
            (get_lt s cq)) rp (get_gt (set_gt s q (get_lt s cq)) cq))
            cq q) cq rp) q 0) rp 0)) := by
    rw [balance, if_pos hc1]
    rw [show get_gt s q = rp from hgte]
    rw [if_neg (show ¬ (read_error s = true) from by simp [read_error]),
      if_pos hc2]
    rw [show get_lt s rp = cq from hlte2]
    rw [if_neg (show ¬ (read_error s = true) from by simp [read_error])]
  have hs1cq : get_gt (set_gt s q (get_lt s cq)) cq = (s cq).gt := by
    simp [get_gt, set_gt, hcqq]
  rw [hs1cq] at hbal
  have hbf4 : get_bf (set_gt (set_lt (set_lt (set_gt s q (get_lt s cq)) rp
      ((s cq).gt)) cq q) cq rp) cq = cb := by
    simp [get_bf, set_lt, set_gt, hcbf, hcqq, hcqrp]
  rw [hbf4] at hbal
  simp only [get_lt] at hbal
  have key : ∀ (s' : Store) (X Y Z : Int),
      s' q = ⟨(s q).lt, (s cq).lt, Y⟩ →
      s' rp = ⟨(s cq).gt, (s rp).gt, X⟩ →
      s' cq = ⟨q, rp, Z⟩ → Z = 0 →
      (∀ x, x ≠ q → x ≠ rp → x ≠ cq → s' x = s x) →
      ReprT s' cq (Tree.node (Tree.node L q Y CL) cq 0
        (Tree.node CR rp X RR)) := by
    intro s' X Y Z hfq hfrp hfcq hZ hframe
    refine ⟨rfl, hcq0, ?_, ?_, ?_⟩
    · rw [hfcq, hZ]
    · rw [show (s' cq).lt = q from by rw [hfcq]]
      refine ⟨rfl, hq0, ?_, ?_, ?_⟩
      · rw [hfq]
      · rw [show (s' q).lt = (s q).lt from by rw [hfq]]
        exact ReprT_congr hL (fun x hx =>
          hframe x (hLq x hx) (hLrp x hx) (hLcq x hx))
      · rw [show (s' q).gt = (s cq).lt from by rw [hfq]]
        exact ReprT_congr hCL (fun x hx =>
          hframe x (hCLq x hx) (hCLrp x hx) (hCLcq x hx))
    · rw [show (s' cq).gt = rp from by rw [hfcq]]
      refine ⟨rfl, hrp0, ?_, ?_, ?_⟩
      · rw [hfrp]
      · rw [show (s' rp).lt = (s cq).gt from by rw [hfrp]]
        exact ReprT_congr hCR (fun x hx =>
          hframe x (hCRq x hx) (hCRrp x hx) (hCRcq x hx))
      · rw [show (s' rp).gt = (s rp).gt from by rw [hfrp]]
        exact ReprT_congr hRR (fun x hx =>
          hframe x (hRRq x hx) (hRRrp x hx) (hRRcq x hx))
  rcases lt_trichotomy cb 0 with hcb | hcb | hcb
  · rw [if_pos (show cb ≠ 0 from by omega),
      if_neg (show ¬ cb > 0 from by omega)] at hbal
    refine ⟨_, hbal, ?_, ?_⟩
    · rw [if_neg (show ¬ 0 < cb from by omega), if_pos hcb]
      refine key _ 1 0 0 ?_ ?_ ?_ rfl ?_
      · simp [set_bf, set_lt, set_gt, hqrp, hqcq]
      · simp [set_bf, set_lt, set_gt, hrpq, hrpcq]
      · simp [set_bf, set_lt, set_gt, hcqq, hcqrp]
      · intro x hxq hxrp hxcq
        simp [set_bf, set_lt, set_gt, hxq, hxrp, hxcq]
    · intro x hxq hxrp hxcq
      simp [set_bf, set_lt, set_gt, hxq, hxrp, hxcq]
  · rw [if_neg (show ¬ cb ≠ 0 from by omega)] at hbal
    refine ⟨_, hbal, ?_, ?_⟩
    · rw [if_neg (show ¬ 0 < cb from by omega),
        if_neg (show ¬ cb < 0 from by omega)]
      refine key _ 0 0 cb ?_ ?_ ?_ hcb ?_
      · simp [set_bf, set_lt, set_gt, hqrp, hqcq]
      · simp [set_bf, set_lt, set_gt, hrpq, hrpcq]
      · simp [set_bf, set_lt, set_gt, hcqq, hcqrp, hcbf]
      · intro x hxq hxrp hxcq
        simp [set_bf, set_lt, set_gt, hxq, hxrp, hxcq]
    · intro x hxq hxrp hxcq
      simp [set_bf, set_lt, set_gt, hxq, hxrp, hxcq]
  · rw [if_pos (show cb ≠ 0 from by omega),
      if_pos (show cb > 0 from hcb)] at hbal
    refine ⟨_, hbal, ?_, ?_⟩
    · rw [if_pos hcb, if_neg (show ¬ cb < 0 from by omega)]
      refine key _ 0 (-1) 0 ?_ ?_ ?_ rfl ?_
      · simp [set_bf, set_lt, set_gt, hqrp, hqcq]
      · simp [set_bf, set_lt, set_gt, hrpq, hrpcq]
      · simp [set_bf, set_lt, set_gt, hcqq, hcqrp]
      · intro x hxq hxrp hxcq
        simp [set_bf, set_lt, set_gt, hxq, hxrp, hxcq]
    · intro x hxq hxrp hxcq
      simp [set_bf, set_lt, set_gt, hxq, hxrp, hxcq]

/-! ## Insert: abstract descent along the search path

All functions follow the search path of the (absent) key of `h` in the
abstract tree: `attach` grafts the new leaf, `attBf` additionally sets the
balance factor of every path node to point toward the new leaf (the
net effect of the balance-factor loop on an all-balanced path), `hasU` /
`subU` locate the deepest path node with nonzero balance factor (the
`unbal` node of the source), and the small access functions mirror the
loop variables of the descent. -/

/-- The tree with a new leaf `h` attached at the search position of its
key. -/
def attach (key : Handle → Int) (h : Handle) : Tree → Tree
  | .nil => .node .nil h 0 .nil
  | .node l q b r =>
    if key h < key q then .node (attach key h l) q b r
    else .node l q b (attach key h r)

/-- `attach`, with every balance factor on the search path set to point
toward the new leaf. -/
def attBf (key : Handle → Int) (h : Handle) : Tree → Tree
  | .nil => .node .nil h 0 .nil
  | .node l q _ r =>
    if key h < key q then .node (attBf key h l) q (-1) r
    else .node l q 1 (attBf key h r)

/-- Whether some node on the search path carries a nonzero balance
factor. -/
def hasU (key : Handle → Int) (h : Handle) : Tree → Bool
  | .nil => false
  | .node l q b r =>
    (if key h < key q then hasU key h l else hasU key h r) || decide (b ≠ 0)

/-- The subtree rooted at the deepest search-path node with nonzero
balance factor (meaningful under `hasU`). -/
def subU (key : Handle → Int) (h : Handle) : Tree → Tree
  | .nil => .nil
  | .node l q b r =>
    if key h < key q then
      if hasU key h l then subU key h l else .node l q b r
    else
      if hasU key h r then subU key h r else .node l q b r

/-- Direction taken from the `i`-th node of the search path (true =
greater). -/
def dirAt (key : Handle → Int) (h : Handle) : Tree → Nat → Bool
  | .node _ q _ _, 0 => ! decide (key h < key q)
  | .node l q _ r, i + 1 =>
    if key h < key q then dirAt key h l i else dirAt key h r i
  | .nil, _ => false

/-- The last node of the search path (the parent the new leaf is attached
to). -/
def insParent (key : Handle → Int) (h : Handle) : Tree → Handle
  | .nil => null
  | .node l q _ r =>
    if key h < key q then (if l = .nil then q else insParent key h l)
    else (if r = .nil then q else insParent key h r)

/-- The final comparison result of the descent. -/
def insCmp (key : Handle → Int) (h : Handle) : Tree → Int
  | .nil => 0
  | .node l q _ r =>
    if key h < key q then (if l = .nil then -1 else insCmp key h l)
    else (if r = .nil then 1 else insCmp key h r)

/-- Length of the search path. -/
def insLen (key : Handle → Int) (h : Handle) : Tree → Nat
  | .nil => 0
  | .node l q _ r =>
    1 + (if key h < key q then insLen key h l else insLen key h r)

/-- The branch bitset after the descent recorded the path from depth
`d0`. -/
def insBr (key : Handle → Int) (h : Handle) :
    Tree → Nat → (Nat → Bool) → (Nat → Bool)
  | .nil, _, br => br
  | .node l q _ r, d0, br =>
    if key h < key q then insBr key h l (d0 + 1) (upd br d0 false)
    else insBr key h r (d0 + 1) (upd br d0 true)

/-- Handle of the deepest nonzero-balance path node. -/
def uH (key : Handle → Int) (h : Handle) : Tree → Handle
  | .nil => null
  | .node l q _ r =>
    if key h < key q then (if hasU key h l then uH key h l else q)
    else (if hasU key h r then uH key h r else q)

/-- Parent handle of the deepest nonzero-balance path node (`par` when it
is the root). -/
def uPar (key : Handle → Int) (h : Handle) (par : Handle) : Tree → Handle
  | .nil => par
  | .node l q _ r =>
    if key h < key q then (if hasU key h l then uPar key h q l else par)
    else (if hasU key h r then uPar key h q r else par)

/-- Depth of the deepest nonzero-balance path node below the subtree
root. -/
def uDep (key : Handle → Int) (h : Handle) : Tree → Nat
  | .nil => 0
  | .node l q _ r =>
    if key h < key q then (if hasU key h l then 1 + uDep key h l else 0)
    else (if hasU key h r then 1 + uDep key h r else 0)

/-- Characterization of the descent do-while of `insert` (source lines
702-720) on a tree that does not contain the key being inserted: the loop
exits normally carrying the path data and the deepest unbalanced path
node. -/
theorem insertDescLoop_sim {key : Handle → Int} {s : Store} {h : Handle} :
    ∀ (a : Tree) (p parent u pu : Handle) (ud depth : Nat)
      (br : Nat → Bool) (fuel : Nat),
    ReprT s p a → a ≠ .nil → a.bst key →
    (∀ x ∈ a.handles, key x ≠ key h) →
    a.height < fuel →
    insertDescLoop key s h p parent u pu ud depth br fuel
      = some (.inr ⟨insParent key h a, insCmp key h a,
          insBr key h a depth br, depth + insLen key h a,
          if hasU key h a then uH key h a else u,
          if hasU key h a then uPar key h parent a else pu,
          if hasU key h a then depth + uDep key h a else ud⟩) := by
  intro a
  induction a with
  | nil => intro p parent u pu ud depth br fuel _ hne; exact absurd rfl hne
  | node l q b r ihl ihr =>
    intro p parent u pu ud depth br fuel hrep _ hbst habs hfuel
    obtain ⟨f, rfl⟩ : ∃ f, fuel = f + 1 :=
      ⟨fuel - 1, (Nat.succ_pred_eq_of_pos
        (Nat.lt_of_le_of_lt (Nat.zero_le _) hfuel)).symm⟩
    rw [ReprT_node_iff] at hrep
    obtain ⟨rfl, hq0, hbf, hl, hr⟩ := hrep
    obtain ⟨hlt, hgt, hbl, hbr2⟩ := hbst
    have hfl : l.height < f :=
      Nat.lt_of_le_of_lt (Nat.le_max_left _ _) (Nat.lt_of_succ_lt_succ hfuel)
    have hfr : r.height < f :=
      Nat.lt_of_le_of_lt (Nat.le_max_right _ _) (Nat.lt_of_succ_lt_succ hfuel)
    have hpk : key h ≠ key p :=
      fun e => habs p (by simp [Tree.handles]) e.symm
    rcases lt_trichotomy (key h) (key p) with hk | hk | hk
    · -- descend less
      have hcmp : cmp_n_n key h p = -1 := by
        simp [cmp_n_n, cmpInt, hk]
      cases l with
      | nil =>
        rw [ReprT_nil_iff] at hl
        by_cases hb0 : b = 0 <;>
          · rw [insertDescLoop]
            norm_num [get_bf, hbf, hb0, hcmp, read_error, get_lt, hl]
            simp [insParent, insCmp, insBr, insLen, uH, uPar, uDep, hasU,
              hk, InsDesc.mk.injEq, hb0]
      | node l2 q2 b2 r2 =>
        have hlne : (Tree.node l2 q2 b2 r2) ≠ Tree.nil :=
          fun e => Tree.noConfusion e
        have hlt0 : (s p).lt ≠ null := by
          obtain ⟨e1, e2, -, -, -⟩ := hl
          rw [e1]; exact e2
        have habsl : ∀ x ∈ (Tree.node l2 q2 b2 r2).handles, key x ≠ key h :=
          fun x hx => habs x (by
            rw [Tree.handles]
            exact List.mem_append.mpr (Or.inl hx))
        by_cases hb0 : b = 0
        · have hrec : insertDescLoop key s h p parent u pu ud depth br (f + 1)
              = insertDescLoop key s h (s p).lt p u pu ud (depth + 1)
                  (upd br depth false) f := by
            rw [insertDescLoop]
            norm_num [get_bf, hbf, hb0, hcmp, read_error, get_lt, hlt0]
          rw [hrec, ihl ((s p).lt) p u pu ud (depth + 1)
            (upd br depth false) f hl hlne hbl habsl hfl]
          simp [insParent, insCmp, insBr, insLen, uH, uPar, uDep, hasU, hk,
            InsDesc.mk.injEq, hb0]
          split_ifs <;> (repeat' apply And.intro) <;>
            first | rfl | omega | tauto
        · have hrec : insertDescLoop key s h p parent u pu ud depth br (f + 1)
              = insertDescLoop key s h (s p).lt p p parent depth (depth + 1)
                  (upd br depth false) f := by
            rw [insertDescLoop]
            norm_num [get_bf, hbf, hb0, hcmp, read_error, get_lt, hlt0]
          rw [hrec, ihl ((s p).lt) p p parent depth (depth + 1)
            (upd br depth false) f hl hlne hbl habsl hfl]
          simp [insParent, insCmp, insBr, insLen, uH, uPar, uDep, hasU, hk,
            InsDesc.mk.injEq, hb0]
          split_ifs <;> (repeat' apply And.intro) <;>
            first | rfl | omega | tauto
    · exact absurd hk hpk
    · -- descend greater
      have hcmp : cmp_n_n key h p = 1 := by
        simp [cmp_n_n, cmpInt, hk, not_lt.mpr (le_of_lt hk)]
      have hknl : ¬ key h < key p := not_lt.mpr (le_of_lt hk)
      cases r with
      | nil =>
        rw [ReprT_nil_iff] at hr
        by_cases hb0 : b = 0 <;>
          · rw [insertDescLoop]
            norm_num [get_bf, hbf, hb0, hcmp, read_error, get_gt, hr]
            simp [insParent, insCmp, insBr, insLen, uH, uPar, uDep, hasU,
              hknl, InsDesc.mk.injEq, hb0]
      | node l2 q2 b2 r2 =>
        have hrne : (Tree.node l2 q2 b2 r2) ≠ Tree.nil :=
          fun e => Tree.noConfusion e
        have hgt0 : (s p).gt ≠ null := by
          obtain ⟨e1, e2, -, -, -⟩ := hr
          rw [e1]; exact e2
        have habsr : ∀ x ∈ (Tree.node l2 q2 b2 r2).handles, key x ≠ key h :=
          fun x hx => habs x (by
            rw [Tree.handles]
            refine List.mem_append.mpr (Or.inr ?_)
            simp [hx])
        by_cases hb0 : b = 0
        · have hrec : insertDescLoop key s h p parent u pu ud depth br (f + 1)
              = insertDescLoop key s h (s p).gt p u pu ud (depth + 1)
                  (upd br depth true) f := by
            rw [insertDescLoop]
            norm_num [get_bf, hbf, hb0, hcmp, read_error, get_gt, hgt0]
          rw [hrec, ihr ((s p).gt) p u pu ud (depth + 1)
            (upd br depth true) f hr hrne hbr2 habsr hfr]
          simp [insParent, insCmp, insBr, insLen, uH, uPar, uDep, hasU, hknl,
            InsDesc.mk.injEq, hb0]
          split_ifs <;> (repeat' apply And.intro) <;>
            first | rfl | omega | tauto
        · have hrec : insertDescLoop key s h p parent u pu ud depth br (f + 1)
              = insertDescLoop key s h (s p).gt p p parent depth (depth + 1)
                  (upd br depth true) f := by
            rw [insertDescLoop]
            norm_num [get_bf, hbf, hb0, hcmp, read_error, get_gt, hgt0]
          rw [hrec, ihr ((s p).gt) p p parent depth (depth + 1)
            (upd br depth true) f hr hrne hbr2 habsr hfr]
          simp [insParent, insCmp, insBr, insLen, uH, uPar, uDep, hasU, hknl,
            InsDesc.mk.injEq, hb0]
          split_ifs <;> (repeat' apply And.intro) <;>
            first | rfl | omega | tauto

/-- Attaching the freshly initialized node `h` as a leaf under the last
path node (source lines 722-726) turns the represented tree into
`attach`. -/
theorem attach_repr {key : Handle → Int} {s : Store} {h : Handle}
    (hh0 : h ≠ null) (hlt0 : (s h).lt = null) (hgt0 : (s h).gt = null)
    (hbf0 : (s h).bf = 0) :
    ∀ (a : Tree) (p : Handle), ReprT s p a → a ≠ .nil →
    a.handles.Nodup → (∀ x ∈ a.handles, x ≠ h) →
    ReprT (if insCmp key h a < 0 then set_lt s (insParent key h a) h
           else set_gt s (insParent key h a) h) p (attach key h a) ∧
    insParent key h a ∈ a.handles := by
  intro a
  induction a with
  | nil => intro p _ hne; exact absurd rfl hne
  | node l q b r ihl ihr =>
    intro p hrep _ hnd hfr
    rw [ReprT_node_iff] at hrep
    obtain ⟨rfl, hq0, hbf, hl, hr⟩ := hrep
    obtain ⟨hndl, hndr, hqL, hqR, hdisj⟩ := nodup_node hnd
    have hqh : p ≠ h := hfr p (by simp [Tree.handles])
    by_cases hk : key h < key p
    · cases l with
      | nil =>
        rw [ReprT_nil_iff] at hl
        have hP : insParent key h (Tree.node Tree.nil p b r) = p := by
          simp [insParent, hk]
        have hC : insCmp key h (Tree.node Tree.nil p b r) = -1 := by
          simp [insCmp, hk]
        have hatt : attach key h (Tree.node Tree.nil p b r)
            = Tree.node (Tree.node Tree.nil h 0 Tree.nil) p b r := by
          simp [attach, hk]
        have hhp : h ≠ p := fun e => hqh e.symm
        rw [hP, hC, hatt, if_pos (by norm_num)]
        refine ⟨⟨rfl, hq0, ?_, ⟨?_, hh0, ?_, ?_, ?_⟩, ?_⟩,
          by simp [Tree.handles]⟩
        · simp [set_lt, hbf]
        · simp [set_lt]
        · simp [set_lt, hhp, hbf0]
        · rw [ReprT_nil_iff]
          simp [set_lt, hhp, hlt0]
        · rw [ReprT_nil_iff]
          simp [set_lt, hhp, hgt0]
        · rw [show ((set_lt s p h) p).gt = (s p).gt from by simp [set_lt]]
          refine ReprT_congr hr ?_
          intro x hx
          have hxq : x ≠ p := fun e => hqR (e ▸ hx)
          simp [set_lt, hxq]
      | node l2 q2 b2 r2 =>
        have hlne : (Tree.node l2 q2 b2 r2) ≠ Tree.nil :=
          fun e => Tree.noConfusion e
        have hfrl : ∀ x ∈ (Tree.node l2 q2 b2 r2).handles, x ≠ h :=
          fun x hx => hfr x (by
            rw [Tree.handles]
            exact List.mem_append.mpr (Or.inl hx))
        obtain ⟨hrepl, hmem⟩ := ihl ((s p).lt) hl hlne hndl hfrl
        have hP : insParent key h (Tree.node (Tree.node l2 q2 b2 r2) p b r)
            = insParent key h (Tree.node l2 q2 b2 r2) := by
          simp [insParent, hk]
        have hC : insCmp key h (Tree.node (Tree.node l2 q2 b2 r2) p b r)
            = insCmp key h (Tree.node l2 q2 b2 r2) := by
          simp [insCmp, hk]
        rw [hP, hC]
        have hwq : insParent key h (Tree.node l2 q2 b2 r2) ≠ p :=
          fun e => hqL (e ▸ hmem)
        have hfq : (if insCmp key h (Tree.node l2 q2 b2 r2) < 0 then
            set_lt s (insParent key h (Tree.node l2 q2 b2 r2)) h
            else set_gt s (insParent key h (Tree.node l2 q2 b2 r2)) h) p
            = s p := by
          split_ifs <;> simp [set_lt, set_gt, hwq.symm]
        constructor
        · rw [show attach key h (Tree.node (Tree.node l2 q2 b2 r2) p b r)
              = Tree.node (attach key h (Tree.node l2 q2 b2 r2)) p b r from
            by rw [attach, if_pos hk]]
          refine ⟨rfl, hq0, ?_, ?_, ?_⟩
          · rw [hfq, hbf]
          · rw [show ((if insCmp key h (Tree.node l2 q2 b2 r2) < 0 then
              set_lt s (insParent key h (Tree.node l2 q2 b2 r2)) h
              else set_gt s (insParent key h (Tree.node l2 q2 b2 r2)) h) p).lt
              = (s p).lt from by rw [hfq]]
            exact hrepl
          · rw [show ((if insCmp key h (Tree.node l2 q2 b2 r2) < 0 then
              set_lt s (insParent key h (Tree.node l2 q2 b2 r2)) h
              else set_gt s (insParent key h (Tree.node l2 q2 b2 r2)) h) p).gt
              = (s p).gt from by rw [hfq]]
            refine ReprT_congr hr ?_
            intro x hx
            have hxw : x ≠ insParent key h (Tree.node l2 q2 b2 r2) :=
              fun e => hdisj _ (e ▸ hmem) (e ▸ hx)
            split_ifs <;> simp [set_lt, set_gt, hxw]
        · rw [Tree.handles]
          exact List.mem_append.mpr (Or.inl hmem)
    · cases r with
      | nil =>
        rw [ReprT_nil_iff] at hr
        have hP : insParent key h (Tree.node l p b Tree.nil) = p := by
          simp [insParent, hk]
        have hC : insCmp key h (Tree.node l p b Tree.nil) = 1 := by
          simp [insCmp, hk]
        have hatt : attach key h (Tree.node l p b Tree.nil)
            = Tree.node l p b (Tree.node Tree.nil h 0 Tree.nil) := by
          simp [attach, hk]
        have hhp : h ≠ p := fun e => hqh e.symm
        rw [hP, hC, hatt, if_neg (by norm_num)]
        refine ⟨⟨rfl, hq0, ?_, ?_, ⟨?_, hh0, ?_, ?_, ?_⟩⟩,
          by simp [Tree.handles]⟩
        · simp [set_gt, hbf]
        · rw [show ((set_gt s p h) p).lt = (s p).lt from by simp [set_gt]]
          refine ReprT_congr hl ?_
          intro x hx
          have hxq : x ≠ p := fun e => hqL (e ▸ hx)
          simp [set_gt, hxq]
        · simp [set_gt]
        · simp [set_gt, hhp, hbf0]
        · rw [ReprT_nil_iff]
          simp [set_gt, hhp, hlt0]
        · rw [ReprT_nil_iff]
          simp [set_gt, hhp, hgt0]
      | node l2 q2 b2 r2 =>
        have hrne : (Tree.node l2 q2 b2 r2) ≠ Tree.nil :=
          fun e => Tree.noConfusion e
        have hfrr : ∀ x ∈ (Tree.node l2 q2 b2 r2).handles, x ≠ h :=
          fun x hx => hfr x (by
            rw [Tree.handles]
            refine List.mem_append.mpr (Or.inr ?_)
            simp [hx])
        obtain ⟨hrepr2, hmem⟩ := ihr ((s p).gt) hr hrne hndr hfrr
        have hP : insParent key h (Tree.node l p b (Tree.node l2 q2 b2 r2))
            = insParent key h (Tree.node l2 q2 b2 r2) := by
          simp [insParent, hk]
        have hC : insCmp key h (Tree.node l p b (Tree.node l2 q2 b2 r2))
            = insCmp key h (Tree.node l2 q2 b2 r2) := by
          simp [insCmp, hk]
        rw [hP, hC]
        have hmemR : insParent key h (Tree.node l2 q2 b2 r2)
            ∈ (Tree.node l p b (Tree.node l2 q2 b2 r2)).handles := by
          rw [Tree.handles]
          refine List.mem_append.mpr (Or.inr ?_)
          simp [hmem]
        have hwq : insParent key h (Tree.node l2 q2 b2 r2) ≠ p :=
          fun e => hqR (e ▸ hmem)
        have hfq : (if insCmp key h (Tree.node l2 q2 b2 r2) < 0 then
            set_lt s (insParent key h (Tree.node l2 q2 b2 r2)) h
            else set_gt s (insParent key h (Tree.node l2 q2 b2 r2)) h) p
            = s p := by
          split_ifs <;> simp [set_lt, set_gt, hwq.symm]
        refine ⟨?_, hmemR⟩
        rw [show attach key h (Tree.node l p b (Tree.node l2 q2 b2 r2))
            = Tree.node l p b (attach key h (Tree.node l2 q2 b2 r2)) from
          by rw [attach, if_neg hk]]
        refine ⟨rfl, hq0, ?_, ?_, ?_⟩
        · rw [hfq, hbf]
        · rw [show ((if insCmp key h (Tree.node l2 q2 b2 r2) < 0 then
            set_lt s (insParent key h (Tree.node l2 q2 b2 r2)) h
            else set_gt s (insParent key h (Tree.node l2 q2 b2 r2)) h) p).lt
            = (s p).lt from by rw [hfq]]
          refine ReprT_congr hl ?_
          intro x hx
          have hxw : x ≠ insParent key h (Tree.node l2 q2 b2 r2) :=
            fun e => hdisj x hx (e ▸ hmem)
          split_ifs <;> simp [set_lt, set_gt, hxw]
        · rw [show ((if insCmp key h (Tree.node l2 q2 b2 r2) < 0 then
            set_lt s (insParent key h (Tree.node l2 q2 b2 r2)) h
            else set_gt s (insParent key h (Tree.node l2 q2 b2 r2)) h) p).gt
            = (s p).gt from by rw [hfq]]
          exact hrepr2

/-- In-order split of an attachment: the new leaf lands between the keys
below and above it. -/
theorem attach_split {key : Handle → Int} {h : Handle} : ∀ a : Tree,
    a.bst key → (∀ x ∈ a.handles, key x ≠ key h) →
    ∃ xs ys, a.handles = xs ++ ys ∧
      (attach key h a).handles = xs ++ h :: ys ∧
      (∀ x ∈ xs, key x < key h) ∧ (∀ y ∈ ys, key h < key y) := by
  intro a
  induction a with
  | nil => exact fun _ _ => ⟨[], [], rfl, rfl, by simp, by simp⟩
  | node l q b r ihl ihr =>
    intro hbst habs
    obtain ⟨hlt, hgt, hbl, hbr⟩ := hbst
    have hql : key q ≠ key h := habs q (by simp [Tree.handles])
    by_cases hk : key h < key q
    · obtain ⟨xs, ys, h1, h2, h3, h4⟩ := ihl hbl (fun x hx => habs x (by
        rw [Tree.handles]; exact List.mem_append.mpr (Or.inl hx)))
      refine ⟨xs, ys ++ q :: r.handles, ?_, ?_, h3, ?_⟩
      · rw [Tree.handles, h1, List.append_assoc]
      · rw [show attach key h (Tree.node l q b r)
            = Tree.node (attach key h l) q b r from by simp [attach, hk]]
        rw [Tree.handles, h2]
        simp
      · intro y hy
        rcases List.mem_append.mp hy with hy | hy
        · exact h4 y hy
        · rcases List.mem_cons.mp hy with rfl | hy
          · exact hk
          · exact lt_trans hk (hgt y hy)
    · have hqk : key q < key h := by
        rcases lt_trichotomy (key q) (key h) with hh | hh | hh
        · exact hh
        · exact absurd hh hql
        · exact absurd hh hk
      obtain ⟨xs, ys, h1, h2, h3, h4⟩ := ihr hbr (fun x hx => habs x (by
        rw [Tree.handles]
        refine List.mem_append.mpr (Or.inr ?_)
        simp [hx]))
      refine ⟨l.handles ++ q :: xs, ys, ?_, ?_, ?_, h4⟩
      · rw [Tree.handles, h1]
        simp
      · rw [show attach key h (Tree.node l q b r)
            = Tree.node l q b (attach key h r) from by simp [attach, hk]]
        rw [Tree.handles, h2]
        simp
      · intro x hx
        rcases List.mem_append.mp hx with hx | hx
        · exact lt_trans (hlt x hx) hqk
        · rcases List.mem_cons.mp hx with rfl | hx
          · exact hqk
          · exact h3 x hx

/-- `attBf` visits the same nodes as `attach`. -/
theorem attBf_handles {key : Handle → Int} {h : Handle} : ∀ a : Tree,
    (attBf key h a).handles = (attach key h a).handles := by
  intro a
  induction a with
  | nil => rfl
  | node l q b r ihl ihr =>
    by_cases hk : key h < key q
    · rw [show attBf key h (Tree.node l q b r)
          = Tree.node (attBf key h l) q (-1) r from by simp [attBf, hk],
        show attach key h (Tree.node l q b r)
          = Tree.node (attach key h l) q b r from by simp [attach, hk],
        Tree.handles, Tree.handles, ihl]
    · rw [show attBf key h (Tree.node l q b r)
          = Tree.node l q 1 (attBf key h r) from by simp [attBf, hk],
        show attach key h (Tree.node l q b r)
          = Tree.node l q b (attach key h r) from by simp [attach, hk],
        Tree.handles, Tree.handles, ihr]

/-- Membership in an attachment. -/
theorem attach_mem {key : Handle → Int} {h : Handle} : ∀ (a : Tree)
    (x : Handle), x ∈ (attach key h a).handles ↔ x ∈ a.handles ∨ x = h := by
  intro a
  induction a with
  | nil =>
    intro x
    simp [attach, Tree.handles]
  | node l q b r ihl ihr =>
    intro x
    by_cases hk : key h < key q
    · rw [show attach key h (Tree.node l q b r)
          = Tree.node (attach key h l) q b r from by simp [attach, hk]]
      rw [Tree.handles, Tree.handles]
      simp only [List.mem_append, List.mem_cons, ihl]
      tauto
    · rw [show attach key h (Tree.node l q b r)
          = Tree.node l q b (attach key h r) from by simp [attach, hk]]
      rw [Tree.handles, Tree.handles]
      simp only [List.mem_append, List.mem_cons, ihr]
      tauto

/-- The balance-factor loop of `insert` (source lines 751-767) walks the
recorded path and turns the attached subtree into `attBf`. -/
theorem insertBfLoop_sim {key : Handle → Int} {h : Handle} : ∀ (aS : Tree)
    (p : Handle) (s1 : Store) (d0 : Nat) (br : Nat → Bool) (fuel : Nat),
    ReprT s1 p (attach key h aS) →
    (∀ x ∈ aS.handles, x ≠ h) →
    (∀ i, i < insLen key h aS → br (d0 + i) = dirAt key h aS i) →
    aS.handles.Nodup →
    aS.height < fuel →
    ∃ s2, insertBfLoop h br s1 p d0 fuel = some s2 ∧
      ReprT s2 p (attBf key h aS) ∧
      ∀ x, x ∉ aS.handles → s2 x = s1 x := by
  intro aS
  induction aS with
  | nil =>
    intro p s1 d0 br fuel hrep _ _ _ hfuel
    obtain ⟨f, rfl⟩ : ∃ f, fuel = f + 1 := ⟨fuel - 1, by omega⟩
    have hph : p = h := hrep.1
    refine ⟨s1, ?_, hrep, fun x _ => rfl⟩
    rw [insertBfLoop, if_pos hph.symm]
  | node l q b r ihl ihr =>
    intro p s1 d0 br fuel hrep hfr hbr hnd hfuel
    obtain ⟨f, rfl⟩ : ∃ f, fuel = f + 1 := ⟨fuel - 1, by omega⟩
    obtain ⟨hndl, hndr, hqL, hqR, hdisj⟩ := nodup_node hnd
    have hqh : q ≠ h := hfr q (by simp [Tree.handles])
    by_cases hk : key h < key q
    · rw [show attach key h (Tree.node l q b r)
          = Tree.node (attach key h l) q b r from by simp [attach, hk]]
        at hrep
      obtain ⟨rfl, hq0, hbf, hal, har⟩ := hrep
      have hd0 : br d0 = false := by
        have := hbr 0 (by rw [insLen]; omega)
        rw [dirAt] at this
        simpa [hk] using this
      have hstep : insertBfLoop h br s1 p d0 (f + 1)
          = insertBfLoop h br (set_bf s1 p (-1))
              (get_lt (set_bf s1 p (-1)) p) (d0 + 1) f := by
        rw [insertBfLoop]
        norm_num [show h ≠ p from fun e => hqh e.symm, hd0]
      have hglt : get_lt (set_bf s1 p (-1)) p = (s1 p).lt := by
        simp [get_lt, set_bf]
      have hal2 : ReprT (set_bf s1 p (-1)) ((s1 p).lt) (attach key h l) := by
        refine ReprT_congr hal ?_
        intro x hx
        have hxq : x ≠ p := by
          rcases (attach_mem l x).mp hx with hx2 | rfl
          · exact fun e => hqL (e ▸ hx2)
          · exact fun e => hqh e.symm
        simp [set_bf, hxq]
      obtain ⟨s2, hrun, hrep2, hframe⟩ := ihl ((s1 p).lt) (set_bf s1 p (-1))
        (d0 + 1) br f hal2
        (fun x hx => hfr x (by
          rw [Tree.handles]; exact List.mem_append.mpr (Or.inl hx)))
        (fun i hi => by
          have := hbr (i + 1) (by rw [insLen]; simp [hk]; omega)
          rw [dirAt] at this
          rw [show d0 + 1 + i = d0 + (i + 1) from by omega]
          simpa [hk] using this)
        hndl
        (by rw [Tree.height] at hfuel; omega)
      refine ⟨s2, ?_, ?_, ?_⟩
      · rw [hstep, hglt, hrun]
      · rw [show attBf key h (Tree.node l p b r)
            = Tree.node (attBf key h l) p (-1) r from by simp [attBf, hk]]
        have hfq : s2 p = (set_bf s1 p (-1)) p := hframe p hqL
        refine ⟨rfl, hq0, ?_, ?_, ?_⟩
        · rw [hfq]; simp [set_bf]
        · rw [show (s2 p).lt = (s1 p).lt from by
            rw [hfq]; simp [set_bf]]
          exact hrep2
        · rw [show (s2 p).gt = (s1 p).gt from by
            rw [hfq]; simp [set_bf]]
          refine ReprT_congr har ?_
          intro x hx
          have hxl : x ∉ l.handles := fun hx2 => hdisj x hx2 hx
          have hxq : x ≠ p := fun e => hqR (e ▸ hx)
          rw [hframe x hxl]
          simp [set_bf, hxq]
      · intro x hx
        have hxl : x ∉ l.handles := fun hx2 => hx (by
          rw [Tree.handles]; exact List.mem_append.mpr (Or.inl hx2))
        have hxq : x ≠ p := fun e => hx (e ▸ (by simp [Tree.handles]))
        rw [hframe x hxl]
        simp [set_bf, hxq]
    · rw [show attach key h (Tree.node l q b r)
          = Tree.node l q b (attach key h r) from by simp [attach, hk]]
        at hrep
      obtain ⟨rfl, hq0, hbf, hal, har⟩ := hrep
      have hd0 : br d0 = true := by
        have := hbr 0 (by rw [insLen]; omega)
        rw [dirAt] at this
        simpa [hk] using this
      have hstep : insertBfLoop h br s1 p d0 (f + 1)
          = insertBfLoop h br (set_bf s1 p 1)
              (get_gt (set_bf s1 p 1) p) (d0 + 1) f := by
        rw [insertBfLoop]
        norm_num [show h ≠ p from fun e => hqh e.symm, hd0]
      have hggt : get_gt (set_bf s1 p 1) p = (s1 p).gt := by
        simp [get_gt, set_bf]
      have har2 : ReprT (set_bf s1 p 1) ((s1 p).gt) (attach key h r) := by
        refine ReprT_congr har ?_
        intro x hx
        have hxq : x ≠ p := by
          rcases (attach_mem r x).mp hx with hx2 | rfl
          · exact fun e => hqR (e ▸ hx2)
          · exact fun e => hqh e.symm
        simp [set_bf, hxq]
      obtain ⟨s2, hrun, hrep2, hframe⟩ := ihr ((s1 p).gt) (set_bf s1 p 1)
        (d0 + 1) br f har2
        (fun x hx => hfr x (by
          rw [Tree.handles]
          refine List.mem_append.mpr (Or.inr ?_)
          simp [hx]))
        (fun i hi => by
          have := hbr (i + 1) (by rw [insLen]; simp [hk]; omega)
          rw [dirAt] at this
          rw [show d0 + 1 + i = d0 + (i + 1) from by omega]
          simpa [hk] using this)
        hndr
        (by rw [Tree.height] at hfuel; omega)
      refine ⟨s2, ?_, ?_, ?_⟩
      · rw [hstep, hggt, hrun]
      · rw [show attBf key h (Tree.node l p b r)
            = Tree.node l p 1 (attBf key h r) from by simp [attBf, hk]]
        have hfq : s2 p = (set_bf s1 p 1) p := hframe p hqR
        refine ⟨rfl, hq0, ?_, ?_, ?_⟩
        · rw [hfq]; simp [set_bf]
        · rw [show (s2 p).lt = (s1 p).lt from by
            rw [hfq]; simp [set_bf]]
          refine ReprT_congr hal ?_
          intro x hx
          have hxr : x ∉ r.handles := hdisj x hx
          have hxq : x ≠ p := fun e => hqL (e ▸ hx)
          rw [hframe x hxr]
          simp [set_bf, hxq]
        · rw [show (s2 p).gt = (s1 p).gt from by
            rw [hfq]; simp [set_bf]]
          exact hrep2
      · intro x hx
        have hxr : x ∉ r.handles := fun hx2 => hx (by
          rw [Tree.handles]
          refine List.mem_append.mpr (Or.inr ?_)
          simp [hx2])
        have hxq : x ≠ p := fun e => hx (e ▸ (by simp [Tree.handles]))
        rw [hframe x hxr]
        simp [set_bf, hxq]

/-- Replace the subtree rooted at the deepest nonzero-balance path node. -/
def graftU (key : Handle → Int) (h : Handle) (t2 : Tree) : Tree → Tree
  | .nil => t2
  | .node l q b r =>
    if key h < key q then
      if hasU key h l then .node (graftU key h t2 l) q b r else t2
    else
      if hasU key h r then .node l q b (graftU key h t2 r) else t2

/-- Shape and path coherence of the `subU` decomposition. -/
theorem subU_facts {key : Handle → Int} {h : Handle} : ∀ a : Tree,
    hasU key h a = true →
    (∃ uL uB uR, subU key h a = Tree.node uL (uH key h a) uB uR ∧ uB ≠ 0 ∧
      (if key h < key (uH key h a) then hasU key h uL
       else hasU key h uR) = false) ∧
    insParent key h a = insParent key h (subU key h a) ∧
    insCmp key h a = insCmp key h (subU key h a) ∧
    (∀ i, dirAt key h a (uDep key h a + i)
      = dirAt key h (subU key h a) i) ∧
    (∀ x ∈ (subU key h a).handles, x ∈ a.handles) := by
  intro a
  induction a with
  | nil => intro hu; simp [hasU] at hu
  | node l q b r ihl ihr =>
    intro hu
    by_cases hk : key h < key q
    · by_cases hul : hasU key h l = true
      · obtain ⟨hshape, hP, hC, hD, hM⟩ := ihl hul
        have hsub : subU key h (Tree.node l q b r) = subU key h l := by
          rw [subU, if_pos hk, if_pos hul]
        have huh : uH key h (Tree.node l q b r) = uH key h l := by
          rw [uH, if_pos hk, if_pos hul]
        have hud : uDep key h (Tree.node l q b r) = 1 + uDep key h l := by
          rw [uDep, if_pos hk, if_pos hul]
        refine ⟨by rw [hsub, huh]; exact hshape, ?_, ?_, ?_, ?_⟩
        · rw [hsub, ← hP]
          have hlne : l ≠ Tree.nil := by
            intro e; rw [e] at hul; simp [hasU] at hul
          simp [insParent, hk, hlne]
        · rw [hsub, ← hC]
          have hlne : l ≠ Tree.nil := by
            intro e; rw [e] at hul; simp [hasU] at hul
          simp [insCmp, hk, hlne]
        · intro i
          rw [hsub, hud, ← hD i, show 1 + uDep key h l + i
              = (uDep key h l + i) + 1 from by omega, dirAt, if_pos hk]
        · intro x hx
          rw [hsub] at hx
          rw [Tree.handles]
          exact List.mem_append.mpr (Or.inl (hM x hx))
      · have hsub : subU key h (Tree.node l q b r) = Tree.node l q b r := by
          rw [subU, if_pos hk, if_neg hul]
        have huh : uH key h (Tree.node l q b r) = q := by
          rw [uH, if_pos hk, if_neg hul]
        have hb0 : b ≠ 0 := by
          rw [hasU] at hu
          simp [hul] at hu
          rcases hu with ⟨hle, _⟩ | h0
          · exact absurd hle (not_le.mpr hk)
          · exact h0
        refine ⟨⟨l, b, r, by rw [hsub, huh], hb0, ?_⟩, by rw [hsub],
          by rw [hsub], ?_, ?_⟩
        · rw [huh, if_pos hk]
          simpa using hul
        · intro i
          have hud : uDep key h (Tree.node l q b r) = 0 := by
            rw [uDep, if_pos hk, if_neg hul]
          rw [hsub, hud]
          simp
        · intro x hx
          rw [hsub] at hx
          exact hx
    · by_cases hur : hasU key h r = true
      · obtain ⟨hshape, hP, hC, hD, hM⟩ := ihr hur
        have hsub : subU key h (Tree.node l q b r) = subU key h r := by
          rw [subU, if_neg hk, if_pos hur]
        have huh : uH key h (Tree.node l q b r) = uH key h r := by
          rw [uH, if_neg hk, if_pos hur]
        have hud : uDep key h (Tree.node l q b r) = 1 + uDep key h r := by
          rw [uDep, if_neg hk, if_pos hur]
        refine ⟨by rw [hsub, huh]; exact hshape, ?_, ?_, ?_, ?_⟩
        · rw [hsub, ← hP]
          have hrne : r ≠ Tree.nil := by
            intro e; rw [e] at hur; simp [hasU] at hur
          simp [insParent, hk, hrne]
        · rw [hsub, ← hC]
          have hrne : r ≠ Tree.nil := by
            intro e; rw [e] at hur; simp [hasU] at hur
          simp [insCmp, hk, hrne]
        · intro i
          rw [hsub, hud, ← hD i, show 1 + uDep key h r + i
              = (uDep key h r + i) + 1 from by omega, dirAt, if_neg hk]
        · intro x hx
          rw [hsub] at hx
          rw [Tree.handles]
          refine List.mem_append.mpr (Or.inr ?_)
          simp [hM x hx]
      · have hsub : subU key h (Tree.node l q b r) = Tree.node l q b r := by
          rw [subU, if_neg hk, if_neg hur]
        have huh : uH key h (Tree.node l q b r) = q := by
          rw [uH, if_neg hk, if_neg hur]
        have hb0 : b ≠ 0 := by
          rw [hasU] at hu
          simp [hur] at hu
          simpa [hk] using hu
        refine ⟨⟨l, b, r, by rw [hsub, huh], hb0, ?_⟩, by rw [hsub],
          by rw [hsub], ?_, ?_⟩
        · rw [huh, if_neg hk]
          simpa using hur
        · intro i
          have hud : uDep key h (Tree.node l q b r) = 0 := by
            rw [uDep, if_neg hk, if_neg hur]
          rw [hsub, hud]
          simp
        · intro x hx
          rw [hsub] at hx
          exact hx

/-- `subU` inherits the invariants. -/
theorem subU_inherit {key : Handle → Int} {h : Handle} : ∀ a : Tree,
    a.bst key → a.avl → a.handles.Nodup →
    (∀ x ∈ a.handles, key x ≠ key h) →
    (subU key h a).bst key ∧ (subU key h a).avl ∧
      (subU key h a).handles.Nodup ∧
      (∀ x ∈ (subU key h a).handles, key x ≠ key h) := by
  intro a
  induction a with
  | nil => intro _ _ _ _; exact ⟨trivial, trivial, List.nodup_nil, by simp [Tree.handles]⟩
  | node l q b r ihl ihr =>
    intro hbst havl hnd habs
    obtain ⟨hlt, hgt, hbl, hbr⟩ := hbst
    obtain ⟨hal, har, hab, habs2⟩ := havl
    obtain ⟨hndl, hndr, hqL, hqR, hdisj⟩ := nodup_node hnd
    by_cases hk : key h < key q
    · by_cases hul : hasU key h l = true
      · rw [subU, if_pos hk, if_pos hul]
        exact ihl hbl hal hndl (fun x hx => habs x (by
          rw [Tree.handles]; exact List.mem_append.mpr (Or.inl hx)))
      · rw [subU, if_pos hk, if_neg hul]
        exact ⟨⟨hlt, hgt, hbl, hbr⟩, ⟨hal, har, hab, habs2⟩, hnd, habs⟩
    · by_cases hur : hasU key h r = true
      · rw [subU, if_neg hk, if_pos hur]
        exact ihr hbr har hndr (fun x hx => habs x (by
          rw [Tree.handles]
          refine List.mem_append.mpr (Or.inr ?_)
          simp [hx]))
      · rw [subU, if_neg hk, if_neg hur]
        exact ⟨⟨hlt, hgt, hbl, hbr⟩, ⟨hal, har, hab, habs2⟩, hnd, habs⟩

/-- `subU` is represented at its own root handle. -/
theorem subU_repr {key : Handle → Int} {h : Handle} {s : Store} :
    ∀ (a : Tree) (p : Handle), ReprT s p a →
    ReprT s (uH key h a) (subU key h a) := by
  intro a
  induction a with
  | nil =>
    intro p hrep
    rw [uH, subU]
    rfl
  | node l q b r ihl ihr =>
    intro p hrep
    have hrep2 := hrep
    rw [ReprT_node_iff] at hrep2
    obtain ⟨rfl, hq0, hbf, hl, hr⟩ := hrep2
    by_cases hk : key h < key p
    · by_cases hul : hasU key h l = true
      · rw [subU, uH, if_pos hk, if_pos hul, if_pos hk, if_pos hul]
        exact ihl ((s p).lt) hl
      · rw [subU, uH, if_pos hk, if_neg hul, if_pos hk, if_neg hul]
        exact hrep
    · by_cases hur : hasU key h r = true
      · rw [subU, uH, if_neg hk, if_pos hur, if_neg hk, if_pos hur]
        exact ihr ((s p).gt) hr
      · rw [subU, uH, if_neg hk, if_neg hur, if_neg hk, if_neg hur]
        exact hrep

/-- When the unbalanced node is the subtree root. -/
theorem uDep_zero {key : Handle → Int} {h : Handle} : ∀ a : Tree,
    hasU key h a = true → uDep key h a = 0 →
    subU key h a = a ∧ (∀ par, uPar key h par a = par) ∧
    (∀ t2, graftU key h t2 a = t2) := by
  intro a hu hd
  cases a with
  | nil => simp [hasU] at hu
  | node l q b r =>
    by_cases hk : key h < key q
    · by_cases hul : hasU key h l = true
      · rw [uDep, if_pos hk, if_pos hul] at hd
        omega
      · exact ⟨by rw [subU, if_pos hk, if_neg hul],
          fun par => by rw [uPar, if_pos hk, if_neg hul],
          fun t2 => by rw [graftU, if_pos hk, if_neg hul]⟩
    · by_cases hur : hasU key h r = true
      · rw [uDep, if_neg hk, if_pos hur] at hd
        omega
      · exact ⟨by rw [subU, if_neg hk, if_neg hur],
          fun par => by rw [uPar, if_neg hk, if_neg hur],
          fun t2 => by rw [graftU, if_neg hk, if_neg hur]⟩

/-- Store-level graft simulation: if a new store `s2` represents a
replacement subtree `t2` at `u2`, touching only the region of the
replaced subtree and the new node, then either reusing the old link
(when the root handle is unchanged) or performing the parent re-link
write of the source (lines 779-785) represents the grafted tree. -/
theorem graft_sim {key : Handle → Int} {h : Handle} {s : Store} :
    ∀ (a : Tree) (p par : Handle), ReprT s p a → a.handles.Nodup →
    h ∉ a.handles → hasU key h a = true →
    ∀ (t2 : Tree) (u2 : Handle) (s2 : Store), ReprT s2 u2 t2 →
    (∀ x, x ∉ (subU key h a).handles → x ≠ h → s2 x = s x) →
    (∀ x ∈ t2.handles, x ∈ (subU key h a).handles ∨ x = h) →
    (u2 = uH key h a → ReprT s2 p (graftU key h t2 a)) ∧
    (1 ≤ uDep key h a →
      ReprT (if dirAt key h a (uDep key h a - 1) = true
        then set_gt s2 (uPar key h par a) u2
        else set_lt s2 (uPar key h par a) u2) p (graftU key h t2 a)) ∧
    (1 ≤ uDep key h a → uPar key h par a ∈ a.handles) := by
  intro a
  induction a with
  | nil =>
    intro p par hrep hnd hh hu
    simp [hasU] at hu
  | node l q b r ihl ihr =>
    intro p par hrep hnd hh hu t2 u2 s2 hrep2 hframe hmem
    rw [ReprT_node_iff] at hrep
    obtain ⟨rfl, hq0, hbf, hl, hr⟩ := hrep
    obtain ⟨hndl, hndr, hql, hqr, hdisj⟩ := nodup_node hnd
    have hhl : h ∉ l.handles := fun hx => hh (by
      rw [Tree.handles]; exact List.mem_append.mpr (Or.inl hx))
    have hhp : h ≠ p := fun e => hh (by
      rw [Tree.handles]; exact List.mem_append.mpr (Or.inr (by simp [e])))
    have hhr : h ∉ r.handles := fun hx => hh (by
      rw [Tree.handles]; exact List.mem_append.mpr (Or.inr (by simp [hx])))
    by_cases hk : key h < key p
    · by_cases hul : hasU key h l = true
      · have hsub : subU key h (Tree.node l p b r) = subU key h l := by
          rw [subU, if_pos hk, if_pos hul]
        have huh : uH key h (Tree.node l p b r) = uH key h l := by
          rw [uH, if_pos hk, if_pos hul]
        have hupar : uPar key h par (Tree.node l p b r) = uPar key h p l := by
          rw [uPar, if_pos hk, if_pos hul]
        have hud : uDep key h (Tree.node l p b r) = 1 + uDep key h l := by
          rw [uDep, if_pos hk, if_pos hul]
        have hgr : graftU key h t2 (Tree.node l p b r)
            = Tree.node (graftU key h t2 l) p b r := by
          rw [graftU, if_pos hk, if_pos hul]
        rw [hsub] at hframe hmem
        have hsubl : ∀ x ∈ (subU key h l).handles, x ∈ l.handles :=
          (subU_facts l hul).2.2.2.2
        obtain ⟨ihA, ihB, ihP⟩ :=
          ihl ((s p).lt) p hl hndl hhl hul t2 u2 s2 hrep2 hframe hmem
        have hs2p : s2 p = s p :=
          hframe p (fun hx => hql (hsubl p hx)) (Ne.symm hhp)
        have hsr : ∀ x ∈ r.handles, s2 x = s x := fun x hx =>
          hframe x (fun hc => hdisj x (hsubl x hc) hx) (fun e => hhr (e ▸ hx))
        refine ⟨?_, ?_, ?_⟩
        · intro hu2
          rw [huh] at hu2
          rw [hgr, ReprT_node_iff]
          refine ⟨rfl, hq0, ?_, ?_, ?_⟩
          · rw [hs2p, hbf]
          · rw [hs2p]
            exact ihA hu2
          · rw [hs2p]
            exact ReprT_congr hr hsr
        · intro _
          rw [hgr]
          by_cases hdl : 1 ≤ uDep key h l
          · have hparL := ihP hdl
            have hUp : uPar key h p l ≠ p := fun e => hql (e ▸ hparL)
            have hdir : dirAt key h (Tree.node l p b r)
                (uDep key h (Tree.node l p b r) - 1)
                = dirAt key h l (uDep key h l - 1) := by
              rw [hud, show 1 + uDep key h l - 1
                  = (uDep key h l - 1) + 1 from by omega, dirAt, if_pos hk]
            have hkey : ∀ w : Store,
                (∀ x, x ≠ uPar key h p l → w x = s2 x) →
                ReprT w ((s p).lt) (graftU key h t2 l) →
                ReprT w p (Tree.node (graftU key h t2 l) p b r) := by
              intro w hwf hwl
              have hwp : w p = s p := by
                rw [hwf p (Ne.symm hUp), hs2p]
              refine ReprT_node_iff.mpr ⟨rfl, hq0, ?_, ?_, ?_⟩
              · rw [hwp, hbf]
              · rw [hwp]
                exact hwl
              · rw [hwp]
                refine ReprT_congr hr (fun x hx => ?_)
                rw [hwf x (fun e => hdisj _ hparL (e ▸ hx)), hsr x hx]
            rcases Bool.eq_false_or_eq_true
                (dirAt key h l (uDep key h l - 1)) with hd | hd
            · rw [hdir, hd, if_pos rfl, hupar]
              have hB := ihB hdl
              rw [hd, if_pos rfl] at hB
              refine hkey _ (fun x hx => ?_) hB
              simp only [set_gt]
              rw [if_neg hx]
            · rw [hdir, hd, if_neg Bool.false_ne_true, hupar]
              have hB := ihB hdl
              rw [hd, if_neg Bool.false_ne_true] at hB
              refine hkey _ (fun x hx => ?_) hB
              simp only [set_lt]
              rw [if_neg hx]
          · have hd0 : uDep key h l = 0 := by omega
            obtain ⟨hsubl2, hupar2, hgr2⟩ := uDep_zero l hul hd0
            rw [hsubl2] at hframe hmem hsubl
            have hdir : dirAt key h (Tree.node l p b r)
                (uDep key h (Tree.node l p b r) - 1) = false := by
              rw [hud, hd0]
              show dirAt key h (Tree.node l p b r) 0 = false
              simp [dirAt, hk]
            have hcond : ¬(dirAt key h (Tree.node l p b r)
                (uDep key h (Tree.node l p b r) - 1) = true) := by
              rw [hdir]
              exact Bool.false_ne_true
            rw [if_neg hcond, hupar, hupar2 p, hgr2]
            have hpt2 : p ∉ t2.handles := by
              intro hx
              rcases hmem p hx with hc | hc
              · exact hql hc
              · exact hhp hc.symm
            have hbfp : (set_lt s2 p u2 p).bf = (s2 p).bf := by
              simp [set_lt]
            have hltp : (set_lt s2 p u2 p).lt = u2 := by
              simp [set_lt]
            have hgtp : (set_lt s2 p u2 p).gt = (s2 p).gt := by
              simp [set_lt]
            refine ReprT_node_iff.mpr ⟨rfl, hq0, ?_, ?_, ?_⟩
            · rw [hbfp, hs2p, hbf]
            · rw [hltp]
              refine ReprT_congr hrep2 (fun x hx => ?_)
              have hxp : x ≠ p := fun e => hpt2 (e ▸ hx)
              simp only [set_lt]
              rw [if_neg hxp]
            · rw [hgtp, hs2p]
              refine ReprT_congr hr (fun x hx => ?_)
              have hxp : x ≠ p := fun e => hqr (e ▸ hx)
              simp only [set_lt]
              rw [if_neg hxp, hsr x hx]
        · intro _
          rw [hupar]
          by_cases hdl : 1 ≤ uDep key h l
          · rw [Tree.handles]
            exact List.mem_append.mpr (Or.inl (ihP hdl))
          · have hd0 : uDep key h l = 0 := by omega
            obtain ⟨_, hupar2, _⟩ := uDep_zero l hul hd0
            rw [hupar2 p, Tree.handles]
            exact List.mem_append.mpr (Or.inr (by simp))
      · have huh : uH key h (Tree.node l p b r) = p := by
          rw [uH, if_pos hk, if_neg hul]
        have hgr : graftU key h t2 (Tree.node l p b r) = t2 := by
          rw [graftU, if_pos hk, if_neg hul]
        have hud : uDep key h (Tree.node l p b r) = 0 := by
          rw [uDep, if_pos hk, if_neg hul]
        refine ⟨?_, ?_, ?_⟩
        · intro hu2
          rw [huh] at hu2
          rw [hgr]
          exact hu2 ▸ hrep2
        · intro hge
          rw [hud] at hge
          omega
        · intro hge
          rw [hud] at hge
          omega
    · by_cases hur : hasU key h r = true
      · have hsub : subU key h (Tree.node l p b r) = subU key h r := by
          rw [subU, if_neg hk, if_pos hur]
        have huh : uH key h (Tree.node l p b r) = uH key h r := by
          rw [uH, if_neg hk, if_pos hur]
        have hupar : uPar key h par (Tree.node l p b r) = uPar key h p r := by
          rw [uPar, if_neg hk, if_pos hur]
        have hud : uDep key h (Tree.node l p b r) = 1 + uDep key h r := by
          rw [uDep, if_neg hk, if_pos hur]
        have hgr : graftU key h t2 (Tree.node l p b r)
            = Tree.node l p b (graftU key h t2 r) := by
          rw [graftU, if_neg hk, if_pos hur]
        rw [hsub] at hframe hmem
        have hsubr : ∀ x ∈ (subU key h r).handles, x ∈ r.handles :=
          (subU_facts r hur).2.2.2.2
        obtain ⟨ihA, ihB, ihP⟩ :=
          ihr ((s p).gt) p hr hndr hhr hur t2 u2 s2 hrep2 hframe hmem
        have hs2p : s2 p = s p :=
          hframe p (fun hx => hqr (hsubr p hx)) (Ne.symm hhp)
        have hsl : ∀ x ∈ l.handles, s2 x = s x := fun x hx =>
          hframe x (fun hc => hdisj x hx (hsubr x hc)) (fun e => hhl (e ▸ hx))
        refine ⟨?_, ?_, ?_⟩
        · intro hu2
          rw [huh] at hu2
          rw [hgr, ReprT_node_iff]
          refine ⟨rfl, hq0, ?_, ?_, ?_⟩
          · rw [hs2p, hbf]
          · rw [hs2p]
            exact ReprT_congr hl hsl
          · rw [hs2p]
            exact ihA hu2
        · intro _
          rw [hgr]
          by_cases hdr : 1 ≤ uDep key h r
          · have hparR := ihP hdr
            have hUp : uPar key h p r ≠ p := fun e => hqr (e ▸ hparR)
            have hdir : dirAt key h (Tree.node l p b r)
                (uDep key h (Tree.node l p b r) - 1)
                = dirAt key h r (uDep key h r - 1) := by
              rw [hud, show 1 + uDep key h r - 1
                  = (uDep key h r - 1) + 1 from by omega, dirAt, if_neg hk]
            have hkey : ∀ w : Store,
                (∀ x, x ≠ uPar key h p r → w x = s2 x) →
                ReprT w ((s p).gt) (graftU key h t2 r) →
                ReprT w p (Tree.node l p b (graftU key h t2 r)) := by
              intro w hwf hwr
              have hwp : w p = s p := by
                rw [hwf p (Ne.symm hUp), hs2p]
              refine ReprT_node_iff.mpr ⟨rfl, hq0, ?_, ?_, ?_⟩
              · rw [hwp, hbf]
              · rw [hwp]
                refine ReprT_congr hl (fun x hx => ?_)
                rw [hwf x (fun e => hdisj _ hx (e ▸ hparR)), hsl x hx]
              · rw [hwp]
                exact hwr
            rcases Bool.eq_false_or_eq_true
                (dirAt key h r (uDep key h r - 1)) with hd | hd
            · rw [hdir, hd, if_pos rfl, hupar]
              have hB := ihB hdr
              rw [hd, if_pos rfl] at hB
              refine hkey _ (fun x hx => ?_) hB
              simp only [set_gt]
              rw [if_neg hx]
            · rw [hdir, hd, if_neg Bool.false_ne_true, hupar]
              have hB := ihB hdr
              rw [hd, if_neg Bool.false_ne_true] at hB
              refine hkey _ (fun x hx => ?_) hB
              simp only [set_lt]
              rw [if_neg hx]
          · have hd0 : uDep key h r = 0 := by omega
            obtain ⟨hsubr2, hupar2, hgr2⟩ := uDep_zero r hur hd0
            rw [hsubr2] at hframe hmem hsubr
            have hdir : dirAt key h (Tree.node l p b r)
                (uDep key h (Tree.node l p b r) - 1) = true := by
              rw [hud, hd0]
              show dirAt key h (Tree.node l p b r) 0 = true
              simp [dirAt, hk]
            have hcond : dirAt key h (Tree.node l p b r)
                (uDep key h (Tree.node l p b r) - 1) = true := hdir
            rw [if_pos hcond, hupar, hupar2 p, hgr2]
            have hpt2 : p ∉ t2.handles := by
              intro hx
              rcases hmem p hx with hc | hc
              · exact hqr hc
              · exact hhp hc.symm
            have hbfp : (set_gt s2 p u2 p).bf = (s2 p).bf := by
              simp [set_gt]
            have hgtp : (set_gt s2 p u2 p).gt = u2 := by
              simp [set_gt]
            have hltp : (set_gt s2 p u2 p).lt = (s2 p).lt := by
              simp [set_gt]
            refine ReprT_node_iff.mpr ⟨rfl, hq0, ?_, ?_, ?_⟩
            · rw [hbfp, hs2p, hbf]
            · rw [hltp, hs2p]
              refine ReprT_congr hl (fun x hx => ?_)
              have hxp : x ≠ p := fun e => hql (e ▸ hx)
              simp only [set_gt]
              rw [if_neg hxp, hsl x hx]
            · rw [hgtp]
              refine ReprT_congr hrep2 (fun x hx => ?_)
              have hxp : x ≠ p := fun e => hpt2 (e ▸ hx)
              simp only [set_gt]
              rw [if_neg hxp]
        · intro _
          rw [hupar]
          by_cases hdr : 1 ≤ uDep key h r
          · rw [Tree.handles]
            refine List.mem_append.mpr (Or.inr ?_)
            simp [ihP hdr]
          · have hd0 : uDep key h r = 0 := by omega
            obtain ⟨_, hupar2, _⟩ := uDep_zero r hur hd0
            rw [hupar2 p, Tree.handles]
            exact List.mem_append.mpr (Or.inr (by simp))
      · have huh : uH key h (Tree.node l p b r) = p := by
          rw [uH, if_neg hk, if_neg hur]
        have hgr : graftU key h t2 (Tree.node l p b r) = t2 := by
          rw [graftU, if_neg hk, if_neg hur]
        have hud : uDep key h (Tree.node l p b r) = 0 := by
          rw [uDep, if_neg hk, if_neg hur]
        refine ⟨?_, ?_, ?_⟩
        · intro hu2
          rw [huh] at hu2
          rw [hgr]
          exact hu2 ▸ hrep2
        · intro hge
          rw [hud] at hge
          omega
        · intro hge
          rw [hud] at hge
          omega

/-- Tree-level graft: replacing the deepest-unbalanced subtree by a tree
of the same height containing the same handles plus the new one, in
order, preserves the invariants and splits the in-order sequence at the
new handle. -/
theorem graft_tree {key : Handle → Int} {h : Handle} : ∀ a : Tree,
    a.bst key → a.avl → hasU key h a = true →
    (∀ x ∈ a.handles, key x ≠ key h) →
    ∀ t2 : Tree, t2.bst key → t2.avl →
    t2.height = (subU key h a).height →
    (∃ xs ys, (subU key h a).handles = xs ++ ys ∧
      t2.handles = xs ++ h :: ys ∧
      (∀ x ∈ xs, key x < key h) ∧ (∀ y ∈ ys, key h < key y)) →
    (graftU key h t2 a).bst key ∧ (graftU key h t2 a).avl ∧
    (graftU key h t2 a).height = a.height ∧
    (∃ xs ys, a.handles = xs ++ ys ∧
      (graftU key h t2 a).handles = xs ++ h :: ys ∧
      (∀ x ∈ xs, key x < key h) ∧ (∀ y ∈ ys, key h < key y)) := by
  intro a
  induction a with
  | nil => intro _ _ hu; simp [hasU] at hu
  | node l q b r ihl ihr =>
    intro hbst havl hu habs2 t2 ht2b ht2a hh2 hsplit
    obtain ⟨hlt, hgt, hbl, hbr⟩ := hbst
    obtain ⟨hal, har, hab, habs⟩ := havl
    have hql : q ∈ (Tree.node l q b r).handles := by simp [Tree.handles]
    have habl : ∀ x ∈ l.handles, key x ≠ key h := fun x hx =>
      habs2 x (by rw [Tree.handles]; exact List.mem_append.mpr (Or.inl hx))
    have habr : ∀ x ∈ r.handles, key x ≠ key h := fun x hx =>
      habs2 x (by
        rw [Tree.handles]
        refine List.mem_append.mpr (Or.inr ?_)
        simp [hx])
    by_cases hk : key h < key q
    · by_cases hul : hasU key h l = true
      · have hsub : subU key h (Tree.node l q b r) = subU key h l := by
          rw [subU, if_pos hk, if_pos hul]
        have hgr : graftU key h t2 (Tree.node l q b r)
            = Tree.node (graftU key h t2 l) q b r := by
          rw [graftU, if_pos hk, if_pos hul]
        rw [hsub] at hh2 hsplit
        obtain ⟨gb, ga, ghh, gxs, gys, hsp1, hsp2, hbx, hby⟩ :=
          ihl hbl hal hul habl t2 ht2b ht2a hh2 hsplit
        rw [hgr]
        have hmemg : ∀ x ∈ (graftU key h t2 l).handles,
            x ∈ l.handles ∨ x = h := by
          intro x hx
          rw [hsp2] at hx
          rcases List.mem_append.mp hx with hc | hc
          · exact Or.inl (by rw [hsp1]; exact List.mem_append.mpr (Or.inl hc))
          · rcases List.mem_cons.mp hc with hc2 | hc2
            · exact Or.inr hc2
            · exact Or.inl (by
                rw [hsp1]
                exact List.mem_append.mpr (Or.inr hc2))
        refine ⟨⟨?_, hgt, gb, hbr⟩,
          ⟨ga, har, by rw [ghh]; exact hab, habs⟩, ?_, ?_⟩
        · intro x hx
          rcases hmemg x hx with hc | hc
          · exact hlt x hc
          · rw [hc]
            exact hk
        · show max (graftU key h t2 l).height r.height + 1
            = max l.height r.height + 1
          rw [ghh]
        · refine ⟨gxs, gys ++ q :: r.handles, ?_, ?_, hbx, ?_⟩
          · rw [Tree.handles, hsp1, List.append_assoc]
          · rw [Tree.handles, hsp2]
            simp [List.append_assoc]
          · intro y hy
            rcases List.mem_append.mp hy with hc | hc
            · exact hby y hc
            · rcases List.mem_cons.mp hc with hc2 | hc2
              · rw [hc2]
                exact hk
              · exact lt_trans hk (hgt y hc2)
      · have hsub : subU key h (Tree.node l q b r) = Tree.node l q b r := by
          rw [subU, if_pos hk, if_neg hul]
        have hgr : graftU key h t2 (Tree.node l q b r) = t2 := by
          rw [graftU, if_pos hk, if_neg hul]
        rw [hsub] at hh2 hsplit
        rw [hgr]
        exact ⟨ht2b, ht2a, hh2, hsplit⟩
    · have hqh : key q < key h :=
        lt_of_le_of_ne (not_lt.mp hk) (habs2 q hql)
      by_cases hur : hasU key h r = true
      · have hsub : subU key h (Tree.node l q b r) = subU key h r := by
          rw [subU, if_neg hk, if_pos hur]
        have hgr : graftU key h t2 (Tree.node l q b r)
            = Tree.node l q b (graftU key h t2 r) := by
          rw [graftU, if_neg hk, if_pos hur]
        rw [hsub] at hh2 hsplit
        obtain ⟨gb, ga, ghh, gxs, gys, hsp1, hsp2, hbx, hby⟩ :=
          ihr hbr har hur habr t2 ht2b ht2a hh2 hsplit
        rw [hgr]
        have hmemg : ∀ x ∈ (graftU key h t2 r).handles,
            x ∈ r.handles ∨ x = h := by
          intro x hx
          rw [hsp2] at hx
          rcases List.mem_append.mp hx with hc | hc
          · exact Or.inl (by rw [hsp1]; exact List.mem_append.mpr (Or.inl hc))
          · rcases List.mem_cons.mp hc with hc2 | hc2
            · exact Or.inr hc2
            · exact Or.inl (by
                rw [hsp1]
                exact List.mem_append.mpr (Or.inr hc2))
        refine ⟨⟨hlt, ?_, hbl, gb⟩,
          ⟨hal, ga, by rw [ghh]; exact hab, habs⟩, ?_, ?_⟩
        · intro x hx
          rcases hmemg x hx with hc | hc
          · exact hgt x hc
          · rw [hc]
            exact hqh
        · show max l.height (graftU key h t2 r).height + 1
            = max l.height r.height + 1
          rw [ghh]
        · refine ⟨l.handles ++ q :: gxs, gys, ?_, ?_, ?_, hby⟩
          · rw [Tree.handles, hsp1]
            simp [List.append_assoc]
          · rw [Tree.handles, hsp2]
            simp [List.append_assoc]
          · intro x hx
            rcases List.mem_append.mp hx with hc | hc
            · exact lt_trans (hlt x hc) hqh
            · rcases List.mem_cons.mp hc with hc2 | hc2
              · rw [hc2]
                exact hqh
              · exact hbx x hc2
      · have hsub : subU key h (Tree.node l q b r) = Tree.node l q b r := by
          rw [subU, if_neg hk, if_neg hur]
        have hgr : graftU key h t2 (Tree.node l q b r) = t2 := by
          rw [graftU, if_neg hk, if_neg hur]
        rw [hsub] at hh2 hsplit
        rw [hgr]
        exact ⟨ht2b, ht2a, hh2, hsplit⟩

/-- Bits below the starting depth are untouched by the branch recording. -/
theorem insBr_lt {key : Handle → Int} {h : Handle} : ∀ (a : Tree)
    (d0 : Nat) (br : Nat → Bool) (j : Nat), j < d0 →
    insBr key h a d0 br j = br j := by
  intro a
  induction a with
  | nil => intro d0 br j _; rfl
  | node l q b r ihl ihr =>
    intro d0 br j hj
    by_cases hk : key h < key q
    · rw [insBr, if_pos hk, ihl (d0 + 1) _ j (by omega)]
      simp only [upd]
      rw [if_neg (by omega)]
    · rw [insBr, if_neg hk, ihr (d0 + 1) _ j (by omega)]
      simp only [upd]
      rw [if_neg (by omega)]

/-- The recorded branch bits along the search path are the path
directions. -/
theorem insBr_spec {key : Handle → Int} {h : Handle} : ∀ (a : Tree)
    (d0 : Nat) (br : Nat → Bool) (i : Nat), i < insLen key h a →
    insBr key h a d0 br (d0 + i) = dirAt key h a i := by
  intro a
  induction a with
  | nil => intro d0 br i hi; rw [insLen] at hi; omega
  | node l q b r ihl ihr =>
    intro d0 br i hi
    by_cases hk : key h < key q
    · rw [insBr, if_pos hk]
      cases i with
      | zero =>
        rw [show d0 + 0 = d0 from rfl, insBr_lt l (d0 + 1) _ d0 (by omega)]
        simp [upd, dirAt, hk]
      | succ i =>
        rw [insLen, if_pos hk] at hi
        rw [show d0 + (i + 1) = (d0 + 1) + i from by omega,
          ihl (d0 + 1) _ i (by omega), dirAt, if_pos hk]
    · rw [insBr, if_neg hk]
      cases i with
      | zero =>
        rw [show d0 + 0 = d0 from rfl, insBr_lt r (d0 + 1) _ d0 (by omega)]
        simp [upd, dirAt, hk]
      | succ i =>
        rw [insLen, if_neg hk] at hi
        rw [show d0 + (i + 1) = (d0 + 1) + i from by omega,
          ihr (d0 + 1) _ i (by omega), dirAt, if_neg hk]

/-- All handles of a represented tree are nonnull. -/
theorem handles_ne_null {s : Store} : ∀ (t : Tree) (p : Handle),
    ReprT s p t → ∀ x ∈ t.handles, x ≠ null := by
  intro t
  induction t with
  | nil => intro p _ x hx; simp [Tree.handles] at hx
  | node l q b r ihl ihr =>
    intro p hrep x hx
    rw [ReprT_node_iff] at hrep
    obtain ⟨rfl, hq0, hbf, hl, hr⟩ := hrep
    rw [Tree.handles] at hx
    rcases List.mem_append.mp hx with hc | hc
    · exact ihl _ hl x hc
    · rcases List.mem_cons.mp hc with hc2 | hc2
      · rw [hc2]; exact hq0
      · exact ihr _ hr x hc2

/-- Inserting a fresh element in the middle keeps the list duplicate
free. -/
theorem nodup_split_insert {xs ys : List Handle} {h : Handle}
    (hnd : (xs ++ ys).Nodup) (hh : h ∉ xs ++ ys) :
    (xs ++ h :: ys).Nodup := by
  rw [List.nodup_append] at hnd
  obtain ⟨h1, h2, h3⟩ := hnd
  rw [List.nodup_append]
  refine ⟨h1, ?_, ?_⟩
  · rw [List.nodup_cons]
    exact ⟨fun hc => hh (List.mem_append.mpr (Or.inr hc)), h2⟩
  · intro x hx hc
    rcases List.mem_cons.mp hc with hc2 | hc2
    · exact hh (List.mem_append.mpr (Or.inl (hc2 ▸ hx)))
    · exact h3 hx hc2

/-- Properties of the attach-and-repoint result on an all-zero search
path: the tree stays a BST, stays AVL, and grows by exactly one level. -/
theorem attBf_props {key : Handle → Int} {h : Handle} : ∀ a : Tree,
    a.bst key → a.avl → hasU key h a = false →
    (∀ x ∈ a.handles, key x ≠ key h) →
    (attBf key h a).bst key ∧ (attBf key h a).avl ∧
    (attBf key h a).height = a.height + 1 := by
  intro a
  induction a with
  | nil =>
    intro _ _ _ _
    refine ⟨⟨?_, ?_, trivial, trivial⟩, ⟨trivial, trivial, ?_, ?_⟩, ?_⟩ <;>
      simp [attBf, Tree.handles, Tree.height]
  | node l q b r ihl ihr =>
    intro hbst havl hu habs
    obtain ⟨hlt, hgt, hbl, hbr⟩ := hbst
    obtain ⟨hal, har, hab, habb⟩ := havl
    rw [hasU] at hu
    rw [Bool.or_eq_false_iff] at hu
    obtain ⟨hside, hb0⟩ := hu
    have hb0 : b = 0 := by simpa using hb0
    have habl : ∀ x ∈ l.handles, key x ≠ key h := fun x hx =>
      habs x (by rw [Tree.handles]; exact List.mem_append.mpr (Or.inl hx))
    have habr : ∀ x ∈ r.handles, key x ≠ key h := fun x hx =>
      habs x (by
        rw [Tree.handles]
        refine List.mem_append.mpr (Or.inr ?_)
        simp [hx])
    by_cases hk : key h < key q
    · rw [if_pos hk] at hside
      obtain ⟨ihb, iha, ihh⟩ := ihl hbl hal hside habl
      have hatt : attBf key h (Tree.node l q b r)
          = Tree.node (attBf key h l) q (-1) r := by
        rw [attBf, if_pos hk]
      rw [hatt]
      have hmem : ∀ x ∈ (attBf key h l).handles, x ∈ l.handles ∨ x = h := by
        intro x hx
        rw [attBf_handles] at hx
        exact (attach_mem l x).mp hx
      refine ⟨⟨?_, hgt, ihb, hbr⟩, ⟨iha, har, ?_, ?_⟩, ?_⟩
      · intro x hx
        rcases hmem x hx with hc | hc
        · exact hlt x hc
        · rw [hc]; exact hk
      · rw [ihh]
        omega
      · decide
      · show max (attBf key h l).height r.height + 1
          = max l.height r.height + 1 + 1
        rw [ihh]
        omega
    · rw [if_neg hk] at hside
      have hqh : key q < key h :=
        lt_of_le_of_ne (not_lt.mp hk) (habs q (by simp [Tree.handles]))
      obtain ⟨ihb, iha, ihh⟩ := ihr hbr har hside habr
      have hatt : attBf key h (Tree.node l q b r)
          = Tree.node l q 1 (attBf key h r) := by
        rw [attBf, if_neg hk]
      rw [hatt]
      have hmem : ∀ x ∈ (attBf key h r).handles, x ∈ r.handles ∨ x = h := by
        intro x hx
        rw [attBf_handles] at hx
        exact (attach_mem r x).mp hx
      refine ⟨⟨hlt, ?_, hbl, ihb⟩, ⟨hal, iha, ?_, ?_⟩, ?_⟩
      · intro x hx
        rcases hmem x hx with hc | hc
        · exact hgt x hc
        · rw [hc]; exact hqh
      · rw [ihh]
        omega
      · decide
      · show max l.height (attBf key h r).height + 1
          = max l.height r.height + 1 + 1
        rw [ihh]
        omega

/-- BST and in-order sequence are preserved by a single left rotation
(raising the less child), for arbitrary balance factors. -/
theorem rotL_bst {key : Handle → Int} {LL : Tree} {lp : Handle}
    {LR R : Tree} {U : Handle} {b1 b2 b3 b4 : Int}
    (hbst : (Tree.node (Tree.node LL lp b1 LR) U b2 R).bst key) :
    (Tree.node LL lp b3 (Tree.node LR U b4 R)).bst key ∧
    (Tree.node LL lp b3 (Tree.node LR U b4 R)).handles
      = (Tree.node (Tree.node LL lp b1 LR) U b2 R).handles := by
  obtain ⟨hAU, hUR, ⟨hLLlp, hlpLR, bLL, bLR⟩, bR⟩ := hbst
  have hlpU : key lp < key U := hAU lp (by simp [Tree.handles])
  refine ⟨⟨hLLlp, ?_, bLL, ?_, hUR, bLR, bR⟩, ?_⟩
  · intro x hx
    rw [Tree.handles] at hx
    rcases List.mem_append.mp hx with hc | hc
    · exact hlpLR x hc
    · rcases List.mem_cons.mp hc with hc2 | hc2
      · rw [hc2]; exact hlpU
      · exact lt_trans hlpU (hUR x hc2)
  · intro x hx
    refine hAU x ?_
    rw [Tree.handles]
    refine List.mem_append.mpr (Or.inr ?_)
    simp [hx]
  · simp [Tree.handles, List.append_assoc]

/-- BST and in-order sequence are preserved by a single right rotation
(raising the greater child). -/
theorem rotR_bst {key : Handle → Int} {L RL RR : Tree} {U rp : Handle}
    {b1 b2 b3 b4 : Int}
    (hbst : (Tree.node L U b1 (Tree.node RL rp b2 RR)).bst key) :
    (Tree.node (Tree.node L U b3 RL) rp b4 RR).bst key ∧
    (Tree.node (Tree.node L U b3 RL) rp b4 RR).handles
      = (Tree.node L U b1 (Tree.node RL rp b2 RR)).handles := by
  obtain ⟨hLU, hUR, bL, ⟨hRLrp, hrpRR, bRL, bRR⟩⟩ := hbst
  have hUrp : key U < key rp := hUR rp (by simp [Tree.handles])
  refine ⟨⟨?_, hrpRR, ⟨hLU, ?_, bL, bRL⟩, bRR⟩, ?_⟩
  · intro x hx
    rw [Tree.handles] at hx
    rcases List.mem_append.mp hx with hc | hc
    · exact lt_trans (hLU x hc) hUrp
    · rcases List.mem_cons.mp hc with hc2 | hc2
      · rw [hc2]; exact hUrp
      · exact hRLrp x hc2
  · intro x hx
    refine hUR x ?_
    rw [Tree.handles]
    exact List.mem_append.mpr (Or.inl hx)
  · simp [Tree.handles, List.append_assoc]

/-- BST and in-order sequence are preserved by the less-greater double
rotation. -/
theorem rotLD_bst {key : Handle → Int} {LL CL CR R : Tree}
    {lp cq U : Handle} {b1 b2 b3 b4 b5 b6 : Int}
    (hbst : (Tree.node (Tree.node LL lp b1 (Tree.node CL cq b2 CR))
      U b3 R).bst key) :
    (Tree.node (Tree.node LL lp b4 CL) cq b5
      (Tree.node CR U b6 R)).bst key ∧
    (Tree.node (Tree.node LL lp b4 CL) cq b5
      (Tree.node CR U b6 R)).handles
      = (Tree.node (Tree.node LL lp b1 (Tree.node CL cq b2 CR))
          U b3 R).handles := by
  obtain ⟨hAU, hUR, ⟨hLLlp, hlpC, bLL, ⟨hCLcq, hcqCR, bCL, bCR⟩⟩, bR⟩ := hbst
  have hlpcq : key lp < key cq := hlpC cq (by simp [Tree.handles])
  have hcqU : key cq < key U := hAU cq (by
    rw [Tree.handles]
    refine List.mem_append.mpr (Or.inr ?_)
    simp [Tree.handles])
  refine ⟨⟨?_, ?_, ⟨hLLlp, ?_, bLL, bCL⟩, ?_, ?_, bCR, bR⟩, ?_⟩
  · intro x hx
    rw [Tree.handles] at hx
    rcases List.mem_append.mp hx with hc | hc
    · exact lt_trans (hLLlp x hc) hlpcq
    · rcases List.mem_cons.mp hc with hc2 | hc2
      · rw [hc2]; exact hlpcq
      · exact hCLcq x hc2
  · intro x hx
    rw [Tree.handles] at hx
    rcases List.mem_append.mp hx with hc | hc
    · exact hcqCR x hc
    · rcases List.mem_cons.mp hc with hc2 | hc2
      · rw [hc2]; exact hcqU
      · exact lt_trans hcqU (hUR x hc2)
  · intro x hx
    refine hlpC x ?_
    rw [Tree.handles]
    exact List.mem_append.mpr (Or.inl hx)
  · intro x hx
    refine hAU x ?_
    rw [Tree.handles]
    refine List.mem_append.mpr (Or.inr ?_)
    rw [List.mem_cons]
    refine Or.inr ?_
    rw [Tree.handles]
    refine List.mem_append.mpr (Or.inr ?_)
    simp [hx]
  · exact hUR
  · simp [Tree.handles, List.append_assoc]

/-- BST and in-order sequence are preserved by the greater-less double
rotation. -/
theorem rotRD_bst {key : Handle → Int} {L CL CR RR : Tree}
    {U cq rp : Handle} {b1 b2 b3 b4 b5 b6 : Int}
    (hbst : (Tree.node L U b1 (Tree.node (Tree.node CL cq b2 CR)
      rp b3 RR)).bst key) :
    (Tree.node (Tree.node L U b4 CL) cq b5
      (Tree.node CR rp b6 RR)).bst key ∧
    (Tree.node (Tree.node L U b4 CL) cq b5
      (Tree.node CR rp b6 RR)).handles
      = (Tree.node L U b1 (Tree.node (Tree.node CL cq b2 CR)
          rp b3 RR)).handles := by
  obtain ⟨hLU, hUR, bL, ⟨hCrp, hrpRR, ⟨hCLcq, hcqCR, bCL, bCR⟩, bRR⟩⟩ := hbst
  have hUcq : key U < key cq := hUR cq (by
    rw [Tree.handles]
    refine List.mem_append.mpr (Or.inl ?_)
    simp [Tree.handles])
  have hcqrp : key cq < key rp := hCrp cq (by simp [Tree.handles])
  refine ⟨⟨?_, ?_, ⟨hLU, ?_, bL, bCL⟩, ?_, hrpRR, bCR, bRR⟩, ?_⟩
  · intro x hx
    rw [Tree.handles] at hx
    rcases List.mem_append.mp hx with hc | hc
    · exact lt_trans (hLU x hc) hUcq
    · rcases List.mem_cons.mp hc with hc2 | hc2
      · rw [hc2]; exact hUcq
      · exact hCLcq x hc2
  · intro x hx
    rw [Tree.handles] at hx
    rcases List.mem_append.mp hx with hc | hc
    · exact hcqCR x hc
    · rcases List.mem_cons.mp hc with hc2 | hc2
      · rw [hc2]; exact hcqrp
      · exact lt_trans hcqrp (hrpRR x hc2)
  · intro x hx
    refine hUR x ?_
    rw [Tree.handles]
    refine List.mem_append.mpr (Or.inl ?_)
    rw [Tree.handles]
    exact List.mem_append.mpr (Or.inl hx)
  · intro x hx
    refine hCrp x ?_
    rw [Tree.handles]
    refine List.mem_append.mpr (Or.inr ?_)
    simp [hx]
  · simp [Tree.handles, List.append_assoc]

/-- Height bookkeeping of the single rotation in the insert case with the
less side two levels deeper. -/
theorem ins_avl_LS {LL LR R : Tree} {lp U : Handle}
    (hA : (Tree.node LL lp (-1) LR).avl) (hR : R.avl)
    (hh : (Tree.node LL lp (-1) LR).height = R.height + 2) :
    (Tree.node LL lp 0 (Tree.node LR U 0 R)).avl ∧
    (Tree.node LL lp 0 (Tree.node LR U 0 R)).height = R.height + 2 := by
  obtain ⟨hLL, hLR, hbf, -⟩ := hA
  rw [Tree.height] at hh
  refine ⟨⟨hLL, ⟨hLR, hR, ?_, ?_⟩, ?_, ?_⟩, ?_⟩ <;>
    first
      | omega
      | decide
      | (simp only [Tree.height]; omega)

/-- Height bookkeeping of the single rotation in the insert case with the
greater side two levels deeper. -/
theorem ins_avl_RS {L RL RR : Tree} {U rp : Handle}
    (hA : (Tree.node RL rp 1 RR).avl) (hL : L.avl)
    (hh : (Tree.node RL rp 1 RR).height = L.height + 2) :
    (Tree.node (Tree.node L U 0 RL) rp 0 RR).avl ∧
    (Tree.node (Tree.node L U 0 RL) rp 0 RR).height = L.height + 2 := by
  obtain ⟨hRL, hRR, hbf, -⟩ := hA
  rw [Tree.height] at hh
  refine ⟨⟨⟨hL, hRL, ?_, ?_⟩, hRR, ?_, ?_⟩, ?_⟩ <;>
    first
      | omega
      | decide
      | (simp only [Tree.height]; omega)

/-- Height bookkeeping of the less-greater double rotation in the insert
case. -/
theorem ins_avl_LD {LL CL CR R : Tree} {lp cq U : Handle} {cb : Int}
    (hA : (Tree.node LL lp 1 (Tree.node CL cq cb CR)).avl) (hR : R.avl)
    (hh : (Tree.node LL lp 1 (Tree.node CL cq cb CR)).height
      = R.height + 2) :
    (Tree.node (Tree.node LL lp (if 0 < cb then -1 else 0) CL) cq 0
      (Tree.node CR U (if cb < 0 then 1 else 0) R)).avl ∧
    (Tree.node (Tree.node LL lp (if 0 < cb then -1 else 0) CL) cq 0
      (Tree.node CR U (if cb < 0 then 1 else 0) R)).height
      = R.height + 2 := by
  obtain ⟨hLL, ⟨hCL, hCR, hcb, hcbb⟩, hbf, -⟩ := hA
  simp only [Tree.height] at hh hbf
  have hcb3 : cb = -1 ∨ cb = 0 ∨ cb = 1 := by omega
  rcases hcb3 with rfl | rfl | rfl <;>
    refine ⟨⟨⟨hLL, hCL, ?_, ?_⟩, ⟨hCR, hR, ?_, ?_⟩, ?_, ?_⟩, ?_⟩ <;>
    first
      | omega
      | decide
      | (norm_num <;> omega)
      | (simp only [Tree.height]; omega)
      | (simp only [Tree.height]; norm_num <;> omega)

/-- Height bookkeeping of the greater-less double rotation in the insert
case. -/
theorem ins_avl_RD {L CL CR RR : Tree} {U cq rp : Handle} {cb : Int}
    (hA : (Tree.node (Tree.node CL cq cb CR) rp (-1) RR).avl) (hL : L.avl)
    (hh : (Tree.node (Tree.node CL cq cb CR) rp (-1) RR).height
      = L.height + 2) :
    (Tree.node (Tree.node L U (if 0 < cb then -1 else 0) CL) cq 0
      (Tree.node CR rp (if cb < 0 then 1 else 0) RR)).avl ∧
    (Tree.node (Tree.node L U (if 0 < cb then -1 else 0) CL) cq 0
      (Tree.node CR rp (if cb < 0 then 1 else 0) RR)).height
      = L.height + 2 := by
  obtain ⟨⟨hCL, hCR, hcb, hcbb⟩, hRR, hbf, -⟩ := hA
  simp only [Tree.height] at hh hbf
  have hcb3 : cb = -1 ∨ cb = 0 ∨ cb = 1 := by omega
  rcases hcb3 with rfl | rfl | rfl <;>
    refine ⟨⟨⟨hL, hCL, ?_, ?_⟩, ⟨hCR, hRR, ?_, ?_⟩, ?_, ?_⟩, ?_⟩ <;>
    first
      | omega
      | decide
      | (norm_num <;> omega)
      | (simp only [Tree.height]; omega)
      | (simp only [Tree.height]; norm_num <;> omega)

/-- Setter field-preservation facts. -/
theorem set_lt_bf (s : Store) (p c x : Handle) :
    ((set_lt s p c) x).bf = (s x).bf := by
  by_cases h : x = p <;> simp [set_lt, h]

theorem set_lt_gt (s : Store) (p c x : Handle) :
    ((set_lt s p c) x).gt = (s x).gt := by
  by_cases h : x = p <;> simp [set_lt, h]

theorem set_gt_bf (s : Store) (p c x : Handle) :
    ((set_gt s p c) x).bf = (s x).bf := by
  by_cases h : x = p <;> simp [set_gt, h]

theorem set_gt_lt (s : Store) (p c x : Handle) :
    ((set_gt s p c) x).lt = (s x).lt := by
  by_cases h : x = p <;> simp [set_gt, h]

theorem set_bf_lt (s : Store) (p : Handle) (b : Int) (x : Handle) :
    ((set_bf s p b) x).lt = (s x).lt := by
  by_cases h : x = p <;> simp [set_bf, h]

theorem set_bf_gt (s : Store) (p : Handle) (b : Int) (x : Handle) :
    ((set_bf s p b) x).gt = (s x).gt := by
  by_cases h : x = p <;> simp [set_bf, h]

/-- The search-path length decomposes at the deepest unbalanced node. -/
theorem insLen_subU {key : Handle → Int} {h : Handle} : ∀ a : Tree,
    hasU key h a = true →
    insLen key h a = uDep key h a + insLen key h (subU key h a) := by
  intro a
  induction a with
  | nil => intro hu; simp [hasU] at hu
  | node l q b r ihl ihr =>
    intro hu
    by_cases hk : key h < key q
    · by_cases hul : hasU key h l = true
      · have hlne : l ≠ Tree.nil := by
          intro e; rw [e] at hul; simp [hasU] at hul
        rw [subU, if_pos hk, if_pos hul, uDep, if_pos hk, if_pos hul,
          insLen, if_pos hk, ihl hul]
        omega
      · rw [subU, if_pos hk, if_neg hul, uDep, if_pos hk, if_neg hul]
        omega
    · by_cases hur : hasU key h r = true
      · have hrne : r ≠ Tree.nil := by
          intro e; rw [e] at hur; simp [hasU] at hur
        rw [subU, if_neg hk, if_pos hur, uDep, if_neg hk, if_pos hur,
          insLen, if_neg hk, ihr hur]
        omega
      · rw [subU, if_neg hk, if_neg hur, uDep, if_neg hk, if_neg hur]
        omega

/-- The deepest-unbalanced subtree is no taller than the tree. -/
theorem subU_height_le {key : Handle → Int} {h : Handle} : ∀ a : Tree,
    (subU key h a).height ≤ a.height := by
  intro a
  induction a with
  | nil => rw [subU]
  | node l q b r ihl ihr =>
    by_cases hk : key h < key q
    · by_cases hul : hasU key h l = true
      · rw [subU, if_pos hk, if_pos hul]
        refine le_trans ihl ?_
        rw [Tree.height]
        omega
      · rw [subU, if_pos hk, if_neg hul]
    · by_cases hur : hasU key h r = true
      · rw [subU, if_neg hk, if_pos hur]
        refine le_trans ihr ?_
        rw [Tree.height]
        omega
      · rw [subU, if_neg hk, if_neg hur]

/-- `attBf` always produces a node. -/
theorem attBf_ne_nil {key : Handle → Int} {h : Handle} (a : Tree) :
    attBf key h a ≠ Tree.nil := by
  cases a with
  | nil => simp [attBf]
  | node l q b r =>
    by_cases hk : key h < key q <;> simp [attBf, hk]

/-- `insert` on a tree whose search path carries only zero balance
factors: the loop runs from the root and the result is `attBf`. -/
theorem insert_noU_spec {key : Handle → Int} {t : AvlSt} {a : Tree}
    {h : Handle} {fuel : Nat}
    (hrep : ReprT t.s t.root a) (hnd : a.handles.Nodup)
    (hbst : a.bst key)
    (hh0 : h ≠ null) (hfresh : h ∉ a.handles)
    (habs : ∀ x ∈ a.handles, key x ≠ key h)
    (hane : a ≠ Tree.nil)
    (hU : hasU key h a = false)
    (hfuel : a.height < fuel) :
    ∃ s2, insert key t h fuel = some (h, ⟨t.root, s2⟩) ∧
      ReprT s2 t.root (attBf key h a) ∧
      (∀ x, x ∉ a.handles → x ≠ h → s2 x = t.s x) := by
  have hroot0 : t.root ≠ null := by
    cases a with
    | nil => exact absurd rfl hane
    | node l q b r => exact hrep.1 ▸ hrep.2.1
  have hfx : ∀ x ∈ a.handles, x ≠ h := fun x hx e => hfresh (e ▸ hx)
  have hagree0 : ∀ x ∈ a.handles,
      (set_bf (set_gt (set_lt t.s h null) h null) h 0) x = t.s x := by
    intro x hx
    have hxh : x ≠ h := hfx x hx
    simp [set_bf, set_gt, set_lt, hxh]
  have hrep0 : ReprT (set_bf (set_gt (set_lt t.s h null) h null) h 0)
      t.root a := ReprT_congr hrep hagree0
  have hclt : ((set_bf (set_gt (set_lt t.s h null) h null) h 0) h).lt
      = null := by simp [set_bf, set_gt, set_lt]
  have hcgt : ((set_bf (set_gt (set_lt t.s h null) h null) h 0) h).gt
      = null := by simp [set_bf, set_gt, set_lt]
  have hcbf : ((set_bf (set_gt (set_lt t.s h null) h null) h 0) h).bf
      = 0 := by simp [set_bf, set_gt, set_lt]
  have hdesc := insertDescLoop_sim a t.root null null null 0 0
    (fun _ => false) fuel hrep0 hane hbst habs hfuel
  have h1 : (if hasU key h a then uH key h a else null) = null := by
    simp [hU]
  have h2 : (if hasU key h a then uPar key h null a else null) = null := by
    simp [hU]
  have h3 : (if hasU key h a then 0 + uDep key h a else 0) = 0 := by
    simp [hU]
  rw [h1, h2, h3] at hdesc
  obtain ⟨hatt, hattP⟩ := attach_repr hh0 hclt hcgt hcbf a t.root hrep0
    hane hnd hfx
  obtain ⟨s2, hloop, hrep2, hframe2⟩ := insertBfLoop_sim a t.root
    (if insCmp key h a < 0
     then set_lt (set_bf (set_gt (set_lt t.s h null) h null) h 0)
       (insParent key h a) h
     else set_gt (set_bf (set_gt (set_lt t.s h null) h null) h 0)
       (insParent key h a) h)
    0 (insBr key h a 0 (fun _ => false)) fuel hatt hfx
    (fun i hi => insBr_spec a 0 _ i hi) hnd hfuel
  refine ⟨s2, ?_, hrep2, ?_⟩
  · simp only [insert, if_neg hroot0]
    rw [hdesc]
    simp only [if_neg hroot0, eq_self_iff_true, if_true]
    rw [hloop]
  · intro x hxa hxh
    have hxp : x ≠ insParent key h a := fun e => hxa (e ▸ hattP)
    rw [hframe2 x hxa]
    have hw : ∀ (w : Store), (w = set_lt (set_bf (set_gt (set_lt t.s h null)
        h null) h 0) (insParent key h a) h ∨
        w = set_gt (set_bf (set_gt (set_lt t.s h null) h null) h 0)
          (insParent key h a) h) → w x = t.s x := by
      intro w hwor
      rcases hwor with rfl | rfl <;>
        simp [set_lt, set_gt, set_bf, hxp, hxh]
    by_cases hc : insCmp key h a < 0
    · rw [if_pos hc]
      exact hw _ (Or.inl rfl)
    · rw [if_neg hc]
      exact hw _ (Or.inr rfl)

/-- `attach` always produces a node. -/
theorem attach_ne_nil {key : Handle → Int} {h : Handle} (a : Tree) :
    attach key h a ≠ Tree.nil := by
  cases a with
  | nil => simp [attach]
  | node l q b r =>
    by_cases hk : key h < key q <;> simp [attach, hk]

/-- `insert` when the search path has a deepest unbalanced node `U` and
the new key descends into the less subtree of `U`: the balance factor of
`U` either absorbs the growth (becomes zero) or a single or double
rotation restores it, and the re-linked subtree is grafted back at the
parent of `U`. -/
theorem insert_hasU_left_spec {key : Handle → Int} {t : AvlSt} {a : Tree}
    {h : Handle} {fuel : Nat}
    (hrep : ReprT t.s t.root a) (hnd : a.handles.Nodup)
    (hbst : a.bst key) (havl : a.avl)
    (hh0 : h ≠ null) (hfresh : h ∉ a.handles)
    (habs : ∀ x ∈ a.handles, key x ≠ key h)
    (hane : a ≠ Tree.nil)
    (hU : hasU key h a = true)
    (hk1 : key h < key (uH key h a))
    (hfuel : a.height < fuel) :
    ∃ st2 a2,
      insert key t h fuel = some (h, st2) ∧
      ReprT st2.s st2.root a2 ∧ a2.handles.Nodup ∧ a2.bst key ∧ a2.avl ∧
      (∃ xs ys, a.handles = xs ++ ys ∧ a2.handles = xs ++ h :: ys ∧
        (∀ x ∈ xs, key x < key h) ∧ (∀ y ∈ ys, key h < key y)) ∧
      (∀ x, x ∉ a.handles → x ≠ h → st2.s x = t.s x) := by
  have hroot0 : t.root ≠ null := by
    cases a with
    | nil => exact absurd rfl hane
    | node l q b r => exact hrep.1 ▸ hrep.2.1
  have hfx : ∀ x ∈ a.handles, x ≠ h := fun x hx e => hfresh (e ▸ hx)
  set s0 := set_bf (set_gt (set_lt t.s h null) h null) h 0 with hs0
  have hagree0 : ∀ x ∈ a.handles, s0 x = t.s x := by
    intro x hx
    rw [hs0]
    simp [set_bf, set_gt, set_lt, hfx x hx]
  have hrep0 : ReprT s0 t.root a := ReprT_congr hrep hagree0
  have hclt : (s0 h).lt = null := by rw [hs0]; simp [set_bf, set_gt, set_lt]
  have hcgt : (s0 h).gt = null := by rw [hs0]; simp [set_bf, set_gt, set_lt]
  have hcbf : (s0 h).bf = 0 := by rw [hs0]; simp [set_bf, set_gt, set_lt]
  obtain ⟨⟨aL, bU, aR, hshape, hbU0, hside⟩, hPeq, hCeq, hDeq, hMsub⟩ :=
    subU_facts a hU
  obtain ⟨hbstS, havlS, hndS, habsS⟩ := subU_inherit a hbst havl hnd habs
  have hreprS0 : ReprT s0 (uH key h a) (subU key h a) :=
    subU_repr a t.root hrep0
  rw [hshape] at hreprS0 hbstS havlS hndS habsS hMsub hPeq hCeq hDeq
  rw [if_pos hk1] at hside
  have hbstS2 := hbstS
  have hndS2 := hndS
  rw [ReprT_node_iff] at hreprS0
  obtain ⟨-, hU2, hbfS0, hLs0, hRs0⟩ := hreprS0
  obtain ⟨hltS, hgtS, hbstL, hbstR⟩ := hbstS
  obtain ⟨havL, havR, hbfSe, hbSb⟩ := havlS
  obtain ⟨hndL, hndR, hUL, hUR2, hdisjS⟩ := nodup_node hndS
  have habsL : ∀ x ∈ aL.handles, key x ≠ key h := fun x hx => habsS x (by
    rw [Tree.handles]; exact List.mem_append.mpr (Or.inl hx))
  have hfxS : ∀ x ∈ (Tree.node aL (uH key h a) bU aR).handles, x ≠ h :=
    fun x hx => hfx x (hMsub x hx)
  have hfxL : ∀ x ∈ aL.handles, x ≠ h := fun x hx => hfxS x (by
    rw [Tree.handles]; exact List.mem_append.mpr (Or.inl hx))
  have hUmem : uH key h a ∈ a.handles := hMsub _ (by simp [Tree.handles])
  have hhS : h ∉ (Tree.node aL (uH key h a) bU aR).handles :=
    fun hc => hfresh (hMsub h hc)
  have hdesc := insertDescLoop_sim a t.root null null null 0 0
    (fun _ => false) fuel hrep0 hane hbst habs hfuel
  have hif1 : (if hasU key h a then uH key h a else null) = uH key h a := by
    simp [hU]
  have hif2 : (if hasU key h a then uPar key h null a else null)
      = uPar key h null a := by simp [hU]
  have hif3 : (if hasU key h a then 0 + uDep key h a else 0)
      = uDep key h a := by simp [hU]
  rw [hif1, hif2, hif3] at hdesc
  obtain ⟨hattS, hattPS⟩ := attach_repr hh0 hclt hcgt hcbf
    (Tree.node aL (uH key h a) bU aR) (uH key h a)
    (ReprT_node_iff.mpr ⟨rfl, hU2, hbfS0, hLs0, hRs0⟩)
    (fun e => Tree.noConfusion e) hndS2 hfxS
  rw [← hPeq, ← hCeq] at hattS
  rw [← hPeq] at hattPS
  set S1 := if insCmp key h a < 0 then set_lt s0 (insParent key h a) h
    else set_gt s0 (insParent key h a) h with hS1
  rw [show attach key h (Tree.node aL (uH key h a) bU aR)
      = Tree.node (attach key h aL) (uH key h a) bU aR from by
        simp [attach, hk1]] at hattS
  rw [ReprT_node_iff] at hattS
  obtain ⟨-, -, hbfU1, hL1, hR1⟩ := hattS
  have hS1frame : ∀ x, x ≠ insParent key h a → S1 x = s0 x := by
    intro x hxp
    rw [hS1]
    by_cases hc : insCmp key h a < 0
    · rw [if_pos hc]
      simp [set_lt, hxp]
    · rw [if_neg hc]
      simp [set_gt, hxp]
  have hm1 : ((-1 : Int) < 0) := by norm_num
  have hUDlt : uDep key h a < insLen key h a := by
    rw [insLen_subU a hU, hshape, insLen]
    split_ifs <;> omega
  have hbitv : insBr key h a 0 (fun _ => false) (uDep key h a) = false := by
    have hb := insBr_spec a 0 (fun _ => false) (uDep key h a) hUDlt
    rw [Nat.zero_add] at hb
    rw [hb, show uDep key h a = uDep key h a + 0 from by omega, hDeq 0]
    simp [dirAt, hk1]
  have hbitsL : ∀ i, i < insLen key h aL →
      insBr key h a 0 (fun _ => false) (uDep key h a + 1 + i)
        = dirAt key h aL i := by
    intro i hi
    have hlt2 : uDep key h a + 1 + i < insLen key h a := by
      rw [insLen_subU a hU, hshape, insLen, if_pos hk1]
      omega
    have hb := insBr_spec a 0 (fun _ => false) (uDep key h a + 1 + i) hlt2
    rw [Nat.zero_add] at hb
    rw [hb, show uDep key h a + 1 + i = uDep key h a + (i + 1) from by omega,
      hDeq (i + 1), dirAt, if_pos hk1]
  have hfuelL : aL.height < fuel := by
    have h2' := @subU_height_le key h a
    rw [hshape, Tree.height] at h2'
    omega
  have hattLn : attach key h aL ≠ Tree.nil := attach_ne_nil aL
  have hLne : (S1 (uH key h a)).lt ≠ null := by
    cases hE : attach key h aL with
    | nil => exact absurd hE hattLn
    | node ll qq bb rr =>
      rw [hE] at hL1
      rw [hL1.1]
      exact hL1.2.1
  have hbU2 : bU = 1 ∨ bU = -1 := by omega
  rcases hbU2 with rfl | rfl
  · -- absorb: the balance factor of U becomes zero
    have hhR : aR.height = aL.height + 1 := by omega
    have hfrL2 : ∀ x ∈ (attach key h aL).handles,
        set_bf S1 (uH key h a) 0 x = S1 x := by
      intro x hx
      have hxU : x ≠ uH key h a := by
        rcases (attach_mem aL x).mp hx with hc | hc
        · exact fun e => hUL (e ▸ hc)
        · rw [hc]
          exact fun e => hfx _ hUmem e.symm
      simp [set_bf, hxU]
    have hrepL2 : ReprT (set_bf S1 (uH key h a) 0) ((S1 (uH key h a)).lt)
        (attach key h aL) := ReprT_congr hL1 hfrL2
    obtain ⟨s3, hloop, hrepL3, hfr3⟩ := insertBfLoop_sim aL
      ((S1 (uH key h a)).lt) (set_bf S1 (uH key h a) 0)
      (uDep key h a + 1) (insBr key h a 0 (fun _ => false)) fuel
      hrepL2 hfxL hbitsL hndL hfuelL
    have hs3U : s3 (uH key h a) = set_bf S1 (uH key h a) 0 (uH key h a) :=
      hfr3 _ hUL
    have hrepT2 : ReprT s3 (uH key h a)
        (Tree.node (attBf key h aL) (uH key h a) 0 aR) := by
      rw [ReprT_node_iff]
      refine ⟨rfl, hU2, ?_, ?_, ?_⟩
      · rw [hs3U]
        simp [set_bf]
      · rw [hs3U, set_bf_lt]
        exact hrepL3
      · rw [hs3U, set_bf_gt]
        refine ReprT_congr hR1 (fun x hx => ?_)
        have hxU : x ≠ uH key h a := fun e => hUR2 (e ▸ hx)
        have hxL : x ∉ aL.handles := fun hc => hdisjS x hc hx
        rw [hfr3 x hxL]
        simp [set_bf, hxU]
    obtain ⟨hbA, haA, hhA⟩ := attBf_props aL hbstL havL hside habsL
    have ht2bst : (Tree.node (attBf key h aL) (uH key h a) 0 aR).bst key := by
      refine ⟨?_, hgtS, hbA, hbstR⟩
      intro x hx
      rw [attBf_handles] at hx
      rcases (attach_mem aL x).mp hx with hc | hc
      · exact hltS x hc
      · rw [hc]
        exact hk1
    have ht2avl : (Tree.node (attBf key h aL) (uH key h a) 0 aR).avl := by
      refine ⟨haA, havR, ?_, by decide⟩
      rw [hhA]
      omega
    obtain ⟨xs, ys, hsp1, hsp2, hbx, hby⟩ := attach_split
      (Tree.node aL (uH key h a) 1 aR) hbstS2 habsS
    have ht2hand : (Tree.node (attBf key h aL) (uH key h a) 0 aR).handles
        = xs ++ h :: ys := by
      rw [← hsp2, show attach key h (Tree.node aL (uH key h a) 1 aR)
          = Tree.node (attach key h aL) (uH key h a) 1 aR from by
            simp [attach, hk1]]
      rw [Tree.handles, Tree.handles, attBf_handles]
    have hfrG : ∀ x, x ∉ (subU key h a).handles → x ≠ h → s3 x = s0 x := by
      intro x hxs hxh
      rw [hshape] at hxs
      have hxL : x ∉ aL.handles := fun hc => hxs (by
        rw [Tree.handles]; exact List.mem_append.mpr (Or.inl hc))
      have hxU : x ≠ uH key h a := fun e => hxs (by
        rw [e, Tree.handles]
        refine List.mem_append.mpr (Or.inr ?_)
        simp)
      have hxP : x ≠ insParent key h a := fun e => hxs (e ▸ hattPS)
      rw [hfr3 x hxL]
      rw [show set_bf S1 (uH key h a) 0 x = S1 x from by simp [set_bf, hxU]]
      exact hS1frame x hxP
    have hmemG : ∀ x ∈ (Tree.node (attBf key h aL)
        (uH key h a) 0 aR).handles,
        x ∈ (subU key h a).handles ∨ x = h := by
      intro x hx
      rw [hshape]
      rw [Tree.handles] at hx
      rcases List.mem_append.mp hx with hc | hc
      · rw [attBf_handles] at hc
        rcases (attach_mem aL x).mp hc with hc2 | hc2
        · exact Or.inl (by
            rw [Tree.handles]; exact List.mem_append.mpr (Or.inl hc2))
        · exact Or.inr hc2
      · exact Or.inl (by
          rw [Tree.handles]
          exact List.mem_append.mpr (Or.inr hc))
    obtain ⟨gA, gB, gP⟩ := graft_sim a t.root null hrep0 hnd hfresh hU
      (Tree.node (attBf key h aL) (uH key h a) 0 aR) (uH key h a) s3
      hrepT2 hfrG hmemG
    obtain ⟨hgb, hga, hgh, hgsplit⟩ := graft_tree a hbst havl hU habs
      (Tree.node (attBf key h aL) (uH key h a) 0 aR) ht2bst ht2avl
      (by
        rw [hshape, Tree.height, Tree.height, hhA]
        omega)
      (by
        rw [hshape]
        exact ⟨xs, ys, hsp1, ht2hand, hbx, hby⟩)
    obtain ⟨XS, YS, hXs, hYs, hbX, hbY⟩ := hgsplit
    refine ⟨⟨t.root, s3⟩, graftU key h (Tree.node (attBf key h aL)
      (uH key h a) 0 aR) a, ?_, gA rfl, ?_, hgb, hga,
      ⟨XS, YS, hXs, hYs, hbX, hbY⟩, ?_⟩
    · have hdescR := hdesc
      have hbfU1R := hbfU1
      have hLneR := hLne
      have hloopR := hloop
      rw [hS1, hs0] at hbfU1R hLneR hloopR
      rw [hs0] at hdescR
      simp only [insert, if_neg hroot0]
      rw [hdescR]
      simp only [if_neg hU2, read_error, Bool.false_eq_true, if_false,
        get_bf, get_lt, get_gt]
      simp only [hbitv]
      simp only [Bool.false_eq_true, if_false, if_pos hm1]
      simp only [hbfU1R]
      rw [if_pos (show ((1:Int) + -1 ≠ -2 ∧ (1:Int) + -1 ≠ 2)
        from by norm_num)]
      rw [show (1:Int) + -1 = 0 from by norm_num]
      rw [if_neg hLneR, hloopR]
    · rw [hYs]
      exact nodup_split_insert (by rw [← hXs]; exact hnd)
        (by rw [← hXs]; exact hfresh)
    · intro x hxa hxh
      have hxs : x ∉ (subU key h a).handles := by
        rw [hshape]
        exact fun hc => hxa (hMsub x hc)
      show s3 x = t.s x
      rw [hfrG x hxs hxh, hs0]
      simp [set_bf, set_gt, set_lt, hxh]
  · -- rebalance: the less subtree of U grows to two levels deeper
    have hhL : aL.height = aR.height + 1 := by omega
    obtain ⟨s3, hloop, hrepL3, hfr3⟩ := insertBfLoop_sim aL
      ((S1 (uH key h a)).lt) S1 (uDep key h a + 1)
      (insBr key h a 0 (fun _ => false)) fuel hL1 hfxL hbitsL hndL hfuelL
    have hs3U : s3 (uH key h a) = S1 (uH key h a) := hfr3 _ hUL
    have hrepP : ReprT s3 (uH key h a)
        (Tree.node (attBf key h aL) (uH key h a) (-1) aR) := by
      rw [ReprT_node_iff]
      refine ⟨rfl, hU2, by rw [hs3U]; exact hbfU1, ?_, ?_⟩
      · rw [hs3U]
        exact hrepL3
      · rw [hs3U]
        exact ReprT_congr hR1
          (fun x hx => hfr3 x (fun hc => hdisjS x hc hx))
    obtain ⟨hbA, haA, hhA⟩ := attBf_props aL hbstL havL hside habsL
    have hbstP : (Tree.node (attBf key h aL)
        (uH key h a) (-1) aR).bst key := by
      refine ⟨?_, hgtS, hbA, hbstR⟩
      intro x hx
      rw [attBf_handles] at hx
      rcases (attach_mem aL x).mp hx with hc | hc
      · exact hltS x hc
      · rw [hc]
        exact hk1
    obtain ⟨xs, ys, hsp1, hsp2, hbx, hby⟩ := attach_split
      (Tree.node aL (uH key h a) (-1) aR) hbstS2 habsS
    have hPhand : (Tree.node (attBf key h aL)
        (uH key h a) (-1) aR).handles = xs ++ h :: ys := by
      rw [← hsp2, show attach key h (Tree.node aL (uH key h a) (-1) aR)
          = Tree.node (attach key h aL) (uH key h a) (-1) aR from by
            simp [attach, hk1]]
      rw [Tree.handles, Tree.handles, attBf_handles]
    have hndP : (Tree.node (attBf key h aL)
        (uH key h a) (-1) aR).handles.Nodup := by
      rw [hPhand]
      exact nodup_split_insert (by rw [← hsp1]; exact hndS2)
        (by rw [← hsp1]; exact hhS)
    have hfrG0 : ∀ x, x ∉ (subU key h a).handles → x ≠ h → s3 x = s0 x := by
      intro x hxs hxh
      rw [hshape] at hxs
      have hxL : x ∉ aL.handles := fun hc => hxs (by
        rw [Tree.handles]; exact List.mem_append.mpr (Or.inl hc))
      have hxP : x ≠ insParent key h a := fun e => hxs (e ▸ hattPS)
      rw [hfr3 x hxL]
      exact hS1frame x hxP
    have hLnil : aL ≠ Tree.nil := by
      intro e
      rw [e] at hhL
      simp [Tree.height] at hhL
    cases aL with
    | nil => exact absurd rfl hLnil
    | node aLL alq alb aLR =>
      rw [hasU, Bool.or_eq_false_iff] at hside
      obtain ⟨hside2, halb⟩ := hside
      have halb0 : alb = 0 := by simpa using halb
      subst halb0
      have halqS : alq ∈ (Tree.node aLL alq 0 aLR).handles := by
        simp [Tree.handles]
      by_cases hk2 : key h < key alq
      · -- single rotation
        rw [if_pos hk2] at hside2
        have hattL : attBf key h (Tree.node aLL alq 0 aLR)
            = Tree.node (attBf key h aLL) alq (-1) aLR := by
          simp [attBf, hk2]
        rw [hattL] at hrepP haA hhA hbstP hPhand hndP
        obtain ⟨s4, hbal, hrep4, hfr4⟩ := balance_left_single hrepP hndP
          (by norm_num) (by norm_num)
        rw [if_neg (show ¬((-1:Int) = 0) from by norm_num),
          if_neg (show ¬((-1:Int) = 0) from by norm_num)] at hrep4
        obtain ⟨ht2bst, ht2hand⟩ :=
          @rotL_bst key (attBf key h aLL) alq aLR aR (uH key h a)
            (-1) (-1) 0 0 hbstP
        obtain ⟨ht2avl, ht2hv⟩ :=
          @ins_avl_LS (attBf key h aLL) aLR aR alq (uH key h a)
            haA havR (by rw [hhA, hhL])
        have hfrG : ∀ x, x ∉ (subU key h a).handles → x ≠ h →
            s4 x = s0 x := by
          intro x hxs hxh
          have hxs2 := hxs
          rw [hshape] at hxs2
          have hxU : x ≠ uH key h a := fun e => hxs2 (by
            rw [e, Tree.handles]
            refine List.mem_append.mpr (Or.inr ?_)
            simp)
          have hxq : x ≠ alq := fun e => hxs2 (by
            rw [e, Tree.handles]
            exact List.mem_append.mpr (Or.inl halqS))
          rw [hfr4 x hxU hxq]
          exact hfrG0 x hxs hxh
        have hmemG : ∀ x ∈ (Tree.node (attBf key h aLL) alq 0
            (Tree.node aLR (uH key h a) 0 aR)).handles,
            x ∈ (subU key h a).handles ∨ x = h := by
          intro x hx
          rw [hshape]
          rw [ht2hand, hPhand] at hx
          rcases List.mem_append.mp hx with hc | hc
          · exact Or.inl (by
              rw [hsp1]; exact List.mem_append.mpr (Or.inl hc))
          · rcases List.mem_cons.mp hc with hc2 | hc2
            · exact Or.inr hc2
            · exact Or.inl (by
                rw [hsp1]; exact List.mem_append.mpr (Or.inr hc2))
        obtain ⟨gA, gB, gP⟩ := graft_sim a t.root null hrep0 hnd hfresh hU
          (Tree.node (attBf key h aLL) alq 0
            (Tree.node aLR (uH key h a) 0 aR)) alq s4 hrep4 hfrG hmemG
        obtain ⟨hgb, hga, hgh, hgsplit⟩ := graft_tree a hbst havl hU habs
          (Tree.node (attBf key h aLL) alq 0
            (Tree.node aLR (uH key h a) 0 aR)) ht2bst ht2avl
          (by
            rw [hshape, ht2hv, Tree.height, hhL]
            omega)
          (by
            rw [hshape]
            exact ⟨xs, ys, hsp1, by rw [ht2hand, hPhand], hbx, hby⟩)
        obtain ⟨XS, YS, hXs, hYs, hbX, hbY⟩ := hgsplit
        have hndA2 : (graftU key h (Tree.node (attBf key h aLL) alq 0
            (Tree.node aLR (uH key h a) 0 aR)) a).handles.Nodup := by
          rw [hYs]
          exact nodup_split_insert (by rw [← hXs]; exact hnd)
            (by rw [← hXs]; exact hfresh)
        by_cases hud0 : uDep key h a = 0
        · obtain ⟨hsubUa, huparN, hgrId⟩ := uDep_zero a hU hud0
          refine ⟨⟨alq, s4⟩, graftU key h (Tree.node (attBf key h aLL)
            alq 0 (Tree.node aLR (uH key h a) 0 aR)) a, ?_, ?_, hndA2,
            hgb, hga, ⟨XS, YS, hXs, hYs, hbX, hbY⟩, ?_⟩
          · have hdescR := hdesc
            have hbfU1R := hbfU1
            have hLneR := hLne
            have hloopR := hloop
            rw [hS1, hs0] at hbfU1R hLneR hloopR
            rw [hs0] at hdescR
            simp only [insert, if_neg hroot0]
            rw [hdescR]
            simp only [if_neg hU2, read_error, Bool.false_eq_true,
              if_false, get_bf, get_lt, get_gt]
            simp only [hbitv]
            simp only [Bool.false_eq_true, if_false, if_pos hm1]
            simp only [hbfU1R]
            rw [if_neg (show ¬(((-1:Int) + -1 ≠ -2) ∧ ((-1:Int) + -1 ≠ 2))
              from by norm_num)]
            rw [if_neg hLneR, hloopR]
            simp only [hbal]
            rw [if_pos (huparN null)]
          · show ReprT s4 alq (graftU key h (Tree.node (attBf key h aLL)
              alq 0 (Tree.node aLR (uH key h a) 0 aR)) a)
            rw [hgrId]
            exact hrep4
          · intro x hxa hxh
            have hxs : x ∉ (subU key h a).handles := by
              rw [hshape]
              exact fun hc => hxa (hMsub x hc)
            show s4 x = t.s x
            rw [hfrG x hxs hxh, hs0]
            simp [set_bf, set_gt, set_lt, hxh]
        · have hud1 : 1 ≤ uDep key h a := by omega
          have hPUmem := gP hud1
          have hPU0 : uPar key h null a ≠ null :=
            handles_ne_null a t.root hrep _ hPUmem
          have hudm1 : uDep key h a - 1 < insLen key h a := by omega
          have hbit2 : insBr key h a 0 (fun _ => false) (uDep key h a - 1)
              = dirAt key h a (uDep key h a - 1) := by
            have hb := insBr_spec a 0 (fun _ => false)
              (uDep key h a - 1) hudm1
            rwa [Nat.zero_add] at hb
          have hgB := gB hud1
          rcases Bool.eq_false_or_eq_true
            (dirAt key h a (uDep key h a - 1)) with hd | hd
          · rw [hd, if_pos rfl] at hgB
            refine ⟨⟨t.root, set_gt s4 (uPar key h null a) alq⟩,
              graftU key h (Tree.node (attBf key h aLL) alq 0
                (Tree.node aLR (uH key h a) 0 aR)) a, ?_, hgB, hndA2,
              hgb, hga, ⟨XS, YS, hXs, hYs, hbX, hbY⟩, ?_⟩
            · have hdescR := hdesc
              have hbfU1R := hbfU1
              have hLneR := hLne
              have hloopR := hloop
              rw [hS1, hs0] at hbfU1R hLneR hloopR
              rw [hs0] at hdescR
              simp only [insert, if_neg hroot0]
              rw [hdescR]
              simp only [if_neg hU2, read_error, Bool.false_eq_true,
                if_false, get_bf, get_lt, get_gt]
              simp only [hbitv]
              simp only [Bool.false_eq_true, if_false, if_pos hm1]
              simp only [hbfU1R]
              rw [if_neg (show ¬(((-1:Int) + -1 ≠ -2) ∧
                ((-1:Int) + -1 ≠ 2)) from by norm_num)]
              rw [if_neg hLneR, hloopR]
              simp only [hbal]
              rw [if_neg hPU0]
              simp only [hbit2, hd, if_true]
              rw [if_neg (show ¬((1:Int) < 0) from by norm_num)]
            · intro x hxa hxh
              have hxs : x ∉ (subU key h a).handles := by
                rw [hshape]
                exact fun hc => hxa (hMsub x hc)
              have hxPU : x ≠ uPar key h null a :=
                fun e => hxa (e ▸ hPUmem)
              show set_gt s4 (uPar key h null a) alq x = t.s x
              rw [show set_gt s4 (uPar key h null a) alq x = s4 x from by
                simp [set_gt, hxPU]]
              rw [hfrG x hxs hxh, hs0]
              simp [set_bf, set_gt, set_lt, hxh]
          · rw [hd, if_neg Bool.false_ne_true] at hgB
            refine ⟨⟨t.root, set_lt s4 (uPar key h null a) alq⟩,
              graftU key h (Tree.node (attBf key h aLL) alq 0
                (Tree.node aLR (uH key h a) 0 aR)) a, ?_, hgB, hndA2,
              hgb, hga, ⟨XS, YS, hXs, hYs, hbX, hbY⟩, ?_⟩
            · have hdescR := hdesc
              have hbfU1R := hbfU1
              have hLneR := hLne
              have hloopR := hloop
              rw [hS1, hs0] at hbfU1R hLneR hloopR
              rw [hs0] at hdescR
              simp only [insert, if_neg hroot0]
              rw [hdescR]
              simp only [if_neg hU2, read_error, Bool.false_eq_true,
                if_false, get_bf, get_lt, get_gt]
              simp only [hbitv]
              simp only [Bool.false_eq_true, if_false, if_pos hm1]
              simp only [hbfU1R]
              rw [if_neg (show ¬(((-1:Int) + -1 ≠ -2) ∧
                ((-1:Int) + -1 ≠ 2)) from by norm_num)]
              rw [if_neg hLneR, hloopR]
              simp only [hbal]
              rw [if_neg hPU0]
              simp only [hbit2, hd]
              simp only [Bool.false_eq_true, if_false, if_pos hm1]
            · intro x hxa hxh
              have hxs : x ∉ (subU key h a).handles := by
                rw [hshape]
                exact fun hc => hxa (hMsub x hc)
              have hxPU : x ≠ uPar key h null a :=
                fun e => hxa (e ▸ hPUmem)
              show set_lt s4 (uPar key h null a) alq x = t.s x
              rw [show set_lt s4 (uPar key h null a) alq x = s4 x from by
                simp [set_lt, hxPU]]
              rw [hfrG x hxs hxh, hs0]
              simp [set_bf, set_gt, set_lt, hxh]
      · -- double rotation
        rw [if_neg hk2] at hside2
        have hattL : attBf key h (Tree.node aLL alq 0 aLR)
            = Tree.node aLL alq 1 (attBf key h aLR) := by
          simp [attBf, hk2]
        cases hE : attBf key h aLR with
        | nil => exact absurd hE (attBf_ne_nil aLR)
        | node CL cq cb CR =>
        rw [hattL, hE] at hrepP haA hhA hbstP hPhand hndP
        obtain ⟨s4, hbal, hrep4, hfr4⟩ := balance_left_double hrepP hndP
          (by norm_num) (by norm_num)
        obtain ⟨ht2bst, ht2hand⟩ :=
          @rotLD_bst key aLL CL CR aR alq cq (uH key h a)
            1 cb (-1) (if 0 < cb then -1 else 0) 0
            (if cb < 0 then 1 else 0) hbstP
        obtain ⟨ht2avl, ht2hv⟩ :=
          @ins_avl_LD aLL CL CR aR alq cq (uH key h a) cb
            haA havR (by rw [hhA, hhL])
        have hcqmem : cq ∈ (attach key h
            (Tree.node aLL alq 0 aLR)).handles := by
          rw [← attBf_handles, hattL, hE]
          rw [Tree.handles]
          refine List.mem_append.mpr (Or.inr ?_)
          simp [Tree.handles]
        have hfrG : ∀ x, x ∉ (subU key h a).handles → x ≠ h →
            s4 x = s0 x := by
          intro x hxs hxh
          have hxs2 := hxs
          rw [hshape] at hxs2
          have hxU : x ≠ uH key h a := fun e => hxs2 (by
            rw [e, Tree.handles]
            refine List.mem_append.mpr (Or.inr ?_)
            simp)
          have hxq : x ≠ alq := fun e => hxs2 (by
            rw [e, Tree.handles]
            exact List.mem_append.mpr (Or.inl halqS))
          have hxcq : x ≠ cq := by
            intro e
            rcases (attach_mem (Tree.node aLL alq 0 aLR) cq).mp hcqmem
              with hc | hc
            · exact hxs2 (by
                rw [e, Tree.handles]
                exact List.mem_append.mpr (Or.inl hc))
            · exact hxh (e.trans hc)
          rw [hfr4 x hxU hxq hxcq]
          exact hfrG0 x hxs hxh
        have hmemG : ∀ x ∈ (Tree.node
            (Tree.node aLL alq (if 0 < cb then -1 else 0) CL) cq 0
            (Tree.node CR (uH key h a) (if cb < 0 then 1 else 0)
              aR)).handles,
            x ∈ (subU key h a).handles ∨ x = h := by
          intro x hx
          rw [hshape]
          rw [ht2hand, hPhand] at hx
          rcases List.mem_append.mp hx with hc | hc
          · exact Or.inl (by
              rw [hsp1]; exact List.mem_append.mpr (Or.inl hc))
          · rcases List.mem_cons.mp hc with hc2 | hc2
            · exact Or.inr hc2
            · exact Or.inl (by
                rw [hsp1]; exact List.mem_append.mpr (Or.inr hc2))
        obtain ⟨gA, gB, gP⟩ := graft_sim a t.root null hrep0 hnd hfresh hU
          (Tree.node (Tree.node aLL alq (if 0 < cb then -1 else 0) CL)
            cq 0 (Tree.node CR (uH key h a) (if cb < 0 then 1 else 0) aR))
          cq s4 hrep4 hfrG hmemG
        obtain ⟨hgb, hga, hgh, hgsplit⟩ := graft_tree a hbst havl hU habs
          (Tree.node (Tree.node aLL alq (if 0 < cb then -1 else 0) CL)
            cq 0 (Tree.node CR (uH key h a) (if cb < 0 then 1 else 0) aR))
          ht2bst ht2avl
          (by
            rw [hshape, ht2hv, Tree.height, hhL]
            omega)
          (by
            rw [hshape]
            exact ⟨xs, ys, hsp1, by rw [ht2hand, hPhand], hbx, hby⟩)
        obtain ⟨XS, YS, hXs, hYs, hbX, hbY⟩ := hgsplit
        have hndA2 : (graftU key h (Tree.node
            (Tree.node aLL alq (if 0 < cb then -1 else 0) CL) cq 0
            (Tree.node CR (uH key h a) (if cb < 0 then 1 else 0) aR))
            a).handles.Nodup := by
          rw [hYs]
          exact nodup_split_insert (by rw [← hXs]; exact hnd)
            (by rw [← hXs]; exact hfresh)
        by_cases hud0 : uDep key h a = 0
        · obtain ⟨hsubUa, huparN, hgrId⟩ := uDep_zero a hU hud0
          refine ⟨⟨cq, s4⟩, graftU key h (Tree.node
            (Tree.node aLL alq (if 0 < cb then -1 else 0) CL) cq 0
            (Tree.node CR (uH key h a) (if cb < 0 then 1 else 0) aR)) a,
            ?_, ?_, hndA2, hgb, hga, ⟨XS, YS, hXs, hYs, hbX, hbY⟩, ?_⟩
          · have hdescR := hdesc
            have hbfU1R := hbfU1
            have hLneR := hLne
            have hloopR := hloop
            rw [hS1, hs0] at hbfU1R hLneR hloopR
            rw [hs0] at hdescR
            simp only [insert, if_neg hroot0]
            rw [hdescR]
            simp only [if_neg hU2, read_error, Bool.false_eq_true,
              if_false, get_bf, get_lt, get_gt]
            simp only [hbitv]
            simp only [Bool.false_eq_true, if_false, if_pos hm1]
            simp only [hbfU1R]
            rw [if_neg (show ¬(((-1:Int) + -1 ≠ -2) ∧ ((-1:Int) + -1 ≠ 2))
              from by norm_num)]
            rw [if_neg hLneR, hloopR]
            simp only [hbal]
            rw [if_pos (huparN null)]
          · show ReprT s4 cq (graftU key h (Tree.node
              (Tree.node aLL alq (if 0 < cb then -1 else 0) CL) cq 0
              (Tree.node CR (uH key h a) (if cb < 0 then 1 else 0) aR)) a)
            rw [hgrId]
            exact hrep4
          · intro x hxa hxh
            have hxs : x ∉ (subU key h a).handles := by
              rw [hshape]
              exact fun hc => hxa (hMsub x hc)
            show s4 x = t.s x
            rw [hfrG x hxs hxh, hs0]
            simp [set_bf, set_gt, set_lt, hxh]
        · have hud1 : 1 ≤ uDep key h a := by omega
          have hPUmem := gP hud1
          have hPU0 : uPar key h null a ≠ null :=
            handles_ne_null a t.root hrep _ hPUmem
          have hudm1 : uDep key h a - 1 < insLen key h a := by omega
          have hbit2 : insBr key h a 0 (fun _ => false) (uDep key h a - 1)
              = dirAt key h a (uDep key h a - 1) := by
            have hb := insBr_spec a 0 (fun _ => false)
              (uDep key h a - 1) hudm1
            rwa [Nat.zero_add] at hb
          have hgB := gB hud1
          rcases Bool.eq_false_or_eq_true
            (dirAt key h a (uDep key h a - 1)) with hd | hd
          · rw [hd, if_pos rfl] at hgB
            refine ⟨⟨t.root, set_gt s4 (uPar key h null a) cq⟩,
              graftU key h (Tree.node
                (Tree.node aLL alq (if 0 < cb then -1 else 0) CL) cq 0
                (Tree.node CR (uH key h a) (if cb < 0 then 1 else 0) aR))
                a, ?_, hgB, hndA2, hgb, hga,
              ⟨XS, YS, hXs, hYs, hbX, hbY⟩, ?_⟩
            · have hdescR := hdesc
              have hbfU1R := hbfU1
              have hLneR := hLne
              have hloopR := hloop
              rw [hS1, hs0] at hbfU1R hLneR hloopR
              rw [hs0] at hdescR
              simp only [insert, if_neg hroot0]
              rw [hdescR]
              simp only [if_neg hU2, read_error, Bool.false_eq_true,
                if_false, get_bf, get_lt, get_gt]
              simp only [hbitv]
              simp only [Bool.false_eq_true, if_false, if_pos hm1]
              simp only [hbfU1R]
              rw [if_neg (show ¬(((-1:Int) + -1 ≠ -2) ∧
                ((-1:Int) + -1 ≠ 2)) from by norm_num)]
              rw [if_neg hLneR, hloopR]
              simp only [hbal]
              rw [if_neg hPU0]
              simp only [hbit2, hd, if_true]
              rw [if_neg (show ¬((1:Int) < 0) from by norm_num)]
            · intro x hxa hxh
              have hxs : x ∉ (subU key h a).handles := by
                rw [hshape]
                exact fun hc => hxa (hMsub x hc)
              have hxPU : x ≠ uPar key h null a :=
                fun e => hxa (e ▸ hPUmem)
              show set_gt s4 (uPar key h null a) cq x = t.s x
              rw [show set_gt s4 (uPar key h null a) cq x = s4 x from by
                simp [set_gt, hxPU]]
              rw [hfrG x hxs hxh, hs0]
              simp [set_bf, set_gt, set_lt, hxh]
          · rw [hd, if_neg Bool.false_ne_true] at hgB
            refine ⟨⟨t.root, set_lt s4 (uPar key h null a) cq⟩,
              graftU key h (Tree.node
                (Tree.node aLL alq (if 0 < cb then -1 else 0) CL) cq 0
                (Tree.node CR (uH key h a) (if cb < 0 then 1 else 0) aR))
                a, ?_, hgB, hndA2, hgb, hga,
              ⟨XS, YS, hXs, hYs, hbX, hbY⟩, ?_⟩
            · have hdescR := hdesc
              have hbfU1R := hbfU1
              have hLneR := hLne
              have hloopR := hloop
              rw [hS1, hs0] at hbfU1R hLneR hloopR
              rw [hs0] at hdescR
              simp only [insert, if_neg hroot0]
              rw [hdescR]
              simp only [if_neg hU2, read_error, Bool.false_eq_true,
                if_false, get_bf, get_lt, get_gt]
              simp only [hbitv]
              simp only [Bool.false_eq_true, if_false, if_pos hm1]
              simp only [hbfU1R]
              rw [if_neg (show ¬(((-1:Int) + -1 ≠ -2) ∧
                ((-1:Int) + -1 ≠ 2)) from by norm_num)]
              rw [if_neg hLneR, hloopR]
              simp only [hbal]
              rw [if_neg hPU0]
              simp only [hbit2, hd]
              simp only [Bool.false_eq_true, if_false, if_pos hm1]
            · intro x hxa hxh
              have hxs : x ∉ (subU key h a).handles := by
                rw [hshape]
                exact fun hc => hxa (hMsub x hc)
              have hxPU : x ≠ uPar key h null a :=
                fun e => hxa (e ▸ hPUmem)
              show set_lt s4 (uPar key h null a) cq x = t.s x
              rw [show set_lt s4 (uPar key h null a) cq x = s4 x from by
                simp [set_lt, hxPU]]
              rw [hfrG x hxs hxh, hs0]
              simp [set_bf, set_gt, set_lt, hxh]

/-- `insert` when the search path has a deepest unbalanced node `U` and
the new key descends into the greater subtree of `U` (mirror image of
the less-side lemma). -/
theorem insert_hasU_right_spec {key : Handle → Int} {t : AvlSt} {a : Tree}
    {h : Handle} {fuel : Nat}
    (hrep : ReprT t.s t.root a) (hnd : a.handles.Nodup)
    (hbst : a.bst key) (havl : a.avl)
    (hh0 : h ≠ null) (hfresh : h ∉ a.handles)
    (habs : ∀ x ∈ a.handles, key x ≠ key h)
    (hane : a ≠ Tree.nil)
    (hU : hasU key h a = true)
    (hk1 : key (uH key h a) < key h)
    (hfuel : a.height < fuel) :
    ∃ st2 a2,
      insert key t h fuel = some (h, st2) ∧
      ReprT st2.s st2.root a2 ∧ a2.handles.Nodup ∧ a2.bst key ∧ a2.avl ∧
      (∃ xs ys, a.handles = xs ++ ys ∧ a2.handles = xs ++ h :: ys ∧
        (∀ x ∈ xs, key x < key h) ∧ (∀ y ∈ ys, key h < key y)) ∧
      (∀ x, x ∉ a.handles → x ≠ h → st2.s x = t.s x) := by
  have hk1n : ¬(key h < key (uH key h a)) := lt_asymm hk1
  have hroot0 : t.root ≠ null := by
    cases a with
    | nil => exact absurd rfl hane
    | node l q b r => exact hrep.1 ▸ hrep.2.1
  have hfx : ∀ x ∈ a.handles, x ≠ h := fun x hx e => hfresh (e ▸ hx)
  set s0 := set_bf (set_gt (set_lt t.s h null) h null) h 0 with hs0
  have hagree0 : ∀ x ∈ a.handles, s0 x = t.s x := by
    intro x hx
    rw [hs0]
    simp [set_bf, set_gt, set_lt, hfx x hx]
  have hrep0 : ReprT s0 t.root a := ReprT_congr hrep hagree0
  have hclt : (s0 h).lt = null := by rw [hs0]; simp [set_bf, set_gt, set_lt]
  have hcgt : (s0 h).gt = null := by rw [hs0]; simp [set_bf, set_gt, set_lt]
  have hcbf : (s0 h).bf = 0 := by rw [hs0]; simp [set_bf, set_gt, set_lt]
  obtain ⟨⟨aL, bU, aR, hshape, hbU0, hside⟩, hPeq, hCeq, hDeq, hMsub⟩ :=
    subU_facts a hU
  obtain ⟨hbstS, havlS, hndS, habsS⟩ := subU_inherit a hbst havl hnd habs
  have hreprS0 : ReprT s0 (uH key h a) (subU key h a) :=
    subU_repr a t.root hrep0
  rw [hshape] at hreprS0 hbstS havlS hndS habsS hMsub hPeq hCeq hDeq
  rw [if_neg hk1n] at hside
  have hbstS2 := hbstS
  have hndS2 := hndS
  rw [ReprT_node_iff] at hreprS0
  obtain ⟨-, hU2, hbfS0, hLs0, hRs0⟩ := hreprS0
  obtain ⟨hltS, hgtS, hbstL, hbstR⟩ := hbstS
  obtain ⟨havL, havR, hbfSe, hbSb⟩ := havlS
  obtain ⟨hndL, hndR, hUL, hUR2, hdisjS⟩ := nodup_node hndS
  have habsR : ∀ x ∈ aR.handles, key x ≠ key h := fun x hx => habsS x (by
    rw [Tree.handles]
    refine List.mem_append.mpr (Or.inr ?_)
    simp [hx])
  have hfxS : ∀ x ∈ (Tree.node aL (uH key h a) bU aR).handles, x ≠ h :=
    fun x hx => hfx x (hMsub x hx)
  have hfxR : ∀ x ∈ aR.handles, x ≠ h := fun x hx => hfxS x (by
    rw [Tree.handles]
    refine List.mem_append.mpr (Or.inr ?_)
    simp [hx])
  have hUmem : uH key h a ∈ a.handles := hMsub _ (by simp [Tree.handles])
  have hhS : h ∉ (Tree.node aL (uH key h a) bU aR).handles :=
    fun hc => hfresh (hMsub h hc)
  have hdesc := insertDescLoop_sim a t.root null null null 0 0
    (fun _ => false) fuel hrep0 hane hbst habs hfuel
  have hif1 : (if hasU key h a then uH key h a else null) = uH key h a := by
    simp [hU]
  have hif2 : (if hasU key h a then uPar key h null a else null)
      = uPar key h null a := by simp [hU]
  have hif3 : (if hasU key h a then 0 + uDep key h a else 0)
      = uDep key h a := by simp [hU]
  rw [hif1, hif2, hif3] at hdesc
  obtain ⟨hattS, hattPS⟩ := attach_repr hh0 hclt hcgt hcbf
    (Tree.node aL (uH key h a) bU aR) (uH key h a)
    (ReprT_node_iff.mpr ⟨rfl, hU2, hbfS0, hLs0, hRs0⟩)
    (fun e => Tree.noConfusion e) hndS2 hfxS
  rw [← hPeq, ← hCeq] at hattS
  rw [← hPeq] at hattPS
  set S1 := if insCmp key h a < 0 then set_lt s0 (insParent key h a) h
    else set_gt s0 (insParent key h a) h with hS1
  rw [show attach key h (Tree.node aL (uH key h a) bU aR)
      = Tree.node aL (uH key h a) bU (attach key h aR) from by
        simp [attach, hk1n]] at hattS
  rw [ReprT_node_iff] at hattS
  obtain ⟨-, -, hbfU1, hL1, hR1⟩ := hattS
  have hS1frame : ∀ x, x ≠ insParent key h a → S1 x = s0 x := by
    intro x hxp
    rw [hS1]
    by_cases hc : insCmp key h a < 0
    · rw [if_pos hc]
      simp [set_lt, hxp]
    · rw [if_neg hc]
      simp [set_gt, hxp]
  have hp1 : ¬((1 : Int) < 0) := by norm_num
  have hUDlt : uDep key h a < insLen key h a := by
    rw [insLen_subU a hU, hshape, insLen]
    split_ifs <;> omega
  have hbitv : insBr key h a 0 (fun _ => false) (uDep key h a) = true := by
    have hb := insBr_spec a 0 (fun _ => false) (uDep key h a) hUDlt
    rw [Nat.zero_add] at hb
    rw [hb, show uDep key h a = uDep key h a + 0 from by omega, hDeq 0]
    simp [dirAt, hk1n]
  have hbitsR : ∀ i, i < insLen key h aR →
      insBr key h a 0 (fun _ => false) (uDep key h a + 1 + i)
        = dirAt key h aR i := by
    intro i hi
    have hlt2 : uDep key h a + 1 + i < insLen key h a := by
      rw [insLen_subU a hU, hshape, insLen, if_neg hk1n]
      omega
    have hb := insBr_spec a 0 (fun _ => false) (uDep key h a + 1 + i) hlt2
    rw [Nat.zero_add] at hb
    rw [hb, show uDep key h a + 1 + i = uDep key h a + (i + 1) from by omega,
      hDeq (i + 1), dirAt, if_neg hk1n]
  have hfuelR : aR.height < fuel := by
    have h2' := @subU_height_le key h a
    rw [hshape, Tree.height] at h2'
    omega
  have hattRn : attach key h aR ≠ Tree.nil := attach_ne_nil aR
  have hGne : (S1 (uH key h a)).gt ≠ null := by
    cases hE : attach key h aR with
    | nil => exact absurd hE hattRn
    | node ll qq bb rr =>
      rw [hE] at hR1
      rw [hR1.1]
      exact hR1.2.1
  have hbU2 : bU = -1 ∨ bU = 1 := by omega
  rcases hbU2 with rfl | rfl
  · -- absorb: the balance factor of U becomes zero
    have hfrR2 : ∀ x ∈ (attach key h aR).handles,
        set_bf S1 (uH key h a) 0 x = S1 x := by
      intro x hx
      have hxU : x ≠ uH key h a := by
        rcases (attach_mem aR x).mp hx with hc | hc
        · exact fun e => hUR2 (e ▸ hc)
        · rw [hc]
          exact fun e => hfx _ hUmem e.symm
      simp [set_bf, hxU]
    have hrepR2 : ReprT (set_bf S1 (uH key h a) 0) ((S1 (uH key h a)).gt)
        (attach key h aR) := ReprT_congr hR1 hfrR2
    obtain ⟨s3, hloop, hrepR3, hfr3⟩ := insertBfLoop_sim aR
      ((S1 (uH key h a)).gt) (set_bf S1 (uH key h a) 0)
      (uDep key h a + 1) (insBr key h a 0 (fun _ => false)) fuel
      hrepR2 hfxR hbitsR hndR hfuelR
    have hs3U : s3 (uH key h a) = set_bf S1 (uH key h a) 0 (uH key h a) :=
      hfr3 _ hUR2
    have hrepT2 : ReprT s3 (uH key h a)
        (Tree.node aL (uH key h a) 0 (attBf key h aR)) := by
      rw [ReprT_node_iff]
      refine ⟨rfl, hU2, ?_, ?_, ?_⟩
      · rw [hs3U]
        simp [set_bf]
      · rw [hs3U, set_bf_lt]
        refine ReprT_congr hL1 (fun x hx => ?_)
        have hxU : x ≠ uH key h a := fun e => hUL (e ▸ hx)
        have hxR : x ∉ aR.handles := fun hc => hdisjS x hx hc
        rw [hfr3 x hxR]
        simp [set_bf, hxU]
      · rw [hs3U, set_bf_gt]
        exact hrepR3
    obtain ⟨hbA, haA, hhA⟩ := attBf_props aR hbstR havR hside habsR
    have ht2bst : (Tree.node aL (uH key h a) 0
        (attBf key h aR)).bst key := by
      refine ⟨hltS, ?_, hbstL, hbA⟩
      intro x hx
      rw [attBf_handles] at hx
      rcases (attach_mem aR x).mp hx with hc | hc
      · exact hgtS x hc
      · rw [hc]
        exact hk1
    have ht2avl : (Tree.node aL (uH key h a) 0 (attBf key h aR)).avl := by
      refine ⟨havL, haA, ?_, by decide⟩
      rw [hhA]
      omega
    obtain ⟨xs, ys, hsp1, hsp2, hbx, hby⟩ := attach_split
      (Tree.node aL (uH key h a) (-1) aR) hbstS2 habsS
    have ht2hand : (Tree.node aL (uH key h a) 0
        (attBf key h aR)).handles = xs ++ h :: ys := by
      rw [← hsp2, show attach key h (Tree.node aL (uH key h a) (-1) aR)
          = Tree.node aL (uH key h a) (-1) (attach key h aR) from by
            simp [attach, hk1n]]
      rw [Tree.handles, Tree.handles, attBf_handles]
    have hfrG : ∀ x, x ∉ (subU key h a).handles → x ≠ h → s3 x = s0 x := by
      intro x hxs hxh
      rw [hshape] at hxs
      have hxR : x ∉ aR.handles := fun hc => hxs (by
        rw [Tree.handles]
        refine List.mem_append.mpr (Or.inr ?_)
        simp [hc])
      have hxU : x ≠ uH key h a := fun e => hxs (by
        rw [e, Tree.handles]
        refine List.mem_append.mpr (Or.inr ?_)
        simp)
      have hxP : x ≠ insParent key h a := fun e => hxs (e ▸ hattPS)
      rw [hfr3 x hxR]
      rw [show set_bf S1 (uH key h a) 0 x = S1 x from by simp [set_bf, hxU]]
      exact hS1frame x hxP
    have hmemG : ∀ x ∈ (Tree.node aL (uH key h a) 0
        (attBf key h aR)).handles,
        x ∈ (subU key h a).handles ∨ x = h := by
      intro x hx
      rw [hshape]
      rw [Tree.handles] at hx
      rcases List.mem_append.mp hx with hc | hc
      · exact Or.inl (by
          rw [Tree.handles]; exact List.mem_append.mpr (Or.inl hc))
      · rcases List.mem_cons.mp hc with hc2 | hc2
        · exact Or.inl (by
            rw [hc2, Tree.handles]
            refine List.mem_append.mpr (Or.inr ?_)
            simp)
        · rw [attBf_handles] at hc2
          rcases (attach_mem aR x).mp hc2 with hc3 | hc3
          · exact Or.inl (by
              rw [Tree.handles]
              refine List.mem_append.mpr (Or.inr ?_)
              simp [hc3])
          · exact Or.inr hc3
    obtain ⟨gA, gB, gP⟩ := graft_sim a t.root null hrep0 hnd hfresh hU
      (Tree.node aL (uH key h a) 0 (attBf key h aR)) (uH key h a) s3
      hrepT2 hfrG hmemG
    obtain ⟨hgb, hga, hgh, hgsplit⟩ := graft_tree a hbst havl hU habs
      (Tree.node aL (uH key h a) 0 (attBf key h aR)) ht2bst ht2avl
      (by
        rw [hshape, Tree.height, Tree.height, hhA]
        omega)
      (by
        rw [hshape]
        exact ⟨xs, ys, hsp1, ht2hand, hbx, hby⟩)
    obtain ⟨XS, YS, hXs, hYs, hbX, hbY⟩ := hgsplit
    refine ⟨⟨t.root, s3⟩, graftU key h (Tree.node aL (uH key h a) 0
      (attBf key h aR)) a, ?_, gA rfl, ?_, hgb, hga,
      ⟨XS, YS, hXs, hYs, hbX, hbY⟩, ?_⟩
    · have hdescR := hdesc
      have hbfU1R := hbfU1
      have hGneR := hGne
      have hloopR := hloop
      rw [hS1, hs0] at hbfU1R hGneR hloopR
      rw [hs0] at hdescR
      simp only [insert, if_neg hroot0]
      rw [hdescR]
      simp only [if_neg hU2, read_error, Bool.false_eq_true, if_false,
        get_bf, get_lt, get_gt]
      simp only [hbitv, if_true, if_neg hp1]
      simp only [hbfU1R]
      rw [if_pos (show ((-1:Int) + 1 ≠ -2 ∧ (-1:Int) + 1 ≠ 2)
        from by norm_num)]
      rw [show (-1:Int) + 1 = 0 from by norm_num]
      rw [if_neg hGneR, hloopR]
    · rw [hYs]
      exact nodup_split_insert (by rw [← hXs]; exact hnd)
        (by rw [← hXs]; exact hfresh)
    · intro x hxa hxh
      have hxs : x ∉ (subU key h a).handles := by
        rw [hshape]
        exact fun hc => hxa (hMsub x hc)
      show s3 x = t.s x
      rw [hfrG x hxs hxh, hs0]
      simp [set_bf, set_gt, set_lt, hxh]
  · -- rebalance: the greater subtree of U grows to two levels deeper
    have hhR : aR.height = aL.height + 1 := by omega
    obtain ⟨s3, hloop, hrepR3, hfr3⟩ := insertBfLoop_sim aR
      ((S1 (uH key h a)).gt) S1 (uDep key h a + 1)
      (insBr key h a 0 (fun _ => false)) fuel hR1 hfxR hbitsR hndR hfuelR
    have hs3U : s3 (uH key h a) = S1 (uH key h a) := hfr3 _ hUR2
    have hrepP : ReprT s3 (uH key h a)
        (Tree.node aL (uH key h a) 1 (attBf key h aR)) := by
      rw [ReprT_node_iff]
      refine ⟨rfl, hU2, by rw [hs3U]; exact hbfU1, ?_, ?_⟩
      · rw [hs3U]
        exact ReprT_congr hL1
          (fun x hx => hfr3 x (fun hc => hdisjS x hx hc))
      · rw [hs3U]
        exact hrepR3
    obtain ⟨hbA, haA, hhA⟩ := attBf_props aR hbstR havR hside habsR
    have hbstP : (Tree.node aL (uH key h a) 1
        (attBf key h aR)).bst key := by
      refine ⟨hltS, ?_, hbstL, hbA⟩
      intro x hx
      rw [attBf_handles] at hx
      rcases (attach_mem aR x).mp hx with hc | hc
      · exact hgtS x hc
      · rw [hc]
        exact hk1
    obtain ⟨xs, ys, hsp1, hsp2, hbx, hby⟩ := attach_split
      (Tree.node aL (uH key h a) 1 aR) hbstS2 habsS
    have hPhand : (Tree.node aL (uH key h a) 1
        (attBf key h aR)).handles = xs ++ h :: ys := by
      rw [← hsp2, show attach key h (Tree.node aL (uH key h a) 1 aR)
          = Tree.node aL (uH key h a) 1 (attach key h aR) from by
            simp [attach, hk1n]]
      rw [Tree.handles, Tree.handles, attBf_handles]
    have hndP : (Tree.node aL (uH key h a) 1
        (attBf key h aR)).handles.Nodup := by
      rw [hPhand]
      exact nodup_split_insert (by rw [← hsp1]; exact hndS2)
        (by rw [← hsp1]; exact hhS)
    have hfrG0 : ∀ x, x ∉ (subU key h a).handles → x ≠ h →
        s3 x = s0 x := by
      intro x hxs hxh
      rw [hshape] at hxs
      have hxR : x ∉ aR.handles := fun hc => hxs (by
        rw [Tree.handles]
        refine List.mem_append.mpr (Or.inr ?_)
        simp [hc])
      have hxP : x ≠ insParent key h a := fun e => hxs (e ▸ hattPS)
      rw [hfr3 x hxR]
      exact hS1frame x hxP
    have hRnil : aR ≠ Tree.nil := by
      intro e
      rw [e] at hhR
      simp [Tree.height] at hhR
    cases aR with
    | nil => exact absurd rfl hRnil
    | node aRL arq arb aRR =>
      rw [hasU, Bool.or_eq_false_iff] at hside
      obtain ⟨hside2, harb⟩ := hside
      have harb0 : arb = 0 := by simpa using harb
      subst harb0
      have harqS : arq ∈ (Tree.node aRL arq 0 aRR).handles := by
        simp [Tree.handles]
      by_cases hk2 : key h < key arq
      · -- double rotation (the path went greater, then less)
        rw [if_pos hk2] at hside2
        have hattR : attBf key h (Tree.node aRL arq 0 aRR)
            = Tree.node (attBf key h aRL) arq (-1) aRR := by
          simp [attBf, hk2]
        cases hE : attBf key h aRL with
        | nil => exact absurd hE (attBf_ne_nil aRL)
        | node CL cq cb CR =>
        rw [hattR, hE] at hrepP haA hhA hbstP hPhand hndP
        obtain ⟨s4, hbal, hrep4, hfr4⟩ := balance_right_double hrepP hndP
          (by norm_num) (by norm_num)
        obtain ⟨ht2bst, ht2hand⟩ :=
          @rotRD_bst key aL CL CR aRR (uH key h a) cq arq
            1 cb (-1) (if 0 < cb then -1 else 0) 0
            (if cb < 0 then 1 else 0) hbstP
        obtain ⟨ht2avl, ht2hv⟩ :=
          @ins_avl_RD aL CL CR aRR (uH key h a) cq arq cb
            haA havL (by rw [hhA, hhR])
        have hcqmem : cq ∈ (attach key h
            (Tree.node aRL arq 0 aRR)).handles := by
          rw [← attBf_handles, hattR, hE]
          rw [Tree.handles]
          refine List.mem_append.mpr (Or.inl ?_)
          simp [Tree.handles]
        have hfrG : ∀ x, x ∉ (subU key h a).handles → x ≠ h →
            s4 x = s0 x := by
          intro x hxs hxh
          have hxs2 := hxs
          rw [hshape] at hxs2
          have hxU : x ≠ uH key h a := fun e => hxs2 (by
            rw [e, Tree.handles]
            refine List.mem_append.mpr (Or.inr ?_)
            simp)
          have hxq : x ≠ arq := fun e => hxs2 (by
            rw [e, Tree.handles]
            refine List.mem_append.mpr (Or.inr ?_)
            simp [harqS])
          have hxcq : x ≠ cq := by
            intro e
            rcases (attach_mem (Tree.node aRL arq 0 aRR) cq).mp hcqmem
              with hc | hc
            · exact hxs2 (by
                rw [e, Tree.handles]
                refine List.mem_append.mpr (Or.inr ?_)
                simp [hc])
            · exact hxh (e.trans hc)
          rw [hfr4 x hxU hxq hxcq]
          exact hfrG0 x hxs hxh
        have hmemG : ∀ x ∈ (Tree.node
            (Tree.node aL (uH key h a) (if 0 < cb then -1 else 0) CL) cq 0
            (Tree.node CR arq (if cb < 0 then 1 else 0) aRR)).handles,
            x ∈ (subU key h a).handles ∨ x = h := by
          intro x hx
          rw [hshape]
          rw [ht2hand, hPhand] at hx
          rcases List.mem_append.mp hx with hc | hc
          · exact Or.inl (by
              rw [hsp1]; exact List.mem_append.mpr (Or.inl hc))
          · rcases List.mem_cons.mp hc with hc2 | hc2
            · exact Or.inr hc2
            · exact Or.inl (by
                rw [hsp1]; exact List.mem_append.mpr (Or.inr hc2))
        obtain ⟨gA, gB, gP⟩ := graft_sim a t.root null hrep0 hnd hfresh hU
          (Tree.node (Tree.node aL (uH key h a)
            (if 0 < cb then -1 else 0) CL) cq 0
            (Tree.node CR arq (if cb < 0 then 1 else 0) aRR))
          cq s4 hrep4 hfrG hmemG
        obtain ⟨hgb, hga, hgh, hgsplit⟩ := graft_tree a hbst havl hU habs
          (Tree.node (Tree.node aL (uH key h a)
            (if 0 < cb then -1 else 0) CL) cq 0
            (Tree.node CR arq (if cb < 0 then 1 else 0) aRR))
          ht2bst ht2avl
          (by
            rw [hshape, ht2hv, Tree.height, hhR]
            omega)
          (by
            rw [hshape]
            exact ⟨xs, ys, hsp1, by rw [ht2hand, hPhand], hbx, hby⟩)
        obtain ⟨XS, YS, hXs, hYs, hbX, hbY⟩ := hgsplit
        have hndA2 : (graftU key h (Tree.node
            (Tree.node aL (uH key h a) (if 0 < cb then -1 else 0) CL) cq 0
            (Tree.node CR arq (if cb < 0 then 1 else 0) aRR))
            a).handles.Nodup := by
          rw [hYs]
          exact nodup_split_insert (by rw [← hXs]; exact hnd)
            (by rw [← hXs]; exact hfresh)
        by_cases hud0 : uDep key h a = 0
        · obtain ⟨hsubUa, huparN, hgrId⟩ := uDep_zero a hU hud0
          refine ⟨⟨cq, s4⟩, graftU key h (Tree.node
            (Tree.node aL (uH key h a) (if 0 < cb then -1 else 0) CL) cq 0
            (Tree.node CR arq (if cb < 0 then 1 else 0) aRR)) a,
            ?_, ?_, hndA2, hgb, hga, ⟨XS, YS, hXs, hYs, hbX, hbY⟩, ?_⟩
          · have hdescR := hdesc
            have hbfU1R := hbfU1
            have hGneR := hGne
            have hloopR := hloop
            rw [hS1, hs0] at hbfU1R hGneR hloopR
            rw [hs0] at hdescR
            simp only [insert, if_neg hroot0]
            rw [hdescR]
            simp only [if_neg hU2, read_error, Bool.false_eq_true,
              if_false, get_bf, get_lt, get_gt]
            simp only [hbitv, if_true, if_neg hp1]
            simp only [hbfU1R]
            rw [if_neg (show ¬(((1:Int) + 1 ≠ -2) ∧ ((1:Int) + 1 ≠ 2))
              from by norm_num)]
            rw [if_neg hGneR, hloopR]
            simp only [hbal]
            rw [if_pos (huparN null)]
          · show ReprT s4 cq (graftU key h (Tree.node
              (Tree.node aL (uH key h a) (if 0 < cb then -1 else 0) CL)
              cq 0 (Tree.node CR arq (if cb < 0 then 1 else 0) aRR)) a)
            rw [hgrId]
            exact hrep4
          · intro x hxa hxh
            have hxs : x ∉ (subU key h a).handles := by
              rw [hshape]
              exact fun hc => hxa (hMsub x hc)
            show s4 x = t.s x
            rw [hfrG x hxs hxh, hs0]
            simp [set_bf, set_gt, set_lt, hxh]
        · have hud1 : 1 ≤ uDep key h a := by omega
          have hPUmem := gP hud1
          have hPU0 : uPar key h null a ≠ null :=
            handles_ne_null a t.root hrep _ hPUmem
          have hudm1 : uDep key h a - 1 < insLen key h a := by omega
          have hbit2 : insBr key h a 0 (fun _ => false) (uDep key h a - 1)
              = dirAt key h a (uDep key h a - 1) := by
            have hb := insBr_spec a 0 (fun _ => false)
              (uDep key h a - 1) hudm1
            rwa [Nat.zero_add] at hb
          have hgB := gB hud1
          rcases Bool.eq_false_or_eq_true
            (dirAt key h a (uDep key h a - 1)) with hd | hd
          · rw [hd, if_pos rfl] at hgB
            refine ⟨⟨t.root, set_gt s4 (uPar key h null a) cq⟩,
              graftU key h (Tree.node
                (Tree.node aL (uH key h a) (if 0 < cb then -1 else 0) CL)
                cq 0 (Tree.node CR arq (if cb < 0 then 1 else 0) aRR))
                a, ?_, hgB, hndA2, hgb, hga,
              ⟨XS, YS, hXs, hYs, hbX, hbY⟩, ?_⟩
            · have hdescR := hdesc
              have hbfU1R := hbfU1
              have hGneR := hGne
              have hloopR := hloop
              rw [hS1, hs0] at hbfU1R hGneR hloopR
              rw [hs0] at hdescR
              simp only [insert, if_neg hroot0]
              rw [hdescR]
              simp only [if_neg hU2, read_error, Bool.false_eq_true,
                if_false, get_bf, get_lt, get_gt]
              simp only [hbitv, if_true, if_neg hp1]
              simp only [hbfU1R]
              rw [if_neg (show ¬(((1:Int) + 1 ≠ -2) ∧ ((1:Int) + 1 ≠ 2))
                from by norm_num)]
              rw [if_neg hGneR, hloopR]
              simp only [hbal]
              rw [if_neg hPU0]
              simp only [hbit2, hd, if_true]
              rw [if_neg (show ¬((1:Int) < 0) from by norm_num)]
            · intro x hxa hxh
              have hxs : x ∉ (subU key h a).handles := by
                rw [hshape]
                exact fun hc => hxa (hMsub x hc)
              have hxPU : x ≠ uPar key h null a :=
                fun e => hxa (e ▸ hPUmem)
              show set_gt s4 (uPar key h null a) cq x = t.s x
              rw [show set_gt s4 (uPar key h null a) cq x = s4 x from by
                simp [set_gt, hxPU]]
              rw [hfrG x hxs hxh, hs0]
              simp [set_bf, set_gt, set_lt, hxh]
          · rw [hd, if_neg Bool.false_ne_true] at hgB
            refine ⟨⟨t.root, set_lt s4 (uPar key h null a) cq⟩,
              graftU key h (Tree.node
                (Tree.node aL (uH key h a) (if 0 < cb then -1 else 0) CL)
                cq 0 (Tree.node CR arq (if cb < 0 then 1 else 0) aRR))
                a, ?_, hgB, hndA2, hgb, hga,
              ⟨XS, YS, hXs, hYs, hbX, hbY⟩, ?_⟩
            · have hdescR := hdesc
              have hbfU1R := hbfU1
              have hGneR := hGne
              have hloopR := hloop
              rw [hS1, hs0] at hbfU1R hGneR hloopR
              rw [hs0] at hdescR
              simp only [insert, if_neg hroot0]
              rw [hdescR]
              simp only [if_neg hU2, read_error, Bool.false_eq_true,
                if_false, get_bf, get_lt, get_gt]
              simp only [hbitv, if_true, if_neg hp1]
              simp only [hbfU1R]
              rw [if_neg (show ¬(((1:Int) + 1 ≠ -2) ∧ ((1:Int) + 1 ≠ 2))
                from by norm_num)]
              rw [if_neg hGneR, hloopR]
              simp only [hbal]
              rw [if_neg hPU0]
              simp only [hbit2, hd]
              simp only [Bool.false_eq_true, if_false,
                if_pos (show ((-1:Int) < 0) from by norm_num)]
            · intro x hxa hxh
              have hxs : x ∉ (subU key h a).handles := by
                rw [hshape]
                exact fun hc => hxa (hMsub x hc)
              have hxPU : x ≠ uPar key h null a :=
                fun e => hxa (e ▸ hPUmem)
              show set_lt s4 (uPar key h null a) cq x = t.s x
              rw [show set_lt s4 (uPar key h null a) cq x = s4 x from by
                simp [set_lt, hxPU]]
              rw [hfrG x hxs hxh, hs0]
              simp [set_bf, set_gt, set_lt, hxh]
      · -- single rotation (the path went greater twice)
        rw [if_neg hk2] at hside2
        have hattR : attBf key h (Tree.node aRL arq 0 aRR)
            = Tree.node aRL arq 1 (attBf key h aRR) := by
          simp [attBf, hk2]
        rw [hattR] at hrepP haA hhA hbstP hPhand hndP
        obtain ⟨s4, hbal, hrep4, hfr4⟩ := balance_right_single hrepP hndP
          (by norm_num) (by norm_num)
        rw [if_neg (show ¬((1:Int) = 0) from by norm_num),
          if_neg (show ¬((1:Int) = 0) from by norm_num)] at hrep4
        obtain ⟨ht2bst, ht2hand⟩ :=
          @rotR_bst key aL aRL (attBf key h aRR) (uH key h a) arq
            1 1 0 0 hbstP
        obtain ⟨ht2avl, ht2hv⟩ :=
          @ins_avl_RS aL aRL (attBf key h aRR) (uH key h a) arq
            haA havL (by rw [hhA, hhR])
        have hfrG : ∀ x, x ∉ (subU key h a).handles → x ≠ h →
            s4 x = s0 x := by
          intro x hxs hxh
          have hxs2 := hxs
          rw [hshape] at hxs2
          have hxU : x ≠ uH key h a := fun e => hxs2 (by
            rw [e, Tree.handles]
            refine List.mem_append.mpr (Or.inr ?_)
            simp)
          have hxq : x ≠ arq := fun e => hxs2 (by
            rw [e, Tree.handles]
            refine List.mem_append.mpr (Or.inr ?_)
            simp [harqS])
          rw [hfr4 x hxU hxq]
          exact hfrG0 x hxs hxh
        have hmemG : ∀ x ∈ (Tree.node (Tree.node aL (uH key h a) 0 aRL)
            arq 0 (attBf key h aRR)).handles,
            x ∈ (subU key h a).handles ∨ x = h := by
          intro x hx
          rw [hshape]
          rw [ht2hand, hPhand] at hx
          rcases List.mem_append.mp hx with hc | hc
          · exact Or.inl (by
              rw [hsp1]; exact List.mem_append.mpr (Or.inl hc))
          · rcases List.mem_cons.mp hc with hc2 | hc2
            · exact Or.inr hc2
            · exact Or.inl (by
                rw [hsp1]; exact List.mem_append.mpr (Or.inr hc2))
        obtain ⟨gA, gB, gP⟩ := graft_sim a t.root null hrep0 hnd hfresh hU
          (Tree.node (Tree.node aL (uH key h a) 0 aRL) arq 0
            (attBf key h aRR)) arq s4 hrep4 hfrG hmemG
        obtain ⟨hgb, hga, hgh, hgsplit⟩ := graft_tree a hbst havl hU habs
          (Tree.node (Tree.node aL (uH key h a) 0 aRL) arq 0
            (attBf key h aRR)) ht2bst ht2avl
          (by
            rw [hshape, ht2hv, Tree.height, hhR]
            omega)
          (by
            rw [hshape]
            exact ⟨xs, ys, hsp1, by rw [ht2hand, hPhand], hbx, hby⟩)
        obtain ⟨XS, YS, hXs, hYs, hbX, hbY⟩ := hgsplit
        have hndA2 : (graftU key h (Tree.node
            (Tree.node aL (uH key h a) 0 aRL) arq 0
            (attBf key h aRR)) a).handles.Nodup := by
          rw [hYs]
          exact nodup_split_insert (by rw [← hXs]; exact hnd)
            (by rw [← hXs]; exact hfresh)
        by_cases hud0 : uDep key h a = 0
        · obtain ⟨hsubUa, huparN, hgrId⟩ := uDep_zero a hU hud0
          refine ⟨⟨arq, s4⟩, graftU key h (Tree.node
            (Tree.node aL (uH key h a) 0 aRL) arq 0
            (attBf key h aRR)) a,
            ?_, ?_, hndA2, hgb, hga, ⟨XS, YS, hXs, hYs, hbX, hbY⟩, ?_⟩
          · have hdescR := hdesc
            have hbfU1R := hbfU1
            have hGneR := hGne
            have hloopR := hloop
            rw [hS1, hs0] at hbfU1R hGneR hloopR
            rw [hs0] at hdescR
            simp only [insert, if_neg hroot0]
            rw [hdescR]
            simp only [if_neg hU2, read_error, Bool.false_eq_true,
              if_false, get_bf, get_lt, get_gt]
            simp only [hbitv, if_true, if_neg hp1]
            simp only [hbfU1R]
            rw [if_neg (show ¬(((1:Int) + 1 ≠ -2) ∧ ((1:Int) + 1 ≠ 2))
              from by norm_num)]
            rw [if_neg hGneR, hloopR]
            simp only [hbal]
            rw [if_pos (huparN null)]
          · show ReprT s4 arq (graftU key h (Tree.node
              (Tree.node aL (uH key h a) 0 aRL) arq 0
              (attBf key h aRR)) a)
            rw [hgrId]
            exact hrep4
          · intro x hxa hxh
            have hxs : x ∉ (subU key h a).handles := by
              rw [hshape]
              exact fun hc => hxa (hMsub x hc)
            show s4 x = t.s x
            rw [hfrG x hxs hxh, hs0]
            simp [set_bf, set_gt, set_lt, hxh]
        · have hud1 : 1 ≤ uDep key h a := by omega
          have hPUmem := gP hud1
          have hPU0 : uPar key h null a ≠ null :=
            handles_ne_null a t.root hrep _ hPUmem
          have hudm1 : uDep key h a - 1 < insLen key h a := by omega
          have hbit2 : insBr key h a 0 (fun _ => false) (uDep key h a - 1)
              = dirAt key h a (uDep key h a - 1) := by
            have hb := insBr_spec a 0 (fun _ => false)
              (uDep key h a - 1) hudm1
            rwa [Nat.zero_add] at hb
          have hgB := gB hud1
          rcases Bool.eq_false_or_eq_true
            (dirAt key h a (uDep key h a - 1)) with hd | hd
          · rw [hd, if_pos rfl] at hgB
            refine ⟨⟨t.root, set_gt s4 (uPar key h null a) arq⟩,
              graftU key h (Tree.node (Tree.node aL (uH key h a) 0 aRL)
                arq 0 (attBf key h aRR))
                a, ?_, hgB, hndA2, hgb, hga,
              ⟨XS, YS, hXs, hYs, hbX, hbY⟩, ?_⟩
            · have hdescR := hdesc
              have hbfU1R := hbfU1
              have hGneR := hGne
              have hloopR := hloop
              rw [hS1, hs0] at hbfU1R hGneR hloopR
              rw [hs0] at hdescR
              simp only [insert, if_neg hroot0]
              rw [hdescR]
              simp only [if_neg hU2, read_error, Bool.false_eq_true,
                if_false, get_bf, get_lt, get_gt]
              simp only [hbitv, if_true, if_neg hp1]
              simp only [hbfU1R]
              rw [if_neg (show ¬(((1:Int) + 1 ≠ -2) ∧ ((1:Int) + 1 ≠ 2))
                from by norm_num)]
              rw [if_neg hGneR, hloopR]
              simp only [hbal]
              rw [if_neg hPU0]
              simp only [hbit2, hd, if_true]
              rw [if_neg (show ¬((1:Int) < 0) from by norm_num)]
            · intro x hxa hxh
              have hxs : x ∉ (subU key h a).handles := by
                rw [hshape]
                exact fun hc => hxa (hMsub x hc)
              have hxPU : x ≠ uPar key h null a :=
                fun e => hxa (e ▸ hPUmem)
              show set_gt s4 (uPar key h null a) arq x = t.s x
              rw [show set_gt s4 (uPar key h null a) arq x = s4 x from by
                simp [set_gt, hxPU]]
              rw [hfrG x hxs hxh, hs0]
              simp [set_bf, set_gt, set_lt, hxh]
          · rw [hd, if_neg Bool.false_ne_true] at hgB
            refine ⟨⟨t.root, set_lt s4 (uPar key h null a) arq⟩,
              graftU key h (Tree.node (Tree.node aL (uH key h a) 0 aRL)
                arq 0 (attBf key h aRR))
                a, ?_, hgB, hndA2, hgb, hga,
              ⟨XS, YS, hXs, hYs, hbX, hbY⟩, ?_⟩
            · have hdescR := hdesc
              have hbfU1R := hbfU1
              have hGneR := hGne
              have hloopR := hloop
              rw [hS1, hs0] at hbfU1R hGneR hloopR
              rw [hs0] at hdescR
              simp only [insert, if_neg hroot0]
              rw [hdescR]
              simp only [if_neg hU2, read_error, Bool.false_eq_true,
                if_false, get_bf, get_lt, get_gt]
              simp only [hbitv, if_true, if_neg hp1]
              simp only [hbfU1R]
              rw [if_neg (show ¬(((1:Int) + 1 ≠ -2) ∧ ((1:Int) + 1 ≠ 2))
                from by norm_num)]
              rw [if_neg hGneR, hloopR]
              simp only [hbal]
              rw [if_neg hPU0]
              simp only [hbit2, hd]
              simp only [Bool.false_eq_true, if_false,
                if_pos (show ((-1:Int) < 0) from by norm_num)]
            · intro x hxa hxh
              have hxs : x ∉ (subU key h a).handles := by
                rw [hshape]
                exact fun hc => hxa (hMsub x hc)
              have hxPU : x ≠ uPar key h null a :=
                fun e => hxa (e ▸ hPUmem)
              show set_lt s4 (uPar key h null a) arq x = t.s x
              rw [show set_lt s4 (uPar key h null a) arq x = s4 x from by
                simp [set_lt, hxPU]]
              rw [hfrG x hxs hxh, hs0]
              simp [set_bf, set_gt, set_lt, hxh]

/-- Full functional correctness of `insert` for a fresh non-null node
with a key not present in the tree: the call returns the node, the
result is a represented AVL search tree, the in-order handle sequence
gains exactly the new node at its key position, and no other node's
record changes. -/
theorem insert_spec {key : Handle → Int} {t : AvlSt} {a : Tree}
    {h : Handle} {fuel : Nat}
    (hrep : ReprT t.s t.root a) (hnd : a.handles.Nodup)
    (hbst : a.bst key) (havl : a.avl)
    (hh0 : h ≠ null) (hfresh : h ∉ a.handles)
    (habs : ∀ x ∈ a.handles, key x ≠ key h)
    (hfuel : a.height < fuel) :
    ∃ st2 a2,
      insert key t h fuel = some (h, st2) ∧
      ReprT st2.s st2.root a2 ∧ a2.handles.Nodup ∧ a2.bst key ∧ a2.avl ∧
      (∃ xs ys, a.handles = xs ++ ys ∧ a2.handles = xs ++ h :: ys ∧
        (∀ x ∈ xs, key x < key h) ∧ (∀ y ∈ ys, key h < key y)) ∧
      (∀ x, x ∉ a.handles → x ≠ h → st2.s x = t.s x) := by
  by_cases hane : a = Tree.nil
  · subst hane
    have hroot : t.root = null := hrep
    refine ⟨⟨h, set_bf (set_gt (set_lt t.s h null) h null) h 0⟩,
      Tree.node Tree.nil h 0 Tree.nil, ?_, ?_, ?_, ?_, ?_, ?_, ?_⟩
    · simp only [insert, if_pos hroot]
    · rw [ReprT_node_iff]
      refine ⟨rfl, hh0, ?_, ?_, ?_⟩
      · simp [set_bf]
      · rw [show ((set_bf (set_gt (set_lt t.s h null) h null) h 0) h).lt
            = null from by simp [set_bf, set_gt, set_lt]]
        rw [ReprT_nil_iff]
      · rw [show ((set_bf (set_gt (set_lt t.s h null) h null) h 0) h).gt
            = null from by simp [set_bf, set_gt, set_lt]]
        rw [ReprT_nil_iff]
    · simp [Tree.handles]
    · exact ⟨by simp [Tree.handles], by simp [Tree.handles],
        trivial, trivial⟩
    · exact ⟨trivial, trivial, by simp [Tree.height], by decide⟩
    · exact ⟨[], [], rfl, rfl, by simp, by simp⟩
    · intro x hxa hxh
      simp [set_bf, set_gt, set_lt, hxh]
  · by_cases hU : hasU key h a = true
    · have hUmem : uH key h a ∈ a.handles := by
        obtain ⟨⟨aL, bU, aR, hshape, -, -⟩, -, -, -, hMsub⟩ :=
          subU_facts a hU
        exact hMsub _ (by rw [hshape]; simp [Tree.handles])
      have hUk : key (uH key h a) ≠ key h := habs _ hUmem
      rcases lt_or_gt_of_ne hUk with hlt | hgt
      · exact insert_hasU_right_spec hrep hnd hbst havl hh0 hfresh habs
          hane hU hlt hfuel
      · exact insert_hasU_left_spec hrep hnd hbst havl hh0 hfresh habs
          hane hU hgt hfuel
    · have hU2 : hasU key h a = false := Bool.eq_false_iff.mpr hU
      obtain ⟨s2, heq, hrep2, hframe⟩ := insert_noU_spec hrep hnd hbst hh0
        hfresh habs hane hU2 hfuel
      obtain ⟨hb2, ha2, hh2⟩ := attBf_props a hbst havl hU2 habs
      obtain ⟨xs, ys, hsp1, hsp2, hbx, hby⟩ := attach_split a hbst habs
      have hhand2 : (attBf key h a).handles = xs ++ h :: ys := by
        rw [attBf_handles, hsp2]
      refine ⟨⟨t.root, s2⟩, attBf key h a, heq, hrep2, ?_, hb2, ha2,
        ⟨xs, ys, hsp1, hhand2, hbx, hby⟩, hframe⟩
      rw [hhand2]
      exact nodup_split_insert (by rw [← hsp1]; exact hnd)
        (by rw [← hsp1]; exact hfresh)

/-! ## Path zippers for the verification of `remove` -/

/-- One ancestor on a root-to-node path: the direction taken (true =
greater), the ancestor's handle, its stored balance factor, and the
subtree hanging off the other side. -/
structure RFrame where
  dir : Bool
  q : Handle
  b : Int
  sib : Tree
  deriving DecidableEq

/-- Rebuild a tree from a subtree and its ancestor frames (innermost
frame first). -/
def plugR (t : Tree) : List RFrame → Tree
  | [] => t
  | f :: rest =>
      plugR (if f.dir then Tree.node f.sib f.q f.b t
             else Tree.node t f.q f.b f.sib) rest

/-- The in-order handle sequence of a plugged tree, computed from the
handle sequence of the plugged subtree. -/
def plugHandles : List RFrame → List Handle → List Handle
  | [], hs => hs
  | f :: rest, hs => plugHandles rest
      (if f.dir then f.sib.handles ++ f.q :: hs
       else hs ++ f.q :: f.sib.handles)

/-- All handles owned by the context itself. -/
def chainHandles : List RFrame → List Handle
  | [] => []
  | f :: rest => f.q :: (f.sib.handles ++ chainHandles rest)

/-- Height of the plugged tree from the height of the plugged subtree. -/
def plugHeightF : List RFrame → Nat → Nat
  | [], hh => hh
  | f :: rest, hh => plugHeightF rest (max f.sib.height hh + 1)

/-- Context invariant: every sibling subtree is a valid AVL search tree,
every frame's balance factor is the original one (computed against the
original height `hh` of the path-side subtree), and the key ordering
constraints hold against the in-order handle list `hs` of the path-side
subtree. -/
def framesInv (key : Handle → Int) : List RFrame → List Handle → Nat → Prop
  | [], _, _ => True
  | f :: rest, hs, hh =>
      f.sib.avl ∧ f.sib.bst key ∧ f.b.natAbs ≤ 1 ∧
      (if f.dir
       then f.b = (hh : Int) - f.sib.height ∧
         (∀ x ∈ f.sib.handles, key x < key f.q) ∧
         (∀ x ∈ hs, key f.q < key x)
       else f.b = (f.sib.height : Int) - hh ∧
         (∀ x ∈ f.sib.handles, key f.q < key x) ∧
         (∀ x ∈ hs, key x < key f.q)) ∧
      framesInv key rest
        (if f.dir then f.sib.handles ++ f.q :: hs
         else hs ++ f.q :: f.sib.handles)
        (max f.sib.height hh + 1)

/-- Store layout of an intact context: each frame's node carries its
balance factor, the sibling subtree on the off-path side, and the
path-side link points to the given position handle. -/
def CtxRepr (s : Store) : List RFrame → Handle → Handle → Prop
  | [], root, pos => root = pos
  | f :: rest, root, pos =>
      CtxRepr s rest root f.q ∧ f.q ≠ null ∧ (s f.q).bf = f.b ∧
      (if f.dir then (s f.q).gt = pos ∧ ReprT s ((s f.q).lt) f.sib
       else (s f.q).lt = pos ∧ ReprT s ((s f.q).gt) f.sib)

/-- Store layout of a rethreaded (pointer-reversed) context: each
frame's path-side link points to its own parent instead, starting from
the given innermost ancestor handle. -/
def RevChain (s : Store) : List RFrame → Handle → Prop
  | [], par => par = null
  | f :: rest, par =>
      par = f.q ∧ f.q ≠ null ∧ (s f.q).bf = f.b ∧
      (∃ pn, RevChain s rest pn ∧
        (if f.dir then (s f.q).gt = pn ∧ ReprT s ((s f.q).lt) f.sib
         else (s f.q).lt = pn ∧ ReprT s ((s f.q).gt) f.sib))

theorem plugR_handles (frames : List RFrame) : ∀ t : Tree,
    (plugR t frames).handles = plugHandles frames t.handles := by
  induction frames with
  | nil => intro t; rfl
  | cons f rest ih =>
    intro t
    rw [plugR, plugHandles, ih]
    by_cases hd : f.dir
    · rw [if_pos hd, if_pos hd, Tree.handles]
    · rw [if_neg hd, if_neg hd, Tree.handles]

theorem plugHandles_congr (frames : List RFrame) : ∀ hs hs' : List Handle,
    hs = hs' → plugHandles frames hs = plugHandles frames hs' := by
  intro hs hs' h
  rw [h]

theorem plugHandles_mem (frames : List RFrame) : ∀ (hs : List Handle)
    (x : Handle), x ∈ plugHandles frames hs ↔
      x ∈ hs ∨ x ∈ chainHandles frames := by
  induction frames with
  | nil =>
    intro hs x
    simp [plugHandles, chainHandles]
  | cons f rest ih =>
    intro hs x
    rw [plugHandles, chainHandles, ih]
    by_cases hd : f.dir <;> simp [hd, List.mem_append, List.mem_cons] <;>
      tauto

theorem plugHandles_nodup (frames : List RFrame) : ∀ hs : List Handle,
    (plugHandles frames hs).Nodup → hs.Nodup := by
  induction frames with
  | nil => intro hs h; exact h
  | cons f rest ih =>
    intro hs h
    rw [plugHandles] at h
    have h2 := ih _ h
    by_cases hd : f.dir
    · rw [if_pos hd, List.nodup_append] at h2
      rw [List.nodup_cons] at h2
      exact h2.2.1.2
    · rw [if_neg hd, List.nodup_append] at h2
      exact h2.1

theorem plugHandles_disj (frames : List RFrame) : ∀ hs : List Handle,
    (plugHandles frames hs).Nodup →
    ∀ x ∈ hs, x ∉ chainHandles frames := by
  induction frames with
  | nil => intro hs _ x _ hc; simp [chainHandles] at hc
  | cons f rest ih =>
    intro hs h x hx hc
    rw [plugHandles] at h
    rw [chainHandles, List.mem_cons, List.mem_append] at hc
    by_cases hd : f.dir
    · rw [if_pos hd] at h
      have hnd2 := plugHandles_nodup rest _ h
      rw [List.nodup_append, List.nodup_cons] at hnd2
      rcases hc with hc | hc | hc
      · exact hnd2.2.1.1 (hc ▸ hx)
      · exact hnd2.2.2 hc (by simp [hx])
      · exact ih _ h x (by
          refine List.mem_append.mpr (Or.inr ?_)
          simp [hx]) hc
    · rw [if_neg hd] at h
      have hnd2 := plugHandles_nodup rest _ h
      rw [List.nodup_append, List.nodup_cons] at hnd2
      rcases hc with hc | hc | hc
      · exact (hnd2.2.2 hx) (by simp [hc])
      · exact (hnd2.2.2 hx) (by simp [hc])
      · exact ih _ h x (List.mem_append.mpr (Or.inl hx)) hc

theorem framesInv_mono {key : Handle → Int} (frames : List RFrame) :
    ∀ (hs hs' : List Handle) (hh : Nat),
    framesInv key frames hs hh → (∀ x ∈ hs', x ∈ hs) →
    framesInv key frames hs' hh := by
  induction frames with
  | nil => intro hs hs' hh _ _; trivial
  | cons f rest ih =>
    intro hs hs' hh hinv hsub
    obtain ⟨h1, h2, h3, h4, h5⟩ := hinv
    refine ⟨h1, h2, h3, ?_, ?_⟩
    · by_cases hd : f.dir
      · rw [if_pos hd] at h4 ⊢
        exact ⟨h4.1, h4.2.1, fun x hx => h4.2.2 x (hsub x hx)⟩
      · rw [if_neg hd] at h4 ⊢
        exact ⟨h4.1, h4.2.1, fun x hx => h4.2.2 x (hsub x hx)⟩
    · refine ih _ _ _ h5 ?_
      intro x hx
      by_cases hd : f.dir
      · rw [if_pos hd] at hx ⊢
        rcases List.mem_append.mp hx with hc | hc
        · exact List.mem_append.mpr (Or.inl hc)
        · rcases List.mem_cons.mp hc with hc2 | hc2
          · exact List.mem_append.mpr (Or.inr (by simp [hc2]))
          · exact List.mem_append.mpr (Or.inr (by simp [hsub x hc2]))
      · rw [if_neg hd] at hx ⊢
        rcases List.mem_append.mp hx with hc | hc
        · exact List.mem_append.mpr (Or.inl (hsub x hc))
        · exact List.mem_append.mpr (Or.inr hc)

theorem CtxRepr_congr {s s' : Store} (frames : List RFrame) :
    ∀ (root pos : Handle),
    CtxRepr s frames root pos →
    (∀ x ∈ chainHandles frames, s' x = s x) →
    CtxRepr s' frames root pos := by
  induction frames with
  | nil => intro root pos h _; exact h
  | cons f rest ih =>
    intro root pos h hagree
    obtain ⟨h1, h2, h3, h4⟩ := h
    have hq : s' f.q = s f.q := hagree f.q (by simp [chainHandles])
    have hsib : ∀ x ∈ f.sib.handles, s' x = s x := fun x hx =>
      hagree x (by
        rw [chainHandles]
        refine List.mem_cons.mpr (Or.inr ?_)
        exact List.mem_append.mpr (Or.inl hx))
    refine ⟨ih _ _ h1 (fun x hx => hagree x (by
      rw [chainHandles]
      refine List.mem_cons.mpr (Or.inr ?_)
      exact List.mem_append.mpr (Or.inr hx))), h2, by rw [hq]; exact h3, ?_⟩
    by_cases hd : f.dir
    · rw [if_pos hd] at h4 ⊢
      rw [hq]
      exact ⟨h4.1, ReprT_congr h4.2 hsib⟩
    · rw [if_neg hd] at h4 ⊢
      rw [hq]
      exact ⟨h4.1, ReprT_congr h4.2 hsib⟩

theorem RevChain_congr {s s' : Store} (frames : List RFrame) :
    ∀ par : Handle,
    RevChain s frames par →
    (∀ x ∈ chainHandles frames, s' x = s x) →
    RevChain s' frames par := by
  induction frames with
  | nil => intro par h _; exact h
  | cons f rest ih =>
    intro par h hagree
    obtain ⟨h1, h2, h3, pn, h4, h5⟩ := h
    have hq : s' f.q = s f.q := hagree f.q (by simp [chainHandles])
    have hsib : ∀ x ∈ f.sib.handles, s' x = s x := fun x hx =>
      hagree x (by
        rw [chainHandles]
        refine List.mem_cons.mpr (Or.inr ?_)
        exact List.mem_append.mpr (Or.inl hx))
    refine ⟨h1, h2, by rw [hq]; exact h3, pn,
      ih _ h4 (fun x hx => hagree x (by
        rw [chainHandles]
        refine List.mem_cons.mpr (Or.inr ?_)
        exact List.mem_append.mpr (Or.inr hx))), ?_⟩
    by_cases hd : f.dir
    · rw [if_pos hd] at h5 ⊢
      rw [hq]
      exact ⟨h5.1, ReprT_congr h5.2 hsib⟩
    · rw [if_neg hd] at h5 ⊢
      rw [hq]
      exact ⟨h5.1, ReprT_congr h5.2 hsib⟩

/-- Composing a context layout with a represented subtree yields the
representation of the plugged tree. -/
theorem CtxRepr_plug {s : Store} (frames : List RFrame) :
    ∀ (root pos : Handle) (t : Tree),
    CtxRepr s frames root pos → ReprT s pos t →
    ReprT s root (plugR t frames) := by
  induction frames with
  | nil =>
    intro root pos t h hrep
    rw [plugR, h]
    exact hrep
  | cons f rest ih =>
    intro root pos t h hrep
    obtain ⟨h1, h2, h3, h4⟩ := h
    rw [plugR]
    refine ih _ _ _ h1 ?_
    by_cases hd : f.dir
    · rw [if_pos hd] at h4 ⊢
      exact ReprT_node_iff.mpr ⟨rfl, h2, h3, h4.2, h4.1 ▸ hrep⟩
    · rw [if_neg hd] at h4 ⊢
      exact ReprT_node_iff.mpr ⟨rfl, h2, h3, h4.1 ▸ hrep, h4.2⟩

/-- Decomposing the representation of a plugged tree into the context
layout and the subtree representation at its position handle. -/
theorem CtxRepr_unplug {s : Store} (frames : List RFrame) :
    ∀ (root : Handle) (t : Tree),
    ReprT s root (plugR t frames) →
    ∃ pos, CtxRepr s frames root pos ∧ ReprT s pos t := by
  induction frames with
  | nil =>
    intro root t h
    exact ⟨root, rfl, h⟩
  | cons f rest ih =>
    intro root t h
    rw [plugR] at h
    obtain ⟨pos1, hctx, hrep⟩ := ih _ _ h
    by_cases hd : f.dir
    · rw [if_pos hd] at hrep
      rw [ReprT_node_iff] at hrep
      obtain ⟨he, h2, h3, h4, h5⟩ := hrep
      refine ⟨(s f.q).gt, ?_, h5⟩
      rw [show CtxRepr s (f :: rest) root ((s f.q).gt) =
        (CtxRepr s rest root f.q ∧ f.q ≠ null ∧ (s f.q).bf = f.b ∧
          (if f.dir then (s f.q).gt = (s f.q).gt ∧
            ReprT s ((s f.q).lt) f.sib
           else (s f.q).lt = (s f.q).gt ∧
            ReprT s ((s f.q).gt) f.sib)) from rfl]
      rw [if_pos hd]
      exact ⟨he ▸ hctx, h2, h3, rfl, h4⟩
    · rw [if_neg hd] at hrep
      rw [ReprT_node_iff] at hrep
      obtain ⟨he, h2, h3, h4, h5⟩ := hrep
      refine ⟨(s f.q).lt, ?_, h4⟩
      rw [show CtxRepr s (f :: rest) root ((s f.q).lt) =
        (CtxRepr s rest root f.q ∧ f.q ≠ null ∧ (s f.q).bf = f.b ∧
          (if f.dir then (s f.q).gt = (s f.q).lt ∧
            ReprT s ((s f.q).lt) f.sib
           else (s f.q).lt = (s f.q).lt ∧
            ReprT s ((s f.q).gt) f.sib)) from rfl]
      rw [if_neg hd]
      exact ⟨he ▸ hctx, h2, h3, rfl, h5⟩

/-- Height bookkeeping of the rb = 0 single rotation, which arises only
while removing: the subtree keeps its height and the new root has balance
factor −1. -/
theorem rem_avl_RS0 {L RL RR : Tree} {U rp : Handle}
    (hA : (Tree.node RL rp 0 RR).avl) (hL : L.avl)
    (hh : (Tree.node RL rp 0 RR).height = L.height + 2) :
    (Tree.node (Tree.node L U 1 RL) rp (-1) RR).avl ∧
    (Tree.node (Tree.node L U 1 RL) rp (-1) RR).height = L.height + 3 := by
  obtain ⟨hRL, hRR, hbf, -⟩ := hA
  rw [Tree.height] at hh
  refine ⟨⟨⟨hL, hRL, ?_, ?_⟩, hRR, ?_, ?_⟩, ?_⟩ <;>
    first
      | omega
      | decide
      | (simp only [Tree.height]; omega)

/-- Height bookkeeping of the lb = 0 single rotation, which arises only
while removing: the subtree keeps its height and the new root has balance
factor 1. -/
theorem rem_avl_LS0 {LL LR R : Tree} {lp U : Handle}
    (hA : (Tree.node LL lp 0 LR).avl) (hR : R.avl)
    (hh : (Tree.node LL lp 0 LR).height = R.height + 2) :
    (Tree.node LL lp 1 (Tree.node LR U (-1) R)).avl ∧
    (Tree.node LL lp 1 (Tree.node LR U (-1) R)).height = R.height + 3 := by
  obtain ⟨hLL, hLR, hbf, -⟩ := hA
  rw [Tree.height] at hh
  refine ⟨⟨hLL, ⟨hLR, hR, ?_, ?_⟩, ?_, ?_⟩, ?_⟩ <;>
    first
      | omega
      | decide
      | (simp only [Tree.height]; omega)

/-- Entry invariant of one step of the climbing loop of `remove` when the
depth of the subtree on the `cmp` side of `h` has shrunk by one: the
stored balance factor of `h` is still the pre-shrink one, and `H` is the
pre-shrink height of the subtree rooted at `h`. -/
def climbPre (key : Handle → Int) (s : Store) (h : Handle) (cmp : Int)
    (hs : List Handle) (H : Nat) : Prop :=
  ∃ L R : Tree, h ≠ null ∧ ReprT s (get_lt s h) L ∧
    ReprT s (get_gt s h) R ∧ L.avl ∧ R.avl ∧ L.bst key ∧ R.bst key ∧
    (∀ x ∈ L.handles, key x < key h) ∧ (∀ x ∈ R.handles, key h < key x) ∧
    hs = L.handles ++ h :: R.handles ∧ hs.Nodup ∧
    (if cmp < 0
     then get_bf s h = (R.height : Int) - ((L.height : Int) + 1) ∧
       (get_bf s h).natAbs ≤ 1 ∧ H = max (L.height + 1) R.height + 1
     else get_bf s h = ((R.height : Int) + 1) - (L.height : Int) ∧
       (get_bf s h).natAbs ≤ 1 ∧ H = max L.height (R.height + 1) + 1)

/-- One step of the climbing loop of `remove` in the shrunk state:
rebalancing restores the AVL shape, keeps the in-order handle sequence,
and the returned flag tells whether the subtree is now one level lower
than before the removal. -/
theorem removeClimbStep_sim {key : Handle → Int} {s : Store} {h : Handle}
    {cmp : Int} {hs : List Handle} {H : Nat}
    (hpre : climbPre key s h cmp hs H) :
    ∃ s2 h2 r2, removeClimbStep s h cmp true = (s2, h2, r2) ∧
      (∃ T : Tree, ReprT s2 h2 T ∧ T.avl ∧ T.bst key ∧ T.handles = hs ∧
        (if r2 then T.height + 1 = H else T.height = H)) ∧
      (∀ x, x ∉ hs → s2 x = s x) := by
  obtain ⟨L, R, hh0, hL, hR, hLavl, hRavl, hLbst, hRbst, hLk, hRk, hhs,
    hnd, hcase⟩ := hpre
  subst hhs
  have hndT : ∀ b : Int, (Tree.node L h b R).handles.Nodup := by
    intro b; rw [Tree.handles]; exact hnd
  obtain ⟨hndL, hndR, hhL2, hhR2, hdisj⟩ := nodup_node (hndT 0)
  have hmemh : h ∈ L.handles ++ h :: R.handles := by simp
  have hmemR : ∀ x ∈ R.handles, x ∈ L.handles ++ h :: R.handles := by
    intro x hx; simp [hx]
  have hsetbf : ∀ b' : Int, ReprT (set_bf s h b') h (Tree.node L h b' R) := by
    intro b'
    refine ⟨rfl, hh0, by simp [set_bf], ?_, ?_⟩
    · have he : ((set_bf s h b') h).lt = (s h).lt := by simp [set_bf]
      rw [he]
      exact ReprT_congr hL (fun x hx => by
        have hxh : x ≠ h := fun e => hhL2 (e ▸ hx)
        simp [set_bf, hxh])
    · have he : ((set_bf s h b') h).gt = (s h).gt := by simp [set_bf]
      rw [he]
      exact ReprT_congr hR (fun x hx => by
        have hxh : x ≠ h := fun e => hhR2 (e ▸ hx)
        simp [set_bf, hxh])
  have hframe_set : ∀ b' : Int, ∀ x, x ∉ L.handles ++ h :: R.handles →
      set_bf s h b' x = s x := by
    intro b' x hx
    have hxh : x ≠ h := fun e => hx (e ▸ hmemh)
    simp [set_bf, hxh]
  by_cases hc : cmp < 0
  · rw [if_pos hc] at hcase
    obtain ⟨hb0, habs, hH⟩ := hcase
    have hstep : removeClimbStep s h cmp true
        = (if get_bf s h + 1 = -2 ∨ get_bf s h + 1 = 2 then
            ((balance s h).2, (balance s h).1,
              get_bf (balance s h).2 (balance s h).1 == 0)
          else (set_bf s h (get_bf s h + 1), h, get_bf s h + 1 == 0)) := by
      rw [removeClimbStep, if_pos rfl, if_pos hc]
    have hb3 : get_bf s h = -1 ∨ get_bf s h = 0 ∨ get_bf s h = 1 := by
      omega
    rcases hb3 with hb | hb | hb
    · -- new balance factor 0: just store it, depth is reduced
      have hcond : ¬ (get_bf s h + 1 = -2 ∨ get_bf s h + 1 = 2) := by omega
      rw [if_neg hcond] at hstep
      refine ⟨_, _, _, hstep, ⟨Tree.node L h (get_bf s h + 1) R,
        hsetbf _, ⟨hLavl, hRavl, by omega, by omega⟩,
        ⟨hLk, hRk, hLbst, hRbst⟩, by rw [Tree.handles], ?_⟩,
        hframe_set _⟩
      rw [hb]
      rw [show ((-1 : Int) + 1 == 0) = true from by decide, if_pos rfl]
      simp only [Tree.height]
      omega
    · -- new balance factor 1: store it, depth is unchanged
      have hcond : ¬ (get_bf s h + 1 = -2 ∨ get_bf s h + 1 = 2) := by omega
      rw [if_neg hcond] at hstep
      refine ⟨_, _, _, hstep, ⟨Tree.node L h (get_bf s h + 1) R,
        hsetbf _, ⟨hLavl, hRavl, by omega, by omega⟩,
        ⟨hLk, hRk, hLbst, hRbst⟩, by rw [Tree.handles], ?_⟩,
        hframe_set _⟩
      rw [hb]
      rw [show ((0 : Int) + 1 == 0) = false from by decide,
        if_neg (by decide : ¬ (false = true))]
      simp only [Tree.height]
      omega
    · -- new balance factor 2: rebalance towards the greater side
      have hcond : get_bf s h + 1 = -2 ∨ get_bf s h + 1 = 2 := by omega
      rw [if_pos hcond] at hstep
      have hRh : R.height = L.height + 2 := by omega
      cases R with
      | nil => exact absurd hRh (by rw [Tree.height]; omega)
      | node RL rp rb RR =>
        have hrbeq := hRavl.2.2.1
        have hrbabs := hRavl.2.2.2
        have hrepn : ReprT s h (Tree.node L h 1 (Tree.node RL rp rb RR)) :=
          ⟨rfl, hh0, hb, hL, hR⟩
        have hrb3 : rb = -1 ∨ rb = 0 ∨ rb = 1 := by omega
        have hrpmem : rp ∈ (Tree.node RL rp rb RR).handles := by
          rw [Tree.handles]; simp
        rcases hrb3 with rfl | rfl | rfl
        · -- double rotation
          have hRLh : RL.height = RR.height + 1 := by omega
          cases RL with
          | nil => exact absurd hRLh (by rw [Tree.height]; omega)
          | node CL cq cb CR =>
            obtain ⟨s', hbal, hrep', hframe'⟩ :=
              balance_right_double hrepn (hndT 1) (by norm_num) (by norm_num)
            have hstep2 : removeClimbStep s h cmp true
                = (s', cq, get_bf s' cq == 0) := by
              rw [hstep, hbal]
            have hbfcq : get_bf s' cq = 0 := hrep'.2.2.1
            have hr2 : (get_bf s' cq == 0) = true := by rw [hbfcq]; decide
            obtain ⟨havl2, hht2⟩ := ins_avl_RD hRavl hLavl hRh
            obtain ⟨hbst2, hhand2⟩ :=
              @rotRD_bst key L CL CR RR h cq rp 1 cb (-1)
                (if 0 < cb then -1 else 0) 0 (if cb < 0 then 1 else 0)
                ⟨hLk, hRk, hLbst, hRbst⟩
            refine ⟨_, _, _, hstep2,
              ⟨Tree.node (Tree.node L h (if 0 < cb then -1 else 0) CL) cq 0
                (Tree.node CR rp (if cb < 0 then 1 else 0) RR),
                hrep', havl2, hbst2, ?_, ?_⟩, ?_⟩
            · rw [hhand2, Tree.handles]
            · rw [hr2, if_pos rfl]
              omega
            · intro x hx
              have hxh : x ≠ h := fun e => hx (e ▸ hmemh)
              have hxrp : x ≠ rp := fun e => hx (e ▸ hmemR rp hrpmem)
              have hxcq : x ≠ cq := fun e => hx (e ▸ hmemR cq (by
                rw [Tree.handles]
                refine List.mem_append.mpr (Or.inl ?_)
                rw [Tree.handles]; simp))
              exact hframe' x hxh hxrp hxcq
        · -- single rotation, sibling balanced: height is kept
          obtain ⟨s', hbal, hrep', hframe'⟩ :=
            balance_right_single hrepn (hndT 1) (by norm_num) (by norm_num)
          rw [if_pos rfl, if_pos rfl] at hrep'
          have hstep2 : removeClimbStep s h cmp true
              = (s', rp, get_bf s' rp == 0) := by
            rw [hstep, hbal]
          have hbfrp : get_bf s' rp = -1 := hrep'.2.2.1
          have hr2 : (get_bf s' rp == 0) = false := by rw [hbfrp]; decide
          obtain ⟨havl2, hht2⟩ := rem_avl_RS0 hRavl hLavl hRh
          obtain ⟨hbst2, hhand2⟩ :=
            @rotR_bst key L RL RR h rp 1 0 1 (-1)
              ⟨hLk, hRk, hLbst, hRbst⟩
          refine ⟨_, _, _, hstep2,
            ⟨Tree.node (Tree.node L h 1 RL) rp (-1) RR,
              hrep', havl2, hbst2, ?_, ?_⟩, ?_⟩
          · rw [hhand2, Tree.handles]
          · rw [hr2, if_neg (by decide : ¬ (false = true))]
            omega
          · intro x hx
            have hxh : x ≠ h := fun e => hx (e ▸ hmemh)
            have hxrp : x ≠ rp := fun e => hx (e ▸ hmemR rp hrpmem)
            exact hframe' x hxh hxrp
        · -- single rotation, sibling one deeper on the outside
          obtain ⟨s', hbal, hrep', hframe'⟩ :=
            balance_right_single hrepn (hndT 1) (by norm_num) (by norm_num)
          rw [if_neg (by decide : ¬ ((1 : Int) = 0)),
            if_neg (by decide : ¬ ((1 : Int) = 0))] at hrep'
          have hstep2 : removeClimbStep s h cmp true
              = (s', rp, get_bf s' rp == 0) := by
            rw [hstep, hbal]
          have hbfrp : get_bf s' rp = 0 := hrep'.2.2.1
          have hr2 : (get_bf s' rp == 0) = true := by rw [hbfrp]; decide
          obtain ⟨havl2, hht2⟩ := ins_avl_RS hRavl hLavl hRh
          obtain ⟨hbst2, hhand2⟩ :=
            @rotR_bst key L RL RR h rp 1 1 0 0
              ⟨hLk, hRk, hLbst, hRbst⟩
          refine ⟨_, _, _, hstep2,
            ⟨Tree.node (Tree.node L h 0 RL) rp 0 RR,
              hrep', havl2, hbst2, ?_, ?_⟩, ?_⟩
          · rw [hhand2, Tree.handles]
          · rw [hr2, if_pos rfl]
            omega
          · intro x hx
            have hxh : x ≠ h := fun e => hx (e ▸ hmemh)
            have hxrp : x ≠ rp := fun e => hx (e ▸ hmemR rp hrpmem)
            exact hframe' x hxh hxrp
  · rw [if_neg hc] at hcase
    obtain ⟨hb0, habs, hH⟩ := hcase
    have hstep : removeClimbStep s h cmp true
        = (if get_bf s h + -1 = -2 ∨ get_bf s h + -1 = 2 then
            ((balance s h).2, (balance s h).1,
              get_bf (balance s h).2 (balance s h).1 == 0)
          else (set_bf s h (get_bf s h + -1), h, get_bf s h + -1 == 0)) := by
      rw [removeClimbStep, if_pos rfl, if_neg hc]
    have hb3 : get_bf s h = -1 ∨ get_bf s h = 0 ∨ get_bf s h = 1 := by
      omega
    have hmemL : ∀ x ∈ L.handles, x ∈ L.handles ++ h :: R.handles := by
      intro x hx; exact List.mem_append.mpr (Or.inl hx)
    rcases hb3 with hb | hb | hb
    · -- new balance factor −2: rebalance towards the less side
      have hcond : get_bf s h + -1 = -2 ∨ get_bf s h + -1 = 2 := by omega
      rw [if_pos hcond] at hstep
      have hLh : L.height = R.height + 2 := by omega
      cases L with
      | nil => exact absurd hLh (by rw [Tree.height]; omega)
      | node LL lp lb LR =>
        have hlbeq := hLavl.2.2.1
        have hlbabs := hLavl.2.2.2
        have hrepn : ReprT s h (Tree.node (Tree.node LL lp lb LR) h (-1) R) :=
          ⟨rfl, hh0, hb, hL, hR⟩
        have hlb3 : lb = -1 ∨ lb = 0 ∨ lb = 1 := by omega
        have hlpmem : lp ∈ (Tree.node LL lp lb LR).handles := by
          rw [Tree.handles]; simp
        rcases hlb3 with rfl | rfl | rfl
        · -- single rotation, sibling one deeper on the outside
          obtain ⟨s', hbal, hrep', hframe'⟩ :=
            balance_left_single hrepn (hndT (-1)) (by norm_num) (by norm_num)
          rw [if_neg (by decide : ¬ ((-1 : Int) = 0)),
            if_neg (by decide : ¬ ((-1 : Int) = 0))] at hrep'
          have hstep2 : removeClimbStep s h cmp true
              = (s', lp, get_bf s' lp == 0) := by
            rw [hstep, hbal]
          have hbflp : get_bf s' lp = 0 := hrep'.2.2.1
          have hr2 : (get_bf s' lp == 0) = true := by rw [hbflp]; decide
          obtain ⟨havl2, hht2⟩ := ins_avl_LS hLavl hRavl hLh
          obtain ⟨hbst2, hhand2⟩ :=
            @rotL_bst key LL lp LR R h (-1) (-1) 0 0
              ⟨hLk, hRk, hLbst, hRbst⟩
          refine ⟨_, _, _, hstep2,
            ⟨Tree.node LL lp 0 (Tree.node LR h 0 R),
              hrep', havl2, hbst2, ?_, ?_⟩, ?_⟩
          · rw [hhand2, Tree.handles]
          · rw [hr2, if_pos rfl]
            omega
          · intro x hx
            have hxh : x ≠ h := fun e => hx (e ▸ hmemh)
            have hxlp : x ≠ lp := fun e => hx (e ▸ hmemL lp hlpmem)
            exact hframe' x hxh hxlp
        · -- single rotation, sibling balanced: height is kept
          obtain ⟨s', hbal, hrep', hframe'⟩ :=
            balance_left_single hrepn (hndT (-1)) (by norm_num) (by norm_num)
          rw [if_pos rfl, if_pos rfl] at hrep'
          have hstep2 : removeClimbStep s h cmp true
              = (s', lp, get_bf s' lp == 0) := by
            rw [hstep, hbal]
          have hbflp : get_bf s' lp = 1 := hrep'.2.2.1
          have hr2 : (get_bf s' lp == 0) = false := by rw [hbflp]; decide
          obtain ⟨havl2, hht2⟩ := rem_avl_LS0 hLavl hRavl hLh
          obtain ⟨hbst2, hhand2⟩ :=
            @rotL_bst key LL lp LR R h 0 (-1) 1 (-1)
              ⟨hLk, hRk, hLbst, hRbst⟩
          refine ⟨_, _, _, hstep2,
            ⟨Tree.node LL lp 1 (Tree.node LR h (-1) R),
              hrep', havl2, hbst2, ?_, ?_⟩, ?_⟩
          · rw [hhand2, Tree.handles]
          · rw [hr2, if_neg (by decide : ¬ (false = true))]
            omega
          · intro x hx
            have hxh : x ≠ h := fun e => hx (e ▸ hmemh)
            have hxlp : x ≠ lp := fun e => hx (e ▸ hmemL lp hlpmem)
            exact hframe' x hxh hxlp
        · -- double rotation
          have hLRh : LR.height = LL.height + 1 := by omega
          cases LR with
          | nil => exact absurd hLRh (by rw [Tree.height]; omega)
          | node CL cq cb CR =>
            obtain ⟨s', hbal, hrep', hframe'⟩ :=
              balance_left_double hrepn (hndT (-1)) (by norm_num) (by norm_num)
            have hstep2 : removeClimbStep s h cmp true
                = (s', cq, get_bf s' cq == 0) := by
              rw [hstep, hbal]
            have hbfcq : get_bf s' cq = 0 := hrep'.2.2.1
            have hr2 : (get_bf s' cq == 0) = true := by rw [hbfcq]; decide
            obtain ⟨havl2, hht2⟩ := ins_avl_LD hLavl hRavl hLh
            obtain ⟨hbst2, hhand2⟩ :=
              @rotLD_bst key LL CL CR R lp cq h 1 cb (-1)
                (if 0 < cb then -1 else 0) 0 (if cb < 0 then 1 else 0)
                ⟨hLk, hRk, hLbst, hRbst⟩
            refine ⟨_, _, _, hstep2,
              ⟨Tree.node (Tree.node LL lp (if 0 < cb then -1 else 0) CL) cq 0
                (Tree.node CR h (if cb < 0 then 1 else 0) R),
                hrep', havl2, hbst2, ?_, ?_⟩, ?_⟩
            · rw [hhand2, Tree.handles]
            · rw [hr2, if_pos rfl]
              omega
            · intro x hx
              have hxh : x ≠ h := fun e => hx (e ▸ hmemh)
              have hxlp : x ≠ lp := fun e => hx (e ▸ hmemL lp hlpmem)
              have hxcq : x ≠ cq := fun e => hx (e ▸ hmemL cq (by
                rw [Tree.handles]
                refine List.mem_append.mpr (Or.inr ?_)
                refine List.mem_cons.mpr (Or.inr ?_)
                rw [Tree.handles]; simp))
              exact hframe' x hxh hxlp hxcq
    · -- new balance factor −1: store it, depth is unchanged
      have hcond : ¬ (get_bf s h + -1 = -2 ∨ get_bf s h + -1 = 2) := by omega
      rw [if_neg hcond] at hstep
      refine ⟨_, _, _, hstep, ⟨Tree.node L h (get_bf s h + -1) R,
        hsetbf _, ⟨hLavl, hRavl, by omega, by omega⟩,
        ⟨hLk, hRk, hLbst, hRbst⟩, by rw [Tree.handles], ?_⟩,
        hframe_set _⟩
      rw [hb]
      rw [show ((0 : Int) + -1 == 0) = false from by decide,
        if_neg (by decide : ¬ (false = true))]
      simp only [Tree.height]
      omega
    · -- new balance factor 0: just store it, depth is reduced
      have hcond : ¬ (get_bf s h + -1 = -2 ∨ get_bf s h + -1 = 2) := by omega
      rw [if_neg hcond] at hstep
      refine ⟨_, _, _, hstep, ⟨Tree.node L h (get_bf s h + -1) R,
        hsetbf _, ⟨hLavl, hRavl, by omega, by omega⟩,
        ⟨hLk, hRk, hLbst, hRbst⟩, by rw [Tree.handles], ?_⟩,
        hframe_set _⟩
      rw [hb]
      rw [show ((1 : Int) + -1 == 0) = true from by decide, if_pos rfl]
      simp only [Tree.height]
      omega

/-- Coherence of the branch bitset with the ancestor frames: the bit at
the depth of each frame records whether the path continues into the
greater subtree there. -/
def bitsOk (branch : Nat → Bool) : List RFrame → Prop
  | [] => True
  | f :: rest => f.dir = branch rest.length ∧ bitsOk branch rest

/-- Entry state of the climbing loop at a node: either the `cmp`-side
subtree has shrunk by one and the node still carries its stale balance
factor, or the subtree below is already a fully restored AVL tree of the
original height. -/
def climbEntry (key : Handle → Int) (s : Store) (h : Handle) (cmp : Int)
    (reduced : Bool) (hs : List Handle) (H : Nat) : Prop :=
  if reduced then climbPre key s h cmp hs H
  else ∃ T : Tree, ReprT s h T ∧ T.avl ∧ T.bst key ∧ T.handles = hs ∧
    T.height = H

/-- After one (possibly trivial) climbing step, the subtree is a restored
AVL tree whose height loss is reported by the returned flag. -/
theorem removeClimbStep_post {key : Handle → Int} {s : Store} {h : Handle}
    {cmp : Int} {reduced : Bool} {hs : List Handle} {H : Nat}
    (hentry : climbEntry key s h cmp reduced hs H) :
    ∃ s1 h1 r1, removeClimbStep s h cmp reduced = (s1, h1, r1) ∧
      (∃ T1 : Tree, ReprT s1 h1 T1 ∧ T1.avl ∧ T1.bst key ∧
        T1.handles = hs ∧
        (if r1 then T1.height + 1 = H else T1.height = H)) ∧
      (∀ x, x ∉ hs → s1 x = s x) := by
  cases reduced with
  | false =>
    rw [climbEntry, if_neg (by decide : ¬ (false = true))] at hentry
    obtain ⟨T, h1, h2, h3, h4, h5⟩ := hentry
    refine ⟨s, h, false, ?_, ⟨T, h1, h2, h3, h4, ?_⟩, fun x _ => rfl⟩
    · rw [removeClimbStep, if_neg (by decide : ¬ (false = true))]
    · rw [if_neg (by decide : ¬ (false = true))]
      exact h5
  | true =>
    rw [climbEntry, if_pos rfl] at hentry
    exact removeClimbStep_sim hentry

/-- The climbing loop of `remove`: starting from a shrunk (or restored)
subtree and the pointer-reversed chain of its ancestors, it rebuilds the
whole tree, restores every link, rebalances where needed, and returns the
new root.  The result is an AVL search tree with the plugged in-order
sequence, at most one level lower than the original. -/
theorem removeClimbLoop_sim {key : Handle → Int} {branch : Nat → Bool} :
    ∀ (frames : List RFrame) (s : Store) (h parent : Handle) (cmp : Int)
      (reduced : Bool) (hs : List Handle) (H : Nat) (fuel : Nat),
    climbEntry key s h cmp reduced hs H →
    RevChain s frames parent →
    framesInv key frames hs H →
    bitsOk branch frames →
    (plugHandles frames hs).Nodup →
    frames.length < fuel →
    ∃ s2 h2, removeClimbLoop branch s h parent cmp reduced
        frames.length fuel = some (s2, h2) ∧
      (∃ T2 : Tree, ReprT s2 h2 T2 ∧ T2.avl ∧ T2.bst key ∧
        T2.handles = plugHandles frames hs ∧
        (T2.height = plugHeightF frames H ∨
          T2.height + 1 = plugHeightF frames H)) ∧
      (∀ x, x ∉ plugHandles frames hs → s2 x = s x) := by
  intro frames
  induction frames with
  | nil =>
    intro s h parent cmp reduced hs H fuel hentry hrev hinv hbits hnd hfuel
    obtain ⟨s1, h1, r1, hstep, ⟨T1, hrep1, havl1, hbst1, hhand1, hht1⟩,
      hframe1⟩ := removeClimbStep_post hentry
    have hpar : parent = null := hrev
    subst hpar
    cases fuel with
    | zero => omega
    | succ fuelS =>
      refine ⟨s1, h1, ?_, ⟨T1, hrep1, havl1, hbst1, hhand1, ?_⟩, hframe1⟩
      · simp only [List.length_nil, removeClimbLoop, hstep]
        rw [if_pos trivial]
      · rw [plugHeightF]
        rcases Bool.eq_false_or_eq_true r1 with hr1 | hr1
        · subst hr1
          rw [if_pos rfl] at hht1
          exact Or.inr hht1
        · subst hr1
          rw [if_neg (by decide : ¬ (false = true))] at hht1
          exact Or.inl hht1
  | cons f rest ih =>
    intro s h parent cmp reduced hs H fuel hentry hrev hinv hbits hnd hfuel
    obtain ⟨s1, h1, r1, hstep, ⟨T1, hrep1, havl1, hbst1, hhand1, hht1⟩,
      hframe1⟩ := removeClimbStep_post hentry
    obtain ⟨hpar, hq0, hbfq, pn, hrevrest, hdirif⟩ := hrev
    obtain ⟨hsibavl, hsibbst, hbabs, hif, hinvrest⟩ := hinv
    obtain ⟨hbit, hbitsrest⟩ := hbits
    subst hpar
    cases fuel with
    | zero => simp at hfuel
    | succ fuelS =>
      have hfuel2 : rest.length < fuelS := by
        rw [List.length_cons] at hfuel; omega
      by_cases hd : f.dir
      · -- the path goes into the greater subtree of f.q
        rw [if_pos hd] at hdirif hif hinvrest
        obtain ⟨hgt, hsibrep⟩ := hdirif
        have hbitv : branch rest.length = true := by rw [← hbit, hd]
        have hplug_eq : plugHandles (f :: rest) hs
            = plugHandles rest (f.sib.handles ++ f.q :: hs) := by
          rw [plugHandles, if_pos hd]
        have hnd2 : (plugHandles rest
            (f.sib.handles ++ f.q :: hs)).Nodup := by
          rw [← hplug_eq]; exact hnd
        have hnd' : (f.sib.handles ++ f.q :: hs).Nodup :=
          plugHandles_nodup rest _ hnd2
        have hndparts := List.nodup_append.mp hnd'
        have hfq_hs : f.q ∉ hs := by
          have := List.nodup_cons.mp hndparts.2.1
          exact this.1
        have hfq_sib : f.q ∉ f.sib.handles := fun hmem =>
          hndparts.2.2 hmem (List.mem_cons_self f.q hs)
        have hsib_hs : ∀ x ∈ f.sib.handles, x ∉ hs := fun x hx hmem =>
          hndparts.2.2 hx (List.mem_cons_of_mem f.q hmem)
        have hdisjchain := plugHandles_disj rest _ hnd2
        have hfqs1 : s1 f.q = s f.q := hframe1 f.q hfq_hs
        have hagree_sib : ∀ x ∈ f.sib.handles,
            (set_gt s1 f.q h1) x = s x := by
          intro x hx
          have hxq : x ≠ f.q := fun e => hfq_sib (e ▸ hx)
          have hxhs : x ∉ hs := hsib_hs x hx
          calc (set_gt s1 f.q h1) x = s1 x := by simp [set_gt, hxq]
            _ = s x := hframe1 x hxhs
        have hagree_hs : ∀ x ∈ hs, (set_gt s1 f.q h1) x = s1 x := by
          intro x hx
          have hxq : x ≠ f.q := fun e => hfq_hs (e ▸ hx)
          simp [set_gt, hxq]
        have hlt' : get_lt (set_gt s1 f.q h1) f.q = (s f.q).lt := by
          simp [get_lt, set_gt, hfqs1]
        have hgt' : get_gt (set_gt s1 f.q h1) f.q = h1 := by
          simp [get_gt, set_gt]
        have hbf' : get_bf (set_gt s1 f.q h1) f.q = f.b := by
          simp only [get_bf, set_gt, if_pos rfl]
          rw [hfqs1]; exact hbfq
        have hrepsib' : ReprT (set_gt s1 f.q h1) ((s f.q).lt) f.sib :=
          ReprT_congr hsibrep hagree_sib
        have hrepT1' : ReprT (set_gt s1 f.q h1) h1 T1 :=
          ReprT_congr hrep1 (fun x hx => hagree_hs x (hhand1 ▸ hx))
        have hgtpn : get_gt s1 f.q = pn := by
          rw [get_gt, hfqs1]; exact hgt
        have hentry2 : climbEntry key (set_gt s1 f.q h1) f.q 1 r1
            (f.sib.handles ++ f.q :: hs) (max f.sib.height H + 1) := by
          rcases Bool.eq_false_or_eq_true r1 with hr1 | hr1
          · subst hr1
            rw [if_pos rfl] at hht1
            rw [climbEntry, if_pos rfl]
            refine ⟨f.sib, T1, hq0, by rw [hlt']; exact hrepsib',
              by rw [hgt']; exact hrepT1', hsibavl, havl1, hsibbst, hbst1,
              hif.2.1, fun x hx => hif.2.2 x (hhand1 ▸ hx),
              by rw [hhand1], hnd', ?_⟩
            rw [if_neg (by norm_num : ¬ ((1 : Int) < 0))]
            refine ⟨?_, ?_, ?_⟩
            · rw [hbf']; omega
            · rw [hbf']; exact hbabs
            · omega
          · subst hr1
            rw [if_neg (by decide : ¬ (false = true))] at hht1
            rw [climbEntry, if_neg (by decide : ¬ (false = true))]
            refine ⟨Tree.node f.sib f.q f.b T1,
              ⟨rfl, hq0, by rw [← hbf']; rfl, ?_, ?_⟩,
              ⟨hsibavl, havl1, by omega, hbabs⟩,
              ⟨hif.2.1, fun x hx => hif.2.2 x (hhand1 ▸ hx),
                hsibbst, hbst1⟩,
              by rw [Tree.handles, hhand1], by rw [Tree.height]; omega⟩
            · rw [show ((set_gt s1 f.q h1) f.q).lt
                = get_lt (set_gt s1 f.q h1) f.q from rfl, hlt']
              exact hrepsib'
            · rw [show ((set_gt s1 f.q h1) f.q).gt
                = get_gt (set_gt s1 f.q h1) f.q from rfl, hgt']
              exact hrepT1'
        have hrevrest2 : RevChain (set_gt s1 f.q h1) rest pn := by
          refine RevChain_congr rest pn hrevrest ?_
          intro x hx
          have hxin : x ∉ f.sib.handles ++ f.q :: hs := fun hmem =>
            hdisjchain x hmem hx
          have hxq : x ≠ f.q := fun e => hxin (e ▸ (by simp))
          have hxhs : x ∉ hs := fun hmem => hxin (by simp [hmem])
          calc (set_gt s1 f.q h1) x = s1 x := by simp [set_gt, hxq]
            _ = s x := hframe1 x hxhs
        obtain ⟨s2, h2, hloop2, ⟨T2, hrep2, havl2, hbst2, hhand2, hht2⟩,
          hframe2⟩ := ih (set_gt s1 f.q h1) f.q pn 1 r1
            (f.sib.handles ++ f.q :: hs) (max f.sib.height H + 1) fuelS
            hentry2 hrevrest2 hinvrest hbitsrest hnd2 hfuel2
        refine ⟨s2, h2, ?_, ⟨T2, hrep2, havl2, hbst2, ?_, ?_⟩, ?_⟩
        · simp only [List.length_cons, removeClimbLoop, hstep,
            Nat.add_sub_cancel]
          rw [if_neg hq0, hbitv]
          rw [if_pos rfl]
          rw [if_neg (by norm_num : ¬ ((1 : Int) < 0)), hgtpn]
          exact hloop2
        · rw [hhand2, hplug_eq]
        · rw [plugHeightF]
          exact hht2
        · intro x hx
          rw [hplug_eq] at hx
          have hxin : x ∉ f.sib.handles ++ f.q :: hs := fun hmem =>
            hx ((plugHandles_mem rest _ x).mpr (Or.inl hmem))
          have hxq : x ≠ f.q := fun e => hxin (e ▸ (by simp))
          have hxhs : x ∉ hs := fun hmem => hxin (by simp [hmem])
          calc s2 x = (set_gt s1 f.q h1) x := hframe2 x hx
            _ = s1 x := by simp [set_gt, hxq]
            _ = s x := hframe1 x hxhs
      · -- the path goes into the less subtree of f.q
        rw [if_neg hd] at hdirif hif hinvrest
        obtain ⟨hlt, hsibrep⟩ := hdirif
        have hbitv : branch rest.length = false := by
          rcases Bool.eq_false_or_eq_true (branch rest.length) with hbv | hbv
          · exact absurd (hbit.trans hbv) hd
          · exact hbv
        have hplug_eq : plugHandles (f :: rest) hs
            = plugHandles rest (hs ++ f.q :: f.sib.handles) := by
          rw [plugHandles, if_neg hd]
        have hnd2 : (plugHandles rest
            (hs ++ f.q :: f.sib.handles)).Nodup := by
          rw [← hplug_eq]; exact hnd
        have hnd' : (hs ++ f.q :: f.sib.handles).Nodup :=
          plugHandles_nodup rest _ hnd2
        have hndparts := List.nodup_append.mp hnd'
        have hfq_sib : f.q ∉ f.sib.handles := by
          have := List.nodup_cons.mp hndparts.2.1
          exact this.1
        have hfq_hs : f.q ∉ hs := fun hmem =>
          hndparts.2.2 hmem (List.mem_cons_self f.q f.sib.handles)
        have hsib_hs : ∀ x ∈ f.sib.handles, x ∉ hs := fun x hx hmem =>
          hndparts.2.2 hmem (List.mem_cons_of_mem f.q hx)
        have hdisjchain := plugHandles_disj rest _ hnd2
        have hfqs1 : s1 f.q = s f.q := hframe1 f.q hfq_hs
        have hagree_sib : ∀ x ∈ f.sib.handles,
            (set_lt s1 f.q h1) x = s x := by
          intro x hx
          have hxq : x ≠ f.q := fun e => hfq_sib (e ▸ hx)
          have hxhs : x ∉ hs := hsib_hs x hx
          calc (set_lt s1 f.q h1) x = s1 x := by simp [set_lt, hxq]
            _ = s x := hframe1 x hxhs
        have hagree_hs : ∀ x ∈ hs, (set_lt s1 f.q h1) x = s1 x := by
          intro x hx
          have hxq : x ≠ f.q := fun e => hfq_hs (e ▸ hx)
          simp [set_lt, hxq]
        have hgt' : get_gt (set_lt s1 f.q h1) f.q = (s f.q).gt := by
          simp [get_gt, set_lt, hfqs1]
        have hlt' : get_lt (set_lt s1 f.q h1) f.q = h1 := by
          simp [get_lt, set_lt]
        have hbf' : get_bf (set_lt s1 f.q h1) f.q = f.b := by
          simp only [get_bf, set_lt, if_pos rfl]
          rw [hfqs1]; exact hbfq
        have hrepsib' : ReprT (set_lt s1 f.q h1) ((s f.q).gt) f.sib :=
          ReprT_congr hsibrep hagree_sib
        have hrepT1' : ReprT (set_lt s1 f.q h1) h1 T1 :=
          ReprT_congr hrep1 (fun x hx => hagree_hs x (hhand1 ▸ hx))
        have hltpn : get_lt s1 f.q = pn := by
          rw [get_lt, hfqs1]; exact hlt
        have hentry2 : climbEntry key (set_lt s1 f.q h1) f.q (-1) r1
            (hs ++ f.q :: f.sib.handles) (max f.sib.height H + 1) := by
          rcases Bool.eq_false_or_eq_true r1 with hr1 | hr1
          · subst hr1
            rw [if_pos rfl] at hht1
            rw [climbEntry, if_pos rfl]
            refine ⟨T1, f.sib, hq0, by rw [hlt']; exact hrepT1',
              by rw [hgt']; exact hrepsib', havl1, hsibavl, hbst1, hsibbst,
              fun x hx => hif.2.2 x (hhand1 ▸ hx), hif.2.1,
              by rw [hhand1], hnd', ?_⟩
            rw [if_pos (by norm_num : ((-1 : Int) < 0))]
            refine ⟨?_, ?_, ?_⟩
            · rw [hbf']; omega
            · rw [hbf']; exact hbabs
            · omega
          · subst hr1
            rw [if_neg (by decide : ¬ (false = true))] at hht1
            rw [climbEntry, if_neg (by decide : ¬ (false = true))]
            refine ⟨Tree.node T1 f.q f.b f.sib,
              ⟨rfl, hq0, by rw [← hbf']; rfl, ?_, ?_⟩,
              ⟨havl1, hsibavl, by omega, hbabs⟩,
              ⟨fun x hx => hif.2.2 x (hhand1 ▸ hx), hif.2.1,
                hbst1, hsibbst⟩,
              by rw [Tree.handles, hhand1], by rw [Tree.height]; omega⟩
            · rw [show ((set_lt s1 f.q h1) f.q).lt
                = get_lt (set_lt s1 f.q h1) f.q from rfl, hlt']
              exact hrepT1'
            · rw [show ((set_lt s1 f.q h1) f.q).gt
                = get_gt (set_lt s1 f.q h1) f.q from rfl, hgt']
              exact hrepsib'
        have hrevrest2 : RevChain (set_lt s1 f.q h1) rest pn := by
          refine RevChain_congr rest pn hrevrest ?_
          intro x hx
          have hxin : x ∉ hs ++ f.q :: f.sib.handles := fun hmem =>
            hdisjchain x hmem hx
          have hxq : x ≠ f.q := fun e => hxin (e ▸ (by simp))
          have hxhs : x ∉ hs := fun hmem => hxin (by simp [hmem])
          calc (set_lt s1 f.q h1) x = s1 x := by simp [set_lt, hxq]
            _ = s x := hframe1 x hxhs
        obtain ⟨s2, h2, hloop2, ⟨T2, hrep2, havl2, hbst2, hhand2, hht2⟩,
          hframe2⟩ := ih (set_lt s1 f.q h1) f.q pn (-1) r1
            (hs ++ f.q :: f.sib.handles) (max f.sib.height H + 1) fuelS
            hentry2 hrevrest2 hinvrest hbitsrest hnd2 hfuel2
        refine ⟨s2, h2, ?_, ⟨T2, hrep2, havl2, hbst2, ?_, ?_⟩, ?_⟩
        · simp only [List.length_cons, removeClimbLoop, hstep,
            Nat.add_sub_cancel]
          rw [if_neg hq0, hbitv]
          rw [if_neg (by decide : ¬ (false = true))]
          rw [if_pos (by norm_num : ((-1 : Int) < 0)), hltpn]
          exact hloop2
        · rw [hhand2, hplug_eq]
        · rw [plugHeightF]
          exact hht2
        · intro x hx
          rw [hplug_eq] at hx
          have hxin : x ∉ hs ++ f.q :: f.sib.handles := fun hmem =>
            hx ((plugHandles_mem rest _ x).mpr (Or.inl hmem))
          have hxq : x ≠ f.q := fun e => hxin (e ▸ (by simp))
          have hxhs : x ∉ hs := fun hmem => hxin (by simp [hmem])
          calc s2 x = (set_lt s1 f.q h1) x := hframe2 x hx
            _ = s1 x := by simp [set_lt, hxq]
            _ = s x := hframe1 x hxhs

theorem CtxRepr_snoc {s : Store} : ∀ (frames : List RFrame) (g : RFrame)
    (root pos : Handle),
    CtxRepr s (frames ++ [g]) root pos →
    root = g.q ∧ g.q ≠ null ∧ (s g.q).bf = g.b ∧
      (if g.dir then ReprT s ((s g.q).lt) g.sib
       else ReprT s ((s g.q).gt) g.sib) ∧
      CtxRepr s frames (if g.dir then (s g.q).gt else (s g.q).lt) pos := by
  intro frames
  induction frames with
  | nil =>
    intro g root pos h
    obtain ⟨h1, h2, h3, h4⟩ := h
    by_cases hd : g.dir
    · rw [if_pos hd] at h4 ⊢
      rw [if_pos hd]
      exact ⟨h1, h2, h3, h4.2, h4.1⟩
    · rw [if_neg hd] at h4 ⊢
      rw [if_neg hd]
      exact ⟨h1, h2, h3, h4.2, h4.1⟩
  | cons f rest ih =>
    intro g root pos h
    obtain ⟨h1, h2, h3, h4⟩ := h
    obtain ⟨g1, g2, g3, g4, g5⟩ := ih g root f.q h1
    exact ⟨g1, g2, g3, g4, g5, h2, h3, h4⟩

theorem bitsOk_middle {branch : Nat → Bool} : ∀ (xs : List RFrame)
    (g : RFrame) (ys : List RFrame),
    bitsOk branch (xs ++ g :: ys) → g.dir = branch ys.length := by
  intro xs
  induction xs with
  | nil => intro g ys h; exact h.1
  | cons x xs ih => intro g ys h; exact ih g ys h.2

theorem chainHandles_mem_append : ∀ (xs ys : List RFrame) (x : Handle),
    x ∈ chainHandles (xs ++ ys) ↔
      x ∈ chainHandles xs ∨ x ∈ chainHandles ys := by
  intro xs
  induction xs with
  | nil => intro ys x; simp [chainHandles]
  | cons f rest ih =>
    intro ys x
    rw [List.cons_append, chainHandles, chainHandles]
    simp only [List.mem_cons, List.mem_append, ih]
    tauto

theorem plugHandles_append : ∀ (xs ys : List RFrame) (hs : List Handle),
    plugHandles (xs ++ ys) hs = plugHandles ys (plugHandles xs hs) := by
  intro xs
  induction xs with
  | nil => intro ys hs; rfl
  | cons f rest ih =>
    intro ys hs
    rw [List.cons_append, plugHandles, plugHandles, ih]

/-- The pointer-reversal walk of `remove`: descending along an intact
context from the root to the `path` node turns the context into the
reversed chain, leaving every other handle untouched. -/
theorem removeRethreadLoop_sim {branch : Nat → Bool} {path : Handle}
    {hs : List Handle} :
    ∀ (R walked : List RFrame) (s : Store) (parent h_cur : Handle)
      (fuel : Nat),
    CtxRepr s R.reverse h_cur path →
    RevChain s walked parent →
    bitsOk branch (R.reverse ++ walked) →
    (plugHandles (R.reverse ++ walked) hs).Nodup →
    (∀ gg ∈ R.reverse ++ walked, gg.q ≠ path) →
    R.length < fuel →
    ∃ s3 p3, removeRethreadLoop path s h_cur parent walked.length branch
        fuel = some (s3, p3, (R.reverse ++ walked).length) ∧
      RevChain s3 (R.reverse ++ walked) p3 ∧
      (∀ x, x ∉ chainHandles (R.reverse ++ walked) → s3 x = s x) := by
  intro R
  induction R with
  | nil =>
    intro walked s parent h_cur fuel hctx hrev hbits hnd hqpath hfuel
    have hcur : h_cur = path := hctx
    subst hcur
    cases fuel with
    | zero => omega
    | succ fuelS =>
      refine ⟨s, parent, ?_, hrev, fun x _ => rfl⟩
      rw [removeRethreadLoop, if_pos rfl]
      rfl
  | cons g R' ih =>
    intro walked s parent h_cur fuel hctx hrev hbits hnd hqpath hfuel
    have hrev_eq : (g :: R').reverse = R'.reverse ++ [g] := by
      rw [List.reverse_cons]
    have hF_eq : (g :: R').reverse ++ walked
        = R'.reverse ++ g :: walked := by
      rw [hrev_eq, List.append_assoc]; rfl
    rw [hrev_eq] at hctx
    obtain ⟨hcur, hq0, hbfq, hsibrep, hctx'⟩ := CtxRepr_snoc R'.reverse g
      h_cur path hctx
    subst hcur
    have hqpathg : g.q ≠ path := hqpath g (by
      rw [hrev_eq]
      refine List.mem_append.mpr (Or.inl ?_)
      simp)
    have hbit : g.dir = branch walked.length := by
      refine bitsOk_middle R'.reverse g walked ?_
      rw [← hF_eq]; exact hbits
    -- Nodup consequences
    have hplug2 : plugHandles ((g :: R').reverse ++ walked) hs
        = plugHandles walked
          (if g.dir
           then g.sib.handles ++ g.q :: plugHandles R'.reverse hs
           else plugHandles R'.reverse hs ++ g.q :: g.sib.handles) := by
      rw [hF_eq, plugHandles_append R'.reverse (g :: walked) hs,
        plugHandles]
    have hnd2 : (plugHandles walked
        (if g.dir
         then g.sib.handles ++ g.q :: plugHandles R'.reverse hs
         else plugHandles R'.reverse hs ++ g.q :: g.sib.handles)).Nodup := by
      rw [← hplug2]; exact hnd
    have hnd3 := plugHandles_nodup walked _ hnd2
    have hdisj3 := plugHandles_disj walked _ hnd2
    have hqsib : g.q ∉ g.sib.handles := by
      by_cases hd : g.dir
      · rw [if_pos hd] at hnd3
        have := List.nodup_append.mp hnd3
        exact fun hmem => this.2.2 hmem (List.mem_cons_self g.q _)
      · rw [if_neg hd] at hnd3
        have := List.nodup_append.mp hnd3
        have h2 := List.nodup_cons.mp this.2.1
        exact h2.1
    have hqplug : g.q ∉ plugHandles R'.reverse hs := by
      by_cases hd : g.dir
      · rw [if_pos hd] at hnd3
        have := List.nodup_append.mp hnd3
        have h2 := List.nodup_cons.mp this.2.1
        exact h2.1
      · rw [if_neg hd] at hnd3
        have := List.nodup_append.mp hnd3
        exact fun hmem => this.2.2 hmem (List.mem_cons_self g.q _)
    have hqctx : g.q ∉ chainHandles R'.reverse := fun hmem =>
      hqplug ((plugHandles_mem R'.reverse hs g.q).mpr (Or.inr hmem))
    have hqmem_step : g.q ∈ (if g.dir
        then g.sib.handles ++ g.q :: plugHandles R'.reverse hs
        else plugHandles R'.reverse hs ++ g.q :: g.sib.handles) := by
      by_cases hd : g.dir
      · rw [if_pos hd]; simp
      · rw [if_neg hd]; simp
    have hqwalk : g.q ∉ chainHandles walked := hdisj3 g.q hqmem_step
    cases fuel with
    | zero => simp at hfuel
    | succ fuelS =>
      have hfuel2 : R'.length < fuelS := by
        rw [List.length_cons] at hfuel; omega
      by_cases hd : g.dir
      · -- reverse the greater link of g.q
        rw [if_pos hd] at hsibrep hctx'
        have hbitv : branch walked.length = true := by rw [← hbit, hd]
        have hagree : ∀ x, x ≠ g.q → set_gt s g.q parent x = s x := by
          intro x hxq; simp [set_gt, hxq]
        have hctx2 : CtxRepr (set_gt s g.q parent) R'.reverse
            ((s g.q).gt) path :=
          CtxRepr_congr R'.reverse _ _ hctx'
            (fun x hx => hagree x (fun e => hqctx (e ▸ hx)))
        have hrev2 : RevChain (set_gt s g.q parent) (g :: walked) g.q := by
          refine ⟨rfl, hq0, ?_, parent, ?_, ?_⟩
          · simp only [set_gt, if_pos rfl]
            exact hbfq
          · exact RevChain_congr walked parent hrev
              (fun x hx => hagree x (fun e => hqwalk (e ▸ hx)))
          · rw [if_pos hd]
            constructor
            · simp [set_gt]
            · have he : ((set_gt s g.q parent) g.q).lt = (s g.q).lt := by
                simp [set_gt]
              rw [he]
              exact ReprT_congr hsibrep
                (fun x hx => hagree x (fun e => hqsib (e ▸ hx)))
        have hbits2 : bitsOk branch (R'.reverse ++ g :: walked) := by
          rw [← hF_eq]; exact hbits
        have hnd2' : (plugHandles (R'.reverse ++ g :: walked) hs).Nodup := by
          rw [← hF_eq]; exact hnd
        have hqpath2 : ∀ gg ∈ R'.reverse ++ g :: walked, gg.q ≠ path := by
          intro gg hgg
          refine hqpath gg ?_
          rw [hF_eq]; exact hgg
        obtain ⟨s3, p3, hloop, hrev3, hframe3⟩ := ih (g :: walked)
          (set_gt s g.q parent) g.q ((s g.q).gt) fuelS hctx2 hrev2
          hbits2 hnd2' hqpath2 hfuel2
        refine ⟨s3, p3, ?_, ?_, ?_⟩
        · rw [removeRethreadLoop, if_neg hqpathg, hbitv]
          rw [if_pos rfl]
          rw [show get_gt s g.q = (s g.q).gt from rfl]
          rw [show (walked.length + 1) = (g :: walked).length from rfl]
          rw [hloop]
          rw [hF_eq]
        · rw [hF_eq]; exact hrev3
        · intro x hx
          rw [hF_eq] at hx
          have hqin : g.q ∈ chainHandles (R'.reverse ++ g :: walked) :=
            (chainHandles_mem_append _ _ g.q).mpr
              (Or.inr (by rw [chainHandles]; simp))
          have hxq : x ≠ g.q := fun e => hx (e ▸ hqin)
          calc s3 x = set_gt s g.q parent x := hframe3 x hx
            _ = s x := hagree x hxq
      · -- reverse the less link of g.q
        rw [if_neg hd] at hsibrep hctx'
        have hbitv : branch walked.length = false := by
          rcases Bool.eq_false_or_eq_true (branch walked.length) with hbv | hbv
          · exact absurd (hbit.trans hbv) hd
          · exact hbv
        have hagree : ∀ x, x ≠ g.q → set_lt s g.q parent x = s x := by
          intro x hxq; simp [set_lt, hxq]
        have hctx2 : CtxRepr (set_lt s g.q parent) R'.reverse
            ((s g.q).lt) path :=
          CtxRepr_congr R'.reverse _ _ hctx'
            (fun x hx => hagree x (fun e => hqctx (e ▸ hx)))
        have hrev2 : RevChain (set_lt s g.q parent) (g :: walked) g.q := by
          refine ⟨rfl, hq0, ?_, parent, ?_, ?_⟩
          · simp only [set_lt, if_pos rfl]
            exact hbfq
          · exact RevChain_congr walked parent hrev
              (fun x hx => hagree x (fun e => hqwalk (e ▸ hx)))
          · rw [if_neg hd]
            constructor
            · simp [set_lt]
            · have he : ((set_lt s g.q parent) g.q).gt = (s g.q).gt := by
                simp [set_lt]
              rw [he]
              exact ReprT_congr hsibrep
                (fun x hx => hagree x (fun e => hqsib (e ▸ hx)))
        have hbits2 : bitsOk branch (R'.reverse ++ g :: walked) := by
          rw [← hF_eq]; exact hbits
        have hnd2' : (plugHandles (R'.reverse ++ g :: walked) hs).Nodup := by
          rw [← hF_eq]; exact hnd
        have hqpath2 : ∀ gg ∈ R'.reverse ++ g :: walked, gg.q ≠ path := by
          intro gg hgg
          refine hqpath gg ?_
          rw [hF_eq]; exact hgg
        obtain ⟨s3, p3, hloop, hrev3, hframe3⟩ := ih (g :: walked)
          (set_lt s g.q parent) g.q ((s g.q).lt) fuelS hctx2 hrev2
          hbits2 hnd2' hqpath2 hfuel2
        refine ⟨s3, p3, ?_, ?_, ?_⟩
        · rw [removeRethreadLoop, if_neg hqpathg, hbitv]
          rw [if_neg (by decide : ¬ (false = true))]
          rw [show get_lt s g.q = (s g.q).lt from rfl]
          rw [show (walked.length + 1) = (g :: walked).length from rfl]
          rw [hloop]
          rw [hF_eq]
        · rw [hF_eq]; exact hrev3
        · intro x hx
          rw [hF_eq] at hx
          have hqin : g.q ∈ chainHandles (R'.reverse ++ g :: walked) :=
            (chainHandles_mem_append _ _ g.q).mpr
              (Or.inr (by rw [chainHandles]; simp))
          have hxq : x ≠ g.q := fun e => hx (e ▸ hqin)
          calc s3 x = set_lt s g.q parent x := hframe3 x hx
            _ = s x := hagree x hxq

/-- The subtree rooted at the node with key `k` (the victim of
`remove`). -/
def findSub (key : Handle → Int) (k : Int) : Tree → Tree
  | .nil => .nil
  | .node l q b r =>
    if k = key q then .node l q b r
    else if k < key q then findSub key k l
    else findSub key k r

/-- The ancestor frames of the node with key `k`, innermost first. -/
def findZip (key : Handle → Int) (k : Int) : Tree → List RFrame
  | .nil => []
  | .node l q b r =>
    if k = key q then []
    else if k < key q then findZip key k l ++ [⟨false, q, b, r⟩]
    else findZip key k r ++ [⟨true, q, b, l⟩]

/-- The handle of the innermost frame, or a default. -/
def headQD : List RFrame → Handle → Handle
  | [], d => d
  | f :: _, _ => f.q

/-- The comparison result of the innermost descent step, or a default. -/
def lastCmpD : List RFrame → Int → Int
  | [], c => c
  | f :: _, _ => if f.dir then 1 else -1

/-- The subtree rooted at the least node. -/
def lSub : Tree → Tree
  | .nil => .nil
  | .node .nil q b r => .node .nil q b r
  | .node (.node ll lq lb lr) _ _ _ => lSub (.node ll lq lb lr)

/-- The ancestor frames of the least node, innermost first. -/
def lZip : Tree → List RFrame
  | .nil => []
  | .node .nil _ _ _ => []
  | .node (.node ll lq lb lr) q b r =>
      lZip (.node ll lq lb lr) ++ [⟨false, q, b, r⟩]

/-- The subtree rooted at the greatest node. -/
def gSub : Tree → Tree
  | .nil => .nil
  | .node l q b .nil => .node l q b .nil
  | .node _ _ _ (.node rl rq rb rr) => gSub (.node rl rq rb rr)

/-- The ancestor frames of the greatest node, innermost first. -/
def gZip : Tree → List RFrame
  | .nil => []
  | .node _ _ _ .nil => []
  | .node l q b (.node rl rq rb rr) =>
      gZip (.node rl rq rb rr) ++ [⟨true, q, b, l⟩]

/-- The handle of the least node of a tree (the node reached from the
root by following less links while possible). -/
def lH : Tree → Handle
  | .nil => null
  | .node .nil q _ _ => q
  | .node (.node ll lq lb lr) _ _ _ => lH (.node ll lq lb lr)

theorem plugR_snoc : ∀ (F : List RFrame) (g : RFrame) (t : Tree),
    plugR t (F ++ [g])
      = (if g.dir then Tree.node g.sib g.q g.b (plugR t F)
         else Tree.node (plugR t F) g.q g.b g.sib) := by
  intro F
  induction F with
  | nil => intro g t; rfl
  | cons f rest ih =>
    intro g t
    rw [List.cons_append, plugR, plugR, ih]

theorem plugR_height : ∀ (F : List RFrame) (t : Tree),
    (plugR t F).height = plugHeightF F t.height := by
  intro F
  induction F with
  | nil => intro t; rfl
  | cons f rest ih =>
    intro t
    rw [plugR, plugHeightF, ih]
    by_cases hd : f.dir
    · rw [if_pos hd, Tree.height]
    · rw [if_neg hd, Tree.height]
      rw [Nat.max_comm]

theorem framesInv_snoc {key : Handle → Int} : ∀ (F : List RFrame)
    (g : RFrame) (hs : List Handle) (H : Nat),
    framesInv key F hs H →
    g.sib.avl → g.sib.bst key → g.b.natAbs ≤ 1 →
    (if g.dir
     then g.b = (plugHeightF F H : Int) - g.sib.height ∧
       (∀ x ∈ g.sib.handles, key x < key g.q) ∧
       (∀ x ∈ plugHandles F hs, key g.q < key x)
     else g.b = (g.sib.height : Int) - plugHeightF F H ∧
       (∀ x ∈ g.sib.handles, key g.q < key x) ∧
       (∀ x ∈ plugHandles F hs, key x < key g.q)) →
    framesInv key (F ++ [g]) hs H := by
  intro F
  induction F with
  | nil =>
    intro g hs H _ h1 h2 h3 h4
    exact ⟨h1, h2, h3, h4, trivial⟩
  | cons f rest ih =>
    intro g hs H hinv h1 h2 h3 h4
    obtain ⟨i1, i2, i3, i4, i5⟩ := hinv
    exact ⟨i1, i2, i3, i4, ih g _ _ i5 h1 h2 h3 h4⟩

theorem framesInv_append {key : Handle → Int} : ∀ (F1 F2 : List RFrame)
    (hs : List Handle) (H : Nat),
    framesInv key F1 hs H →
    framesInv key F2 (plugHandles F1 hs) (plugHeightF F1 H) →
    framesInv key (F1 ++ F2) hs H := by
  intro F1
  induction F1 with
  | nil => intro F2 hs H _ h2; exact h2
  | cons f rest ih =>
    intro F2 hs H h1 h2
    obtain ⟨i1, i2, i3, i4, i5⟩ := h1
    exact ⟨i1, i2, i3, i4, ih F2 _ _ i5 h2⟩

theorem plugHandles_decomp : ∀ F : List RFrame,
    ∃ xs ys : List Handle, ∀ hs : List Handle,
      plugHandles F hs = xs ++ (hs ++ ys) := by
  intro F
  induction F with
  | nil => exact ⟨[], [], fun hs => by simp [plugHandles]⟩
  | cons f rest ih =>
    obtain ⟨xs, ys, hxy⟩ := ih
    by_cases hd : f.dir
    · refine ⟨xs ++ (f.sib.handles ++ [f.q]), ys, fun hs => ?_⟩
      rw [plugHandles, if_pos hd, hxy]
      simp
    · refine ⟨xs, f.q :: (f.sib.handles ++ ys), fun hs => ?_⟩
      rw [plugHandles, if_neg hd, hxy]
      simp

theorem plugHandles_all_false : ∀ F : List RFrame,
    (∀ f ∈ F, f.dir = false) →
    ∃ ys : List Handle, ∀ hs : List Handle,
      plugHandles F hs = hs ++ ys := by
  intro F
  induction F with
  | nil => exact fun _ => ⟨[], fun hs => by simp [plugHandles]⟩
  | cons f rest ih =>
    intro hall
    obtain ⟨ys, hys⟩ := ih (fun g hg => hall g (List.mem_cons_of_mem f hg))
    have hf : f.dir = false := hall f (List.mem_cons_self f rest)
    refine ⟨f.q :: (f.sib.handles ++ ys), fun hs => ?_⟩
    rw [plugHandles, if_neg (by rw [hf]; exact Bool.false_ne_true), hys]
    simp

theorem plugHandles_all_true : ∀ F : List RFrame,
    (∀ f ∈ F, f.dir = true) →
    ∃ xs : List Handle, ∀ hs : List Handle,
      plugHandles F hs = xs ++ hs := by
  intro F
  induction F with
  | nil => exact fun _ => ⟨[], fun hs => by simp [plugHandles]⟩
  | cons f rest ih =>
    intro hall
    obtain ⟨xs, hxs⟩ := ih (fun g hg => hall g (List.mem_cons_of_mem f hg))
    have hf : f.dir = true := hall f (List.mem_cons_self f rest)
    refine ⟨xs ++ (f.sib.handles ++ [f.q]), fun hs => ?_⟩
    rw [plugHandles, if_pos hf, hxs]
    simp

theorem bitsOk_upd_ge {branch : Nat → Bool} {i : Nat} {v : Bool} :
    ∀ F : List RFrame, bitsOk branch F → F.length ≤ i →
      bitsOk (upd branch i v) F := by
  intro F
  induction F with
  | nil => intro _ _; trivial
  | cons f rest ih =>
    intro h hle
    rw [List.length_cons] at hle
    refine ⟨?_, ih h.2 (by omega)⟩
    rw [h.1, upd]
    rw [if_neg (by omega : ¬ (rest.length = i))]

theorem headQD_snoc : ∀ (Z : List RFrame) (g : RFrame) (d : Handle),
    headQD (Z ++ [g]) d = headQD Z g.q := by
  intro Z g d
  cases Z with
  | nil => rfl
  | cons f rest => rfl

theorem lastCmpD_snoc : ∀ (Z : List RFrame) (g : RFrame) (c : Int),
    lastCmpD (Z ++ [g]) c = lastCmpD Z (if g.dir then 1 else -1) := by
  intro Z g c
  cases Z with
  | nil => rfl
  | cons f rest => rfl

/-- Properties of the descent to the node with key `k` when that key is
present: the zipper recomposes the tree, the frames satisfy the context
invariant, and the found subtree is an AVL search tree whose root carries
key `k`. -/
theorem findZip_spec {key : Handle → Int} {k : Int} : ∀ a : Tree,
    a.bst key → a.avl → (∃ x ∈ a.handles, key x = k) →
    ∃ vL rm bV vR, findSub key k a = Tree.node vL rm bV vR ∧
      key rm = k ∧
      plugR (findSub key k a) (findZip key k a) = a ∧
      framesInv key (findZip key k a) (findSub key k a).handles
        (findSub key k a).height ∧
      (findZip key k a).length + (findSub key k a).height ≤ a.height ∧
      (findSub key k a).avl ∧ (findSub key k a).bst key := by
  intro a
  induction a with
  | nil =>
    intro _ _ hpres
    obtain ⟨x, hx, _⟩ := hpres
    simp [Tree.handles] at hx
  | node l q b r ihl ihr =>
    intro hbst havl hpres
    obtain ⟨hkL, hkR, hbstl, hbstr⟩ := hbst
    obtain ⟨havll, havlr, hbeq, hbabs⟩ := havl
    by_cases heq : k = key q
    · have hS : findSub key k (Tree.node l q b r) = Tree.node l q b r := by
        rw [findSub, if_pos heq]
      have hZ : findZip key k (Tree.node l q b r) = [] := by
        rw [findZip, if_pos heq]
      rw [hS, hZ]
      exact ⟨l, q, b, r, rfl, heq.symm, rfl, trivial, by simp,
        ⟨havll, havlr, hbeq, hbabs⟩, ⟨hkL, hkR, hbstl, hbstr⟩⟩
    · by_cases hlt : k < key q
      · have hx2 : ∃ x ∈ l.handles, key x = k := by
          obtain ⟨x, hxm, hxk⟩ := hpres
          rw [Tree.handles] at hxm
          rcases List.mem_append.mp hxm with hc | hc
          · exact ⟨x, hc, hxk⟩
          · rcases List.mem_cons.mp hc with hc2 | hc2
            · exact absurd (hc2 ▸ hxk).symm heq
            · have := hkR x hc2
              omega
        obtain ⟨vL, rm, bV, vR, hSl, hkrm, hplugl, hinvl, hlenl, havlS,
          hbstS⟩ := ihl hbstl havll hx2
        have hS : findSub key k (Tree.node l q b r) = findSub key k l := by
          rw [findSub, if_neg heq, if_pos hlt]
        have hZ : findZip key k (Tree.node l q b r)
            = findZip key k l ++ [⟨false, q, b, r⟩] := by
          rw [findZip, if_neg heq, if_pos hlt]
        rw [hS, hZ]
        have hph : plugHeightF (findZip key k l) (findSub key k l).height
            = l.height := by
          rw [← plugR_height, hplugl]
        have hphs : plugHandles (findZip key k l) (findSub key k l).handles
            = l.handles := by
          rw [← plugR_handles, hplugl]
        refine ⟨vL, rm, bV, vR, hSl, hkrm, ?_, ?_, ?_, havlS, hbstS⟩
        · rw [plugR_snoc, if_neg (show
            ¬ ((⟨false, q, b, r⟩ : RFrame).dir = true) from
            Bool.false_ne_true), hplugl]
        · refine framesInv_snoc _ _ _ _ hinvl havlr hbstr hbabs ?_
          rw [if_neg (show
            ¬ ((⟨false, q, b, r⟩ : RFrame).dir = true) from
            Bool.false_ne_true)]
          refine ⟨by rw [hph]; exact hbeq, fun x hx => hkR x hx,
            fun x hx => hkL x (by rw [hphs] at hx; exact hx)⟩
        · simp only [List.length_append, List.length_singleton]
          rw [Tree.height]
          omega
      · have hgt : key q < k := by omega
        have hx2 : ∃ x ∈ r.handles, key x = k := by
          obtain ⟨x, hxm, hxk⟩ := hpres
          rw [Tree.handles] at hxm
          rcases List.mem_append.mp hxm with hc | hc
          · have := hkL x hc
            omega
          · rcases List.mem_cons.mp hc with hc2 | hc2
            · exact absurd (hc2 ▸ hxk).symm heq
            · exact ⟨x, hc2, hxk⟩
        obtain ⟨vL, rm, bV, vR, hSr, hkrm, hplugr, hinvr, hlenr, havlS,
          hbstS⟩ := ihr hbstr havlr hx2
        have hS : findSub key k (Tree.node l q b r) = findSub key k r := by
          rw [findSub, if_neg heq, if_neg hlt]
        have hZ : findZip key k (Tree.node l q b r)
            = findZip key k r ++ [⟨true, q, b, l⟩] := by
          rw [findZip, if_neg heq, if_neg hlt]
        rw [hS, hZ]
        have hph : plugHeightF (findZip key k r) (findSub key k r).height
            = r.height := by
          rw [← plugR_height, hplugr]
        have hphs : plugHandles (findZip key k r) (findSub key k r).handles
            = r.handles := by
          rw [← plugR_handles, hplugr]
        refine ⟨vL, rm, bV, vR, hSr, hkrm, ?_, ?_, ?_, havlS, hbstS⟩
        · rw [plugR_snoc, if_pos (show
            (⟨true, q, b, l⟩ : RFrame).dir = true from rfl), hplugr]
        · refine framesInv_snoc _ _ _ _ hinvr havll hbstl hbabs ?_
          rw [if_pos (show (⟨true, q, b, l⟩ : RFrame).dir = true from rfl)]
          refine ⟨by rw [hph]; exact hbeq, fun x hx => hkL x hx,
            fun x hx => hkR x (by rw [hphs] at hx; exact hx)⟩
        · simp only [List.length_append, List.length_singleton]
          rw [Tree.height]
          omega

/-- Properties of the descent to the least node of a nonempty AVL search
tree. -/
theorem lZip_spec {key : Handle → Int} : ∀ t : Tree,
    t.bst key → t.avl → t ≠ Tree.nil →
    ∃ qH bH rH, lSub t = Tree.node Tree.nil qH bH rH ∧
      plugR (lSub t) (lZip t) = t ∧
      framesInv key (lZip t) (lSub t).handles (lSub t).height ∧
      (∀ f ∈ lZip t, f.dir = false) ∧
      (lZip t).length + (lSub t).height ≤ t.height ∧
      (lSub t).avl ∧ (lSub t).bst key := by
  intro t
  induction t with
  | nil => intro _ _ hne; exact absurd rfl hne
  | node l q b r ihl ihr =>
    intro hbst havl _
    obtain ⟨hkL, hkR, hbstl, hbstr⟩ := hbst
    obtain ⟨havll, havlr, hbeq, hbabs⟩ := havl
    cases l with
    | nil =>
      rw [lSub, lZip]
      exact ⟨q, b, r, rfl, rfl, trivial, by simp, by simp,
        ⟨trivial, havlr, hbeq, hbabs⟩, ⟨hkL, hkR, trivial, hbstr⟩⟩
    | node ll lq lb lr =>
      obtain ⟨qH, bH, rH, hSl, hplugl, hinvl, hdirs, hlenl, havlS,
        hbstS⟩ := ihl hbstl havll (fun h => Tree.noConfusion h)
      rw [lSub, lZip]
      have hph : plugHeightF (lZip (Tree.node ll lq lb lr))
          (lSub (Tree.node ll lq lb lr)).height
          = (Tree.node ll lq lb lr).height := by
        rw [← plugR_height, hplugl]
      have hphs : plugHandles (lZip (Tree.node ll lq lb lr))
          (lSub (Tree.node ll lq lb lr)).handles
          = (Tree.node ll lq lb lr).handles := by
        rw [← plugR_handles, hplugl]
      refine ⟨qH, bH, rH, hSl, ?_, ?_, ?_, ?_, havlS, hbstS⟩
      · rw [plugR_snoc, if_neg (show
          ¬ ((⟨false, q, b, r⟩ : RFrame).dir = true) from
          Bool.false_ne_true), hplugl]
      · refine framesInv_snoc _ _ _ _ hinvl havlr hbstr hbabs ?_
        rw [if_neg (show
          ¬ ((⟨false, q, b, r⟩ : RFrame).dir = true) from
          Bool.false_ne_true)]
        refine ⟨by rw [hph]; exact hbeq, fun x hx => hkR x hx,
          fun x hx => hkL x (by rw [hphs] at hx; exact hx)⟩
      · intro f hf
        rcases List.mem_append.mp hf with hc | hc
        · exact hdirs f hc
        · rcases List.mem_singleton.mp hc with rfl
          rfl
      · simp only [List.length_append, List.length_singleton]
        rw [Tree.height]
        omega

/-- Properties of the descent to the greatest node of a nonempty AVL
search tree. -/
theorem gZip_spec {key : Handle → Int} : ∀ t : Tree,
    t.bst key → t.avl → t ≠ Tree.nil →
    ∃ lH2 qH bH, gSub t = Tree.node lH2 qH bH Tree.nil ∧
      plugR (gSub t) (gZip t) = t ∧
      framesInv key (gZip t) (gSub t).handles (gSub t).height ∧
      (∀ f ∈ gZip t, f.dir = true) ∧
      (gZip t).length + (gSub t).height ≤ t.height ∧
      (gSub t).avl ∧ (gSub t).bst key := by
  intro t
  induction t with
  | nil => intro _ _ hne; exact absurd rfl hne
  | node l q b r ihl ihr =>
    intro hbst havl _
    obtain ⟨hkL, hkR, hbstl, hbstr⟩ := hbst
    obtain ⟨havll, havlr, hbeq, hbabs⟩ := havl
    cases r with
    | nil =>
      rw [gSub, gZip]
      exact ⟨l, q, b, rfl, rfl, trivial, by simp, by simp,
        ⟨havll, trivial, hbeq, hbabs⟩, ⟨hkL, hkR, hbstl, trivial⟩⟩
    | node rl rq rb rr =>
      obtain ⟨lH2, qH, bH, hSr, hplugr, hinvr, hdirs, hlenr, havlS,
        hbstS⟩ := ihr hbstr havlr (fun h => Tree.noConfusion h)
      rw [gSub, gZip]
      have hph : plugHeightF (gZip (Tree.node rl rq rb rr))
          (gSub (Tree.node rl rq rb rr)).height
          = (Tree.node rl rq rb rr).height := by
        rw [← plugR_height, hplugr]
      have hphs : plugHandles (gZip (Tree.node rl rq rb rr))
          (gSub (Tree.node rl rq rb rr)).handles
          = (Tree.node rl rq rb rr).handles := by
        rw [← plugR_handles, hplugr]
      refine ⟨lH2, qH, bH, hSr, ?_, ?_, ?_, ?_, havlS, hbstS⟩
      · rw [plugR_snoc, if_pos (show
          (⟨true, q, b, l⟩ : RFrame).dir = true from rfl), hplugr]
      · refine framesInv_snoc _ _ _ _ hinvr havll hbstl hbabs ?_
        rw [if_pos (show (⟨true, q, b, l⟩ : RFrame).dir = true from rfl)]
        refine ⟨by rw [hph]; exact hbeq, fun x hx => hkL x hx,
          fun x hx => hkR x (by rw [hphs] at hx; exact hx)⟩
      · intro f hf
        rcases List.mem_append.mp hf with hc | hc
        · exact hdirs f hc
        · rcases List.mem_singleton.mp hc with rfl
          rfl
      · simp only [List.length_append, List.length_singleton]
        rw [Tree.height]
        omega

theorem lH_lSub : ∀ t : Tree, lH t = rootH (lSub t) := by
  intro t
  induction t with
  | nil => rfl
  | node l q b r ihl ihr =>
    cases l with
    | nil => rfl
    | node ll lq lb lr => rw [lH, lSub]; exact ihl

theorem gH_gSub : ∀ t : Tree, gH t = rootH (gSub t) := by
  intro t
  induction t with
  | nil => rfl
  | node l q b r ihl ihr =>
    cases r with
    | nil => rfl
    | node rl rq rb rr => rw [gH, gSub]; exact ihr

theorem rootH_lSub_mem : ∀ t : Tree, t ≠ Tree.nil →
    rootH (lSub t) ∈ t.handles := by
  intro t
  induction t with
  | nil => intro hne; exact absurd rfl hne
  | node l q b r ihl ihr =>
    intro _
    cases l with
    | nil =>
      rw [lSub, rootH, Tree.handles]
      simp
    | node ll lq lb lr =>
      rw [lSub, Tree.handles]
      exact List.mem_append.mpr (Or.inl (ihl (fun h => Tree.noConfusion h)))

theorem rootH_gSub_mem : ∀ t : Tree, t ≠ Tree.nil →
    rootH (gSub t) ∈ t.handles := by
  intro t
  induction t with
  | nil => intro hne; exact absurd rfl hne
  | node l q b r ihl ihr =>
    intro _
    cases r with
    | nil =>
      rw [gSub, rootH, Tree.handles]
      simp
    | node rl rq rb rr =>
      rw [gSub, Tree.handles]
      refine List.mem_append.mpr (Or.inr ?_)
      exact List.mem_cons_of_mem q (ihr (fun h => Tree.noConfusion h))

theorem lSub_least {key : Handle → Int} : ∀ t : Tree, t.bst key →
    ∀ x ∈ t.handles, x = rootH (lSub t) ∨
      key (rootH (lSub t)) < key x := by
  intro t
  induction t with
  | nil => intro _ x hx; simp [Tree.handles] at hx
  | node l q b r ihl ihr =>
    intro hbst x hx
    obtain ⟨hkL, hkR, hbstl, hbstr⟩ := hbst
    rw [Tree.handles] at hx
    cases l with
    | nil =>
      rw [lSub, rootH]
      rcases List.mem_append.mp hx with hc | hc
      · simp [Tree.handles] at hc
      · rcases List.mem_cons.mp hc with hc2 | hc2
        · exact Or.inl hc2
        · exact Or.inr (hkR x hc2)
    | node ll lq lb lr =>
      rw [lSub]
      have hmem : rootH (lSub (Tree.node ll lq lb lr))
          ∈ (Tree.node ll lq lb lr).handles :=
        rootH_lSub_mem _ (fun h => Tree.noConfusion h)
      have hrq : key (rootH (lSub (Tree.node ll lq lb lr))) < key q :=
        hkL _ hmem
      rcases List.mem_append.mp hx with hc | hc
      · exact ihl hbstl x hc
      · rcases List.mem_cons.mp hc with hc2 | hc2
        · subst hc2; exact Or.inr hrq
        · exact Or.inr (lt_trans hrq (hkR x hc2))

theorem gSub_greatest {key : Handle → Int} : ∀ t : Tree, t.bst key →
    ∀ x ∈ t.handles, x = rootH (gSub t) ∨
      key x < key (rootH (gSub t)) := by
  intro t
  induction t with
  | nil => intro _ x hx; simp [Tree.handles] at hx
  | node l q b r ihl ihr =>
    intro hbst x hx
    obtain ⟨hkL, hkR, hbstl, hbstr⟩ := hbst
    rw [Tree.handles] at hx
    cases r with
    | nil =>
      rw [gSub, rootH]
      rcases List.mem_append.mp hx with hc | hc
      · exact Or.inr (hkL x hc)
      · rcases List.mem_cons.mp hc with hc2 | hc2
        · exact Or.inl hc2
        · simp [Tree.handles] at hc2
    | node rl rq rb rr =>
      rw [gSub]
      have hmem : rootH (gSub (Tree.node rl rq rb rr))
          ∈ (Tree.node rl rq rb rr).handles :=
        rootH_gSub_mem _ (fun h => Tree.noConfusion h)
      have hrq : key q < key (rootH (gSub (Tree.node rl rq rb rr))) :=
        hkR _ hmem
      rcases List.mem_append.mp hx with hc | hc
      · exact Or.inr (lt_trans (hkL x hc) hrq)
      · rcases List.mem_cons.mp hc with hc2 | hc2
        · subst hc2; exact Or.inr hrq
        · exact ihr hbstr x hc2

/-- The key-search loop of `remove` when the key is present: it stops at
the node with key `k`, reporting its handle, its parent, its depth, the
final comparison, and a branch bitset coherent with the descent path. -/
theorem removeFindLoop_present2 {key : Handle → Int} {k : Int} {s : Store} :
    ∀ (a : Tree) (p parent : Handle) (d : Nat) (br : Nat → Bool)
      (cp : Int) (fuel : Nat),
    ReprT s p a → a.bst key → (∃ x ∈ a.handles, key x = k) →
    a.height < fuel →
    ∃ brF, removeFindLoop key s k p parent d br cp fuel
        = some (.inr ⟨rootH (findSub key k a),
            headQD (findZip key k a) parent,
            d + (findZip key k a).length, brF,
            lastCmpD (findZip key k a) cp⟩) ∧
      (∀ G : List RFrame, bitsOk br G → G.length = d →
        bitsOk brF (findZip key k a ++ G)) ∧
      (∀ j, j < d → brF j = br j) := by
  intro a
  induction a with
  | nil =>
    intro p parent d br cp fuel _ _ hpres _
    obtain ⟨x, hx, _⟩ := hpres
    simp [Tree.handles] at hx
  | node l q b r ihl ihr =>
    intro p parent d br cp fuel hrep hbst hpres hfuel
    rw [ReprT_node_iff] at hrep
    obtain ⟨rfl, hq0, hbfq, hL, hR⟩ := hrep
    obtain ⟨hkL, hkR, hbstl, hbstr⟩ := hbst
    cases fuel with
    | zero => omega
    | succ fuelS =>
      by_cases heq : k = key p
      · have hcmp : cmp_k_n key k p = 0 := by
          rw [cmp_k_n, cmpInt, if_neg (by omega), if_neg (by omega)]
        have hS : findSub key k (Tree.node l p b r) = Tree.node l p b r := by
          rw [findSub, if_pos heq]
        have hZ : findZip key k (Tree.node l p b r) = [] := by
          rw [findZip, if_pos heq]
        have hloop : removeFindLoop key s k p parent d br cp (fuelS + 1)
            = some (.inr ⟨p, parent, d, br, cp⟩) := by
          rw [removeFindLoop, if_neg hq0]
          simp only [hcmp]
          rw [if_pos trivial]
        refine ⟨br, ?_, ?_, fun j _ => rfl⟩
        · rw [hS, hZ]
          exact hloop
        · intro G hG _
          rw [hZ]
          exact hG
      · have hfuel2 : l.height < fuelS ∧ r.height < fuelS := by
          rw [Tree.height] at hfuel; omega
        by_cases hlt : k < key p
        · have hcmp : cmp_k_n key k p = -1 := by
            rw [cmp_k_n, cmpInt, if_pos hlt]
          have hx2 : ∃ x ∈ l.handles, key x = k := by
            obtain ⟨x, hxm, hxk⟩ := hpres
            rw [Tree.handles] at hxm
            rcases List.mem_append.mp hxm with hc | hc
            · exact ⟨x, hc, hxk⟩
            · rcases List.mem_cons.mp hc with hc2 | hc2
              · exact absurd (hc2 ▸ hxk).symm heq
              · have := hkR x hc2
                omega
          obtain ⟨brF, hloop, hbits, hpw⟩ := ihl ((s p).lt) p (d + 1)
            (upd br d false) (-1) fuelS hL hbstl hx2 hfuel2.1
          have hS : findSub key k (Tree.node l p b r)
              = findSub key k l := by
            rw [findSub, if_neg heq, if_pos hlt]
          have hZ : findZip key k (Tree.node l p b r)
              = findZip key k l ++ [⟨false, p, b, r⟩] := by
            rw [findZip, if_neg heq, if_pos hlt]
          have hstep : removeFindLoop key s k p parent d br cp (fuelS + 1)
              = removeFindLoop key s k ((s p).lt) p (d + 1)
                  (upd br d false) (-1) fuelS := by
            rw [removeFindLoop, if_neg hq0]
            simp only [hcmp]
            rw [if_neg (by decide : ¬ ((-1 : Int) = 0)),
              if_pos (by decide : ((-1 : Int) < 0)),
              if_neg (show ¬ (read_error s = true) from by
                simp [read_error])]
            rfl
          refine ⟨brF, ?_, ?_, ?_⟩
          · rw [hS, hZ, hstep, headQD_snoc, lastCmpD_snoc,
              if_neg (show ¬ ((⟨false, p, b, r⟩ : RFrame).dir = true) from
                Bool.false_ne_true)]
            simp only [List.length_append, List.length_singleton]
            rw [show d + ((findZip key k l).length + 1)
              = d + 1 + (findZip key k l).length from by omega]
            exact hloop
          · intro G hG hGlen
            rw [hZ, List.append_assoc]
            refine hbits (⟨false, p, b, r⟩ :: G) ⟨?_, ?_⟩ (by simp [hGlen])
            · rw [hGlen]
              simp [upd]
            · exact bitsOk_upd_ge G hG (by omega)
          · intro j hj
            rw [hpw j (by omega)]
            simp only [upd]
            rw [if_neg (by omega : ¬ (j = d))]
        · have hgt : key p < k := by omega
          have hcmp : cmp_k_n key k p = 1 := by
            rw [cmp_k_n, cmpInt, if_neg hlt, if_pos hgt]
          have hx2 : ∃ x ∈ r.handles, key x = k := by
            obtain ⟨x, hxm, hxk⟩ := hpres
            rw [Tree.handles] at hxm
            rcases List.mem_append.mp hxm with hc | hc
            · have := hkL x hc
              omega
            · rcases List.mem_cons.mp hc with hc2 | hc2
              · exact absurd (hc2 ▸ hxk).symm heq
              · exact ⟨x, hc2, hxk⟩
          obtain ⟨brF, hloop, hbits, hpw⟩ := ihr ((s p).gt) p (d + 1)
            (upd br d true) 1 fuelS hR hbstr hx2 hfuel2.2
          have hS : findSub key k (Tree.node l p b r)
              = findSub key k r := by
            rw [findSub, if_neg heq, if_neg hlt]
          have hZ : findZip key k (Tree.node l p b r)
              = findZip key k r ++ [⟨true, p, b, l⟩] := by
            rw [findZip, if_neg heq, if_neg hlt]
          have hstep : removeFindLoop key s k p parent d br cp (fuelS + 1)
              = removeFindLoop key s k ((s p).gt) p (d + 1)
                  (upd br d true) 1 fuelS := by
            rw [removeFindLoop, if_neg hq0]
            simp only [hcmp]
            rw [if_neg (by decide : ¬ ((1 : Int) = 0)),
              if_neg (by decide : ¬ ((1 : Int) < 0)),
              if_neg (show ¬ (read_error s = true) from by
                simp [read_error])]
            rfl
          refine ⟨brF, ?_, ?_, ?_⟩
          · rw [hS, hZ, hstep, headQD_snoc, lastCmpD_snoc,
              if_pos (show (⟨true, p, b, l⟩ : RFrame).dir = true from rfl)]
            simp only [List.length_append, List.length_singleton]
            rw [show d + ((findZip key k r).length + 1)
              = d + 1 + (findZip key k r).length from by omega]
            exact hloop
          · intro G hG hGlen
            rw [hZ, List.append_assoc]
            refine hbits (⟨true, p, b, l⟩ :: G) ⟨?_, ?_⟩ (by simp [hGlen])
            · rw [hGlen]
              simp [upd]
            · exact bitsOk_upd_ge G hG (by omega)
          · intro j hj
            rw [hpw j (by omega)]
            simp only [upd]
            rw [if_neg (by omega : ¬ (j = d))]

/-- The replacement-search loop of `remove` descending through less
links: it stops at the least node of the given subtree. -/
theorem removeRepLoop_lt_sim {s : Store} : ∀ (t : Tree) (hPrev : Handle)
    (d : Nat) (br : Nat → Bool) (fuel : Nat) (p : Handle),
    ReprT s p t → t ≠ Tree.nil → t.height < fuel →
    ∃ br2, removeRepLoop s (-1) hPrev p d br fuel
        = some (headQD (lZip t) hPrev, rootH (lSub t), br2,
            d + (lZip t).length + 1) ∧
      (∀ G : List RFrame, bitsOk br G → G.length = d →
        bitsOk br2 (lZip t ++ G)) ∧
      (∀ j, j < d → br2 j = br j) := by
  intro t
  induction t with
  | nil => intro _ _ _ _ _ _ hne; exact absurd rfl hne
  | node l q b r ihl ihr =>
    intro hPrev d br fuel p hrep _ hfuel
    rw [ReprT_node_iff] at hrep
    obtain ⟨rfl, hq0, hbfq, hL, hR⟩ := hrep
    cases fuel with
    | zero => omega
    | succ fuelS =>
      cases l with
      | nil =>
        have hltnull : (s p).lt = null := hL
        have hloop : removeRepLoop s (-1) hPrev p d br (fuelS + 1)
            = some (hPrev, p, upd br d false, d + 1) := by
          rw [removeRepLoop]
          rw [if_pos (by decide : ((-1 : Int) < 0)),
            if_pos (by decide : ((-1 : Int) < 0))]
          rw [show get_lt s p = (s p).lt from rfl, hltnull,
            if_pos rfl]
        rw [lZip, lSub, rootH]
        refine ⟨upd br d false, ?_, ?_, ?_⟩
        · rw [hloop]
          rfl
        · intro G hG hGlen
          exact bitsOk_upd_ge G hG (by omega)
        · intro j hj
          simp only [upd]
          rw [if_neg (by omega : ¬ (j = d))]
      | node ll lq lb lr =>
        have hlne : (s p).lt ≠ null := by
          rw [ReprT_node_iff] at hL
          obtain ⟨he, hlq0, -⟩ := hL
          rw [he]; exact hlq0
        have hfuel2 : (Tree.node ll lq lb lr).height < fuelS := by
          rw [Tree.height] at hfuel
          rw [Tree.height]
          rw [Tree.height] at hfuel
          omega
        obtain ⟨br2, hloop, hbits, hpw⟩ := ihl p (d + 1)
          (upd br d false) fuelS ((s p).lt) hL
          (fun h => Tree.noConfusion h) hfuel2
        have hstep : removeRepLoop s (-1) hPrev p d br (fuelS + 1)
            = removeRepLoop s (-1) p ((s p).lt) (d + 1)
                (upd br d false) fuelS := by
          rw [removeRepLoop]
          rw [if_pos (by decide : ((-1 : Int) < 0)),
            if_pos (by decide : ((-1 : Int) < 0))]
          rw [show get_lt s p = (s p).lt from rfl,
            if_neg hlne]
        rw [lZip, lSub]
        refine ⟨br2, ?_, ?_, ?_⟩
        · rw [hstep, headQD_snoc]
          simp only [List.length_append, List.length_singleton]
          rw [show d + ((lZip (Tree.node ll lq lb lr)).length + 1) + 1
            = d + 1 + (lZip (Tree.node ll lq lb lr)).length + 1 from
            by omega]
          exact hloop
        · intro G hG hGlen
          rw [List.append_assoc]
          refine hbits (⟨false, p, b, r⟩ :: G) ⟨?_, ?_⟩ (by simp [hGlen])
          · rw [hGlen]
            simp [upd]
          · exact bitsOk_upd_ge G hG (by omega)
        · intro j hj
          rw [hpw j (by omega)]
          simp only [upd]
          rw [if_neg (by omega : ¬ (j = d))]

/-- The replacement-search loop of `remove` descending through greater
links: it stops at the greatest node of the given subtree. -/
theorem removeRepLoop_gt_sim {s : Store} : ∀ (t : Tree) (hPrev : Handle)
    (d : Nat) (br : Nat → Bool) (fuel : Nat) (p : Handle),
    ReprT s p t → t ≠ Tree.nil → t.height < fuel →
    ∃ br2, removeRepLoop s 1 hPrev p d br fuel
        = some (headQD (gZip t) hPrev, rootH (gSub t), br2,
            d + (gZip t).length + 1) ∧
      (∀ G : List RFrame, bitsOk br G → G.length = d →
        bitsOk br2 (gZip t ++ G)) ∧
      (∀ j, j < d → br2 j = br j) := by
  intro t
  induction t with
  | nil => intro _ _ _ _ _ _ hne; exact absurd rfl hne
  | node l q b r ihl ihr =>
    intro hPrev d br fuel p hrep _ hfuel
    rw [ReprT_node_iff] at hrep
    obtain ⟨rfl, hq0, hbfq, hL, hR⟩ := hrep
    cases fuel with
    | zero => omega
    | succ fuelS =>
      cases r with
      | nil =>
        have hgtnull : (s p).gt = null := hR
        have hloop : removeRepLoop s 1 hPrev p d br (fuelS + 1)
            = some (hPrev, p, upd br d true, d + 1) := by
          rw [removeRepLoop]
          rw [if_neg (by decide : ¬ ((1 : Int) < 0)),
            if_neg (by decide : ¬ ((1 : Int) < 0))]
          rw [show get_gt s p = (s p).gt from rfl, hgtnull,
            if_pos rfl]
        rw [gZip, gSub, rootH]
        refine ⟨upd br d true, ?_, ?_, ?_⟩
        · rw [hloop]
          rfl
        · intro G hG hGlen
          exact bitsOk_upd_ge G hG (by omega)
        · intro j hj
          simp only [upd]
          rw [if_neg (by omega : ¬ (j = d))]
      | node rl rq rb rr =>
        have hrne : (s p).gt ≠ null := by
          rw [ReprT_node_iff] at hR
          obtain ⟨he, hrq0, -⟩ := hR
          rw [he]; exact hrq0
        have hfuel2 : (Tree.node rl rq rb rr).height < fuelS := by
          rw [Tree.height] at hfuel
          rw [Tree.height]
          rw [Tree.height] at hfuel
          omega
        obtain ⟨br2, hloop, hbits, hpw⟩ := ihr p (d + 1)
          (upd br d true) fuelS ((s p).gt) hR
          (fun h => Tree.noConfusion h) hfuel2
        have hstep : removeRepLoop s 1 hPrev p d br (fuelS + 1)
            = removeRepLoop s 1 p ((s p).gt) (d + 1)
                (upd br d true) fuelS := by
          rw [removeRepLoop]
          rw [if_neg (by decide : ¬ ((1 : Int) < 0)),
            if_neg (by decide : ¬ ((1 : Int) < 0))]
          rw [show get_gt s p = (s p).gt from rfl,
            if_neg hrne]
        rw [gZip, gSub]
        refine ⟨br2, ?_, ?_, ?_⟩
        · rw [hstep, headQD_snoc]
          simp only [List.length_append, List.length_singleton]
          rw [show d + ((gZip (Tree.node rl rq rb rr)).length + 1) + 1
            = d + 1 + (gZip (Tree.node rl rq rb rr)).length + 1 from
            by omega]
          exact hloop
        · intro G hG hGlen
          rw [List.append_assoc]
          refine hbits (⟨true, p, b, l⟩ :: G) ⟨?_, ?_⟩ (by simp [hGlen])
          · rw [hGlen]
            simp [upd]
          · exact bitsOk_upd_ge G hG (by omega)
        · intro j hj
          rw [hpw j (by omega)]
          simp only [upd]
          rw [if_neg (by omega : ¬ (j = d))]

theorem climbPre_congr {key : Handle → Int} {s s' : Store} {h : Handle}
    {cmp : Int} {hs : List Handle} {H : Nat}
    (hpre : climbPre key s h cmp hs H)
    (hagree : ∀ x ∈ hs, s' x = s x) :
    climbPre key s' h cmp hs H := by
  obtain ⟨L, R, hh0, hL, hR, a1, a2, a3, a4, a5, a6, hhs, hnd, hcase⟩ :=
    hpre
  have hmemh : h ∈ hs := by rw [hhs]; simp
  have hsh : s' h = s h := hagree h hmemh
  have hLsub : ∀ x ∈ L.handles, x ∈ hs := by
    intro x hx
    rw [hhs]
    exact List.mem_append.mpr (Or.inl hx)
  have hRsub : ∀ x ∈ R.handles, x ∈ hs := by
    intro x hx
    rw [hhs]
    simp [hx]
  have hbf : get_bf s' h = get_bf s h := by
    rw [get_bf, get_bf, hsh]
  refine ⟨L, R, hh0, ?_, ?_, a1, a2, a3, a4, a5, a6, hhs, hnd, ?_⟩
  · rw [show get_lt s' h = get_lt s h from by rw [get_lt, get_lt, hsh]]
    exact ReprT_congr hL (fun x hx => hagree x (hLsub x hx))
  · rw [show get_gt s' h = get_gt s h from by rw [get_gt, get_gt, hsh]]
    exact ReprT_congr hR (fun x hx => hagree x (hRsub x hx))
  · by_cases hc : cmp < 0
    · rw [if_pos hc] at hcase ⊢
      rw [hbf]
      exact hcase
    · rw [if_neg hc] at hcase ⊢
      rw [hbf]
      exact hcase

theorem q_mem_chain : ∀ (F : List RFrame) (g : RFrame), g ∈ F →
    g.q ∈ chainHandles F := by
  intro F
  induction F with
  | nil => intro g hg; simp at hg
  | cons f rest ih =>
    intro g hg
    rw [chainHandles]
    rcases List.mem_cons.mp hg with hc | hc
    · rw [hc]
      simp
    · refine List.mem_cons.mpr (Or.inr ?_)
      exact List.mem_append.mpr (Or.inr (ih g hc))

theorem plugHandles_nodup_sublist {hs hs' : List Handle}
    (hsub : hs'.Sublist hs) : ∀ F : List RFrame,
    (plugHandles F hs).Nodup → (plugHandles F hs').Nodup := by
  intro F hnd
  obtain ⟨xs, ys, hxy⟩ := plugHandles_decomp F
  rw [hxy] at hnd ⊢
  refine List.Nodup.sublist ?_ hnd
  exact (hsub.append (List.Sublist.refl ys)).append_left xs

/-- Facts extracted from the no-duplicates property of a plugged list at
a cons frame. -/
theorem plug_cons_facts {f : RFrame} {F' : List RFrame} {hs : List Handle}
    (hnd : (plugHandles (f :: F') hs).Nodup) :
    f.q ∉ f.sib.handles ∧ f.q ∉ hs ∧
    (∀ x ∈ f.sib.handles, x ∉ hs) ∧
    f.q ∉ chainHandles F' ∧
    (∀ x ∈ f.sib.handles, x ∉ chainHandles F') ∧
    (∀ x ∈ hs, x ∉ chainHandles F') ∧
    (if f.dir then f.sib.handles ++ f.q :: hs
     else hs ++ f.q :: f.sib.handles).Nodup := by
  rw [plugHandles] at hnd
  have hnd1 := plugHandles_nodup F' _ hnd
  have hdisj := plugHandles_disj F' _ hnd
  by_cases hd : f.dir
  · rw [if_pos hd] at hnd1 hdisj ⊢
    have hparts := List.nodup_append.mp hnd1
    have hcons := List.nodup_cons.mp hparts.2.1
    refine ⟨fun hmem => hparts.2.2 hmem (List.mem_cons_self f.q hs),
      hcons.1, fun x hx hmem => hparts.2.2 hx (List.mem_cons_of_mem _ hmem),
      hdisj f.q (by simp), fun x hx => hdisj x (by simp [hx]),
      fun x hx => hdisj x (by simp [hx]), hnd1⟩
  · rw [if_neg hd] at hnd1 hdisj ⊢
    have hparts := List.nodup_append.mp hnd1
    have hcons := List.nodup_cons.mp hparts.2.1
    refine ⟨hcons.1,
      fun hmem => hparts.2.2 hmem (List.mem_cons_self f.q f.sib.handles),
      fun x hx hmem => hparts.2.2 hmem (List.mem_cons_of_mem _ hx),
      hdisj f.q (by simp), fun x hx => hdisj x (by simp [hx]),
      fun x hx => hdisj x (by simp [hx]), hnd1⟩

/-- The common tail of `remove`: rethreading the context from the root
down to the first shrunk node and climbing back up yields a valid AVL
search tree whose in-order sequence is the context plugged with the
post-removal sequence. -/
theorem removeTail_core {key : Handle → Int} {branch : Nat → Bool}
    {s2 : Store} {root2 path : Handle} {framesC : List RFrame}
    {hsE : List Handle} {HE : Nat} {cmp_ss : Int} {fuel : Nat}
    (hentry : climbPre key s2 path cmp_ss hsE HE)
    (hctx : CtxRepr s2 framesC root2 path)
    (hinv : framesInv key framesC hsE HE)
    (hbits : bitsOk branch framesC)
    (hnd : (plugHandles framesC hsE).Nodup)
    (hqpath : ∀ gg ∈ framesC, gg.q ≠ path)
    (hfuelR : framesC.length < fuel) :
    ∃ s3 p3 s4 h4 T4,
      removeRethreadLoop path s2 root2 null 0 branch fuel
        = some (s3, p3, framesC.length) ∧
      removeClimbLoop branch s3 path p3 cmp_ss true framesC.length fuel
        = some (s4, h4) ∧
      ReprT s4 h4 T4 ∧ T4.avl ∧ T4.bst key ∧
      T4.handles = plugHandles framesC hsE ∧
      (∀ x, x ∉ plugHandles framesC hsE → x ∉ chainHandles framesC →
        s4 x = s2 x) := by
  have hctxR : CtxRepr s2 (framesC.reverse).reverse root2 path := by
    rw [List.reverse_reverse]
    exact hctx
  have hbitsR : bitsOk branch (framesC.reverse.reverse ++ []) := by
    rw [List.reverse_reverse, List.append_nil]
    exact hbits
  have hndR : (plugHandles (framesC.reverse.reverse ++ []) hsE).Nodup := by
    rw [List.reverse_reverse, List.append_nil]
    exact hnd
  have hqpathR : ∀ gg ∈ framesC.reverse.reverse ++ [], gg.q ≠ path := by
    rw [List.reverse_reverse, List.append_nil]
    exact hqpath
  have hfuelRR : framesC.reverse.length < fuel := by
    rw [List.length_reverse]
    exact hfuelR
  obtain ⟨s3, p3, hloop3, hrev3, hframe3⟩ :=
    @removeRethreadLoop_sim branch path hsE framesC.reverse [] s2 null
      root2 fuel hctxR (by rfl) hbitsR hndR hqpathR hfuelRR
  rw [List.reverse_reverse, List.append_nil] at hloop3 hrev3 hframe3
  simp only [List.length_nil] at hloop3
  have hdisjE := plugHandles_disj framesC hsE hnd
  have hentry3 : climbPre key s3 path cmp_ss hsE HE :=
    climbPre_congr hentry (fun x hx => hframe3 x (hdisjE x hx))
  obtain ⟨s4, h4, hloop4, ⟨T4, hrep4, havl4, hbst4, hhand4, hht4⟩,
    hframe4⟩ := @removeClimbLoop_sim key branch framesC s3 path p3 cmp_ss
      true hsE HE fuel (by rw [climbEntry, if_pos rfl]; exact hentry3)
      hrev3 hinv hbits hnd hfuelR
  refine ⟨s3, p3, s4, h4, T4, ?_, hloop4, hrep4, havl4, hbst4, hhand4, ?_⟩
  · rw [hloop3]
  · intro x hx1 hx2
    calc s4 x = s3 x := hframe4 x hx1
      _ = s2 x := hframe3 x hx2

end AvlVerify
